import Mathlib

/-! # EPON discrete-event simulator: event engine, ONU and OLT handlers

A shallow embedding of `desl.h`, `_stack.h`, `avltree.h`, `clock.h`, `onu.h` and `olt.h`.

Event records live in an explicit heap (`Mem`): an address is a natural number, a pointer is
an `Option Nat` (`none` is `NULL`).  The link fields `LChild` / `RChild` of a record are kept
literally, because the source uses them three ways: as AVL children, as the `next` pointer of
`Stack`, and (both pointing to the record itself) as the "active" mark tested by `IsActive`.
Recursive tree methods take a fuel argument and return `none` when the fuel runs out or when the
source would dereference `NULL`.

Integers: `time_t` is `int64s`; the one addition the engine performs on it is wrapped explicitly
(`wrap64`).  The node counters (`Count`) and the `Height` / `Balance` fields are unbounded
integers here: they count records and tree levels and stay far below their machine widths.
-/

set_option autoImplicit false

/-! ## Machine integers -/

/-- Two's complement wrap of an integer to 64 bits (`int64s`). -/
def wrap64 (x : Int) : Int := (x + 2 ^ 63) % 2 ^ 64 - 2 ^ 63

/-- Two's complement wrap of an integer to 32 bits (`int32s`, and `int` of the promoted
`int16` operands). -/
def wrap32 (x : Int) : Int := (x + 2 ^ 31) % 2 ^ 32 - 2 ^ 31

/-- The value is representable as `int64s`. -/
def fits64 (x : Int) : Prop := -(2 ^ 63) ≤ x ∧ x ≤ 2 ^ 63 - 1

/-- The value is representable as `int32s`. -/
def fits32 (x : Int) : Prop := -(2 ^ 31) ≤ x ∧ x ≤ 2 ^ 31 - 1

instance (x : Int) : Decidable (fits64 x) := by unfold fits64; infer_instance

instance (x : Int) : Decidable (fits32 x) := by unfold fits32; infer_instance

/-- Largest `int64s` value. -/
def INT64_MAX : Int := 2 ^ 63 - 1

/-- Template `MAX` of `_types.h`: `x > y ? x : y`. -/
def MAX (x y : Int) : Int := if x > y then x else y

/-- Template `MIN` of `_types.h`: `x < y ? x : y`. -/
def MIN (x y : Int) : Int := if x < y then x else y

/-! ## Heap of AVL nodes -/

/-- A pointer: `none` is `NULL`, `some a` is the record at address `a`. -/
abbrev Ptr := Option Nat

/-- Struct `Pckt_Data_t` of `sim_config.h`. -/
structure Pckt_Data_t where
  PcktTime : Int
  PcktSize : Int
  SourceId : Int
deriving DecidableEq, Repr

/-- Struct `GATE_Data_t` of `sim_config.h`. -/
structure GATE_Data_t where
  Timestamp : Int
  StartTime : Int
  Length : Int
deriving DecidableEq, Repr

/-- Struct `RPRT_Data_t` of `sim_config.h`. -/
structure RPRT_Data_t where
  Timestamp : Int
  Length : Int
deriving DecidableEq, Repr

/-- Class `CEvent`: the `AVLNode< time_t >` base (`Balance`, `Height`, `LChild`, `RChild`,
`NodeKey`, the latter being `ACTIVATION_TIME`), the `EventData` base (`Type`, here `Type_`, and the members of
its union, kept as three separate fields: the handlers read a member only after the same member
was written), and the `Producer` / `Consumer` back-references (object ids). -/
structure CEvent where
  Balance : Int
  Height : Int
  LChild : Ptr
  RChild : Ptr
  NodeKey : Int
  Type_ : Int
  Pckt : Pckt_Data_t
  GATE : GATE_Data_t
  RPRT : RPRT_Data_t
  Producer : Ptr
  Consumer : Ptr
deriving DecidableEq, Repr

/-- The heap: the record stored at each address. -/
abbrev Mem := Nat → CEvent

/-- Write a whole record at one address. -/
def Mem.set (m : Mem) (a : Nat) (e : CEvent) : Mem := fun b => if b = a then e else m b

/-- Assignment `a->LChild = p`. -/
def Mem.setL (m : Mem) (a : Nat) (p : Ptr) : Mem := m.set a { m a with LChild := p }

/-- Assignment `a->RChild = p`. -/
def Mem.setR (m : Mem) (a : Nat) (p : Ptr) : Mem := m.set a { m a with RChild := p }

namespace AVL

/-- Method `AVLNode::Initialize`. -/
def Initialize (m : Mem) (this : Nat) : Mem :=
  m.set this { m this with LChild := none, RChild := none, Balance := 0, Height := 0 }

/-- Method `AVLNode::UpdateHeight`. -/
def UpdateHeight (m : Mem) (this : Nat) : Mem :=
  let LHeight : Int := match (m this).LChild with
    | some l => (m l).Height
    | none => -1
  let RHeight : Int := match (m this).RChild with
    | some r => (m r).Height
    | none => -1
  m.set this { m this with Height := MAX LHeight RHeight + 1, Balance := RHeight - LHeight }

/-- Method `AVLNode::PromoteRight` (rotation left); `none` when `RChild` is `NULL`. -/
def PromoteRight (m : Mem) (this : Nat) : Option (Mem × Nat) :=
  match (m this).RChild with
  | none => none
  | some pNode =>
    let m1 := m.setR this (m pNode).LChild
    let m2 := m1.setL pNode (some this)
    let m3 := UpdateHeight m2 this
    let m4 := UpdateHeight m3 pNode
    some (m4, pNode)

/-- Method `AVLNode::PromoteLeft` (rotation right); `none` when `LChild` is `NULL`. -/
def PromoteLeft (m : Mem) (this : Nat) : Option (Mem × Nat) :=
  match (m this).LChild with
  | none => none
  | some pNode =>
    let m1 := m.setL this (m pNode).RChild
    let m2 := m1.setR pNode (some this)
    let m3 := UpdateHeight m2 this
    let m4 := UpdateHeight m3 pNode
    some (m4, pNode)

/-- Method `AVLNode::RepairBalance`. -/
def RepairBalance (m : Mem) (this : Nat) : Option (Mem × Nat) :=
  let m1 := UpdateHeight m this
  if (m1 this).Balance < -1 then
    match (m1 this).LChild with
    | none => none
    | some l =>
      if (m1 l).Balance > 0 then
        match PromoteRight m1 l with
        | none => none
        | some (m2, l2) => PromoteLeft (m2.setL this (some l2)) this
      else PromoteLeft m1 this
  else if (m1 this).Balance > 1 then
    match (m1 this).RChild with
    | none => none
    | some r =>
      if (m1 r).Balance < 0 then
        match PromoteLeft m1 r with
        | none => none
        | some (m2, r2) => PromoteRight (m2.setR this (some r2)) this
      else PromoteRight m1 this
  else some (m1, this)

/-- Method `AVLNode::InsertNode`, with the recursion depth bounded by the fuel. -/
def InsertNode : Nat → Mem → Nat → Nat → Option (Mem × Nat)
  | 0, _, _, _ => none
  | fuel + 1, m, this, pNode =>
    if (m pNode).NodeKey > (m this).NodeKey then
      match (m this).RChild with
      | some r =>
        match InsertNode fuel m r pNode with
        | none => none
        | some (m1, r1) => RepairBalance (m1.setR this (some r1)) this
      | none => RepairBalance ((Initialize m pNode).setR this (some pNode)) this
    else
      match (m this).LChild with
      | some l =>
        match InsertNode fuel m l pNode with
        | none => none
        | some (m1, l1) => RepairBalance (m1.setL this (some l1)) this
      | none => RepairBalance ((Initialize m pNode).setL this (some pNode)) this

/-- Method `AVLNode::RemoveLeftEnd`: the new heap, the new subtree root and the removed
node (`*ppNode`). -/
def RemoveLeftEnd : Nat → Mem → Nat → Option (Mem × Ptr × Nat)
  | 0, _, _ => none
  | fuel + 1, m, this =>
    match (m this).LChild with
    | none => some (m, (m this).RChild, this)
    | some l =>
      match RemoveLeftEnd fuel m l with
      | none => none
      | some (m1, l1, pNode) =>
        match RepairBalance (m1.setL this l1) this with
        | none => none
        | some (m2, r) => some (m2, some r, pNode)

end AVL

/-- Class `AVLTree`: the root pointer and the node counter. -/
structure AVLTree where
  pRoot : Ptr
  Count : Int
deriving DecidableEq, Repr

namespace AVLTree

/-- Constructor `AVLTree::AVLTree`. -/
def new : AVLTree := { pRoot := none, Count := 0 }

/-- Method `AVLTree::AddNode`. -/
def AddNode (fuel : Nat) (m : Mem) (t : AVLTree) (pNode : Ptr) : Option (Mem × AVLTree) :=
  match pNode with
  | none => some (m, t)
  | some n =>
    match t.pRoot with
    | some root =>
      match AVL.InsertNode fuel m root n with
      | none => none
      | some (m1, r1) => some (m1, { pRoot := some r1, Count := t.Count + 1 })
    | none => some (AVL.Initialize m n, { pRoot := some n, Count := t.Count + 1 })

/-- Method `AVLTree::RemoveHead`: the new heap, the new tree and the removed node. -/
def RemoveHead (fuel : Nat) (m : Mem) (t : AVLTree) : Option (Mem × AVLTree × Ptr) :=
  match t.pRoot with
  | none => some (m, t, none)
  | some root =>
    match AVL.RemoveLeftEnd fuel m root with
    | none => none
    | some (m1, r1, pNode) => some (m1, { pRoot := r1, Count := t.Count - 1 }, some pNode)

end AVLTree

/-! ## Stack of event records (`_stack.h`, linked through `RChild`) -/

/-- Class `Stack< evnt_t >`. -/
structure Stack where
  pTop : Ptr
  pBtm : Ptr
  Count : Int
deriving DecidableEq, Repr

namespace Stack

/-- Method `Stack::Clear`, the state set by the constructor. -/
def Clear : Stack := { pTop := none, pBtm := none, Count := 0 }

/-- Method `Stack::Push`; `SetNext` of `CEvent` writes `RChild`. -/
def Push (m : Mem) (s : Stack) (ptr : Ptr) : Mem × Stack :=
  match ptr with
  | none => (m, s)
  | some p =>
    (m.setR p s.pTop,
     { pTop := some p, pBtm := if s.pBtm = none then some p else s.pBtm, Count := s.Count + 1 })

/-- Method `Stack::Pop`; `GetNext` of `CEvent` reads `RChild`. -/
def Pop (m : Mem) (s : Stack) : Stack × Ptr :=
  match s.pTop with
  | none => (s, none)
  | some top =>
    let next := (m top).RChild
    ({ pTop := next, pBtm := if next = none then none else s.pBtm, Count := s.Count - 1 },
     some top)

end Stack

/-! ## The event queue (`CEventQueue`) -/

/-- Class `CEventQueue` together with the heap of event records: `brk` is the number of records
constructed so far (addresses `0 .. brk - 1`), `tree` the `AVLTree< time_t >` base. -/
structure CEventQueue where
  mem : Mem
  brk : Nat
  tree : AVLTree
  eqCurrentTime : Int
  eqEventPool : Stack
  eqTopEvents : Stack

namespace CEventQueue

/-- Constructor `CEventQueue::CEventQueue` over a heap with arbitrary initial contents. -/
def new (heap : Mem) : CEventQueue :=
  { mem := heap, brk := 0, tree := AVLTree.new, eqCurrentTime := 0,
    eqEventPool := Stack.Clear, eqTopEvents := Stack.Clear }

/-- Method `CEvent::Activate`: both link fields point to the record itself. -/
def Activate (m : Mem) (p : Nat) : Mem :=
  m.set p { m p with RChild := some p, LChild := some p }

/-- Method `CEvent::IsActive`. -/
def IsActive (m : Mem) (p : Nat) : Bool :=
  (m p).RChild == some p && (m p).LChild == some p

/-- Constructor `CEvent::CEvent()` run on the fresh record at address `p`: the node is
initialised with key `0`, `Consumer` and `Producer` are cleared and the record is activated; the
`EventData` members are left as they are in memory. -/
def construct (m : Mem) (p : Nat) : Mem :=
  let m1 := AVL.Initialize m p
  let m2 := m1.set p { m1 p with NodeKey := 0 }
  let m3 := m2.set p { m2 p with Consumer := none, Producer := none }
  Activate m3 p

/-- Method `CEventQueue::GetCount`. -/
def GetCount (q : CEventQueue) : Int := q.tree.Count + q.eqTopEvents.Count

/-- Method `CEventQueue::GetCurrentTime`. -/
def GetCurrentTime (q : CEventQueue) : Int := q.eqCurrentTime

/-- Method `CEventQueue::AllocateEvent`: the new queue and the returned record. -/
def AllocateEvent (q : CEventQueue) : CEventQueue × Ptr :=
  if q.eqEventPool.Count ≠ 0 then
    let (pool, pEvent) := Stack.Pop q.mem q.eqEventPool
    match pEvent with
    | none => ({ q with eqEventPool := pool }, none)
    | some p => ({ q with eqEventPool := pool, mem := Activate q.mem p }, some p)
  else
    let p := q.brk
    ({ q with brk := q.brk + 1, mem := Activate (construct q.mem p) p }, some p)

/-- Method `CEventQueue::RegisterEvent`. -/
def RegisterEvent (q : CEventQueue) (pEvent : Ptr) (interval : Int) : Option CEventQueue :=
  match pEvent with
  | none => some q
  | some p =>
    if IsActive q.mem p then
      let interval := if interval < 0 then 0 else interval
      let m1 := q.mem.set p { q.mem p with NodeKey := wrap64 (q.eqCurrentTime + interval) }
      if interval = 0 then
        let (m2, top) := Stack.Push m1 q.eqTopEvents (some p)
        some { q with mem := m2, eqTopEvents := top }
      else
        match AVLTree.AddNode q.brk m1 q.tree (some p) with
        | none => none
        | some (m2, t) => some { q with mem := m2, tree := t }
    else some q

/-- Method `CEventQueue::GetNextEvent`: the new queue and the returned record. -/
def GetNextEvent (q : CEventQueue) : Option (CEventQueue × Ptr) :=
  let popped : Option (CEventQueue × Ptr) :=
    if q.eqTopEvents.Count ≠ 0 then
      let (top, pEvent) := Stack.Pop q.mem q.eqTopEvents
      some ({ q with eqTopEvents := top }, pEvent)
    else
      match AVLTree.RemoveHead q.brk q.mem q.tree with
      | none => none
      | some (m1, t, pEvent) => some ({ q with mem := m1, tree := t }, pEvent)
  match popped with
  | none => none
  | some (q1, none) => some (q1, none)
  | some (q1, some p) =>
    some ({ q1 with eqCurrentTime := (q1.mem p).NodeKey, mem := Activate q1.mem p }, some p)

/-- Method `CEventQueue::CancelEvent`. -/
def CancelEvent (q : CEventQueue) (pEvent : Ptr) : CEventQueue :=
  match pEvent with
  | none => q
  | some p => { q with mem := q.mem.set p { q.mem p with Consumer := none } }

/-- Method `CEventQueue::DestroyEvent`. -/
def DestroyEvent (q : CEventQueue) (pEvent : Ptr) : CEventQueue :=
  match pEvent with
  | none => q
  | some p =>
    if IsActive q.mem p then
      let (m1, pool) := Stack.Push q.mem q.eqEventPool (some p)
      { q with mem := m1, eqEventPool := pool }
    else q

end CEventQueue

/-- Method `Stack::Combine` called on `s` with the (non-null) stack `pStack`: the new heap,
the new `s` and the new `pStack`. -/
def Stack.Combine (m : Mem) (s pStack : Stack) : Mem × Stack × Stack :=
  match pStack.pBtm with
  | none => (m, s, pStack)
  | some b =>
    (m.setR b s.pTop,
     { pTop := pStack.pTop, pBtm := if s.pBtm = none then pStack.pBtm else s.pBtm,
       Count := s.Count + pStack.Count },
     Stack.Clear)

/-- Method `CEventQueue::ClearEventChain` on the record `pEvent`, with the recursion depth
bounded by the fuel: the new heap and the new free pool. -/
def CEventQueue.ClearEventChain : Nat → Mem → Stack → Nat → Option (Mem × Stack)
  | 0, _, _, _ => none
  | fuel + 1, m, pool, pEvent =>
    let afterLeft : Option (Mem × Stack) :=
      match (m pEvent).LChild with
      | some l => ClearEventChain fuel m pool l
      | none => some (m, pool)
    match afterLeft with
    | none => none
    | some (m1, pool1) =>
      let afterRight : Option (Mem × Stack) :=
        match (m1 pEvent).RChild with
        | some r => ClearEventChain fuel m1 pool1 r
        | none => some (m1, pool1)
      match afterRight with
      | none => none
      | some (m2, pool2) => some (Stack.Push m2 pool2 (some pEvent))

/-- Method `CEventQueue::Reset`; the counter of the tree is not written. -/
def CEventQueue.Reset (q : CEventQueue) : Option CEventQueue :=
  let q1 : CEventQueue := { q with eqCurrentTime := 0 }
  let cleared : Option CEventQueue :=
    match q1.tree.pRoot with
    | some root =>
      match CEventQueue.ClearEventChain q1.brk q1.mem q1.eqEventPool root with
      | none => none
      | some (m, pool) =>
        some { q1 with mem := m, eqEventPool := pool, tree := { q1.tree with pRoot := none } }
    | none => some q1
  match cleared with
  | none => none
  | some q2 =>
    let r := Stack.Combine q2.mem q2.eqEventPool q2.eqTopEvents
    some { q2 with mem := r.1, eqEventPool := r.2.1, eqTopEvents := r.2.2 }

/-- Loop `while( eqEventPool.GetCount() > 0 ) delete eqEventPool.Pop();` of
`CEventQueue::DeleteEvents`, with the number of iterations bounded by the fuel: the storage of
a popped record is released, the heap itself is not written. -/
def CEventQueue.deletePool : Nat → Mem → Stack → Option Stack
  | 0, _, pool => if pool.Count > 0 then none else some pool
  | fuel + 1, m, pool =>
    if pool.Count > 0 then deletePool fuel m (Stack.Pop m pool).1 else some pool

/-- Method `CEventQueue::DeleteEvents`, called by the destructor and by `GlobalFree`. -/
def CEventQueue.DeleteEvents (q : CEventQueue) : Option CEventQueue :=
  match q.Reset with
  | none => none
  | some q1 =>
    match CEventQueue.deletePool q1.brk q1.mem q1.eqEventPool with
    | none => none
    | some pool => some { q1 with eqEventPool := pool }

/-! ## Static interface of `DESL_environment` and traces of engine calls -/

/-- Assignment of the public members of an event record (`Type`, the payload, `Producer` and
`Consumer`) from the record `d`; the private `AVLNode` part is not accessible to clients. -/
def CEvent.assign (e d : CEvent) : CEvent :=
  { e with Type_ := d.Type_, Pckt := d.Pckt, GATE := d.GATE, RPRT := d.RPRT,
           Producer := d.Producer, Consumer := d.Consumer }

/-- An all-zero event record. -/
def CEvent.zero : CEvent :=
  { Balance := 0, Height := 0, LChild := none, RChild := none, NodeKey := 0, Type_ := 0,
    Pckt := ⟨0, 0, 0⟩, GATE := ⟨0, 0, 0⟩, RPRT := ⟨0, 0⟩, Producer := none, Consumer := none }

namespace DESL

/-- Static `DESL_environment::GlobalTime`. -/
def GlobalTime (q : CEventQueue) : Int := q.GetCurrentTime

/-- Static `DESL_environment::RegisterEvent`: sets the producer, then registers; `none` when
`ptr` is `NULL` (the source dereferences it). -/
def RegisterEvent (q : CEventQueue) (ptr : Ptr) (interval : Int) (producer : Ptr) :
    Option CEventQueue :=
  match ptr with
  | none => none
  | some p =>
    CEventQueue.RegisterEvent
      { q with mem := q.mem.set p { q.mem p with Producer := producer } } ptr interval

/-- Static `DESL_environment::DispatchEvent`; `ProcessEvent c q p` is the virtual method
`ProcessEvent` of the object `c` run on the event `p`. -/
def DispatchEvent (ProcessEvent : Nat → CEventQueue → Nat → Option CEventQueue)
    (q : CEventQueue) (p : Ptr) : Option CEventQueue :=
  match p with
  | none => some (q.DestroyEvent none)
  | some a =>
    match (q.mem a).Consumer with
    | some c =>
      match ProcessEvent c q a with
      | none => none
      | some q1 => some (q1.DestroyEvent (some a))
    | none => some (q.DestroyEvent (some a))

end DESL

/-- One call a client (a simulation object or the main loop) makes on the engine; `Write` is an
assignment to the public members of a record. -/
inductive Op where
  | AllocateEvent : Op
  | RegisterEvent (p : Ptr) (interval : Int) : Op
  | CancelEvent (p : Ptr) : Op
  | DestroyEvent (p : Ptr) : Op
  | GetNextEvent : Op
  | Write (p : Nat) (d : CEvent) : Op

/-- A pointer a client can hold: `NULL` or the address of a constructed record. -/
def validPtr (q : CEventQueue) (p : Ptr) : Bool :=
  match p with
  | none => true
  | some a => decide (a < q.brk)

/-- Effect of one call on the queue. -/
def step (q : CEventQueue) : Op → Option CEventQueue
  | Op.AllocateEvent => some q.AllocateEvent.1
  | Op.RegisterEvent p i => q.RegisterEvent p i
  | Op.CancelEvent p => some (q.CancelEvent p)
  | Op.DestroyEvent p => some (q.DestroyEvent p)
  | Op.GetNextEvent => (q.GetNextEvent).map Prod.fst
  | Op.Write p d => some { q with mem := q.mem.set p ((q.mem p).assign d) }

/-- Admissible arguments of a call in the state `q`: pointers are `NULL` or constructed records,
an interval is an `int64s` value and `eqCurrentTime + interval` does not overflow. -/
def Op.ok (q : CEventQueue) : Op → Bool
  | Op.AllocateEvent => true
  | Op.RegisterEvent p i =>
    validPtr q p && decide (-(2 ^ 63) ≤ i) && decide (i ≤ INT64_MAX) &&
      decide (q.eqCurrentTime + (if i < 0 then 0 else i) ≤ INT64_MAX)
  | Op.CancelEvent p => validPtr q p
  | Op.DestroyEvent p => validPtr q p
  | Op.GetNextEvent => true
  | Op.Write p _ => decide (p < q.brk)

/-- Effect of a sequence of calls. -/
def run (q : CEventQueue) : List Op → Option CEventQueue
  | [] => some q
  | op :: ops =>
    match step q op with
    | none => none
    | some q1 => run q1 ops

/-- Every call of the sequence has admissible arguments in the state in which it is made. -/
def okTrace (q : CEventQueue) : List Op → Bool
  | [] => true
  | op :: ops =>
    op.ok q &&
      match step q op with
      | none => true
      | some q1 => okTrace q1 ops

/-- A call of the main loop: a plain engine call, or `DispatchEvent` of `p` whose handler makes
the engine calls `handler`. -/
inductive Call where
  | op (o : Op) : Call
  | dispatch (p : Ptr) (handler : List Op) : Call

/-- Effect of a main-loop call. -/
def stepCall (q : CEventQueue) : Call → Option CEventQueue
  | Call.op o => step q o
  | Call.dispatch p handler => DESL.DispatchEvent (fun _ q1 _ => run q1 handler) q p

/-- Admissible arguments of a main-loop call. -/
def Call.ok (q : CEventQueue) : Call → Bool
  | Call.op o => o.ok q
  | Call.dispatch p handler =>
    validPtr q p &&
      match p with
      | none => true
      | some a =>
        match (q.mem a).Consumer with
        | some _ => okTrace q handler
        | none => true

/-- The call is an assignment to the public members of the record `a`. -/
def Op.writes (a : Nat) : Op → Bool
  | Op.Write p _ => decide (p = a)
  | _ => false

/-- The function changes public members of a record only: the `AVLNode` part is kept. -/
def PublicOnly (f : CEvent → CEvent) : Prop :=
  ∀ e, (f e).LChild = e.LChild ∧ (f e).RChild = e.RChild ∧ (f e).Height = e.Height ∧
    (f e).Balance = e.Balance ∧ (f e).NodeKey = e.NodeKey

/-- States of the event queue during the life of the simulation: the state left by the
constructor, and the states reached from it by admissible calls of the clients and of the main
loop and by `CEventQueue::Reset`, which `GlobalReset` calls at the start of `Execute` on the
queue that holds the events registered while the objects were created.  `Reset` does not write
the counter of the tree, so after it `AVLTree::Count` may exceed the number of nodes.
`DeleteEvents`, which `GlobalFree` and the destructor call after the main loop has ended,
deallocates every record held by a container; when no record is detached at that time, as
at the end of the main loop, no constructed record is left afterwards (`brk = 0`); in every
state listed here `DeleteEvents` returns (`deleteEvents_spec`). -/
inductive Reachable (heap : Mem) : CEventQueue → Prop where
  | init : Reachable heap (CEventQueue.new heap)
  | call {q q1 : CEventQueue} (c : Call) : Reachable heap q → c.ok q = true →
      stepCall q c = some q1 → Reachable heap q1
  | reset {q q1 : CEventQueue} : Reachable heap q → q.Reset = some q1 → Reachable heap q1
  | deleteEvents {q q1 : CEventQueue} : Reachable heap q →
      (∀ a, a < q.brk → CEventQueue.IsActive q.mem a = false) →
      q.DeleteEvents = some q1 → Reachable heap { q1 with brk := 0 }

/-! ## Configuration (`sim_config.h`, `conf_001.h`) -/

def EV_PCKT_ARRIVAL : Int := 0x01
def EV_PCKT_ENQUE : Int := 0x03
def EV_PCKT_DEQUE : Int := 0x04
def EV_PCKT_DROP : Int := 0x05
def EV_MPCP_GATE : Int := 0x10
def EV_MPCP_REPORT : Int := 0x11
def EV_TIMER_NEXT_PACKET : Int := 0x20
def EV_TIMER_GRANT_REPORT : Int := 0x21
def EV_TIMER_GRANT_DATA : Int := 0x22

def PON_BYTE_TIME : Int := 8
def MIN_PACKET_SIZE : Int := 64
def MPCP_PACKET_SIZE : Int := MIN_PACKET_SIZE
def PREAMBLE_SIZE : Int := 8
def MIN_IFG_SIZE : Int := 12
def PACKET_OVERHEAD : Int := PREAMBLE_SIZE + MIN_IFG_SIZE
def ONU_HW_PROCESS_DELAY : Int := 16384
def OLT_HW_PROCESS_DELAY : Int := 16384
def GUARD_BAND_TIME : Int := 1000
def BUFFER_SIZE : Int := 1024 * 1024
def MAX_SLOT : Int := 15500

/-- Macro `_PON_TIME( X )`: `(X) * PON_BYTE_TIME`, a 32-bit product. -/
def _PON_TIME (x : Int) : Int := wrap32 (x * PON_BYTE_TIME)

/-- Macro `_OVERHEAD( X )`: `(X) + PACKET_OVERHEAD`, a 32-bit sum. -/
def _OVERHEAD (x : Int) : Int := wrap32 (x + PACKET_OVERHEAD)

/-- Macro `_PON_PCKT_TIME( X )`. -/
def _PON_PCKT_TIME (x : Int) : Int := _PON_TIME (_OVERHEAD x)

/-! ## Synchronised clock (`CClockSync`, `clock.h`) -/

/-- Class `CClockSync` (with its `CBase` part): `this` is the address of the object, `ID` its
object id, `timeOffset` the offset of the local clock. -/
structure CClockSync where
  this : Nat
  ID : Int
  timeOffset : Int
deriving DecidableEq, Repr

namespace CClockSync

/-- Method `CClockSync::LocalTime( void )`. -/
def LocalTime (c : CClockSync) (q : CEventQueue) : Int :=
  wrap64 (DESL.GlobalTime q + c.timeOffset)

/-- Method `CClockSync::LocalTime( tm )`: the new value of `timeOffset`. -/
def setLocalTime (q : CEventQueue) (tm : Int) : Int :=
  wrap64 (tm - DESL.GlobalTime q)

/-- Method `CClockSync::RegisterEvent`. -/
def RegisterEvent (c : CClockSync) (q : CEventQueue) (ptr : Ptr) (interval : Int) :
    Option CEventQueue :=
  DESL.RegisterEvent q ptr interval (some c.this)

/-- Method `CClockSync::RegisterEventAbs`. -/
def RegisterEventAbs (c : CClockSync) (q : CEventQueue) (ptr : Ptr) (localtime : Int) :
    Option CEventQueue :=
  c.RegisterEvent q ptr (wrap64 (localtime - c.LocalTime q))

end CClockSync

/-- Assignment through an event pointer: the record at `p` becomes `f` of itself. -/
def CEventQueue.modify (q : CEventQueue) (p : Nat) (f : CEvent → CEvent) : CEventQueue :=
  { q with mem := q.mem.set p (f (q.mem p)) }

/-! ## ONU (`onu.h`) -/

/-- Class `ONU`: the clock base, the single output port, and the private members.  The
`PDList< Packet >` queue is represented by the sequence of its packets from head to tail. -/
structure ONU extends CClockSync where
  OutPort : Ptr
  FIFO : List Pckt_Data_t
  QueueBytes : Int
  LastSent : Int
  SlotEnd : Int
  Sending : Bool
deriving DecidableEq, Repr

namespace ONU

/-- Method `ONU::EnqueuePacket`. -/
def EnqueuePacket (o : ONU) (pckt : Pckt_Data_t) : ONU :=
  { o with FIFO := o.FIFO ++ [pckt], QueueBytes := wrap32 (o.QueueBytes + pckt.PcktSize) }

/-- Method `ONU::DequeuePacket`: the new ONU and the returned packet. -/
def DequeuePacket (o : ONU) : ONU × Pckt_Data_t :=
  match o.FIFO with
  | [] => (o, ⟨0, 0, 0⟩)
  | pckt :: rest =>
    ({ o with FIFO := rest, QueueBytes := wrap32 (o.QueueBytes - pckt.PcktSize) }, pckt)

/-- Method `ONU::ReceiveDataPacket`. -/
def ReceiveDataPacket (o : ONU) (q : CEventQueue) (pEvent : Nat) : Option (ONU × CEventQueue) :=
  let r : ONU × CEventQueue :=
    if wrap32 (o.QueueBytes + (q.mem pEvent).Pckt.PcktSize) ≤ BUFFER_SIZE then
      (o.EnqueuePacket (q.mem pEvent).Pckt,
       q.modify pEvent (fun e => { e with Type_ := EV_PCKT_ENQUE }))
    else
      (o, q.modify pEvent (fun e => { e with Type_ := EV_PCKT_DROP }))
  let q2 := r.2.modify pEvent (fun e => { e with Consumer := none })
  match o.toCClockSync.RegisterEvent q2 (some pEvent) 0 with
  | none => none
  | some q3 => some (r.1, q3)

/-- Method `ONU::ProcessGATE`. -/
def ProcessGATE (o : ONU) (q : CEventQueue) (pEvent : Nat) : Option (ONU × CEventQueue) :=
  let length := (q.mem pEvent).GATE.Length
  let o1 : ONU := { o with timeOffset := CClockSync.setLocalTime q (q.mem pEvent).GATE.Timestamp }
  if (q.mem pEvent).GATE.StartTime
      < wrap64 (o1.toCClockSync.LocalTime q + ONU_HW_PROCESS_DELAY) then
    some (o1, q)
  else
    let rep : Option (Int × CEventQueue) :=
      if length ≥ _OVERHEAD MPCP_PACKET_SIZE then
        let length1 := wrap32 (length - _OVERHEAD MPCP_PACKET_SIZE)
        match q.AllocateEvent with
        | (_, none) => none
        | (q1, some ptr) =>
          let q2 := q1.modify ptr (fun e => { e with Consumer := some o.this })
          let q3 := q2.modify ptr (fun e => { e with Type_ := EV_TIMER_GRANT_REPORT })
          match o1.toCClockSync.RegisterEventAbs q3 (some ptr)
              (wrap64 ((q3.mem pEvent).GATE.StartTime + _PON_TIME length1)) with
          | none => none
          | some q4 => some (length1, q4)
      else some (length, q)
    match rep with
    | none => none
    | some (length1, q4) =>
      let dat : Option CEventQueue :=
        if length1 ≥ _OVERHEAD MIN_PACKET_SIZE then
          match q4.AllocateEvent with
          | (_, none) => none
          | (q5, some ptr) =>
            let q6 := q5.modify ptr (fun e => { e with Consumer := some o.this })
            let q7 := q6.modify ptr (fun e => { e with Type_ := EV_TIMER_GRANT_DATA })
            let q8 := q7.modify ptr (fun e => { e with GATE := { e.GATE with Length := length1 } })
            o1.toCClockSync.RegisterEventAbs q8 (some ptr) (q8.mem pEvent).GATE.StartTime
        else some q4
      match dat with
      | none => none
      | some q9 => some (o1, q9.DestroyEvent (some pEvent))

/-- Method `ONU::StartSendingPacket`; `none` when `FIFO.GetHead()` is `NULL`. -/
def StartSendingPacket (o : ONU) (q : CEventQueue) : Option (ONU × CEventQueue) :=
  if o.Sending = false ∧ (o.FIFO.length : Int) > 0 then
    match o.FIFO.head? with
    | none => none
    | some head =>
      if wrap64 (o.toCClockSync.LocalTime q + _PON_PCKT_TIME head.PcktSize) ≤ o.SlotEnd then
        let o1 : ONU := { o with Sending := true }
        match q.AllocateEvent with
        | (_, none) => none
        | (q1, some ptr) =>
          let q2 := q1.modify ptr (fun e => { e with Consumer := some o.this })
          let q3 := q2.modify ptr (fun e => { e with Type_ := EV_PCKT_DEQUE })
          let (o2, pckt) := o1.DequeuePacket
          let q4 := q3.modify ptr (fun e => { e with Pckt := pckt })
          match o2.toCClockSync.RegisterEvent q4 (some ptr)
              (_PON_PCKT_TIME (q4.mem ptr).Pckt.PcktSize) with
          | none => none
          | some q5 => some (o2, q5)
      else some (o, q)
  else some (o, q)

/-- Method `ONU::FinishSendingPacket`. -/
def FinishSendingPacket (o : ONU) (q : CEventQueue) (pEvent : Nat) :
    Option (ONU × CEventQueue) :=
  let q1 := q.modify pEvent (fun e => { e with Type_ := EV_PCKT_ARRIVAL })
  let q2 := q1.modify pEvent (fun e => { e with Consumer := o.OutPort })
  match o.toCClockSync.RegisterEvent q2 (some pEvent) 0 with
  | none => none
  | some q3 => StartSendingPacket { o with Sending := false } q3

/-- Method `ONU::OpenSlot`. -/
def OpenSlot (o : ONU) (q : CEventQueue) (pEvent : Nat) : Option (ONU × CEventQueue) :=
  let slotEnd := wrap64 (o.toCClockSync.LocalTime q + _PON_TIME (q.mem pEvent).GATE.Length)
  StartSendingPacket { o with SlotEnd := slotEnd } q

/-- Method `ONU::SendREPORT`. -/
def SendREPORT (o : ONU) (q : CEventQueue) (pEvent : Nat) : Option (ONU × CEventQueue) :=
  let q1 := q.modify pEvent (fun e => { e with Consumer := o.OutPort })
  let q2 := q1.modify pEvent (fun e => { e with Type_ := EV_MPCP_REPORT })
  let q3 := q2.modify pEvent (fun e => { e with RPRT := { e.RPRT with
    Timestamp := wrap64 (o.toCClockSync.LocalTime q2 + _PON_PCKT_TIME MPCP_PACKET_SIZE) } })
  let q4 := q3.modify pEvent (fun e => { e with RPRT := { e.RPRT with
    Length := wrap32 (o.QueueBytes + wrap32 ((o.FIFO.length : Int) * PACKET_OVERHEAD)) } })
  match o.toCClockSync.RegisterEvent q4 (some pEvent) (_PON_PCKT_TIME MPCP_PACKET_SIZE) with
  | none => none
  | some q5 => some (o, q5)

/-- Method `ONU::Reset`; `RecycleAllPackets` empties the queue. -/
def Reset (o : ONU) : ONU :=
  { o with Sending := false, SlotEnd := 0, QueueBytes := 0, FIFO := [] }

/-- Constructor `ONU::ONU( id )` for the object at address `this`; `LastSent` is not
initialised by the source. -/
def new (this : Nat) (id : Int) (lastSent : Int) : ONU :=
  Reset { this := this, ID := id, timeOffset := 0, OutPort := none, FIFO := [], QueueBytes := 0,
          LastSent := lastSent, SlotEnd := 0, Sending := false }

/-- Method `MultiPort::SetPort` for the single port of an ONU. -/
def SetPort (o : ONU) (dst : Ptr) : ONU := { o with OutPort := dst }

/-- Method `ONU::ProcessEvent`. -/
def ProcessEvent (o : ONU) (q : CEventQueue) (pEvent : Nat) : Option (ONU × CEventQueue) :=
  if (q.mem pEvent).Type_ = EV_MPCP_GATE then ProcessGATE o q pEvent
  else if (q.mem pEvent).Type_ = EV_TIMER_GRANT_REPORT then SendREPORT o q pEvent
  else if (q.mem pEvent).Type_ = EV_TIMER_GRANT_DATA then OpenSlot o q pEvent
  else if (q.mem pEvent).Type_ = EV_PCKT_ARRIVAL then ReceiveDataPacket o q pEvent
  else if (q.mem pEvent).Type_ = EV_PCKT_DEQUE then FinishSendingPacket o q pEvent
  else some (o, q)

end ONU

/-- Type range of `pckt_size_t` (`int16u`). -/
def isUInt16 (x : Int) : Prop := 0 ≤ x ∧ x ≤ 65535

/-- States of an ONU reachable from its constructor by `SetPort`, `Reset` and `ProcessEvent` on
any event of any queue; the packet size carried by an event is an `int16u` value. -/
inductive ONU.Reachable : ONU → Prop where
  | ctor (this : Nat) (id lastSent : Int) : ONU.Reachable (ONU.new this id lastSent)
  | setPort {o : ONU} (dst : Ptr) : ONU.Reachable o → ONU.Reachable (o.SetPort dst)
  | reset {o : ONU} : ONU.Reachable o → ONU.Reachable o.Reset
  | event {o o2 : ONU} {q q2 : CEventQueue} {p : Nat} : ONU.Reachable o →
      isUInt16 (q.mem p).Pckt.PcktSize → o.ProcessEvent q p = some (o2, q2) →
      ONU.Reachable o2

/-- Invariant I3 of an ONU, with the type range of the queued packet sizes. -/
def OnuInv (o : ONU) : Prop :=
  o.QueueBytes = (o.FIFO.map Pckt_Data_t.PcktSize).sum ∧ o.QueueBytes ≤ BUFFER_SIZE ∧
    ∀ p ∈ o.FIFO, isUInt16 p.PcktSize

/-! ## OLT (`olt.h`) -/

/-- Class `OLT`: the clock base, the `NUM_LLID` output ports and the private members. -/
structure OLT extends CClockSync where
  OutPort : Nat → Ptr
  ScheduleEnd : Int
  LastPacketArrival : Int
  MaxSlot : Int

namespace OLT

/-- Method `OLT::CheckPacketCollision`; the warning has no effect on the state. -/
def CheckPacketCollision (o : OLT) (q : CEventQueue) (_pckt_size : Int) : OLT :=
  { o with LastPacketArrival := o.toCClockSync.LocalTime q }

/-- Method `OLT::ReceiveREPORTPacket`. -/
def ReceiveREPORTPacket (o : OLT) (q : CEventQueue) (pEvent : Nat) :
    Option (OLT × CEventQueue) :=
  let o1 := o.CheckPacketCollision q MPCP_PACKET_SIZE
  let rtt := wrap64 (o1.toCClockSync.LocalTime q - (q.mem pEvent).RPRT.Timestamp)
  match q.AllocateEvent with
  | (_, none) => none
  | (q1, some ptr) =>
    let q2 := q1.modify ptr (fun e => { e with Type_ := EV_MPCP_GATE })
    let q3 := q2.modify ptr (fun e => { e with Consumer := (q2.mem pEvent).Producer })
    let q4 := q3.modify ptr (fun e => { e with GATE := { e.GATE with
      Timestamp := wrap64 (wrap64 (o1.toCClockSync.LocalTime q3
        + _PON_PCKT_TIME MPCP_PACKET_SIZE) + OLT_HW_PROCESS_DELAY) } })
    let q5 := q4.modify ptr (fun e => { e with GATE := { e.GATE with
      StartTime := MAX (wrap64 ((q4.mem ptr).GATE.Timestamp + ONU_HW_PROCESS_DELAY))
        (wrap64 (o1.ScheduleEnd - rtt)) } })
    let q6 := q5.modify ptr (fun e => { e with GATE := { e.GATE with
      Length := MIN (wrap32 ((q5.mem pEvent).RPRT.Length + _OVERHEAD MPCP_PACKET_SIZE))
        o1.MaxSlot } })
    match o1.toCClockSync.RegisterEventAbs q6 (some ptr) (q6.mem ptr).GATE.Timestamp with
    | none => none
    | some q7 =>
      let scheduleEnd := wrap64 (wrap64 (wrap64 ((q7.mem ptr).GATE.StartTime + rtt)
        + _PON_TIME (q7.mem ptr).GATE.Length) + GUARD_BAND_TIME)
      some ({ o1 with ScheduleEnd := scheduleEnd }, q7)

end OLT

/-! ## Abstract view of the heap structures

`Shape` is the tree of addresses that a root pointer spans in the heap; `HeapTree m t` says that the
heap `m` really holds `t` (child pointers, stored heights and balances); `Chain m l p` says that
following `RChild` from `p` visits exactly the addresses of `l` and ends at `NULL`. -/

/-- A binary tree of heap addresses. -/
inductive Shape where
  | nil : Shape
  | node (l : Shape) (a : Nat) (r : Shape) : Shape
deriving DecidableEq, Repr

namespace Shape

/-- Root pointer of a tree (`NULL` for the empty tree). -/
def root : Shape → Ptr
  | nil => none
  | node _ a _ => some a

/-- Addresses in left-to-right order. -/
def inorder : Shape → List Nat
  | nil => []
  | node l a r => inorder l ++ a :: inorder r

/-- Height as `AVLNode` counts it: `-1` for no node, `0` for a leaf. -/
def height : Shape → Int
  | nil => -1
  | node l _ r => MAX (height l) (height r) + 1

/-- Number of levels, a bound for the recursion depth of the tree methods. -/
def depth : Shape → Nat
  | nil => 0
  | node l _ r => max (depth l) (depth r) + 1

/-- Balance of the root: height of the right subtree minus height of the left one. -/
def balance : Shape → Int
  | nil => 0
  | node l _ r => height r - height l

/-- Tree produced by `PromoteRight` (rotation left). -/
def promoteRight : Shape → Shape
  | node l a (node rl b rr) => node (node l a rl) b rr
  | t => t

/-- Tree produced by `PromoteLeft` (rotation right). -/
def promoteLeft : Shape → Shape
  | node (node ll b lr) a r => node ll b (node lr a r)
  | t => t

/-- Tree produced by `RepairBalance`. -/
def repair : Shape → Shape
  | nil => nil
  | node l a r =>
    if height r - height l < -1 then
      if balance l > 0 then promoteLeft (node (promoteRight l) a r)
      else promoteLeft (node l a r)
    else if height r - height l > 1 then
      if balance r < 0 then promoteRight (node l a (promoteLeft r))
      else promoteRight (node l a r)
    else node l a r

/-- Tree produced by `InsertNode` for the new node `n`, with keys read through `key`. -/
def insert (key : Nat → Int) (n : Nat) : Shape → Shape
  | nil => node nil n nil
  | node l a r =>
    if key n > key a then repair (node l a (insert key n r))
    else repair (node (insert key n l) a r)

/-- Tree left by `RemoveLeftEnd`. -/
def removeLeftEnd : Shape → Shape
  | nil => nil
  | node nil _ r => r
  | node (node ll b lr) a r => repair (node (removeLeftEnd (node ll b lr)) a r)

end Shape

/-- The heap `m` holds the tree `t`: child pointers, stored `Height` and stored `Balance` of every
node agree with the shape. -/
def HeapTree (m : Mem) : Shape → Prop
  | Shape.nil => True
  | Shape.node l a r =>
    (m a).LChild = l.root ∧ (m a).RChild = r.root ∧
    (m a).Height = (Shape.node l a r).height ∧ (m a).Balance = r.height - l.height ∧
    HeapTree m l ∧ HeapTree m r

/-- Following `RChild` from `p` visits exactly the addresses of `l`, then `NULL`. -/
def Chain (m : Mem) : List Nat → Ptr → Prop
  | [], p => p = none
  | a :: l, p => p = some a ∧ Chain m l (m a).RChild

/-- A stack object describes the chain `l`: top pointer, bottom pointer and counter. -/
def StackOf (m : Mem) (s : Stack) (l : List Nat) : Prop :=
  Chain m l s.pTop ∧ s.pBtm = l.getLast? ∧ s.Count = l.length

/-- The fields of a record that the containers never write: everything but the links, the
height and the balance. -/
def CEvent.data (e : CEvent) : CEvent :=
  { e with Balance := 0, Height := 0, LChild := none, RChild := none }

/-- Ownership of the constructed records: the records held by the containers are listed in
`all` without repetition, each of them is a constructed record, and every other constructed
record is active (both link fields point to itself). -/
structure Owned (m : Mem) (brk : Nat) (all : List Nat) : Prop where
  nodup : all.Nodup
  alloc : ∀ a ∈ all, a < brk
  active : ∀ a, a < brk → a ∉ all → CEventQueue.IsActive m a = true

/-- Invariant of the event queue, with its abstract contents: `t` is the ordered queue, `top` the
stack of immediate events (most recent first) and `pool` the stack of free records.  The
counter of the tree is at least the number of nodes: `Reset` empties the tree without
writing the counter. -/
structure QueueInv (q : CEventQueue) (t : Shape) (top pool : List Nat) : Prop where
  tree : HeapTree q.mem t
  root : q.tree.pRoot = t.root
  count : (t.inorder.length : Int) ≤ q.tree.Count
  topS : StackOf q.mem q.eqTopEvents top
  poolS : StackOf q.mem q.eqEventPool pool
  owned : Owned q.mem q.brk (t.inorder ++ top ++ pool)
  sorted : t.inorder.Pairwise (fun a b => (q.mem a).NodeKey ≤ (q.mem b).NodeKey)
  future : ∀ a ∈ t.inorder, q.eqCurrentTime ≤ (q.mem a).NodeKey ∧ (q.mem a).NodeKey ≤ INT64_MAX
  now : ∀ a ∈ top, (q.mem a).NodeKey = q.eqCurrentTime
  time : 0 ≤ q.eqCurrentTime ∧ q.eqCurrentTime ≤ INT64_MAX

/-- The heap `m2` differs from `m1` at most in the link, height and balance fields of the
addresses listed in `S`. -/
def Touches (m1 m2 : Mem) (S : List Nat) : Prop :=
  (∀ x, x ∉ S → m2 x = m1 x) ∧ ∀ x, (m2 x).data = (m1 x).data

/-- A heap whose records are all zero, used for concrete runs. -/
def heap0 : Mem := fun _ => CEvent.zero

/-- The queue after the first `AllocateEvent` on `heap0`: record `0` is detached. -/
def qAlloc : CEventQueue := (CEventQueue.new heap0).AllocateEvent.1

/-- The queue `qAlloc` after record `0` was registered with interval `0`. -/
def qTop : CEventQueue := (qAlloc.RegisterEvent (some 0) 0).getD qAlloc

/-- The queue `qAlloc` after record `0` was registered with interval `7`. -/
def qTree : CEventQueue := (qAlloc.RegisterEvent (some 0) 7).getD qAlloc

instance (x : Int) : Decidable (isUInt16 x) := by unfold isUInt16; infer_instance

/-- An ONU at address `7` with object id `0x1000`, as its constructor leaves it. -/
def onu0 : ONU := ONU.new 7 0x1000 0

/-- The queue `qAlloc` whose detached record `0` is a `PCKT_ARRIVAL` carrying 100 bytes. -/
def qArrival : CEventQueue :=
  qAlloc.modify 0 (fun e => { e with Type_ := EV_PCKT_ARRIVAL, Pckt := ⟨0, 100, 1⟩ })

/-- The ONU and the queue after `onu0` processed the arrival of `qArrival`. -/
def arrivalResult : ONU × CEventQueue := (onu0.ProcessEvent qArrival 0).getD (onu0, qArrival)

/-- An OLT at address `1` with the default `MAX_SLOT`, its schedule ending at time `0`. -/
def olt0 : OLT :=
  { this := 1, ID := 0x0102, timeOffset := 0, OutPort := fun _ => none, ScheduleEnd := 0,
    LastPacketArrival := 0, MaxSlot := MAX_SLOT }

/-- The queue `qAlloc` whose detached record `0` is a GATE with timestamp `100`, start time `0`
and length `84`: a late grant. -/
def qGate : CEventQueue :=
  qAlloc.modify 0 (fun e => { e with Type_ := EV_MPCP_GATE, GATE := ⟨100, 0, 84⟩ })

/-- The queue `qAlloc` whose detached record `0` is a GATE with timestamp `100`, start time
`20000` and length `84`: in time, with room for a REPORT only. -/
def qGateReport : CEventQueue :=
  qAlloc.modify 0 (fun e => { e with Type_ := EV_MPCP_GATE, GATE := ⟨100, 20000, 84⟩ })

/-- The ONU and the queue after `onu0` processed the GATE of `qGateReport`. -/
def gateReportResult : ONU × CEventQueue :=
  (onu0.ProcessGATE qGateReport 0).getD (onu0, qGateReport)

def NUM_LLID : Int := 16
def PON_MAX_LINK_DISTANCE : Int := 20000
def FIBER_DELAY : Int := 5

namespace OLT

/-- Body of the `for` loop of `OLT::SimplifiedDiscovery` for the index `ndx`: the new OLT, the
new queue and the new value of the local variable `timestamp`. -/
def SimplifiedDiscovery.body (o : OLT) (q : CEventQueue) (timestamp : Int) (ndx : Nat) :
    Option (OLT × CEventQueue × Int) :=
  match q.AllocateEvent with
  | (_, none) => none
  | (q1, some ptr) =>
    let q2 := q1.modify ptr (fun e => { e with Type_ := EV_MPCP_GATE })
    let q3 := q2.modify ptr (fun e => { e with Consumer := o.OutPort ndx })
    let q4 := q3.modify ptr (fun e => { e with GATE := { e.GATE with Timestamp := timestamp } })
    let q5 := q4.modify ptr (fun e => { e with GATE := { e.GATE with
      Length := _OVERHEAD MPCP_PACKET_SIZE } })
    let q6 := q5.modify ptr (fun e => { e with GATE := { e.GATE with
      StartTime := MAX (wrap64 ((q5.mem ptr).GATE.Timestamp + ONU_HW_PROCESS_DELAY))
        o.ScheduleEnd } })
    match o.toCClockSync.RegisterEventAbs q6 (some ptr) (q6.mem ptr).GATE.Timestamp with
    | none => none
    | some q7 =>
      let scheduleEnd := wrap64 (wrap64 ((q7.mem ptr).GATE.StartTime
        + wrap32 (wrap32 (2 * PON_MAX_LINK_DISTANCE) * FIBER_DELAY)) + GUARD_BAND_TIME)
      some ({ o with ScheduleEnd := scheduleEnd }, q7,
        wrap64 (timestamp + wrap32 (_PON_PCKT_TIME MPCP_PACKET_SIZE + OLT_HW_PROCESS_DELAY)))

/-- The `for` loop of `OLT::SimplifiedDiscovery` from the index `ndx` on; `none` when the
fuel runs out. -/
def SimplifiedDiscovery.loop :
    Nat → OLT → CEventQueue → Int → Nat → Option (OLT × CEventQueue)
  | 0, _, _, _, _ => none
  | fuel + 1, o, q, timestamp, ndx =>
    if (ndx : Int) < NUM_LLID then
      match SimplifiedDiscovery.body o q timestamp ndx with
      | none => none
      | some (o1, q1, timestamp1) => SimplifiedDiscovery.loop fuel o1 q1 timestamp1 (ndx + 1)
    else some (o, q)

/-- Method `OLT::SimplifiedDiscovery`. -/
def SimplifiedDiscovery (o : OLT) (q : CEventQueue) : Option (OLT × CEventQueue) :=
  SimplifiedDiscovery.loop (NUM_LLID.toNat + 1) o q (o.toCClockSync.LocalTime q) 0

/-- Method `OLT::Reset`. -/
def Reset (o : OLT) (q : CEventQueue) : Option (OLT × CEventQueue) :=
  let lt := o.toCClockSync.LocalTime q
  SimplifiedDiscovery { o with LastPacketArrival := lt, ScheduleEnd := lt } q

end OLT

/-- The schedule end before the `k`-th discovery GATE as the specification gives it: `T` at
first, then the start time of the previous GATE, which is the later of its timestamp plus
`ONU_HW_PROCESS_DELAY` and the schedule end before it, plus
`2 * PON_MAX_LINK_DISTANCE * FIBER_DELAY + GUARD_BAND_TIME`. -/
def discoverySchedule (T : Int) : Nat → Int
  | 0 => T
  | k + 1 =>
    max (T + (k : Int) * ((MPCP_PACKET_SIZE + PACKET_OVERHEAD) * PON_BYTE_TIME
        + OLT_HW_PROCESS_DELAY) + ONU_HW_PROCESS_DELAY) (discoverySchedule T k)
      + 2 * PON_MAX_LINK_DISTANCE * FIBER_DELAY + GUARD_BAND_TIME

/-! ## Distribution sampler (`GenericDistribByIndex`, `_rand_MT.h`) -/

/-- Class template `GenericDistribByIndex< T, N, PF_FREQUENCY >` at `T = int32s`: the template
parameter `N` and the static array `cdf[ N ]`, whose entries are `cdf 0 .. cdf (N - 1)`. -/
structure GenericDistribByIndex where
  N : Int
  cdf : Nat → Int

namespace GenericDistribByIndex

/-- Array read `cdf[ i ]`; `none` outside the array. -/
def read (d : GenericDistribByIndex) (i : Int) : Option Int :=
  if 0 ≤ i ∧ i < d.N then some (d.cdf i.toNat) else none

/-- Array write `cdf[ i ] = v`; `none` outside the array. -/
def write (d : GenericDistribByIndex) (i : Int) (v : Int) : Option GenericDistribByIndex :=
  if 0 ≤ i ∧ i < d.N then
    some { d with cdf := fun j => if j = i.toNat then v else d.cdf j }
  else none

/-- The `for` loop of the constructor from the index `ndx` on, for the frequency function
`F` (`PF_FREQUENCY`); `none` when the fuel runs out. -/
def ctorLoop (F : Int → Int) : Nat → GenericDistribByIndex → Int → Option GenericDistribByIndex
  | 0, _, _ => none
  | fuel + 1, d, ndx =>
    if ndx < d.N then
      match d.read (ndx - 1) with
      | none => none
      | some prev =>
        match d.write ndx (wrap32 (prev + F ndx)) with
        | none => none
        | some d1 => ctorLoop F fuel d1 (ndx + 1)
    else some d

/-- Constructor `GenericDistribByIndex()`; the static array starts zero-initialised. -/
def new (N : Int) (F : Int → Int) : Option GenericDistribByIndex :=
  match ({ N := N, cdf := fun _ => 0 } : GenericDistribByIndex).write 0 (F 0) with
  | none => none
  | some d => ctorLoop F N.toNat d 1

/-- The `while` loop of `GetIndex` for the sample `val`; `none` when the fuel runs out. -/
def GetIndex.loop (d : GenericDistribByIndex) (val : Int) : Nat → Int → Int → Option Int
  | 0, _, _ => none
  | fuel + 1, lo, hi =>
    if wrap32 (hi - lo) > 1 then
      let md := (wrap32 (lo + hi)).tdiv 2
      match d.read md with
      | none => none
      | some c => if val < c then GetIndex.loop d val fuel lo md else GetIndex.loop d val fuel md hi
    else some hi

/-- Method `GetIndex`, for the sample `val` that the source computes as
`static_cast< T >( _uniform_real_0_1() * cdf[ N-1 ] )`. -/
def GetIndex (d : GenericDistribByIndex) (val : Int) : Option Int :=
  GetIndex.loop d val (d.N.toNat + 1) (-1) (wrap32 (d.N - 1))

end GenericDistribByIndex

/-- The distribution built for two indices with the frequencies `1` and `0`. -/
def distOneZero : GenericDistribByIndex :=
  (GenericDistribByIndex.new 2 (fun i => if i = 0 then 1 else 0)).getD ⟨2, fun _ => 0⟩

/-- A frequency function on two indices: frequency `1` for index `0`, `0` otherwise. -/
def freqOneZero (i : Int) : Int := if i = 0 then 1 else 0

/-! ## Traffic generator (`trf_gen_v3.h`) -/

/-- Wrap of an integer to 32 bits unsigned (`int32u`). -/
def wrapU32 (x : Int) : Int := x % 2 ^ 32

/-- Wrap of an integer to 64 bits unsigned (`int64u`). -/
def wrapU64 (x : Int) : Int := x % 2 ^ 64

/-- The value is representable as `int32u`. -/
def fitsU32 (x : Int) : Prop := 0 ≤ x ∧ x < 2 ^ 32

instance (x : Int) : Decidable (fitsU32 x) := by unfold fitsU32; infer_instance

/-- A call of `SetLoad` or `Reset` received by a stream; `L` is the type `load_t`. -/
inductive StreamCall (L : Type) where
  | SetLoad (load : L) : StreamCall L
  | Reset : StreamCall L

/-- The values a call of `Stream::Reset` obtains from the virtual methods and from the random
number generator, in the order of the calls: the first `NextBurstSize()`, `NextPauseSize()`,
the value returned by `RND.randInt( n )` (the library promises `0 ≤ offset ≤ n`), and the
second `NextBurstSize()`. -/
structure ResetDraws where
  burst : Int
  pause : Int
  offset : Int
  burst2 : Int
deriving DecidableEq, Repr

/-- The stream objects: the `AVLNode< bytestamp_t >` base of the stream at each address is a
record of the node heap `node`, of which only the `AVLNode` members are used (`BurstTime` is
`NodeKey`); `BurstSize` is the member of `Stream`; `calls` records the calls of `SetLoad` and
`Reset` each stream received, oldest first (`SetLoad` is pure virtual: the members it sets
belong to the subclasses, and this record stands for them). -/
structure StreamHeap (L : Type) where
  node : Mem
  BurstSize : Nat → Int
  calls : Nat → List (StreamCall L)

namespace Stream

/-- Method `Stream::GetArrival`. -/
def GetArrival {L : Type} (h : StreamHeap L) (this : Nat) : Int := (h.node this).NodeKey

/-- Method `Stream::GetBurstSize`. -/
def GetBurstSize {L : Type} (h : StreamHeap L) (this : Nat) : Int := h.BurstSize this

/-- Assignment to `BurstTime` (`NodeKey`) of a stream. -/
def setBurstTime {L : Type} (h : StreamHeap L) (this : Nat) (v : Int) : StreamHeap L :=
  { h with node := h.node.set this { h.node this with NodeKey := v } }

/-- Assignment to `BurstSize` of a stream. -/
def setBurstSize {L : Type} (h : StreamHeap L) (this : Nat) (v : Int) : StreamHeap L :=
  { h with BurstSize := fun a => if a = this then v else h.BurstSize a }

/-- The argument `n` of `RND.randInt( n )` in `_uniform_int_( 0, (rnd_int_t)BurstTime )`:
`hi - low` computed as `int32s`, converted to `uint32`. -/
def randIntArg (burstTime : Int) : Int := wrapU32 (wrap32 (wrap32 burstTime - 0))

/-- The local `start_time` of `Stream::Reset` for the value `u` returned by `RND.randInt`:
`u + low` as `uint32`, returned as `rnd_int_t` (`int32s`) and converted to `bytestamp_t`. -/
def start_time (u : Int) : Int := wrapU64 (wrap32 (wrapU32 (u + 0)))

/-- Virtual method `SetLoad` as the generator sees it: the call is recorded. -/
def SetLoad {L : Type} (h : StreamHeap L) (this : Nat) (load : L) : StreamHeap L :=
  { h with calls := fun a =>
      if a = this then h.calls a ++ [StreamCall.SetLoad load] else h.calls a }

/-- Method `Stream::Reset` with the draws `d`. -/
def Reset {L : Type} (h : StreamHeap L) (this : Nat) (d : ResetDraws) : StreamHeap L :=
  let h0 : StreamHeap L :=
    { h with calls := fun a =>
        if a = this then h.calls a ++ [StreamCall.Reset] else h.calls a }
  let h1 := setBurstSize h0 this d.burst
  let h2 := setBurstTime h1 this (wrapU32 (d.pause + GetBurstSize h1 this))
  let st := start_time d.offset
  if st < GetBurstSize h2 this then
    let h3 := setBurstSize h2 this (wrapU32 (GetBurstSize h2 this - wrapU32 st))
    setBurstTime h3 this 0
  else
    let h3 := setBurstSize h2 this d.burst2
    setBurstTime h3 this (wrapU64 (GetArrival h3 this - st))

/-- Method `Stream::ExtractBurst` for the drawn pause `pause` and the drawn next burst
`burst`. -/
def ExtractBurst {L : Type} (h : StreamHeap L) (this : Nat) (pause burst : Int) :
    StreamHeap L :=
  let h1 := setBurstTime h this
    (wrapU64 (GetArrival h this + wrapU32 (GetBurstSize h this + pause)))
  setBurstSize h1 this burst

end Stream

/-- A heap of streams whose records are all zero, used for concrete runs. -/
def streams0 : StreamHeap Int :=
  { node := heap0, BurstSize := fun _ => 0, calls := fun _ => [] }

/-- Struct `GEN::Packet`. -/
structure GEN.Packet where
  SourceId : Int
  PcktSize : Int
  Interval : Int
deriving DecidableEq, Repr

/-- The member pool a `StreamPool*` of the generator points to. -/
inductive PoolRef where
  | Pool1 : PoolRef
  | Pool2 : PoolRef
deriving DecidableEq, Repr

/-- Class `GEN::PacketGenerator` together with the heap of its streams; `brk` is the number of
stream objects constructed so far (addresses `0 .. brk - 1`).  The callback `pfPcktSize` is
not a member here: the size it returns is an argument of `GetNextPacket`. -/
structure PacketGenerator (L : Type) where
  streams : StreamHeap L
  brk : Nat
  Pool1 : AVLTree
  Pool2 : AVLTree
  BusyPool : PoolRef
  IdlePool : PoolRef
  NextPacket : GEN.Packet
  Elapsed : Int
  MinIFG : Int
  Tokens : Int

/-- Constructor of a stream at the address `this`, as every subclass runs it: `Stream()`
(the node is initialised with key `0`, `BurstSize = 0`), then `SetLoad( ld )` and
`Reset()`. -/
def Stream.new {L : Type} (h : StreamHeap L) (this : Nat) (ld : L) (d : ResetDraws) :
    StreamHeap L :=
  let m1 := AVL.Initialize h.node this
  let h1 : StreamHeap L :=
    { node := m1.set this { m1 this with NodeKey := 0 },
      BurstSize := fun a => if a = this then 0 else h.BurstSize a,
      calls := fun a => if a = this then [] else h.calls a }
  Stream.Reset (Stream.SetLoad h1 this ld) this d

namespace PacketGenerator

/-- The pool a `StreamPool*` points to. -/
def pool {L : Type} (g : PacketGenerator L) : PoolRef → AVLTree
  | PoolRef.Pool1 => g.Pool1
  | PoolRef.Pool2 => g.Pool2

/-- The generator after a method of the pool `r` left the tree `t` and the node heap `m`. -/
def setPool {L : Type} (g : PacketGenerator L) (r : PoolRef) (t : AVLTree) (m : Mem) :
    PacketGenerator L :=
  match r with
  | PoolRef.Pool1 => { g with Pool1 := t, streams := { g.streams with node := m } }
  | PoolRef.Pool2 => { g with Pool2 := t, streams := { g.streams with node := m } }

/-- Call `r->AddNode( pNode )`; the recursion of `InsertNode` is bounded by the node count. -/
def poolAddNode {L : Type} (g : PacketGenerator L) (r : PoolRef) (pNode : Ptr) :
    Option (PacketGenerator L) :=
  match AVLTree.AddNode (g.pool r).Count.toNat g.streams.node (g.pool r) pNode with
  | none => none
  | some (m, t) => some (g.setPool r t m)

/-- Call `r->RemoveHead()`; the recursion of `RemoveLeftEnd` is bounded by the node count. -/
def poolRemoveHead {L : Type} (g : PacketGenerator L) (r : PoolRef) :
    Option (PacketGenerator L × Ptr) :=
  match AVLTree.RemoveHead (g.pool r).Count.toNat g.streams.node (g.pool r) with
  | none => none
  | some (m, t, p) => some (g.setPool r t m, p)

/-- Method `GetStreams`: `BusyPool->GetCount()` returned as `int32s`. -/
def GetStreams {L : Type} (g : PacketGenerator L) : Int := wrap32 (g.pool g.BusyPool).Count

/-- Method `AddStream`. -/
def AddStream {L : Type} (g : PacketGenerator L) (pSrc : Ptr) : Option (PacketGenerator L) :=
  g.poolAddNode g.BusyPool pSrc

/-- Method `RemoveStream( void )`. -/
def RemoveStream {L : Type} (g : PacketGenerator L) : Option (PacketGenerator L × Ptr) :=
  g.poolRemoveHead g.BusyPool

/-- The `for` loop of the second constructor from the index `s` on: each pass constructs a
stream with the load `load / pool_size` (the division of `load_t` is the parameter `div`) and
adds it; `rnd a` are the draws of the stream constructed at address `a`. -/
def newLoop {L : Type} (div : L → Int → L) (load : L) (pool_size : Int)
    (rnd : Nat → ResetDraws) : Nat → PacketGenerator L → Int → Option (PacketGenerator L)
  | 0, _, _ => none
  | fuel + 1, g, s =>
    if s < pool_size then
      let this := g.brk
      let g1 : PacketGenerator L :=
        { g with brk := g.brk + 1,
                 streams := Stream.new g.streams this (div load pool_size) (rnd this) }
      match g1.AddStream (some this) with
      | none => none
      | some g2 => newLoop div load pool_size rnd fuel g2 (s + 1)
    else some g

/-- Constructor `PacketGenerator( source_id, inter_packet_gap, mean_burst, pf_strm, pf_size,
pool_size, load )` over an existing heap; `first_size` is the value of `pfPcktSize()`. -/
def new {L : Type} (div : L → Int → L) (streams : StreamHeap L)
    (source_id inter_packet_gap first_size pool_size : Int) (load : L)
    (rnd : Nat → ResetDraws) : Option (PacketGenerator L) :=
  let g : PacketGenerator L :=
    { streams := streams, brk := 0, Pool1 := AVLTree.new, Pool2 := AVLTree.new,
      BusyPool := PoolRef.Pool1, IdlePool := PoolRef.Pool2, Tokens := 0, Elapsed := 0,
      MinIFG := inter_packet_gap,
      NextPacket := ⟨source_id, first_size, wrapU32 (wrap32 (first_size + inter_packet_gap))⟩ }
  newLoop div load pool_size rnd (pool_size.toNat + 1) g 0

/-- The `while` loop of `GetNextPacket` for the drawn size `pckt_size`: the generator and the
local `pckt_time`; `rnd i` is the pause and the burst drawn by the `i`-th `ExtractBurst`;
`none` when the loop has not ended after `fuel` tests of its condition. -/
def GetNextPacket.loop {L : Type} (pckt_size : Int) (rnd : Nat → Int × Int) :
    Nat → Nat → PacketGenerator L → Int → Option (PacketGenerator L × Int)
  | 0, _, _, _ => none
  | fuel + 1, i, g, pckt_time =>
    if g.Tokens < pckt_size then
      match g.RemoveStream with
      | none => none
      | some (g1, none) => some (g1, pckt_time)
      | some (g1, some pStrm) =>
        let pckt_time1 :=
          if Stream.GetArrival g1.streams pStrm > wrapU64 (pckt_time + g1.Tokens) then
            wrapU64 (Stream.GetArrival g1.streams pStrm - g1.Tokens)
          else pckt_time
        let g2 : PacketGenerator L :=
          { g1 with Tokens := wrapU32 (g1.Tokens + Stream.GetBurstSize g1.streams pStrm) }
        let g3 : PacketGenerator L :=
          { g2 with streams := Stream.ExtractBurst g2.streams pStrm (rnd i).1 (rnd i).2 }
        match g3.poolAddNode g3.BusyPool (some pStrm) with
        | none => none
        | some g4 => GetNextPacket.loop pckt_size rnd fuel (i + 1) g4 pckt_time1
    else some (g, pckt_time)

/-- Method `GetNextPacket`: the new generator and the returned packet. -/
def GetNextPacket {L : Type} (fuel : Nat) (g : PacketGenerator L) (pckt_size : Int)
    (rnd : Nat → Int × Int) : Option (PacketGenerator L × GEN.Packet) :=
  let next_packet := g.NextPacket
  match GetNextPacket.loop pckt_size rnd fuel 0 g g.Elapsed with
  | none => none
  | some (g1, pckt_time) =>
    let tokens := wrapU32 (g1.Tokens - pckt_size)
    let pckt_time1 := wrapU64 (pckt_time + wrap32 (pckt_size + g1.MinIFG))
    let np : GEN.Packet :=
      { g1.NextPacket with PcktSize := pckt_size,
                           Interval := wrapU32 (wrap32 (wrapU64 (pckt_time1 - g1.Elapsed))) }
    some ({ g1 with Tokens := tokens, NextPacket := np, Elapsed := pckt_time1 }, next_packet)

/-- The `for` loop of `SetLoadReset`; `rnd i` are the draws of the `i`-th `Reset`. -/
def SetLoadReset.loop {L : Type} (load : L) (rnd : Nat → ResetDraws) :
    Nat → Nat → PacketGenerator L → Option (PacketGenerator L)
  | 0, _, _ => none
  | fuel + 1, i, g =>
    match g.RemoveStream with
    | none => none
    | some (g1, none) => some g1
    | some (g1, some pNode) =>
      let g2 : PacketGenerator L := { g1 with streams := Stream.SetLoad g1.streams pNode load }
      let g3 : PacketGenerator L :=
        { g2 with streams := Stream.Reset g2.streams pNode (rnd i) }
      match g3.poolAddNode g3.IdlePool (some pNode) with
      | none => none
      | some g4 => SetLoadReset.loop load rnd fuel (i + 1) g4

/-- Method `SetLoadReset`; the division `load /= GetStreams()` of `load_t` is the parameter
`div`. -/
def SetLoadReset {L : Type} (div : L → Int → L) (g : PacketGenerator L) (load : L)
    (rnd : Nat → ResetDraws) : Option (PacketGenerator L) :=
  let load1 := div load g.GetStreams
  match SetLoadReset.loop load1 rnd ((g.pool g.BusyPool).Count.toNat + 1) 0 g with
  | none => none
  | some g1 => some { g1 with BusyPool := g1.IdlePool, IdlePool := g1.BusyPool, Elapsed := 0 }

end PacketGenerator

/-- Invariant of a generator: the busy pool holds the tree `tb` and the idle pool the tree
`ti` in the node heap, with their root pointers and counters, and no stream is in both. -/
structure GenInv {L : Type} (g : PacketGenerator L) (tb ti : Shape) : Prop where
  busy : HeapTree g.streams.node tb
  idle : HeapTree g.streams.node ti
  busyRoot : (g.pool g.BusyPool).pRoot = tb.root
  busyCount : (g.pool g.BusyPool).Count = tb.inorder.length
  idleRoot : (g.pool g.IdlePool).pRoot = ti.root
  idleCount : (g.pool g.IdlePool).Count = ti.inorder.length
  nodup : (tb.inorder ++ ti.inorder).Nodup
  distinct : g.BusyPool ≠ g.IdlePool

/-- Constructor `PacketGenerator( source_id, inter_packet_gap )` over an existing heap of
streams: a generator without streams. -/
def PacketGenerator.new1 {L : Type} (streams : StreamHeap L)
    (source_id inter_packet_gap : Int) : PacketGenerator L :=
  { streams := streams, brk := 0, Pool1 := AVLTree.new, Pool2 := AVLTree.new,
    BusyPool := PoolRef.Pool1, IdlePool := PoolRef.Pool2, Tokens := 0, Elapsed := 0,
    MinIFG := inter_packet_gap,
    NextPacket := ⟨source_id, 0, wrapU32 (wrap32 (0 + inter_packet_gap))⟩ }

/-- A division of loads for concrete runs over `Int`. -/
def divInt (load : Int) (n : Int) : Int := load / n

/-- A generator without streams and with `MinIFG = 12`, used for concrete runs. -/
def genEmpty : PacketGenerator Int := PacketGenerator.new1 streams0 0 12

/-- Draws of a `Reset` that leave the first burst at `2 ^ 32 - 76` with size `1000`. -/
def drawsLate : Nat → ResetDraws := fun _ => ⟨10, 4294967285, 75, 1000⟩

/-- Draws of a `Reset` in the middle of a burst: `700` bytes of the burst remain. -/
def drawsMid : Nat → ResetDraws := fun _ => ⟨1000, 500, 300, 800⟩

/-- Draws of `ExtractBurst`: a pause of `200` and a next burst of `900`. -/
def drawsBurst : Nat → Int × Int := fun _ => (200, 900)

/-- The generator constructed with one stream whose first burst arrives at `2 ^ 32 - 76`. -/
def genLate : PacketGenerator Int :=
  (PacketGenerator.new divInt streams0 0 12 64 1 100 drawsLate).getD genEmpty

/-- The generator constructed with two streams, each in the middle of a burst. -/
def genTwo : PacketGenerator Int :=
  (PacketGenerator.new divInt streams0 0 12 64 2 100 drawsMid).getD genEmpty

/-! ## Statistics (`stats.h`) -/

/-- Class `Stats`; `stat_t` (`DOUBLE`) is taken in exact arithmetic, as rational numbers. -/
structure Stats where
  _Max : ℚ
  _Sqr : ℚ
  _Tot : ℚ
  _Cnt : ℚ
deriving DecidableEq

namespace Stats

/-- Method `Stats::Clear`, the state set by the constructor. -/
def Clear : Stats := { _Max := 0, _Sqr := 0, _Tot := 0, _Cnt := 0 }

/-- Method `Stats::Sample`. -/
def Sample (s : Stats) (sample : ℚ) (weight : ℚ) : Stats :=
  { _Tot := s._Tot + sample * weight,
    _Sqr := s._Sqr + sample * sample * weight,
    _Cnt := s._Cnt + weight,
    _Max := if s._Max < sample then sample else s._Max }

/-- Method `Stats::GetTotal`. -/
def GetTotal (s : Stats) : ℚ := s._Tot

/-- Method `Stats::GetCount`. -/
def GetCount (s : Stats) : ℚ := s._Cnt

/-- Method `Stats::GetMax`. -/
def GetMax (s : Stats) : ℚ := s._Max

/-- Operator `/` of `stat_t` values: the quotient in exact arithmetic; with the divisor `0`
the division yields no number (an infinity or a NaN of `DOUBLE`), which is `none`. -/
def quot (a b : ℚ) : Option ℚ := if b = 0 then none else some (a / b)

/-- Method `Stats::GetAvg`, `_Cnt? _Tot / _Cnt : INVALID_VAL`; `INVALID_VAL` is `0`. -/
def GetAvg (s : Stats) : Option ℚ := if s._Cnt ≠ 0 then quot s._Tot s._Cnt else some 0

/-- The object after the calls `Sample( x, w )` for the pairs `(x, w)` of the list, in order. -/
def samples (s : Stats) (l : List (ℚ × ℚ)) : Stats :=
  l.foldl (fun st p => st.Sample p.1 p.2) s

end Stats

/-! ## Drifting clock (`CClock`, `clock.h`) -/

/-- Macro `DRIFT_PERIOD`. -/
def DRIFT_PERIOD : Int := 1000000

/-- Class `CClock` (with its `CBase` part): `clockDrift` is the number of local ticks per
`DRIFT_PERIOD` global ticks (`int32s`). -/
structure CClock where
  this : Nat
  ID : Int
  timeOffset : Int
  clockDrift : Int
deriving DecidableEq, Repr

namespace CClock

/-- Constructor `CClock::CClock( clk_drift, id )` for the object at address `this`. -/
def new (this : Nat) (clk_drift : Int) (id : Int) : CClock :=
  { this := this, ID := id, timeOffset := 0, clockDrift := wrap32 (clk_drift + DRIFT_PERIOD) }

/-- Method `CClock::local_to_global`: `int64s` product, then the truncating division of C++;
`none` when the divisor is `0`. -/
def local_to_global (c : CClock) (lt : Int) : Option Int :=
  if c.clockDrift = 0 then none
  else some (wrap64 (Int.tdiv (wrap64 (lt * DRIFT_PERIOD)) c.clockDrift))

/-- Method `CClock::global_to_local( gt )`. -/
def global_to_local (c : CClock) (gt : Int) : Int :=
  wrap64 (Int.tdiv (wrap64 (gt * c.clockDrift)) DRIFT_PERIOD)

/-- Method `CClock::global_to_local( void )`. -/
def global_to_local_now (c : CClock) (q : CEventQueue) : Int :=
  wrap64 (Int.tdiv (wrap64 (DESL.GlobalTime q * c.clockDrift)) DRIFT_PERIOD)

/-- Method `CClock::LocalTime( void )`. -/
def LocalTime (c : CClock) (q : CEventQueue) : Int :=
  wrap64 (c.global_to_local_now q + c.timeOffset)

/-- Method `CClock::LocalTime( tm )`. -/
def setLocalTime (c : CClock) (q : CEventQueue) (tm : Int) : CClock :=
  { c with timeOffset := wrap64 (tm - c.global_to_local_now q) }

/-- Method `CClock::RegisterEvent`. -/
def RegisterEvent (c : CClock) (q : CEventQueue) (ptr : Ptr) (interval : Int) :
    Option CEventQueue :=
  match c.local_to_global interval with
  | none => none
  | some g => DESL.RegisterEvent q ptr g (some c.this)

/-- Method `CClock::RegisterEventAbs`. -/
def RegisterEventAbs (c : CClock) (q : CEventQueue) (ptr : Ptr) (localtime : Int) :
    Option CEventQueue :=
  c.RegisterEvent q ptr (wrap64 (localtime - c.LocalTime q))

end CClock

/-- The conversion of the specification: `g * (DRIFT_PERIOD + drift_ppm) / DRIFT_PERIOD`, the
division truncating. -/
def spec_global_to_local (drift_ppm g : Int) : Int :=
  Int.tdiv (g * (DRIFT_PERIOD + drift_ppm)) DRIFT_PERIOD

/-- The conversion of the specification: `l * DRIFT_PERIOD / (DRIFT_PERIOD + drift_ppm)`, the
division truncating. -/
def spec_local_to_global (drift_ppm l : Int) : Int :=
  Int.tdiv (l * DRIFT_PERIOD) (DRIFT_PERIOD + drift_ppm)

/-- The queue `qAlloc` after record `0` was registered with interval `2 ^ 44`
(`17592186044416`). -/
def qFarTree : CEventQueue := (qAlloc.RegisterEvent (some 0) 17592186044416).getD qAlloc

/-- The queue `qFarTree` after `GetNextEvent`: the current time is `2 ^ 44`. -/
def qFar : CEventQueue := (qFarTree.GetNextEvent.getD (qFarTree, none)).1

/-! ## Links (`link.h`) -/

/-- Class `LossLessLink`: the clock base, the single output port and the delay. -/
structure LossLessLink extends CClockSync where
  OutPort : Ptr
  Delay : Int
deriving DecidableEq, Repr

/-- Method `LossLessLink::ProcessEvent`. -/
def LossLessLink.ProcessEvent (l : LossLessLink) (q : CEventQueue) (pEvent : Nat) :
    Option CEventQueue :=
  let q1 := q.modify pEvent (fun e => { e with Consumer := l.OutPort })
  l.toCClockSync.RegisterEvent q1 (some pEvent) l.Delay

/-- Class `LossyLink`; the probability (`DOUBLE`) is a rational number, every finite `DOUBLE`
being one, and only compared. -/
structure LossyLink extends LossLessLink where
  LossProb : ℚ
deriving DecidableEq

/-- Method `LossyLink::ProcessEvent`; `u` is the value returned by `_uniform_real_0_1()`. -/
def LossyLink.ProcessEvent (l : LossyLink) (u : ℚ) (q : CEventQueue) (pEvent : Nat) :
    Option CEventQueue :=
  if u > l.LossProb then l.toLossLessLink.ProcessEvent q pEvent else some q

/-- Class `BiDirLink`: the clock base, the two output ports and the delay. -/
structure BiDirLink extends CClockSync where
  OutPort : Nat → Ptr
  Delay : Int

/-- Method `BiDirLink::ProcessEvent`. -/
def BiDirLink.ProcessEvent (l : BiDirLink) (q : CEventQueue) (pEvent : Nat) :
    Option CEventQueue :=
  let q1 := q.modify pEvent
    (fun e => { e with Consumer := l.OutPort (if e.Producer = l.OutPort 0 then 1 else 0) })
  l.toCClockSync.RegisterEvent q1 (some pEvent) l.Delay

/-- A packet event produced by the object `7` for the object `20`. -/
def eventFromOnu : CEvent :=
  { CEvent.zero with Type_ := EV_PCKT_ARRIVAL, Pckt := ⟨0, 100, 0⟩, Producer := some 7,
                     Consumer := some 20 }

/-- The queue `qAlloc` after the public members of record `0` were set from `eventFromOnu`. -/
def qFromOnu : CEventQueue := (step qAlloc (Op.Write 0 eventFromOnu)).getD qAlloc

/-- A link with delay `25000` between the object `7` on port `0` and the object `9` on port
`1`. -/
def lnk0 : BiDirLink :=
  { this := 20, ID := 0x2000, timeOffset := 0,
    OutPort := fun n => if n = 0 then some 7 else some 9, Delay := 25000 }

/-- A lossy link with delay `25000` to the object `9` and loss probability `0`. -/
def lossy0 : LossyLink :=
  { this := 20, ID := 0x2000, timeOffset := 0, OutPort := some 9, Delay := 25000, LossProb := 0 }

/-- The queue `qFromOnu` after record `0` was destroyed: the record is in the free pool. -/
def qRecycled : CEventQueue := qFromOnu.DestroyEvent (some 0)

/-- Order in which `ClearEventChain` leaves the records of a tree on the pool, top first: the
root, then the right subtree, then the left one. -/
def Shape.clearOrder : Shape → List Nat
  | Shape.nil => []
  | Shape.node l a r => a :: (clearOrder r ++ clearOrder l)

/-- Method `AVLNode::RemoveRightEnd`: the new heap, the new subtree root and the removed
node (`*ppNode`). -/
def AVL.RemoveRightEnd : Nat → Mem → Nat → Option (Mem × Ptr × Nat)
  | 0, _, _ => none
  | fuel + 1, m, this =>
    match (m this).RChild with
    | none => some (m, (m this).LChild, this)
    | some r =>
      match AVL.RemoveRightEnd fuel m r with
      | none => none
      | some (m1, r1, pNode) =>
        match AVL.RepairBalance (m1.setR this r1) this with
        | none => none
        | some (m2, x) => some (m2, some x, pNode)

/-- Method `AVLTree::RemoveTail`: the new heap, the new tree and the removed node. -/
def AVLTree.RemoveTail (fuel : Nat) (m : Mem) (t : AVLTree) : Option (Mem × AVLTree × Ptr) :=
  match t.pRoot with
  | none => some (m, t, none)
  | some root =>
    match AVL.RemoveRightEnd fuel m root with
    | none => none
    | some (m1, r1, pNode) => some (m1, { pRoot := r1, Count := t.Count - 1 }, some pNode)

/-- Tree left by `RemoveRightEnd`. -/
def Shape.removeRightEnd : Shape → Shape
  | Shape.nil => Shape.nil
  | Shape.node l _ Shape.nil => l
  | Shape.node l a (Shape.node rl b rr) =>
    Shape.repair (Shape.node l a (removeRightEnd (Shape.node rl b rr)))

/-- The balance condition of an AVL tree: at every node the heights of the two subtrees
differ by at most one. -/
def Shape.balanced : Shape → Prop
  | Shape.nil => True
  | Shape.node l _ r =>
    -1 ≤ Shape.height r - Shape.height l ∧ Shape.height r - Shape.height l ≤ 1 ∧
      balanced l ∧ balanced r

/-- Invariant of an `AVLTree` object over the heap: the root pointer spans the tree `tr`
(child pointers, stored heights and balances), the counter is the number of nodes, no node
occurs twice, and the keys are non-decreasing from left to right. -/
structure TreeInv (m : Mem) (t : AVLTree) (tr : Shape) : Prop where
  heap : HeapTree m tr
  root : t.pRoot = tr.root
  count : t.Count = tr.inorder.length
  nodup : tr.inorder.Nodup
  sorted : tr.inorder.Pairwise (fun a b => (m a).NodeKey ≤ (m b).NodeKey)

/-- The subtree rooted at the address `a`, if `a` is a node of the tree. -/
def Shape.subtreeAt (a : Nat) : Shape → Option Shape
  | Shape.nil => none
  | Shape.node l b r =>
    if b = a then some (Shape.node l b r)
    else
      match subtreeAt a l with
      | some s => some s
      | none => subtreeAt a r

/-- A heap of detached nodes with the keys `5`, `3` and `8` at the addresses `0`, `1` and
`2`, used for concrete runs. -/
def heapKeys : Mem :=
  fun a => { CEvent.zero with NodeKey := if a = 0 then 5 else if a = 1 then 3 else 8 }

/-- The heap and the tree after `AddNode` of the nodes `0`, `1` and `2` of `heapKeys` to an
empty tree. -/
def treeThree : Mem × AVLTree :=
  ((AVLTree.AddNode 3 heapKeys AVLTree.new (some 0)).bind (fun r1 =>
    (AVLTree.AddNode 3 r1.1 r1.2 (some 1)).bind (fun r2 =>
      AVLTree.AddNode 3 r2.1 r2.2 (some 2)))).getD (heapKeys, AVLTree.new)

/-- The shape of `treeThree`: node `0` at the root, node `1` to its left, node `2` to its
right. -/
def shapeThree : Shape :=
  Shape.node (Shape.node Shape.nil 1 Shape.nil) 0 (Shape.node Shape.nil 2 Shape.nil)

/-- Every node of the tree `tr` stores in the heap the height of the subtree it roots and
the difference of the heights of its right and left subtrees, and that difference is `-1`,
`0` or `1`. -/
def AvlNodes (m : Mem) (tr : Shape) : Prop :=
  ∀ a ∈ tr.inorder, ∃ l r, tr.subtreeAt a = some (Shape.node l a r) ∧
    (m a).Height = (Shape.node l a r).height ∧ (m a).Balance = r.height - l.height ∧
    -1 ≤ (m a).Balance ∧ (m a).Balance ≤ 1

/-- Method `AVLNode::RemoveNode`, with the recursion depth bounded by the fuel: the new heap,
the new subtree root and the value of `*result` (`result` is its value at the call).  The
result is `none` when the fuel runs out, and when control reaches the end of the function,
which has no `return` statement there (the node is not `this` and the subtree on the side of
its key is empty). -/
def AVL.RemoveNode : Nat → Mem → Nat → Nat → Bool → Option (Mem × Ptr × Bool)
  | 0, _, _, _, _ => none
  | fuel + 1, m, this, pNode, result =>
    if pNode = this then
      match (m this).LChild with
      | none => some (m, (m this).RChild, result)
      | some l =>
        match (m this).RChild with
        | none => some (m, some l, result)
        | some _ =>
          match AVL.RemoveRightEnd fuel m l with
          | none => none
          | some (m1, left_subroot, ptr) =>
            let m2 := m1.setL ptr left_subroot
            let m3 := m2.setR ptr (m2 this).RChild
            match AVL.RepairBalance m3 ptr with
            | none => none
            | some (m4, x) => some (m4, some x, true)
    else if (m pNode).NodeKey > (m this).NodeKey ∧ (m this).RChild ≠ none then
      match (m this).RChild with
      | none => none
      | some r =>
        match AVL.RemoveNode fuel m r pNode result with
        | none => none
        | some (m1, r1, res) =>
          match AVL.RepairBalance (m1.setR this r1) this with
          | none => none
          | some (m2, x) => some (m2, some x, res)
    else if (m pNode).NodeKey ≤ (m this).NodeKey ∧ (m this).LChild ≠ none then
      match (m this).LChild with
      | none => none
      | some l =>
        match AVL.RemoveNode fuel m l pNode result with
        | none => none
        | some (m1, l1, res) =>
          match AVL.RepairBalance (m1.setL this l1) this with
          | none => none
          | some (m2, x) => some (m2, some x, res)
    else none

/-- Method `AVLTree::RemoveNode`: the new heap, the new tree and the returned `result`. -/
def AVLTree.RemoveNode (fuel : Nat) (m : Mem) (t : AVLTree) (pNode : Ptr) :
    Option (Mem × AVLTree × Bool) :=
  match t.pRoot, pNode with
  | some root, some n =>
    match AVL.RemoveNode fuel m root n false with
    | none => none
    | some (m1, r1, result) =>
      some (m1, { pRoot := r1, Count := if result then t.Count - 1 else t.Count }, result)
  | _, _ => some (m, t, false)

/-- States of an `AVLTree` object reached from the empty tree by `AddNode` and `RemoveHead`
calls, with the list of the nodes in the tree in order of addition, most recently added
first.  A node is added while it is not in the tree, the fuel covers the number of nodes,
and between the calls the heap may change outside the records of the nodes in the tree.
The derived class `CEventQueue` also empties the tree by the assignment `pRoot = NULL` of
its `Reset`, which leaves the counter as it is (`clear`). -/
inductive TreeRun : Mem → AVLTree → List Nat → Prop where
  | empty (m : Mem) : TreeRun m AVLTree.new []
  | write {m m2 : Mem} {t : AVLTree} {log : List Nat} : TreeRun m t log →
      (∀ a ∈ log, m2 a = m a) → TreeRun m2 t log
  | add {m m2 : Mem} {t t2 : AVLTree} {log : List Nat} (n fuel : Nat) : TreeRun m t log →
      n ∉ log → log.length ≤ fuel → AVLTree.AddNode fuel m t (some n) = some (m2, t2) →
      TreeRun m2 t2 (n :: log)
  | removeHead {m m2 : Mem} {t t2 : AVLTree} {log : List Nat} (x fuel : Nat) :
      TreeRun m t log → log.length ≤ fuel →
      AVLTree.RemoveHead fuel m t = some (m2, t2, some x) → TreeRun m2 t2 (log.erase x)
  | clear {m : Mem} {t : AVLTree} {log : List Nat} : TreeRun m t log →
      TreeRun m { pRoot := none, Count := t.Count } []

/-- The node `x` was added after the node `y`: `x` comes before `y` in the list of the nodes
in order of addition, most recent first. -/
def AddedAfter (log : List Nat) (x y : Nat) : Prop := [x, y].Sublist log

/-- Nodes with equal keys stand in the sequence `l` in order of addition, most recent
first. -/
def TiesNewestFirst (key : Nat → Int) (l log : List Nat) : Prop :=
  l.Pairwise (fun a b => key a = key b → AddedAfter log a b)

/-- Effect of an engine call on the list of the events waiting in the ordered queue, in
order of registration, most recent first: `RegisterEvent` of a detached event with a positive
interval puts the event in front, and the event returned by `GetNextEvent` is removed (an
event returned from the top-events stack is not in the list). -/
def logStep (q : CEventQueue) (log : List Nat) : Op → List Nat
  | Op.RegisterEvent (some a) i =>
    if CEventQueue.IsActive q.mem a = true ∧ 0 < i then a :: log else log
  | Op.GetNextEvent =>
    match q.GetNextEvent with
    | some (_, some x) => log.erase x
    | _ => log
  | _ => log

/-- States of the event queue reached from the constructor by admissible engine calls, by
`CEventQueue::Reset` and by `DeleteEvents` (as in `Reachable`), with the list of the events
waiting in the ordered queue in order of registration, most recent first; `Reset` and
`DeleteEvents` empty the ordered queue. -/
inductive QueueLog (heap : Mem) : CEventQueue → List Nat → Prop where
  | init : QueueLog heap (CEventQueue.new heap) []
  | call {q q1 : CEventQueue} {log : List Nat} (op : Op) : QueueLog heap q log →
      op.ok q = true → step q op = some q1 → QueueLog heap q1 (logStep q log op)
  | reset {q q1 : CEventQueue} {log : List Nat} : QueueLog heap q log →
      q.Reset = some q1 → QueueLog heap q1 []
  | deleteEvents {q q1 : CEventQueue} {log : List Nat} : QueueLog heap q log →
      (∀ a, a < q.brk → CEventQueue.IsActive q.mem a = false) →
      q.DeleteEvents = some q1 → QueueLog heap { q1 with brk := 0 } []

/-- A heap of detached nodes that all have the key `5`, used for concrete runs. -/
def heapSame : Mem := fun _ => { CEvent.zero with NodeKey := 5 }

/-- The heap and the tree after `AddNode` of the nodes `0` and then `1` of `heapSame` to an
empty tree. -/
def treeSame : Mem × AVLTree :=
  ((AVLTree.AddNode 2 heapSame AVLTree.new (some 0)).bind (fun r1 =>
    AVLTree.AddNode 2 r1.1 r1.2 (some 1))).getD (heapSame, AVLTree.new)

/-! ## Object identifiers and the monitor (`sim_config.h`, `test_001.h`) -/

/-- Conversion to `int16s`, the type `obid_t` of the object ids. -/
def wrap16 (x : Int) : Int := (x + 2 ^ 15) % 2 ^ 16 - 2 ^ 15

def OLT_BASE_ID : Int := 0x0100
def ONU_BASE_ID : Int := 0x1000
def LNK_BASE_ID : Int := 0x2000
def SRC_BASE_ID : Int := 0x4000

/-- Macro `_OLT_ID( N )`, the exclusive or `(N) ^ OLT_BASE_ID` of `int` values. -/
def _OLT_ID (N : Int) : Int := Int.xor N OLT_BASE_ID

/-- Macro `_ONU_ID( N )`. -/
def _ONU_ID (N : Int) : Int := Int.xor N ONU_BASE_ID

/-- Macro `_LNK_ID( N )`. -/
def _LNK_ID (N : Int) : Int := Int.xor N LNK_BASE_ID

/-- Macro `_SRC_ID( N )`. -/
def _SRC_ID (N : Int) : Int := Int.xor N SRC_BASE_ID

/-- The globals of `test_001.h` that `Monitor` reads and writes; of each array indexed by the
test number the entry `NumTest` of the running test.  The counters of packets are `int32s`,
the counters of bytes `int64s`. -/
structure MonitorState where
  LastQueueLength : Int
  LastQueueChange : Int
  LastCycleStart : Int
  RcvdPckt : Int
  DropPckt : Int
  SentPckt : Int
  RcvdByte : Int
  DropByte : Int
  SentByte : Int
  SchdByte : Int
  DLY : Stats
  QUE : Stats
  CYC : Stats
deriving DecidableEq

/-- Function `Monitor` of `test_001.h` on the event `e`.  `ID` gives the id of the object at
an address (`pEvent->Consumer->ID`), `GetQueueLength` the queue length of `pONU[ i ]`, and
`GlobalTime` is `DESL::GlobalTime()`; the result is `none` when a null `Consumer` or
`Producer` is dereferenced.  `DOUBLE` values are taken in exact arithmetic. -/
def Monitor (ID : Nat → Int) (GetQueueLength : Nat → Int) (GlobalTime : Int)
    (s : MonitorState) (e : CEvent) : Option MonitorState :=
  let toOnu : Option Bool :=
    if e.Type_ = EV_PCKT_ARRIVAL then
      e.Consumer.map (fun c => decide (Int.land (ID c) ONU_BASE_ID ≠ 0))
    else some false
  match toOnu with
  | none => none
  | some true =>
    some { s with RcvdPckt := wrap32 (s.RcvdPckt + 1),
                  RcvdByte := wrap64 (s.RcvdByte + e.Pckt.PcktSize) }
  | some false =>
    let fromOnu : Option Bool :=
      if e.Type_ = EV_PCKT_ARRIVAL then
        e.Producer.map (fun p => decide (Int.land (ID p) ONU_BASE_ID ≠ 0))
      else some false
    match fromOnu with
    | none => none
    | some true =>
      let pckt_dly : ℚ := (wrap64 (GlobalTime - e.Pckt.PcktTime) : ℚ) / 1000000
      some { s with DLY := s.DLY.Sample pckt_dly 1,
                    SentPckt := wrap32 (s.SentPckt + 1),
                    SentByte := wrap64 (s.SentByte + e.Pckt.PcktSize) }
    | some false =>
      if e.Type_ = EV_PCKT_DROP then
        some { s with DropPckt := wrap32 (s.DropPckt + 1),
                      DropByte := wrap64 (s.DropByte + e.Pckt.PcktSize) }
      else if e.Type_ = EV_PCKT_ENQUE ∨ e.Type_ = EV_PCKT_DEQUE then
        let s1 : MonitorState :=
          if s.LastQueueChange = 0 then
            { s with LastQueueLength :=
                       (List.range 16).foldl
                         (fun len onu_index => wrap32 (len + GetQueueLength onu_index))
                         s.LastQueueLength }
          else
            { s with QUE :=
                       s.QUE.Sample (s.LastQueueLength : ℚ)
                         ((wrap64 (GlobalTime - s.LastQueueChange) : Int) : ℚ),
                     LastQueueLength :=
                       wrap32 (s.LastQueueLength
                         + e.Pckt.PcktSize * (if e.Type_ = EV_PCKT_ENQUE then 1 else -1)) }
        some { s1 with LastQueueChange := GlobalTime }
      else
        let firstOnu : Option Bool :=
          if e.Type_ = EV_MPCP_GATE then
            e.Consumer.map (fun c => decide (ID c = ONU_BASE_ID))
          else some false
        match firstOnu with
        | none => none
        | some true =>
          let s1 : MonitorState :=
            if s.LastCycleStart ≠ 0 then
              { s with CYC :=
                         s.CYC.Sample
                           ((wrap64 (e.GATE.StartTime - s.LastCycleStart) : ℚ) / 1000000) 1 }
            else s
          some { s1 with LastCycleStart := e.GATE.StartTime,
                         SchdByte := wrap64 (s1.SchdByte + e.GATE.Length) }
        | some false => some s

/-- The id is one that `InitializeEPON` gives to an ONU: `_ONU_ID( n )` for an `n` below
`NUM_LLID`, converted to `obid_t`. -/
def IsOnuId (id : Int) : Prop := ∃ n, 0 ≤ n ∧ n < NUM_LLID ∧ id = wrap16 (_ONU_ID n)

/-- The id is one that `InitializeEPON` gives to an object: `_OLT_ID( 2 )` to the OLT, and
`_ONU_ID( n )`, `_LNK_ID( n )` and `_SRC_ID( n )` to the ONUs, the links and the sources, for
`n` below `NUM_LLID`. -/
def IsEponId (id : Int) : Prop :=
  id = wrap16 (_OLT_ID 2) ∨ ∃ n, 0 ≤ n ∧ n < NUM_LLID ∧
    (id = wrap16 (_ONU_ID n) ∨ id = wrap16 (_LNK_ID n) ∨ id = wrap16 (_SRC_ID n))

/-! ## Packets in doubly linked lists (`_list.h`, `pktsrc.h`) and the FIFO of the ONU -/

/-- Class `Packet`: the `Pckt_Data_t` base and the two links. -/
structure Packet extends Pckt_Data_t where
  pPrev : Ptr
  pNext : Ptr
deriving DecidableEq, Repr

/-- The heap of packets: the record stored at each address. -/
abbrev PMem := Nat → Packet

/-- Write a whole packet record at one address. -/
def PMem.set (m : PMem) (a : Nat) (e : Packet) : PMem := fun b => if b = a then e else m b

/-- Class `PDList< Packet >`. -/
structure PDList where
  pHead : Ptr
  pTail : Ptr
  Count : Int
deriving DecidableEq, Repr

namespace PDList

/-- Method `PDList::Clear`, the state set by the constructor. -/
def Clear : PDList := { pHead := none, pTail := none, Count := 0 }

/-- Method `PDList::GetCount`. -/
def GetCount (l : PDList) : Int := l.Count

/-- Method `PDList::Insert( prv, ptr, nxt )`. -/
def Insert (m : PMem) (l : PDList) (prv ptr nxt : Ptr) : PMem × PDList :=
  match ptr with
  | none => (m, l)
  | some p =>
    let m1 := m.set p { m p with pPrev := prv }
    let m2 := m1.set p { m1 p with pNext := nxt }
    let r1 : PMem × PDList :=
      match prv with
      | none => (m2, { l with pHead := some p })
      | some a => (m2.set a { m2 a with pNext := some p }, l)
    let r2 : PMem × PDList :=
      match nxt with
      | none => (r1.1, { r1.2 with pTail := some p })
      | some b => (r1.1.set b { r1.1 b with pPrev := some p }, r1.2)
    (r2.1, { r2.2 with Count := r2.2.Count + 1 })

/-- Method `PDList::Remove( ptr )`: the new heap, the new list and the returned pointer. -/
def Remove (m : PMem) (l : PDList) (ptr : Ptr) : PMem × PDList × Ptr :=
  match ptr with
  | none => (m, l, none)
  | some p =>
    let prv := (m p).pPrev
    let nxt := (m p).pNext
    let l1 : PDList := if some p = l.pTail then { l with pTail := prv } else l
    let l2 : PDList := if some p = l1.pHead then { l1 with pHead := nxt } else l1
    let m1 : PMem :=
      match prv with
      | some a => m.set a { m a with pNext := nxt }
      | none => m
    let m2 : PMem :=
      match nxt with
      | some b => m1.set b { m1 b with pPrev := prv }
      | none => m1
    (m2, { l2 with Count := l2.Count - 1 }, some p)

/-- Method `PDList::Append`. -/
def Append (m : PMem) (l : PDList) (ptr : Ptr) : PMem × PDList := l.Insert m l.pTail ptr none

/-- Method `PDList::InsertHead`. -/
def InsertHead (m : PMem) (l : PDList) (ptr : Ptr) : PMem × PDList :=
  l.Insert m none ptr l.pHead

/-- Method `PDList::RemoveHead`. -/
def RemoveHead (m : PMem) (l : PDList) : PMem × PDList × Ptr := l.Remove m l.pHead

end PDList

/-- The heap of packets with the allocation frontier of `new Packet` (the addresses below
`brk` hold constructed packets) and the static list `PacketPool::ppPool` of free packets. -/
structure PacketHeap where
  mem : PMem
  brk : Nat
  ppPool : PDList

namespace PacketPool

/-- Method `PacketPool::AllocatePacket`: the head of the pool if the pool counts a packet,
a new packet (constructor: both links null, the data members not initialised) otherwise. -/
def AllocatePacket (h : PacketHeap) : PacketHeap × Ptr :=
  if h.ppPool.GetCount > 0 then
    let r := h.ppPool.RemoveHead h.mem
    ({ h with mem := r.1, ppPool := r.2.1 }, r.2.2)
  else
    let p := h.brk
    ({ h with brk := h.brk + 1,
              mem := h.mem.set p { h.mem p with pPrev := none, pNext := none } }, some p)

/-- Method `PacketPool::DestroyPacket`. -/
def DestroyPacket (h : PacketHeap) (pPckt : Ptr) : PacketHeap :=
  let r := h.ppPool.InsertHead h.mem pPckt
  { h with mem := r.1, ppPool := r.2 }

end PacketPool

/-- The members of class `ONU` that `EnqueuePacket` and `DequeuePacket` use, with the queue
as the `PDList< Packet >` object of the source. -/
structure OnuFifo where
  FIFO : PDList
  QueueBytes : Int
deriving DecidableEq, Repr

namespace OnuFifo

/-- Method `ONU::EnqueuePacket` on the heap of packets; `none` when the allocated pointer is
null. -/
def EnqueuePacket (h : PacketHeap) (o : OnuFifo) (pckt : Pckt_Data_t) :
    Option (PacketHeap × OnuFifo) :=
  match PacketPool.AllocatePacket h with
  | (_, none) => none
  | (h1, some ptr) =>
    let m1 := h1.mem.set ptr { h1.mem ptr with toPckt_Data_t := pckt }
    let r := o.FIFO.Append m1 (some ptr)
    some ({ h1 with mem := r.1 },
          { FIFO := r.2, QueueBytes := wrap32 (o.QueueBytes + pckt.PcktSize) })

/-- Method `ONU::DequeuePacket` on the heap of packets: the new heap, the new queue and the
returned packet. -/
def DequeuePacket (h : PacketHeap) (o : OnuFifo) : PacketHeap × OnuFifo × Pckt_Data_t :=
  let pckt : Pckt_Data_t := ⟨0, 0, 0⟩
  let r := o.FIFO.RemoveHead h.mem
  match r.2.2 with
  | none => ({ h with mem := r.1 }, { o with FIFO := r.2.1 }, pckt)
  | some ptr =>
    let pckt1 := (r.1 ptr).toPckt_Data_t
    let h1 := PacketPool.DestroyPacket { h with mem := r.1 } (some ptr)
    (h1, { FIFO := r.2.1, QueueBytes := wrap32 (o.QueueBytes - pckt1.PcktSize) }, pckt1)

end OnuFifo

/-- A call on the queue of an ONU. -/
inductive FifoCall where
  | enqueue (pckt : Pckt_Data_t) : FifoCall
  | dequeue : FifoCall

/-- Effect of a sequence of `EnqueuePacket` and `DequeuePacket` calls on the heap of
packets: the final state and the packets returned by the `DequeuePacket` calls, in order. -/
def OnuFifo.run : PacketHeap → OnuFifo → List FifoCall →
    Option (PacketHeap × OnuFifo × List Pckt_Data_t)
  | h, o, [] => some (h, o, [])
  | h, o, FifoCall.enqueue pckt :: cs =>
    match OnuFifo.EnqueuePacket h o pckt with
    | none => none
    | some (h1, o1) => OnuFifo.run h1 o1 cs
  | h, o, FifoCall.dequeue :: cs =>
    match OnuFifo.run (OnuFifo.DequeuePacket h o).1 (OnuFifo.DequeuePacket h o).2.1 cs with
    | none => none
    | some (h2, o2, out) => some (h2, o2, (OnuFifo.DequeuePacket h o).2.2 :: out)

/-- Following `pNext` from `p` visits exactly the addresses of `l`, then `NULL`, and every
packet points back with `pPrev` to the one before it (`prv` for the first). -/
def DChain (m : PMem) : Ptr → List Nat → Ptr → Prop
  | _, [], p => p = none
  | prv, a :: l, p => p = some a ∧ (m a).pPrev = prv ∧ DChain m (some a) l (m a).pNext

/-- A list object describes the sequence `l` of packets from head to tail. -/
def DListOf (m : PMem) (d : PDList) (l : List Nat) : Prop :=
  DChain m none l d.pHead ∧ d.pTail = l.getLast? ∧ d.Count = l.length

/-- Invariant of the queue of an ONU and of the pool of free packets over the heap: `fifo`
lists the queued packets from head to tail, `pool` the free packets; no packet occurs twice
and all of them are constructed. -/
structure FifoInv (h : PacketHeap) (o : OnuFifo) (fifo pool : List Nat) : Prop where
  fifoL : DListOf h.mem o.FIFO fifo
  poolL : DListOf h.mem h.ppPool pool
  nodup : (fifo ++ pool).Nodup
  alloc : ∀ a ∈ fifo ++ pool, a < h.brk

/-- Specification of a first-in first-out queue with contents `l` (head first): the packets
returned by the `dequeue` calls of a call sequence; a `dequeue` on the empty queue returns the
all-zero packet. -/
def fifoSpec : List Pckt_Data_t → List FifoCall → List Pckt_Data_t
  | _, [] => []
  | l, FifoCall.enqueue pckt :: cs => fifoSpec (l ++ [pckt]) cs
  | l, FifoCall.dequeue :: cs =>
    match l with
    | [] => ⟨0, 0, 0⟩ :: fifoSpec [] cs
    | pckt :: rest => pckt :: fifoSpec rest cs

/-- Specification of `queue_bytes` along a call sequence: a packet adds its size when it is
queued and subtracts it when it is returned; a `dequeue` on the empty queue changes
nothing. -/
def bytesSpec : List Pckt_Data_t → Int → List FifoCall → Int
  | _, b, [] => b
  | l, b, FifoCall.enqueue pckt :: cs => bytesSpec (l ++ [pckt]) (wrap32 (b + pckt.PcktSize)) cs
  | l, b, FifoCall.dequeue :: cs =>
    match l with
    | [] => bytesSpec [] b cs
    | pckt :: rest => bytesSpec rest (wrap32 (b - pckt.PcktSize)) cs

/-- The heap of packets before any packet is constructed, with an empty pool. -/
def packetHeap0 : PacketHeap :=
  { mem := fun _ => { PcktTime := 0, PcktSize := 0, SourceId := 0, pPrev := none, pNext := none },
    brk := 0, ppPool := PDList.Clear }

/-- The queue of a new ONU: the list set by its constructor and no queued bytes. -/
def onuFifo0 : OnuFifo := { FIFO := PDList.Clear, QueueBytes := 0 }

/-- The heap and the queue of a new ONU after `EnqueuePacket` of a packet of `100` bytes born
at time `5` in source `1`. -/
def fifoOne : PacketHeap × OnuFifo :=
  (OnuFifo.EnqueuePacket packetHeap0 onuFifo0 ⟨5, 100, 1⟩).getD (packetHeap0, onuFifo0)

namespace OLT

/-- The local `rtt` of `ReceiveREPORTPacket` for the REPORT `pEvent`: the value of
`LocalTime() - pEvent->RPRT.Timestamp`. -/
def measuredRtt (o : OLT) (q : CEventQueue) (pEvent : Nat) : Int :=
  wrap64 (o.toCClockSync.LocalTime q - (q.mem pEvent).RPRT.Timestamp)

/-- The local time of the OLT in the state `q`, in exact arithmetic. -/
def reportTime (o : OLT) (q : CEventQueue) : Int := q.eqCurrentTime + o.timeOffset

/-- The timestamp `ReceiveREPORTPacket` gives to its GATE, in exact arithmetic. -/
def gateStamp (o : OLT) (q : CEventQueue) : Int :=
  o.reportTime q + (MPCP_PACKET_SIZE + PACKET_OVERHEAD) * PON_BYTE_TIME + OLT_HW_PROCESS_DELAY

/-- The start time `ReceiveREPORTPacket` gives to its GATE for the REPORT `p`, in exact
arithmetic. -/
def gateStart (o : OLT) (q : CEventQueue) (p : Nat) : Int :=
  max (o.gateStamp q + ONU_HW_PROCESS_DELAY)
    (o.ScheduleEnd - (o.reportTime q - (q.mem p).RPRT.Timestamp))

/-- The length `ReceiveREPORTPacket` grants for the REPORT `p`, in exact arithmetic. -/
def gateLength (o : OLT) (q : CEventQueue) (p : Nat) : Int :=
  min ((q.mem p).RPRT.Length + (MPCP_PACKET_SIZE + PACKET_OVERHEAD)) o.MaxSlot

/-- None of the values that `ReceiveREPORTPacket` computes for the REPORT `p` overflows its
machine type. -/
def ReportInRange (o : OLT) (q : CEventQueue) (p : Nat) : Prop :=
  fits64 (o.reportTime q) ∧ fits64 (o.reportTime q - (q.mem p).RPRT.Timestamp) ∧
  fits64 (o.gateStamp q) ∧ fits64 (o.gateStamp q + ONU_HW_PROCESS_DELAY) ∧
  fits64 (o.ScheduleEnd - (o.reportTime q - (q.mem p).RPRT.Timestamp)) ∧
  fits32 ((q.mem p).RPRT.Length + (MPCP_PACKET_SIZE + PACKET_OVERHEAD)) ∧
  fits32 (o.gateLength q p * PON_BYTE_TIME) ∧
  fits64 (o.gateStart q p + (o.reportTime q - (q.mem p).RPRT.Timestamp)) ∧
  fits64 (o.gateStart q p + (o.reportTime q - (q.mem p).RPRT.Timestamp)
    + o.gateLength q p * PON_BYTE_TIME) ∧
  fits64 (o.gateStart q p + (o.reportTime q - (q.mem p).RPRT.Timestamp)
    + o.gateLength q p * PON_BYTE_TIME + GUARD_BAND_TIME) ∧
  q.eqCurrentTime + (o.gateStamp q - o.reportTime q) ≤ INT64_MAX

instance (o : OLT) (q : CEventQueue) (p : Nat) : Decidable (o.ReportInRange q p) := by
  unfold ReportInRange; infer_instance

end OLT

/-- The test of `ONU::ProcessGATE` for a late grant,
`pEvent->GATE.StartTime < LocalTime() + ONU_HW_PROCESS_DELAY`, evaluated as in the source
after the call `LocalTime( pEvent->GATE.Timestamp )`. -/
def ONU.LateGrant (o : ONU) (q : CEventQueue) (pEvent : Nat) : Prop :=
  (q.mem pEvent).GATE.StartTime
    < wrap64 (CClockSync.LocalTime
        { o.toCClockSync with
          timeOffset := CClockSync.setLocalTime q (q.mem pEvent).GATE.Timestamp } q
      + ONU_HW_PROCESS_DELAY)

instance (o : ONU) (q : CEventQueue) (pEvent : Nat) : Decidable (o.LateGrant q pEvent) := by
  unfold ONU.LateGrant; infer_instance

/-- The OLT `olt0` after it handled the REPORT of `rReport`: the schedule ends at `35912`. -/
def oltNext : OLT := { olt0 with ScheduleEnd := 35912 }

/-- The OLT `olt0` with the clock offset `100`. -/
def olt100 : OLT := { olt0 with timeOffset := 100 }

/-- The ONU `onu0` with the clock offset it takes from the GATE of `rGateArrived`. -/
def onuSynced : ONU := { onu0 with timeOffset := -24900 }

/-- The queue before `GlobalReset`, after three records were constructed: record `1` was
registered with interval `7` and waits in the ordered queue, record `2` was registered with
interval `0` and waits on the top-events stack, record `0` is detached. -/
def qBoot : CEventQueue :=
  (run (CEventQueue.new heap0) [Op.AllocateEvent, Op.AllocateEvent, Op.AllocateEvent,
    Op.RegisterEvent (some 1) 7, Op.RegisterEvent (some 2) 0]).getD (CEventQueue.new heap0)

/-- The queue `qBoot` after `Reset`: the records `2` and `1` are in the free pool and the
counter of the empty tree is still `1`. -/
def qReset : CEventQueue := qBoot.Reset.getD qBoot

/-- A queue of the running simulation: after the `Reset` of `qBoot` an event was allocated (the
recycled record `2`) and registered with interval `1000000`.  Record `2` waits in the ordered
queue, record `1` is in the free pool, record `0` is detached, the current time is `0` and the
counter of the tree is `2` for one node. -/
def qRun : CEventQueue :=
  (run qReset [Op.AllocateEvent, Op.RegisterEvent (some 2) 1000000]).getD qReset

/-- The queue `qRun` after record `0` was registered with interval `0`. -/
def rTop : CEventQueue := (qRun.RegisterEvent (some 0) 0).getD qRun

/-- The queue `qRun` whose detached record `0` is a `PCKT_ARRIVAL` carrying 100 bytes. -/
def rArrival : CEventQueue :=
  qRun.modify 0 (fun e => { e with Type_ := EV_PCKT_ARRIVAL, Pckt := ⟨0, 100, 1⟩ })

/-- The queue `qRun` whose detached record `0` is a REPORT of 100 bytes produced by object
`7` with timestamp `0`. -/
def rReport : CEventQueue :=
  qRun.modify 0 (fun e => { e with Type_ := EV_MPCP_REPORT, RPRT := ⟨0, 100⟩,
                                     Producer := some 7 })

/-- The queue `qRun` whose detached record `0` is a GATE with timestamp `100`, start time
`20000` and length `84`: in time, with room for a REPORT only. -/
def rGateReport : CEventQueue :=
  qRun.modify 0 (fun e => { e with Type_ := EV_MPCP_GATE, GATE := ⟨100, 20000, 84⟩ })

/-- The queue `qRun` whose detached record `0` is a GATE with timestamp `100`, start time
`20000` and length `1000`: in time, with room for a REPORT and for data. -/
def rGateData : CEventQueue :=
  qRun.modify 0 (fun e => { e with Type_ := EV_MPCP_GATE, GATE := ⟨100, 20000, 1000⟩ })

/-- The queue `qRun` whose detached record `0` is a GATE with timestamp `100`, start time
`20000` and length `50`: too small for a REPORT. -/
def rGateSmall : CEventQueue :=
  qRun.modify 0 (fun e => { e with Type_ := EV_MPCP_GATE, GATE := ⟨100, 20000, 50⟩ })

/-- The queue `qRun` whose detached record `0` is a TIMER_GRANT_REPORT event. -/
def rTimerReport : CEventQueue :=
  qRun.modify 0 (fun e => { e with Type_ := EV_TIMER_GRANT_REPORT })

/-- The queue `qRun` after the public members of record `0` were set from `eventFromOnu`. -/
def rFromOnu : CEventQueue := (step qRun (Op.Write 0 eventFromOnu)).getD qRun

/-- The queue `rFromOnu` after record `0` was destroyed: the record is in the free pool. -/
def rRecycled : CEventQueue := rFromOnu.DestroyEvent (some 0)

/-- The queue in which the GATE of `rGateReport` reaches the ONU: the link `lnk0` registered
it with its delay and `GetNextEvent` returned it, at time `25000`. -/
def rGateArrived : CEventQueue :=
  (((lnk0.ProcessEvent rGateReport 0).bind (fun r => r.GetNextEvent)).map Prod.fst).getD
    rGateReport

/-- The queue `qRun` whose detached record `0` is a REPORT with timestamp `-24228` and
length `0`. -/
def rRprt : CEventQueue :=
  (step qRun (Op.Write 0 { CEvent.zero with Type_ := EV_MPCP_REPORT,
                                              RPRT := ⟨-24228, 0⟩ })).getD qRun

/-- The REPORT of `rRprt` registered with the interval `672`. -/
def rRprtLinkTree : CEventQueue := (rRprt.RegisterEvent (some 0) 672).getD rRprt

/-- The queue in which the REPORT reaches the link: `GetNextEvent` returned it at time
`672`. -/
def rRprtLink : CEventQueue := (rRprtLinkTree.GetNextEvent.getD (rRprtLinkTree, none)).1

/-- The REPORT of `rRprt` registered with the interval `25672`. -/
def rRprtOltTree : CEventQueue := (rRprt.RegisterEvent (some 0) 25672).getD rRprt

/-- The queue in which the REPORT reaches the OLT: `GetNextEvent` returned it at time
`25672`. -/
def rRprtOlt : CEventQueue := (rRprtOltTree.GetNextEvent.getD (rRprtOltTree, none)).1

/-- Effect of a sequence of engine calls on the list of the events waiting in the ordered
queue. -/
def logRun (q : CEventQueue) (log : List Nat) : List Op → List Nat
  | [] => log
  | op :: ops =>
    match step q op with
    | none => log
    | some q1 => logRun q1 (logStep q log op) ops

/-- The queue `qRun` after record `0` was registered with interval `7`, an event was allocated
(the recycled record `1`) and registered with interval `7` as well: the records `1` and `0`
wait in the ordered queue with the same activation time, record `1` registered last. -/
def rSame : CEventQueue :=
  (run qRun [Op.RegisterEvent (some 0) 7, Op.AllocateEvent, Op.RegisterEvent (some 1) 7]).getD
    qRun

/-- A packet of the largest size, `65535` bytes. -/
def pcktBig : Pckt_Data_t := ⟨0, 65535, 1⟩

/-- The ONU `onu0` after `n` packets of `65535` bytes were enqueued. -/
def onuFill : Nat → ONU
  | 0 => onu0
  | n + 1 => (onuFill n).EnqueuePacket pcktBig

/-- The queue `qRun` whose detached record `0` is a `PCKT_ARRIVAL` carrying `65535` bytes. -/
def rArrivalBig : CEventQueue :=
  qRun.modify 0 (fun e => { e with Type_ := EV_PCKT_ARRIVAL, Pckt := pcktBig })

/-- The queue `qRun` whose detached record `0` is a `TIMER_GRANT_DATA` event for a grant of
`1000` bytes. -/
def rGrant : CEventQueue :=
  qRun.modify 0 (fun e => { e with Type_ := EV_TIMER_GRANT_DATA, GATE := ⟨0, 0, 1000⟩ })

/-- The ONU `onu0` after it processed the grant timer of `rGrant` with an empty FIFO: the slot
is open until the local time `8000`. -/
def onuOpen : ONU := ((onu0.ProcessEvent rGrant 0).getD (onu0, rGrant)).1

/-- The ONU `onuOpen` after it processed the arrival of `rArrival`: a packet of `100` bytes
waits in the FIFO while the slot is open. -/
def onuReady : ONU := ((onuOpen.ProcessEvent rArrival 0).getD (onuOpen, rArrival)).1

/-- A queue of the running simulation with a record in each place: from `qRun` two events
were allocated (the recycled record `1` and the new record `3`), record `1` was destroyed,
record `0` was registered with interval `0` and record `3` was given the consumer `9`.
Record `2` waits in the ordered queue, record `0` on the top-events stack, record `1` is in
the free pool and record `3` is detached. -/
def rFour : CEventQueue :=
  (run qRun [Op.AllocateEvent, Op.AllocateEvent, Op.DestroyEvent (some 1),
    Op.RegisterEvent (some 0) 0,
    Op.Write 3 { CEvent.zero with Type_ := EV_PCKT_ARRIVAL, Consumer := some 9 }]).getD qRun

/-- The heap and the tree after the tree of `treeSame` was emptied by the assignment
`pRoot = NULL`, which keeps the counter `2`, and the nodes `0` and then `1` were added again:
the counter is `4` for two nodes. -/
def treeStale : Mem × AVLTree :=
  ((AVLTree.AddNode 2 treeSame.1 { pRoot := none, Count := treeSame.2.Count } (some 0)).bind
    (fun r1 => AVLTree.AddNode 2 r1.1 r1.2 (some 1))).getD treeSame

/-- The queue `qRun` after record `0` was given the consumer `9` and registered with interval
`7`: it waits in the ordered queue before record `2`. -/
def rQueued : CEventQueue :=
  (run qRun [Op.Write 0 { CEvent.zero with Type_ := EV_PCKT_ARRIVAL, Consumer := some 9 },
    Op.RegisterEvent (some 0) 7]).getD qRun

/-! # Theorems -/

/-! ## Heap writes -/

@[simp] theorem Mem.set_same (m : Mem) (a : Nat) (e : CEvent) : (m.set a e) a = e := by
  simp [Mem.set]

@[simp] theorem Mem.set_other (m : Mem) (a b : Nat) (e : CEvent) (h : b ≠ a) :
    (m.set a e) b = m b := by
  simp [Mem.set, h]

theorem Mem.set_apply (m : Mem) (a b : Nat) (e : CEvent) :
    (m.set a e) b = if b = a then e else m b := rfl

namespace Shape

theorem height_ge (t : Shape) : -1 ≤ t.height := by
  induction t with
  | nil => simp [height]
  | node l a r ihl ihr => simp only [height, MAX]; split <;> omega

theorem height_node_nonneg (l r : Shape) (a : Nat) : 0 ≤ (node l a r).height := by
  have := height_ge l; have := height_ge r
  simp only [height, MAX]; split <;> omega

theorem inorder_promoteRight (t : Shape) : t.promoteRight.inorder = t.inorder := by
  unfold promoteRight
  split <;> simp [inorder]

theorem inorder_promoteLeft (t : Shape) : t.promoteLeft.inorder = t.inorder := by
  unfold promoteLeft
  split <;> simp [inorder]

theorem inorder_repair (t : Shape) : t.repair.inorder = t.inorder := by
  cases t with
  | nil => rfl
  | node l a r =>
    simp only [repair]
    split_ifs <;> simp [inorder_promoteLeft, inorder_promoteRight, inorder]

end Shape

/-! ## Frame reasoning -/

theorem Touches.refl (m : Mem) (S : List Nat) : Touches m m S :=
  ⟨fun _ _ => rfl, fun _ => rfl⟩

theorem Touches.trans {m1 m2 m3 : Mem} {S1 S2 S : List Nat} (h12 : Touches m1 m2 S1)
    (h23 : Touches m2 m3 S2) (h1 : ∀ x ∈ S1, x ∈ S) (h2 : ∀ x ∈ S2, x ∈ S) :
    Touches m1 m3 S := by
  refine ⟨fun x hx => ?_, fun x => ?_⟩
  · rw [h23.1 x (fun h => hx (h2 x h)), h12.1 x (fun h => hx (h1 x h))]
  · rw [h23.2 x, h12.2 x]

theorem Touches.mono {m1 m2 : Mem} {S1 S : List Nat} (h : Touches m1 m2 S1)
    (h1 : ∀ x ∈ S1, x ∈ S) : Touches m1 m2 S :=
  ⟨fun x hx => h.1 x (fun hx1 => hx (h1 x hx1)), h.2⟩

theorem Touches.key {m1 m2 : Mem} {S : List Nat} (h : Touches m1 m2 S) (x : Nat) :
    (m2 x).NodeKey = (m1 x).NodeKey := by
  have := congrArg CEvent.NodeKey (h.2 x)
  simpa [CEvent.data] using this

theorem Touches.set_links (m : Mem) (a : Nat) (e : CEvent) (he : e.data = (m a).data) :
    Touches m (m.set a e) [a] := by
  refine ⟨fun x hx => ?_, fun x => ?_⟩
  · have : x ≠ a := by simpa using hx
    simp [this]
  · by_cases h : x = a
    · subst h; simpa using he
    · simp [h]

theorem Touches.setL (m : Mem) (a : Nat) (p : Ptr) : Touches m (m.setL a p) [a] :=
  Touches.set_links m a _ rfl

theorem Touches.setR (m : Mem) (a : Nat) (p : Ptr) : Touches m (m.setR a p) [a] :=
  Touches.set_links m a _ rfl

theorem Touches.update_height (m : Mem) (a : Nat) : Touches m (AVL.UpdateHeight m a) [a] :=
  Touches.set_links m a _ rfl

theorem Touches.init_node (m : Mem) (a : Nat) : Touches m (AVL.Initialize m a) [a] :=
  Touches.set_links m a _ rfl

theorem HeapTree.tree_frame {m m2 : Mem} {t : Shape} (h : HeapTree m t)
    (hm : ∀ x ∈ t.inorder, m2 x = m x) : HeapTree m2 t := by
  induction t with
  | nil => trivial
  | node l a r ihl ihr =>
    obtain ⟨h1, h2, h3, h4, h5, h6⟩ := h
    have ha : m2 a = m a := hm a (by simp [Shape.inorder])
    refine ⟨by rw [ha]; exact h1, by rw [ha]; exact h2, by rw [ha]; exact h3,
      by rw [ha]; exact h4, ihl h5 (fun x hx => hm x (by simp [Shape.inorder, hx])),
      ihr h6 (fun x hx => hm x (by simp [Shape.inorder, hx]))⟩

theorem HeapTree.touch {m m2 : Mem} {t : Shape} {S : List Nat} (h : HeapTree m t)
    (hT : Touches m m2 S) (hd : ∀ x ∈ t.inorder, x ∉ S) : HeapTree m2 t :=
  h.tree_frame (fun x hx => hT.1 x (hd x hx))

/-- Height read through a pointer, as `UpdateHeight` does. -/
theorem HeapTree.height_root {m : Mem} {t : Shape} (h : HeapTree m t) :
    (match t.root with
      | some x => (m x).Height
      | none => (-1 : Int)) = t.height := by
  cases t with
  | nil => rfl
  | node l a r => exact h.2.2.1

theorem HeapTree.updateHeight {m : Mem} {l r : Shape} {a : Nat}
    (hL : (m a).LChild = l.root) (hR : (m a).RChild = r.root)
    (tl : HeapTree m l) (tr : HeapTree m r) (al : a ∉ l.inorder) (ar : a ∉ r.inorder) :
    HeapTree (AVL.UpdateHeight m a) (Shape.node l a r) := by
  have hl := tl.height_root
  have hr := tr.height_root
  have fl : HeapTree (AVL.UpdateHeight m a) l :=
    tl.touch (Touches.update_height m a) (fun x hx => by simp; rintro rfl; exact al hx)
  have fr : HeapTree (AVL.UpdateHeight m a) r :=
    tr.touch (Touches.update_height m a) (fun x hx => by simp; rintro rfl; exact ar hx)
  refine ⟨?_, ?_, ?_, ?_, fl, fr⟩
  · simp [AVL.UpdateHeight, hL]
  · simp [AVL.UpdateHeight, hR]
  · simp only [AVL.UpdateHeight, Mem.set_same, hL, hR, hl, hr, Shape.height]
  · simp only [AVL.UpdateHeight, Mem.set_same, hL, hR, hl, hr]

/-! ## Rotations -/

theorem nodup_mid {L1 L2 : List Nat} {x : Nat} (h : (L1 ++ x :: L2).Nodup) :
    L1.Nodup ∧ L2.Nodup ∧ x ∉ L1 ∧ x ∉ L2 ∧ ∀ y ∈ L1, y ∉ L2 := by
  obtain ⟨n1, n2, d⟩ := List.nodup_append.1 h
  obtain ⟨hx, n3⟩ := List.nodup_cons.1 n2
  exact ⟨n1, n3, fun h1 => d h1 (List.mem_cons_self _ _), hx,
    fun y hy hy2 => d hy (List.mem_cons_of_mem _ hy2)⟩

theorem promoteRight_spec {m : Mem} {l rl rr : Shape} {a b : Nat}
    (hL : (m a).LChild = l.root) (hR : (m a).RChild = some b)
    (tl : HeapTree m l) (tr : HeapTree m (Shape.node rl b rr))
    (nd : (Shape.node l a (Shape.node rl b rr)).inorder.Nodup) :
    ∃ m2, AVL.PromoteRight m a = some (m2, b) ∧
      HeapTree m2 (Shape.node (Shape.node l a rl) b rr) ∧ Touches m m2 [a, b] := by
  obtain ⟨-, nd2, a_l, a_r, dl⟩ := nodup_mid (show (l.inorder ++ a ::
    (rl.inorder ++ b :: rr.inorder)).Nodup from nd)
  obtain ⟨-, -, b_rl, b_rr, -⟩ := nodup_mid nd2
  simp only [List.mem_append, List.mem_cons, not_or] at a_r
  obtain ⟨a_rl, a_b, a_rr⟩ := a_r
  have b_l : b ∉ l.inorder := fun h => dl b h (by simp)
  have b_a : b ≠ a := fun h => a_b h.symm
  obtain ⟨hbL, hbR, -, -, trl, trr⟩ := tr
  have T2 : Touches m ((m.setR a (m b).LChild).setL b (some a)) [a, b] :=
    (Touches.setR m a _).trans (Touches.setL _ b _) (by simp) (by simp)
  have T3 : Touches m (AVL.UpdateHeight ((m.setR a (m b).LChild).setL b (some a)) a) [a, b] :=
    T2.trans (Touches.update_height _ a) (by simp) (by simp)
  have T4 := T3.trans (Touches.update_height _ b) (S := [a, b]) (by simp) (by simp)
  refine ⟨_, by simp only [AVL.PromoteRight, hR], ?_, T4⟩
  have off : ∀ {t : Shape}, a ∉ t.inorder → b ∉ t.inorder → ∀ x ∈ t.inorder, x ∉ [a, b] := by
    intro t ha hb x hx
    simp only [List.mem_cons, List.mem_singleton, List.not_mem_nil, or_false, not_or]
    exact ⟨fun h => ha (h ▸ hx), fun h => hb (h ▸ hx)⟩
  have t3 : HeapTree (AVL.UpdateHeight ((m.setR a (m b).LChild).setL b (some a)) a)
      (Shape.node l a rl) := by
    apply HeapTree.updateHeight
    · simp [Mem.setL, Mem.setR, a_b, hL]
    · simp [Mem.setL, Mem.setR, a_b, hbL]
    · exact tl.touch T2 (off a_l b_l)
    · exact trl.touch T2 (off a_rl b_rl)
    · exact a_l
    · exact a_rl
  apply HeapTree.updateHeight
  · simp [AVL.UpdateHeight, Mem.setL, Mem.setR, b_a, Shape.root]
  · simp [AVL.UpdateHeight, Mem.setL, Mem.setR, b_a, hbR]
  · exact t3
  · exact trr.touch T3 (off a_rr b_rr)
  · simp [Shape.inorder, b_l, b_rl, b_a]
  · exact b_rr

theorem promoteLeft_spec {m : Mem} {ll lr r : Shape} {a b : Nat}
    (hL : (m a).LChild = some b) (hR : (m a).RChild = r.root)
    (tl : HeapTree m (Shape.node ll b lr)) (tr : HeapTree m r)
    (nd : (Shape.node (Shape.node ll b lr) a r).inorder.Nodup) :
    ∃ m2, AVL.PromoteLeft m a = some (m2, b) ∧
      HeapTree m2 (Shape.node ll b (Shape.node lr a r)) ∧ Touches m m2 [a, b] := by
  obtain ⟨nd2, -, a_l, a_r, dl⟩ := nodup_mid (show ((ll.inorder ++ b :: lr.inorder) ++ a ::
    r.inorder).Nodup from nd)
  obtain ⟨-, -, b_ll, b_lr, -⟩ := nodup_mid nd2
  simp only [List.mem_append, List.mem_cons, not_or] at a_l
  obtain ⟨a_ll, a_b, a_lr⟩ := a_l
  have b_r : b ∉ r.inorder := dl b (by simp)
  have b_a : b ≠ a := fun h => a_b h.symm
  obtain ⟨hbL, hbR, -, -, tll, tlr⟩ := tl
  have T2 : Touches m ((m.setL a (m b).RChild).setR b (some a)) [a, b] :=
    (Touches.setL m a _).trans (Touches.setR _ b _) (by simp) (by simp)
  have T3 : Touches m (AVL.UpdateHeight ((m.setL a (m b).RChild).setR b (some a)) a) [a, b] :=
    T2.trans (Touches.update_height _ a) (by simp) (by simp)
  have T4 := T3.trans (Touches.update_height _ b) (S := [a, b]) (by simp) (by simp)
  refine ⟨_, by simp only [AVL.PromoteLeft, hL], ?_, T4⟩
  have off : ∀ {t : Shape}, a ∉ t.inorder → b ∉ t.inorder → ∀ x ∈ t.inorder, x ∉ [a, b] := by
    intro t ha hb x hx
    simp only [List.mem_cons, List.mem_singleton, List.not_mem_nil, or_false, not_or]
    exact ⟨fun h => ha (h ▸ hx), fun h => hb (h ▸ hx)⟩
  have t3 : HeapTree (AVL.UpdateHeight ((m.setL a (m b).RChild).setR b (some a)) a)
      (Shape.node lr a r) := by
    apply HeapTree.updateHeight
    · simp [Mem.setL, Mem.setR, a_b, hbR]
    · simp [Mem.setL, Mem.setR, a_b, hR]
    · exact tlr.touch T2 (off a_lr b_lr)
    · exact tr.touch T2 (off a_r b_r)
    · exact a_lr
    · exact a_r
  apply HeapTree.updateHeight
  · simp [AVL.UpdateHeight, Mem.setL, Mem.setR, b_a, hbL]
  · simp [AVL.UpdateHeight, Mem.setL, Mem.setR, b_a, Shape.root]
  · exact tll.touch T3 (off a_ll b_ll)
  · exact t3
  · exact b_ll
  · simp [Shape.inorder, b_lr, b_a, b_r]

theorem repairBalance_spec {m : Mem} {l r : Shape} {a : Nat}
    (hL : (m a).LChild = l.root) (hR : (m a).RChild = r.root)
    (tl : HeapTree m l) (tr : HeapTree m r)
    (nd : (Shape.node l a r).inorder.Nodup) :
    ∃ m2 x, AVL.RepairBalance m a = some (m2, x) ∧ (Shape.node l a r).repair.root = some x ∧
      HeapTree m2 (Shape.node l a r).repair ∧ Touches m m2 (Shape.node l a r).inorder := by
  obtain ⟨ndl, ndr, a_l, a_r, dlr⟩ := nodup_mid (show (l.inorder ++ a :: r.inorder).Nodup from nd)
  have t1 := HeapTree.updateHeight hL hR tl tr a_l a_r
  have T1 := Touches.update_height m a
  have hb : (AVL.UpdateHeight m a a).Balance = r.height - l.height := t1.2.2.2.1
  have hL1 : (AVL.UpdateHeight m a a).LChild = l.root := t1.1
  have hR1 : (AVL.UpdateHeight m a a).RChild = r.root := t1.2.1
  have tl1 := t1.2.2.2.2.1
  have tr1 := t1.2.2.2.2.2
  unfold AVL.RepairBalance
  simp only [hb]
  by_cases c1 : r.height - l.height < -1
  · rw [if_pos c1]
    cases l with
    | nil =>
      have := Shape.height_ge r
      simp [Shape.height] at c1
      omega
    | node ll b lr =>
      simp only [hL1, Shape.root]
      have hbb : (AVL.UpdateHeight m a b).Balance = (Shape.node ll b lr).balance := tl1.2.2.2.1
      simp only [hbb, Shape.repair, if_pos c1]
      by_cases c2 : (Shape.node ll b lr).balance > 0
      · rw [if_pos c2, if_pos c2]
        cases lr with
        | nil =>
          have := Shape.height_ge ll
          simp [Shape.balance, Shape.height] at c2
          omega
        | node lrl c lrr =>
          obtain ⟨m2, e2, t2, T2⟩ := promoteRight_spec tl1.1 tl1.2.1 tl1.2.2.2.2.1
            tl1.2.2.2.2.2 ndl
          simp only [e2, Shape.promoteRight]
          have hin : (Shape.node (Shape.node ll b lrl) c lrr).inorder
              = (Shape.node ll b (Shape.node lrl c lrr)).inorder := by simp [Shape.inorder]
          have a_bc : a ∉ [b, c] := by
            simp only [Shape.inorder, List.mem_append, List.mem_cons, not_or] at a_l
            simp only [List.mem_cons, List.mem_singleton, List.not_mem_nil, or_false, not_or]
            exact ⟨a_l.2.1, a_l.2.2.2.1⟩
          have bc_l : ∀ x ∈ [b, c], x ∈ (Shape.node ll b (Shape.node lrl c lrr)).inorder := by
            intro x hx
            simp only [List.mem_cons, List.mem_singleton, List.not_mem_nil, or_false] at hx
            rcases hx with rfl | rfl <;> simp [Shape.inorder]
          have T3 := T2.trans (Touches.setL m2 a (some c)) (S := a :: [b, c]) (by simp) (by simp)
          obtain ⟨m4, e4, t4, T4⟩ := @promoteLeft_spec (m2.setL a (some c))
            (Shape.node ll b lrl) lrr r a c
            (by simp [Mem.setL])
            (by simp [Mem.setL]; rw [T2.1 a a_bc]; exact hR1)
            (t2.touch (Touches.setL m2 a (some c)) (by
              intro x hx; rw [hin] at hx; simp; rintro rfl; exact a_l hx))
            ((tr1.touch T2 (fun x hx hx2 => dlr x (bc_l x hx2) hx)).touch
              (Touches.setL m2 a (some c)) (by intro x hx; simp; rintro rfl; exact a_r hx))
            (by simpa [Shape.inorder] using nd)
          refine ⟨m4, c, e4, rfl, t4, ?_⟩
          refine (T1.trans T3 (S := (Shape.node (Shape.node ll b (Shape.node lrl c lrr)) a
            r).inorder) ?_ ?_).trans T4 (fun x hx => hx) ?_
          · simp [Shape.inorder]
          · intro x hx
            simp only [List.mem_cons, List.mem_singleton, List.not_mem_nil, or_false] at hx
            rcases hx with rfl | rfl | rfl <;> simp [Shape.inorder]
          · intro x hx
            simp only [List.mem_cons, List.mem_singleton, List.not_mem_nil, or_false] at hx
            rcases hx with rfl | rfl <;> simp [Shape.inorder]
      · rw [if_neg c2, if_neg c2]
        obtain ⟨m4, e4, t4, T4⟩ := promoteLeft_spec hL1 hR1 tl1 tr1 nd
        refine ⟨m4, b, e4, rfl, t4, ?_⟩
        refine T1.trans T4 ?_ ?_
        · simp [Shape.inorder]
        · intro x hx
          simp only [List.mem_cons, List.mem_singleton, List.not_mem_nil, or_false] at hx
          rcases hx with rfl | rfl <;> simp [Shape.inorder]
  · rw [if_neg c1]
    by_cases c3 : r.height - l.height > 1
    · rw [if_pos c3]
      cases r with
      | nil =>
        have := Shape.height_ge l
        simp [Shape.height] at c3
        omega
      | node rl b rr =>
        simp only [hR1, Shape.root]
        have hbb : (AVL.UpdateHeight m a b).Balance = (Shape.node rl b rr).balance :=
          tr1.2.2.2.1
        simp only [hbb, Shape.repair, if_neg c1, if_pos c3]
        by_cases c4 : (Shape.node rl b rr).balance < 0
        · rw [if_pos c4, if_pos c4]
          cases rl with
          | nil =>
            have := Shape.height_ge rr
            simp [Shape.balance, Shape.height] at c4
            omega
          | node rll c rlr =>
            obtain ⟨m2, e2, t2, T2⟩ := promoteLeft_spec tr1.1 tr1.2.1 tr1.2.2.2.2.1
              tr1.2.2.2.2.2 ndr
            simp only [e2, Shape.promoteLeft]
            have hin : (Shape.node rll c (Shape.node rlr b rr)).inorder
                = (Shape.node (Shape.node rll c rlr) b rr).inorder := by simp [Shape.inorder]
            have a_bc : a ∉ [b, c] := by
              simp only [Shape.inorder, List.mem_append, List.mem_cons, not_or] at a_r
              simp only [List.mem_cons, List.mem_singleton, List.not_mem_nil, or_false, not_or]
              exact ⟨a_r.2.1, a_r.1.2.1⟩
            have bc_r : ∀ x ∈ [b, c], x ∈ (Shape.node (Shape.node rll c rlr) b rr).inorder := by
              intro x hx
              simp only [List.mem_cons, List.mem_singleton, List.not_mem_nil, or_false] at hx
              rcases hx with rfl | rfl <;> simp [Shape.inorder]
            have T3 := T2.trans (Touches.setR m2 a (some c)) (S := a :: [b, c]) (by simp)
              (by simp)
            obtain ⟨m4, e4, t4, T4⟩ := @promoteRight_spec (m2.setR a (some c))
              l rll (Shape.node rlr b rr) a c
              (by simp [Mem.setR]; rw [T2.1 a a_bc]; exact hL1)
              (by simp [Mem.setR])
              ((tl1.touch T2 (fun x hx hx2 => dlr x hx (bc_r x hx2))).touch
                (Touches.setR m2 a (some c)) (by intro x hx; simp; rintro rfl; exact a_l hx))
              (t2.touch (Touches.setR m2 a (some c)) (by
                intro x hx; rw [hin] at hx; simp; rintro rfl; exact a_r hx))
              (by simpa [Shape.inorder] using nd)
            refine ⟨m4, c, e4, rfl, t4, ?_⟩
            refine (T1.trans T3 (S := (Shape.node l a (Shape.node (Shape.node rll c rlr) b
              rr)).inorder) ?_ ?_).trans T4 (fun x hx => hx) ?_
            · simp [Shape.inorder]
            · intro x hx
              simp only [List.mem_cons, List.mem_singleton, List.not_mem_nil, or_false] at hx
              rcases hx with rfl | rfl | rfl <;> simp [Shape.inorder]
            · intro x hx
              simp only [List.mem_cons, List.mem_singleton, List.not_mem_nil, or_false] at hx
              rcases hx with rfl | rfl <;> simp [Shape.inorder]
        · rw [if_neg c4, if_neg c4]
          obtain ⟨m4, e4, t4, T4⟩ := promoteRight_spec hL1 hR1 tl1 tr1 nd
          refine ⟨m4, b, e4, rfl, t4, ?_⟩
          refine T1.trans T4 ?_ ?_
          · simp [Shape.inorder]
          · intro x hx
            simp only [List.mem_cons, List.mem_singleton, List.not_mem_nil, or_false] at hx
            rcases hx with rfl | rfl <;> simp [Shape.inorder]
    · rw [if_neg c3]
      refine ⟨_, a, rfl, ?_, ?_, T1.mono (by simp [Shape.inorder])⟩
      · simp [Shape.repair, c1, c3, Shape.root]
      · simp only [Shape.repair, if_neg c1, if_neg c3]
        exact t1

/-! ## Insertion and removal on shapes -/

namespace Shape

theorem root_eq_none {t : Shape} (h : t.root = none) : t = nil := by
  cases t with
  | nil => rfl
  | node l a r => simp [root] at h

theorem inorder_insert_perm (key : Nat → Int) (n : Nat) (t : Shape) :
    (t.insert key n).inorder.Perm (n :: t.inorder) := by
  induction t with
  | nil => simp [insert, inorder]
  | node l a r ihl ihr =>
    simp only [insert]
    split_ifs
    · rw [inorder_repair]
      simp only [inorder]
      refine (List.Perm.append_left _ (List.Perm.cons a ihr)).trans ?_
      refine (List.Perm.append_left _ (List.Perm.swap n a _)).trans ?_
      exact List.perm_middle
    · rw [inorder_repair]
      simp only [inorder]
      exact (List.Perm.append_right _ ihl)

theorem mem_inorder_insert (key : Nat → Int) (n : Nat) (t : Shape) (x : Nat) :
    x ∈ (t.insert key n).inorder ↔ x = n ∨ x ∈ t.inorder := by
  rw [(inorder_insert_perm key n t).mem_iff]
  simp

theorem nodup_inorder_insert (key : Nat → Int) (n : Nat) (t : Shape)
    (h : (n :: t.inorder).Nodup) : (t.insert key n).inorder.Nodup :=
  (inorder_insert_perm key n t).nodup_iff.2 h

/-- Position of the inserted node in a sorted tree: after every node with a smaller key and
before every node whose key is greater than or equal to its own. -/
theorem inorder_insert_split (key : Nat → Int) (n : Nat) (t : Shape)
    (hs : t.inorder.Pairwise (fun x y => key x ≤ key y)) :
    ∃ pre post, t.inorder = pre ++ post ∧ (t.insert key n).inorder = pre ++ n :: post ∧
      (∀ x ∈ pre, key x < key n) ∧ (∀ x ∈ post, key n ≤ key x) := by
  induction t with
  | nil => exact ⟨[], [], by simp [inorder, insert]⟩
  | node l a r ihl ihr =>
    simp only [inorder, List.pairwise_append, List.pairwise_cons] at hs
    obtain ⟨hl, ⟨har, hr⟩, hlr⟩ := hs
    simp only [insert]
    split_ifs with c
    · obtain ⟨pre, post, e1, e2, h1, h2⟩ := ihr hr
      refine ⟨l.inorder ++ a :: pre, post, ?_, ?_, ?_, h2⟩
      · simp [inorder, e1]
      · simp [inorder_repair, inorder, e2]
      · intro x hx
        simp only [List.mem_append, List.mem_cons] at hx
        rcases hx with hx | rfl | hx
        · have := hlr x hx a (List.mem_cons_self _ _)
          omega
        · omega
        · exact h1 x hx
    · obtain ⟨pre, post, e1, e2, h1, h2⟩ := ihl hl
      refine ⟨pre, post ++ a :: r.inorder, ?_, ?_, h1, ?_⟩
      · simp [inorder, e1]
      · simp [inorder_repair, inorder, e2]
      · intro x hx
        simp only [List.mem_append, List.mem_cons] at hx
        rcases hx with hx | rfl | hx
        · exact h2 x hx
        · omega
        · have := har x hx
          omega

theorem sorted_inorder_insert (key : Nat → Int) (n : Nat) (t : Shape)
    (hs : t.inorder.Pairwise (fun x y => key x ≤ key y)) :
    (t.insert key n).inorder.Pairwise (fun x y => key x ≤ key y) := by
  obtain ⟨pre, post, e1, e2, h1, h2⟩ := inorder_insert_split key n t hs
  rw [e1, List.pairwise_append] at hs
  rw [e2, List.pairwise_append, List.pairwise_cons]
  refine ⟨hs.1, ⟨h2, hs.2.1⟩, ?_⟩
  intro x hx y hy
  simp only [List.mem_cons] at hy
  rcases hy with rfl | hy
  · exact le_of_lt (h1 x hx)
  · exact hs.2.2 x hx y hy

theorem inorder_removeLeftEnd (t : Shape) : t.removeLeftEnd.inorder = t.inorder.tail := by
  induction t with
  | nil => rfl
  | node l a r ihl _ =>
    cases l with
    | nil => simp [removeLeftEnd, inorder]
    | node ll b lr =>
      simp only [removeLeftEnd, inorder_repair, inorder, ihl]
      cases h : ll.inorder <;> simp

theorem depth_root {t : Shape} {a : Nat} (h : t.root = some a) : 0 < t.depth := by
  cases t with
  | nil => simp [root] at h
  | node l a r => simp [depth]

end Shape

/-! ## Tree methods on the heap -/

theorem repair_after_setR {m m1 : Mem} {l r2 : Shape} {a : Nat} {S : List Nat}
    (T1 : Touches m m1 S) (hL : (m a).LChild = l.root) (tl : HeapTree m l)
    (t1 : HeapTree m1 r2) (a_S : a ∉ S) (l_S : ∀ x ∈ l.inorder, x ∉ S)
    (nd : (Shape.node l a r2).inorder.Nodup) :
    ∃ m2 x, AVL.RepairBalance (m1.setR a r2.root) a = some (m2, x) ∧
      (Shape.node l a r2).repair.root = some x ∧ HeapTree m2 (Shape.node l a r2).repair ∧
      Touches m m2 (S ++ (Shape.node l a r2).inorder) := by
  obtain ⟨-, -, a_l, a_r, -⟩ := nodup_mid (show (l.inorder ++ a :: r2.inorder).Nodup from nd)
  have Ts := Touches.setR m1 a r2.root
  obtain ⟨m2, x, e, rt, t2, T2⟩ := repairBalance_spec (m := m1.setR a r2.root) (l := l)
    (r := r2) (a := a)
    (by simp [Mem.setR]; rw [T1.1 a a_S]; exact hL)
    (by simp [Mem.setR])
    ((tl.touch T1 l_S).touch Ts (by intro x hx; simp; rintro rfl; exact a_l hx))
    (t1.touch Ts (by intro x hx; simp; rintro rfl; exact a_r hx))
    nd
  refine ⟨m2, x, e, rt, t2, ?_⟩
  refine (T1.trans Ts (S := S ++ (Shape.node l a r2).inorder) ?_ ?_).trans T2
    (fun x hx => hx) ?_
  · intro x hx; simp [hx]
  · intro x hx; simp at hx; subst hx; simp [Shape.inorder]
  · intro x hx; simp [hx]

theorem repair_after_setL {m m1 : Mem} {l2 r : Shape} {a : Nat} {S : List Nat}
    (T1 : Touches m m1 S) (hR : (m a).RChild = r.root) (tr : HeapTree m r)
    (t1 : HeapTree m1 l2) (a_S : a ∉ S) (r_S : ∀ x ∈ r.inorder, x ∉ S)
    (nd : (Shape.node l2 a r).inorder.Nodup) :
    ∃ m2 x, AVL.RepairBalance (m1.setL a l2.root) a = some (m2, x) ∧
      (Shape.node l2 a r).repair.root = some x ∧ HeapTree m2 (Shape.node l2 a r).repair ∧
      Touches m m2 (S ++ (Shape.node l2 a r).inorder) := by
  obtain ⟨-, -, a_l, a_r, -⟩ := nodup_mid (show (l2.inorder ++ a :: r.inorder).Nodup from nd)
  have Ts := Touches.setL m1 a l2.root
  obtain ⟨m2, x, e, rt, t2, T2⟩ := repairBalance_spec (m := m1.setL a l2.root) (l := l2)
    (r := r) (a := a)
    (by simp [Mem.setL])
    (by simp [Mem.setL]; rw [T1.1 a a_S]; exact hR)
    (t1.touch Ts (by intro x hx; simp; rintro rfl; exact a_l hx))
    ((tr.touch T1 r_S).touch Ts (by intro x hx; simp; rintro rfl; exact a_r hx))
    nd
  refine ⟨m2, x, e, rt, t2, ?_⟩
  refine (T1.trans Ts (S := S ++ (Shape.node l2 a r).inorder) ?_ ?_).trans T2
    (fun x hx => hx) ?_
  · intro x hx; simp [hx]
  · intro x hx; simp at hx; subst hx; simp [Shape.inorder]
  · intro x hx; simp [hx]

theorem heapTree_init_node (m : Mem) (n : Nat) :
    HeapTree (AVL.Initialize m n) (Shape.node Shape.nil n Shape.nil) := by
  simp [HeapTree, AVL.Initialize, Shape.root, Shape.height, MAX]

theorem insertNode_spec {m : Mem} {n : Nat} (t : Shape) :
    ∀ (fuel : Nat) (a : Nat), HeapTree m t → t.root = some a → t.depth ≤ fuel →
      (n :: t.inorder).Nodup →
      ∃ m2 x, AVL.InsertNode fuel m a n = some (m2, x) ∧
        (t.insert (fun z => (m z).NodeKey) n).root = some x ∧
        HeapTree m2 (t.insert (fun z => (m z).NodeKey) n) ∧
        Touches m m2 (n :: t.inorder) := by
  induction t with
  | nil => intro fuel a _ hr; simp [Shape.root] at hr
  | node l a1 r ihl ihr =>
    intro fuel a ht hr hf nd
    simp only [Shape.root, Option.some.injEq] at hr
    subst hr
    cases fuel with
    | zero => simp [Shape.depth] at hf
    | succ f =>
      simp only [Shape.depth, add_le_add_iff_right, max_le_iff] at hf
      obtain ⟨hL, hR, -, -, tl, tr⟩ := ht
      obtain ⟨n_t, ndt⟩ := List.nodup_cons.1 nd
      obtain ⟨ndl, ndr, a_l, a_r, dlr⟩ := nodup_mid
        (show (l.inorder ++ a1 :: r.inorder).Nodup from ndt)
      simp only [Shape.inorder, List.mem_append, List.mem_cons, not_or] at n_t
      obtain ⟨n_l, n_a, n_r⟩ := n_t
      have a_n : a1 ≠ n := fun h => n_a h.symm
      simp only [AVL.InsertNode, Shape.insert]
      by_cases c : (m n).NodeKey > (m a1).NodeKey
      · rw [if_pos c, if_pos c]
        have key : ∀ (m1 : Mem) (r2 : Shape), Touches m m1 (n :: r.inorder) → HeapTree m1 r2 →
            r2.inorder.Perm (n :: r.inorder) →
            ∃ m2 x, AVL.RepairBalance (m1.setR a1 r2.root) a1 = some (m2, x) ∧
              (Shape.node l a1 r2).repair.root = some x ∧
              HeapTree m2 (Shape.node l a1 r2).repair ∧
              Touches m m2 (n :: (Shape.node l a1 r).inorder) := by
          intro m1 r2 T1 t1 hp
          obtain ⟨m2, x, e, rt, t2, T2⟩ := repair_after_setR T1 hL tl t1
            (by simp [a_n, a_r])
            (by intro x hx; simp; exact ⟨fun h => n_l (h ▸ hx), dlr x hx⟩)
            (by
              have : (Shape.node l a1 r2).inorder.Perm (n :: (l.inorder ++ a1 :: r.inorder)) := by
                simp only [Shape.inorder]
                refine (List.Perm.append_left _ (List.Perm.cons a1 hp)).trans ?_
                refine (List.Perm.append_left _ (List.Perm.swap n a1 _)).trans ?_
                exact List.perm_middle
              exact this.nodup_iff.2 nd)
          refine ⟨m2, x, e, rt, t2, T2.mono ?_⟩
          intro y hy
          simp only [Shape.inorder, List.mem_append, List.mem_cons, hp.mem_iff] at hy ⊢
          tauto
        cases r with
        | nil =>
          simp only [hR, Shape.root, Shape.insert]
          exact key (AVL.Initialize m n) (Shape.node Shape.nil n Shape.nil)
            ((Touches.init_node m n).mono (by simp)) (heapTree_init_node m n)
            (by simp [Shape.inorder])
        | node rl b rr =>
          obtain ⟨m1, x, e1, rt1, t1, T1⟩ := ihr f b tr rfl hf.2
            (List.nodup_cons.2 ⟨n_r, ndr⟩)
          simp only [hR, Shape.root, e1]
          rw [← rt1]
          exact key m1 _ T1 t1 (Shape.inorder_insert_perm _ _ _)
      · rw [if_neg c, if_neg c]
        have key : ∀ (m1 : Mem) (l2 : Shape), Touches m m1 (n :: l.inorder) → HeapTree m1 l2 →
            l2.inorder.Perm (n :: l.inorder) →
            ∃ m2 x, AVL.RepairBalance (m1.setL a1 l2.root) a1 = some (m2, x) ∧
              (Shape.node l2 a1 r).repair.root = some x ∧
              HeapTree m2 (Shape.node l2 a1 r).repair ∧
              Touches m m2 (n :: (Shape.node l a1 r).inorder) := by
          intro m1 l2 T1 t1 hp
          obtain ⟨m2, x, e, rt, t2, T2⟩ := repair_after_setL T1 hR tr t1
            (by simp [a_n, a_l])
            (by intro x hx; simp; exact ⟨fun h => n_r (h ▸ hx), fun h => dlr x h hx⟩)
            (by
              have : (Shape.node l2 a1 r).inorder.Perm (n :: (l.inorder ++ a1 :: r.inorder)) := by
                simp only [Shape.inorder]
                exact List.Perm.append_right _ hp
              exact this.nodup_iff.2 nd)
          refine ⟨m2, x, e, rt, t2, T2.mono ?_⟩
          intro y hy
          simp only [Shape.inorder, List.mem_append, List.mem_cons, hp.mem_iff] at hy ⊢
          tauto
        cases l with
        | nil =>
          simp only [hL, Shape.root, Shape.insert]
          exact key (AVL.Initialize m n) (Shape.node Shape.nil n Shape.nil)
            ((Touches.init_node m n).mono (by simp)) (heapTree_init_node m n)
            (by simp [Shape.inorder])
        | node ll b lr =>
          obtain ⟨m1, x, e1, rt1, t1, T1⟩ := ihl f b tl rfl hf.1
            (List.nodup_cons.2 ⟨n_l, ndl⟩)
          simp only [hL, Shape.root, e1]
          rw [← rt1]
          exact key m1 _ T1 t1 (Shape.inorder_insert_perm _ _ _)

theorem removeLeftEnd_spec {m : Mem} (t : Shape) :
    ∀ (fuel a : Nat), HeapTree m t → t.root = some a → t.depth ≤ fuel → t.inorder.Nodup →
      ∃ m2 x, AVL.RemoveLeftEnd fuel m a = some (m2, t.removeLeftEnd.root, x) ∧
        t.inorder.head? = some x ∧ HeapTree m2 t.removeLeftEnd ∧ Touches m m2 t.inorder := by
  induction t with
  | nil => intro fuel a _ hr; simp [Shape.root] at hr
  | node l a1 r ihl _ =>
    intro fuel a ht hr hf nd
    simp only [Shape.root, Option.some.injEq] at hr
    subst hr
    cases fuel with
    | zero => simp [Shape.depth] at hf
    | succ f =>
      simp only [Shape.depth, add_le_add_iff_right, max_le_iff] at hf
      obtain ⟨hL, hR, -, -, tl, tr⟩ := ht
      obtain ⟨ndl, ndr, a_l, a_r, dlr⟩ := nodup_mid
        (show (l.inorder ++ a1 :: r.inorder).Nodup from nd)
      simp only [AVL.RemoveLeftEnd]
      cases l with
      | nil =>
        have hL2 : (m a1).LChild = none := hL
        simp only [hL2, Shape.removeLeftEnd]
        exact ⟨m, a1, by rw [hR], by simp [Shape.inorder], tr, Touches.refl _ _⟩
      | node ll b lr =>
        obtain ⟨m1, x, e1, hd, t1, T1⟩ := ihl f b tl rfl hf.1 ndl
        have hL2 : (m a1).LChild = some b := hL
        simp only [hL2, e1, Shape.removeLeftEnd]
        have htl := Shape.inorder_removeLeftEnd (Shape.node ll b lr)
        have sub : ∀ y ∈ (Shape.node ll b lr).removeLeftEnd.inorder,
            y ∈ (Shape.node ll b lr).inorder := by
          intro y hy; rw [htl] at hy; exact List.mem_of_mem_tail hy
        obtain ⟨m2, y, e, rt, t2, T2⟩ := repair_after_setL T1 hR tr t1 a_l
          (fun y hy h => dlr y h hy)
          (by
            simp only [Shape.inorder] at nd ⊢
            rw [htl]
            exact nd.sublist ((List.tail_sublist _).append_right _))
        simp only [e, rt]
        refine ⟨m2, x, rfl, ?_, t2, T2.mono ?_⟩
        · cases h : (Shape.node ll b lr).inorder with
          | nil => rw [h] at hd; simp at hd
          | cons z zs =>
            rw [h] at hd
            simp only [List.head?_cons, Option.some.injEq] at hd
            subst hd
            show (((Shape.node ll b lr).inorder) ++ a1 :: r.inorder).head? = some z
            rw [h]; rfl
        · intro z hz
          simp only [Shape.inorder, List.mem_append, List.mem_cons] at hz ⊢
          rcases hz with hz | hz | hz | hz
          · exact Or.inl (by simpa [Shape.inorder] using hz)
          · exact Or.inl (by simpa [Shape.inorder] using sub z hz)
          · exact Or.inr (Or.inl hz)
          · exact Or.inr (Or.inr hz)

/-! ## Stacks on the heap -/

theorem HeapTree.tree_frame_links {m m2 : Mem} {t : Shape} (h : HeapTree m t)
    (hm : ∀ x ∈ t.inorder, (m2 x).LChild = (m x).LChild ∧ (m2 x).RChild = (m x).RChild ∧
      (m2 x).Height = (m x).Height ∧ (m2 x).Balance = (m x).Balance) : HeapTree m2 t := by
  induction t with
  | nil => trivial
  | node l a r ihl ihr =>
    obtain ⟨h1, h2, h3, h4, h5, h6⟩ := h
    obtain ⟨e1, e2, e3, e4⟩ := hm a (by simp [Shape.inorder])
    refine ⟨by rw [e1]; exact h1, by rw [e2]; exact h2, by rw [e3]; exact h3,
      by rw [e4]; exact h4, ihl h5 (fun x hx => hm x (by simp [Shape.inorder, hx])),
      ihr h6 (fun x hx => hm x (by simp [Shape.inorder, hx]))⟩

theorem Chain.chain_frame {m m2 : Mem} {l : List Nat} {p : Ptr} (h : Chain m l p)
    (hm : ∀ x ∈ l, (m2 x).RChild = (m x).RChild) : Chain m2 l p := by
  induction l generalizing p with
  | nil => exact h
  | cons a l ih =>
    obtain ⟨h1, h2⟩ := h
    refine ⟨h1, ?_⟩
    rw [hm a (List.mem_cons_self _ _)]
    exact ih h2 (fun x hx => hm x (List.mem_cons_of_mem _ hx))

theorem Chain.head {m : Mem} {l : List Nat} {p : Ptr} (h : Chain m l p) : p = l.head? := by
  cases l with
  | nil => exact h
  | cons a l => exact h.1

theorem StackOf.stack_frame {m m2 : Mem} {s : Stack} {l : List Nat} (h : StackOf m s l)
    (hm : ∀ x ∈ l, (m2 x).RChild = (m x).RChild) : StackOf m2 s l :=
  ⟨h.1.chain_frame hm, h.2.1, h.2.2⟩

theorem StackOf.nil_iff {m : Mem} {s : Stack} {l : List Nat} (h : StackOf m s l) :
    s.Count = 0 ↔ l = [] := by
  rw [h.2.2]
  cases l <;> simp
  omega

theorem StackOf.push {m : Mem} {s : Stack} {l : List Nat} {p : Nat} (h : StackOf m s l)
    (hp : p ∉ l) :
    StackOf (Stack.Push m s (some p)).1 (Stack.Push m s (some p)).2 (p :: l) := by
  obtain ⟨h1, h2, h3⟩ := h
  refine ⟨⟨rfl, ?_⟩, ?_, ?_⟩
  · simp only [Stack.Push, Mem.setR, Mem.set_same]
    exact h1.chain_frame (fun x hx => by
      have : x ≠ p := fun e => hp (e ▸ hx)
      simp [this])
  · simp only [Stack.Push, h2]
    cases l with
    | nil => simp
    | cons b l => simp [List.getLast?_cons_cons]
  · simp only [Stack.Push, h3]
    simp

theorem StackOf.pop {m : Mem} {s : Stack} {l : List Nat} {a : Nat} (h : StackOf m s (a :: l)) :
    (Stack.Pop m s).2 = some a ∧ StackOf m (Stack.Pop m s).1 l := by
  obtain ⟨⟨h0, h1⟩, h2, h3⟩ := h
  simp only [Stack.Pop, h0]
  refine ⟨trivial, h1, ?_, ?_⟩
  · have hh := h1.head
    cases l with
    | nil => simp [hh]
    | cons b l =>
      simp only [hh, h2]
      simp [List.getLast?_cons_cons]
  · simp only [h3]
    simp

theorem StackOf.pop_nil {m : Mem} {s : Stack} (h : StackOf m s []) :
    Stack.Pop m s = (s, none) := by
  have h0 : s.pTop = none := h.1
  simp [Stack.Pop, h0]

/-! ## Records inside a container are not active -/

theorem Shape.root_mem {t : Shape} {a : Nat} (h : t.root = some a) : a ∈ t.inorder := by
  cases t with
  | nil => simp [Shape.root] at h
  | node l b r =>
    simp only [Shape.root, Option.some.injEq] at h
    simp [Shape.inorder, h]

theorem HeapTree.tree_not_active {m : Mem} {t : Shape} (h : HeapTree m t) (nd : t.inorder.Nodup)
    {a : Nat} (ha : a ∈ t.inorder) : CEventQueue.IsActive m a = false := by
  induction t with
  | nil => simp [Shape.inorder] at ha
  | node l b r ihl ihr =>
    obtain ⟨h1, h2, -, -, h5, h6⟩ := h
    obtain ⟨ndl, ndr, b_l, b_r, -⟩ := nodup_mid (show (l.inorder ++ b :: r.inorder).Nodup from nd)
    simp only [Shape.inorder, List.mem_append, List.mem_cons] at ha
    rcases ha with ha | rfl | ha
    · exact ihl h5 ndl ha
    · have : (m a).LChild ≠ some a := by
        rw [h1]; intro e; exact b_l (Shape.root_mem e)
      simp [CEventQueue.IsActive, this]
    · exact ihr h6 ndr ha

theorem Chain.chain_not_active {m : Mem} {l : List Nat} {p : Ptr} (h : Chain m l p) (nd : l.Nodup)
    {a : Nat} (ha : a ∈ l) : CEventQueue.IsActive m a = false := by
  induction l generalizing p with
  | nil => simp at ha
  | cons b l ih =>
    obtain ⟨-, h2⟩ := h
    obtain ⟨b_l, ndl⟩ := List.nodup_cons.1 nd
    simp only [List.mem_cons] at ha
    rcases ha with rfl | ha
    · have : (m a).RChild ≠ some a := by
        rw [h2.head]; intro e
        exact b_l (List.mem_of_mem_head? e)
      simp [CEventQueue.IsActive, this]
    · exact ih h2 ndl ha

/-! ## Ownership bookkeeping -/

@[simp] theorem CEventQueue.isActive_activate (m : Mem) (a : Nat) :
    CEventQueue.IsActive (CEventQueue.Activate m a) a = true := by
  simp [CEventQueue.IsActive, CEventQueue.Activate]

theorem CEventQueue.activate_other (m : Mem) {a x : Nat} (h : x ≠ a) :
    CEventQueue.Activate m a x = m x := by
  simp [CEventQueue.Activate, h]

@[simp] theorem CEventQueue.activate_key (m : Mem) (a x : Nat) :
    (CEventQueue.Activate m a x).NodeKey = (m x).NodeKey := by
  by_cases h : x = a
  · subst h; simp [CEventQueue.Activate]
  · simp [CEventQueue.Activate, h]

@[simp] theorem CEventQueue.activate_data (m : Mem) (a x : Nat) :
    (CEventQueue.Activate m a x).data = (m x).data := by
  by_cases h : x = a
  · subst h; simp [CEventQueue.Activate, CEvent.data]
  · simp [CEventQueue.Activate, h]

theorem Owned.release {m : Mem} {brk a : Nat} {all all2 : List Nat} (h : Owned m brk all)
    (hp : all.Perm (a :: all2)) : Owned (CEventQueue.Activate m a) brk all2 := by
  have nd := hp.nodup_iff.1 h.nodup
  obtain ⟨a_n, nd2⟩ := List.nodup_cons.1 nd
  refine ⟨nd2, fun x hx => h.alloc x (hp.mem_iff.2 (List.mem_cons_of_mem _ hx)), ?_⟩
  intro x hx hx2
  by_cases e : x = a
  · subst e; simp
  · have := h.active x hx (fun hm => by
      rcases List.mem_cons.1 (hp.mem_iff.1 hm) with h1 | h1
      · exact e h1
      · exact hx2 h1)
    simp only [CEventQueue.IsActive, CEventQueue.activate_other m e] at this ⊢
    exact this

theorem Owned.capture {m m2 : Mem} {brk a : Nat} {all all2 : List Nat} (h : Owned m brk all)
    (hp : all2.Perm (a :: all)) (ha : a < brk) (hn : a ∉ all)
    (hm : ∀ x, x ∉ all2 → m2 x = m x) : Owned m2 brk all2 := by
  refine ⟨hp.nodup_iff.2 (List.nodup_cons.2 ⟨hn, h.nodup⟩), ?_, ?_⟩
  · intro x hx
    rcases List.mem_cons.1 (hp.mem_iff.1 hx) with h1 | h1
    · subst h1; exact ha
    · exact h.alloc x h1
  · intro x hx hx2
    have : x ∉ all := fun h1 => hx2 (hp.mem_iff.2 (List.mem_cons_of_mem _ h1))
    have e := hm x hx2
    have := h.active x hx this
    simp only [CEventQueue.IsActive, e] at this ⊢
    exact this

theorem Owned.same {m m2 : Mem} {brk : Nat} {all : List Nat} (h : Owned m brk all)
    (hm : ∀ x, (m2 x).LChild = (m x).LChild ∧ (m2 x).RChild = (m x).RChild) :
    Owned m2 brk all := by
  refine ⟨h.nodup, h.alloc, ?_⟩
  intro x hx hx2
  have := h.active x hx hx2
  simp only [CEventQueue.IsActive, (hm x).1, (hm x).2] at this ⊢
  exact this

theorem Owned.owned_fresh {m m2 : Mem} {brk : Nat} {all : List Nat} (h : Owned m brk all)
    (hm : ∀ x, x ≠ brk → m2 x = m x) (ha : CEventQueue.IsActive m2 brk = true) :
    Owned m2 (brk + 1) all := by
  refine ⟨h.nodup, fun x hx => Nat.lt_succ_of_lt (h.alloc x hx), ?_⟩
  intro x hx hx2
  by_cases e : x = brk
  · subst e; exact ha
  · have := h.active x (by omega) hx2
    simp only [CEventQueue.IsActive, hm x e] at this ⊢
    exact this

theorem Shape.depth_le_length (t : Shape) : t.depth ≤ t.inorder.length := by
  induction t with
  | nil => simp [Shape.depth]
  | node l a r ihl ihr =>
    simp only [Shape.depth, Shape.inorder, List.length_append, List.length_cons]
    omega

theorem nodup_bound {l : List Nat} {n : Nat} (nd : l.Nodup) (h : ∀ a ∈ l, a < n) :
    l.length ≤ n := by
  have hs : l ⊆ List.range n := fun a ha => List.mem_range.2 (h a ha)
  have := (List.subperm_of_subset nd hs).length_le
  simpa using this

theorem wrap64_eq {x : Int} (h1 : -(2 ^ 63) ≤ x) (h2 : x ≤ INT64_MAX) : wrap64 x = x := by
  unfold wrap64
  unfold INT64_MAX at h2
  rw [Int.emod_eq_of_lt (by omega) (by omega)]
  omega

/-! ## Every engine call preserves the queue invariant -/

theorem perm_top (l1 l2 l3 : List Nat) (a : Nat) :
    (l1 ++ (a :: l2) ++ l3).Perm (a :: (l1 ++ l2 ++ l3)) := by
  simp only [List.append_assoc, List.cons_append]
  exact List.perm_middle

theorem perm_pool (l1 l2 l3 : List Nat) (a : Nat) :
    (l1 ++ l2 ++ (a :: l3)).Perm (a :: (l1 ++ l2 ++ l3)) := List.perm_middle

theorem QueueInv.not_active {q : CEventQueue} {t : Shape} {top pool : List Nat}
    (h : QueueInv q t top pool) {a : Nat} (ha : a ∈ t.inorder ++ top ++ pool) :
    CEventQueue.IsActive q.mem a = false := by
  have nd := h.owned.nodup
  rw [List.nodup_append] at nd
  obtain ⟨nd1, nd3, -⟩ := nd
  rw [List.nodup_append] at nd1
  obtain ⟨nd1, nd2, -⟩ := nd1
  simp only [List.mem_append] at ha
  rcases ha with (ha | ha) | ha
  · exact h.tree.tree_not_active nd1 ha
  · exact h.topS.1.chain_not_active nd2 ha
  · exact h.poolS.1.chain_not_active nd3 ha

theorem QueueInv.not_mem_of_active {q : CEventQueue} {t : Shape} {top pool : List Nat}
    (h : QueueInv q t top pool) {a : Nat} (ha : CEventQueue.IsActive q.mem a = true) :
    a ∉ t.inorder ++ top ++ pool := by
  intro hm
  rw [h.not_active hm] at ha
  exact Bool.noConfusion ha

theorem QueueInv.pop_top {q : CEventQueue} {t : Shape} {top pool : List Nat} {a : Nat}
    (h : QueueInv q t (a :: top) pool) :
    QueueInv { q with eqTopEvents := (Stack.Pop q.mem q.eqTopEvents).1,
                      eqCurrentTime := (q.mem a).NodeKey,
                      mem := CEventQueue.Activate q.mem a } t top pool := by
  have hp := perm_top t.inorder top pool a
  have ow := h.owned.release hp
  have a_n : a ∉ t.inorder ++ top ++ pool :=
    (List.nodup_cons.1 (hp.nodup_iff.1 h.owned.nodup)).1
  simp only [List.mem_append, not_or] at a_n
  have ne : ∀ {l : List Nat}, a ∉ l → ∀ x ∈ l, x ≠ a := fun hl x hx e => hl (e ▸ hx)
  have hnow := h.now a (List.mem_cons_self _ _)
  refine ⟨?_, h.root, h.count, ?_, ?_, ow, ?_, ?_, ?_, ?_⟩
  · exact h.tree.tree_frame (fun x hx => CEventQueue.activate_other _ (ne a_n.1.1 x hx))
  · exact (StackOf.pop h.topS).2.stack_frame (fun x hx => by
      show (CEventQueue.Activate q.mem a x).RChild = _
      rw [CEventQueue.activate_other _ (ne a_n.1.2 x hx)])
  · exact h.poolS.stack_frame (fun x hx => by
      show (CEventQueue.Activate q.mem a x).RChild = _
      rw [CEventQueue.activate_other _ (ne a_n.2 x hx)])
  · simpa using h.sorted
  · intro x hx
    simpa [hnow] using h.future x hx
  · intro x hx
    simpa [hnow] using h.now x (List.mem_cons_of_mem _ hx)
  · show 0 ≤ (q.mem a).NodeKey ∧ (q.mem a).NodeKey ≤ INT64_MAX
    rw [hnow]; exact h.time

theorem QueueInv.pop_pool {q : CEventQueue} {t : Shape} {top pool : List Nat} {a : Nat}
    (h : QueueInv q t top (a :: pool)) :
    QueueInv { q with eqEventPool := (Stack.Pop q.mem q.eqEventPool).1,
                      mem := CEventQueue.Activate q.mem a } t top pool := by
  have hp := perm_pool t.inorder top pool a
  have ow := h.owned.release hp
  have a_n : a ∉ t.inorder ++ top ++ pool :=
    (List.nodup_cons.1 (hp.nodup_iff.1 h.owned.nodup)).1
  simp only [List.mem_append, not_or] at a_n
  have ne : ∀ {l : List Nat}, a ∉ l → ∀ x ∈ l, x ≠ a := fun hl x hx e => hl (e ▸ hx)
  refine ⟨?_, h.root, h.count, ?_, ?_, ow, ?_, ?_, ?_, h.time⟩
  · exact h.tree.tree_frame (fun x hx => CEventQueue.activate_other _ (ne a_n.1.1 x hx))
  · exact h.topS.stack_frame (fun x hx => by
      show (CEventQueue.Activate q.mem a x).RChild = _
      rw [CEventQueue.activate_other _ (ne a_n.1.2 x hx)])
  · exact (StackOf.pop h.poolS).2.stack_frame (fun x hx => by
      show (CEventQueue.Activate q.mem a x).RChild = _
      rw [CEventQueue.activate_other _ (ne a_n.2 x hx)])
  · simpa using h.sorted
  · intro x hx
    simpa using h.future x hx
  · intro x hx
    simpa using h.now x hx

theorem Owned.owned_frame {m m2 : Mem} {brk : Nat} {all : List Nat} (h : Owned m brk all)
    (hm : ∀ x, x ∉ all → m2 x = m x) : Owned m2 brk all := by
  refine ⟨h.nodup, h.alloc, ?_⟩
  intro x hx hx2
  have := h.active x hx hx2
  simp only [CEventQueue.IsActive, hm x hx2] at this ⊢
  exact this

theorem QueueInv.reheap {q : CEventQueue} {t : Shape} {top pool : List Nat}
    (h : QueueInv q t top pool) {m2 : Mem} {brk2 : Nat}
    (hm : ∀ x ∈ t.inorder ++ top ++ pool, (m2 x).LChild = (q.mem x).LChild ∧
      (m2 x).RChild = (q.mem x).RChild ∧ (m2 x).Height = (q.mem x).Height ∧
      (m2 x).Balance = (q.mem x).Balance ∧ (m2 x).NodeKey = (q.mem x).NodeKey)
    (ow : Owned m2 brk2 (t.inorder ++ top ++ pool)) :
    QueueInv { q with mem := m2, brk := brk2 } t top pool := by
  refine ⟨?_, h.root, h.count, ?_, ?_, ow, ?_, ?_, ?_, h.time⟩
  · exact h.tree.tree_frame_links (fun x hx => by
      obtain ⟨e1, e2, e3, e4, -⟩ := hm x (by simp [hx])
      exact ⟨e1, e2, e3, e4⟩)
  · exact h.topS.stack_frame (fun x hx => (hm x (by simp [hx])).2.1)
  · exact h.poolS.stack_frame (fun x hx => (hm x (by simp [hx])).2.1)
  · refine h.sorted.imp_of_mem ?_
    intro a b ha hb hab
    show (m2 a).NodeKey ≤ (m2 b).NodeKey
    rw [(hm a (by simp [ha])).2.2.2.2, (hm b (by simp [hb])).2.2.2.2]
    exact hab
  · intro x hx
    show q.eqCurrentTime ≤ (m2 x).NodeKey ∧ (m2 x).NodeKey ≤ INT64_MAX
    rw [(hm x (by simp [hx])).2.2.2.2]
    exact h.future x hx
  · intro x hx
    show (m2 x).NodeKey = q.eqCurrentTime
    rw [(hm x (by simp [hx])).2.2.2.2]
    exact h.now x hx

/-- A write that leaves the private `AVLNode` part of every record alone keeps the invariant. -/
theorem QueueInv.write {q : CEventQueue} {t : Shape} {top pool : List Nat}
    (h : QueueInv q t top pool) {m2 : Mem}
    (hm : ∀ x, (m2 x).LChild = (q.mem x).LChild ∧
      (m2 x).RChild = (q.mem x).RChild ∧ (m2 x).Height = (q.mem x).Height ∧
      (m2 x).Balance = (q.mem x).Balance ∧ (m2 x).NodeKey = (q.mem x).NodeKey) :
    QueueInv { q with mem := m2 } t top pool :=
  h.reheap (fun x _ => hm x) (h.owned.same (fun x => ⟨(hm x).1, (hm x).2.1⟩))

/-- A write to one record that is outside every container and stays active keeps the
invariant. -/
theorem QueueInv.write_active {q : CEventQueue} {t : Shape} {top pool : List Nat}
    (h : QueueInv q t top pool) {p : Nat} (e : CEvent)
    (ha : CEventQueue.IsActive q.mem p = true)
    (he : e.LChild = (q.mem p).LChild ∧ e.RChild = (q.mem p).RChild) :
    QueueInv { q with mem := q.mem.set p e } t top pool := by
  have hp := h.not_mem_of_active ha
  refine h.reheap (fun x hx => ?_) (h.owned.same (fun x => ?_))
  · have : x ≠ p := fun e => hp (e ▸ hx)
    simp [this]
  · by_cases hx : x = p
    · subst hx; simpa using he
    · simp [hx]

theorem QueueInv.fresh {q : CEventQueue} {t : Shape} {top pool : List Nat}
    (h : QueueInv q t top pool) :
    QueueInv { q with brk := q.brk + 1,
                      mem := CEventQueue.Activate (CEventQueue.construct q.mem q.brk) q.brk }
      t top pool := by
  have hm : ∀ x, x ≠ q.brk →
      CEventQueue.Activate (CEventQueue.construct q.mem q.brk) q.brk x = q.mem x := by
    intro x hx
    simp [CEventQueue.Activate, CEventQueue.construct, AVL.Initialize, hx]
  have := @QueueInv.reheap q t top pool h
    (CEventQueue.Activate (CEventQueue.construct q.mem q.brk) q.brk) (q.brk + 1) (fun x hx => by
      have : x ≠ q.brk := Nat.ne_of_lt (h.owned.alloc x hx)
      rw [hm x this]; simp)
    (h.owned.owned_fresh hm (by simp))
  exact this

theorem QueueInv.push_top {q : CEventQueue} {t : Shape} {top pool : List Nat} {p : Nat}
    (h : QueueInv q t top pool) (hb : p < q.brk) (ha : CEventQueue.IsActive q.mem p = true)
    (hk : (q.mem p).NodeKey = q.eqCurrentTime) :
    QueueInv { q with mem := (Stack.Push q.mem q.eqTopEvents (some p)).1,
                      eqTopEvents := (Stack.Push q.mem q.eqTopEvents (some p)).2 }
      t (p :: top) pool := by
  have hp := h.not_mem_of_active ha
  have hp2 := hp
  simp only [List.mem_append, not_or] at hp2
  have hm : ∀ x, x ≠ p → (Stack.Push q.mem q.eqTopEvents (some p)).1 x = q.mem x := by
    intro x hx; simp [Stack.Push, Mem.setR, hx]
  have hkey : ∀ x, ((Stack.Push q.mem q.eqTopEvents (some p)).1 x).NodeKey
      = (q.mem x).NodeKey := by
    intro x
    by_cases hx : x = p
    · subst hx; simp [Stack.Push, Mem.setR]
    · rw [hm x hx]
  have ne : ∀ {l : List Nat}, p ∉ l → ∀ x ∈ l, x ≠ p := fun hl x hx e => hl (e ▸ hx)
  refine ⟨?_, h.root, h.count, ?_, ?_, ?_, ?_, ?_, ?_, h.time⟩
  · exact h.tree.tree_frame (fun x hx => hm x (ne hp2.1.1 x hx))
  · exact h.topS.push hp2.1.2
  · exact h.poolS.stack_frame (fun x hx => by
      show ((Stack.Push q.mem q.eqTopEvents (some p)).1 x).RChild = _
      rw [hm x (ne hp2.2 x hx)])
  · refine h.owned.capture (perm_top _ _ _ _) hb hp (fun x hx => hm x ?_)
    intro e; subst e; exact hx (by simp)
  · simpa [hkey] using h.sorted
  · intro x hx
    simpa [hkey] using h.future x hx
  · intro x hx
    show ((Stack.Push q.mem q.eqTopEvents (some p)).1 x).NodeKey = q.eqCurrentTime
    rw [hkey]
    rcases List.mem_cons.1 hx with rfl | hx
    · exact hk
    · exact h.now x hx

theorem QueueInv.push_pool {q : CEventQueue} {t : Shape} {top pool : List Nat} {p : Nat}
    (h : QueueInv q t top pool) (hb : p < q.brk) (ha : CEventQueue.IsActive q.mem p = true) :
    QueueInv { q with mem := (Stack.Push q.mem q.eqEventPool (some p)).1,
                      eqEventPool := (Stack.Push q.mem q.eqEventPool (some p)).2 }
      t top (p :: pool) := by
  have hp := h.not_mem_of_active ha
  have hp2 := hp
  simp only [List.mem_append, not_or] at hp2
  have hm : ∀ x, x ≠ p → (Stack.Push q.mem q.eqEventPool (some p)).1 x = q.mem x := by
    intro x hx; simp [Stack.Push, Mem.setR, hx]
  have hkey : ∀ x, ((Stack.Push q.mem q.eqEventPool (some p)).1 x).NodeKey
      = (q.mem x).NodeKey := by
    intro x
    by_cases hx : x = p
    · subst hx; simp [Stack.Push, Mem.setR]
    · rw [hm x hx]
  have ne : ∀ {l : List Nat}, p ∉ l → ∀ x ∈ l, x ≠ p := fun hl x hx e => hl (e ▸ hx)
  refine ⟨?_, h.root, h.count, ?_, ?_, ?_, ?_, ?_, ?_, h.time⟩
  · exact h.tree.tree_frame (fun x hx => hm x (ne hp2.1.1 x hx))
  · exact h.topS.stack_frame (fun x hx => by
      show ((Stack.Push q.mem q.eqEventPool (some p)).1 x).RChild = _
      rw [hm x (ne hp2.1.2 x hx)])
  · exact h.poolS.push hp2.2
  · refine h.owned.capture (perm_pool _ _ _ _) hb hp (fun x hx => hm x ?_)
    intro e; subst e; exact hx (by simp)
  · simpa [hkey] using h.sorted
  · intro x hx
    simpa [hkey] using h.future x hx
  · intro x hx
    show ((Stack.Push q.mem q.eqEventPool (some p)).1 x).NodeKey = q.eqCurrentTime
    rw [hkey]
    exact h.now x hx

theorem QueueInv.depth_le {q : CEventQueue} {t : Shape} {top pool : List Nat}
    (h : QueueInv q t top pool) : t.depth ≤ q.brk := by
  have nd : t.inorder.Nodup :=
    (List.nodup_append.1 (List.nodup_append.1 h.owned.nodup).1).1
  exact le_trans t.depth_le_length
    (nodup_bound nd (fun a ha => h.owned.alloc a (by simp [ha])))

theorem QueueInv.add_node {q : CEventQueue} {t : Shape} {top pool : List Nat} {p : Nat}
    (h : QueueInv q t top pool) (hb : p < q.brk) (ha : CEventQueue.IsActive q.mem p = true)
    (hk : q.eqCurrentTime ≤ (q.mem p).NodeKey ∧ (q.mem p).NodeKey ≤ INT64_MAX) :
    ∃ m2 tr, AVLTree.AddNode q.brk q.mem q.tree (some p) = some (m2, tr) ∧
      Touches q.mem m2 (p :: t.inorder) ∧
      QueueInv { q with mem := m2, tree := tr }
        (t.insert (fun z => (q.mem z).NodeKey) p) top pool := by
  have hp := h.not_mem_of_active ha
  have hp2 := hp
  simp only [List.mem_append, not_or] at hp2
  have ndt : t.inorder.Nodup :=
    (List.nodup_append.1 (List.nodup_append.1 h.owned.nodup).1).1
  have ndp : (p :: t.inorder).Nodup := List.nodup_cons.2 ⟨hp2.1.1, ndt⟩
  have core : ∃ m2 x, AVLTree.AddNode q.brk q.mem q.tree (some p)
        = some (m2, { pRoot := some x, Count := q.tree.Count + 1 }) ∧
      (t.insert (fun z => (q.mem z).NodeKey) p).root = some x ∧
      HeapTree m2 (t.insert (fun z => (q.mem z).NodeKey) p) ∧
      Touches q.mem m2 (p :: t.inorder) := by
    cases hr : t.root with
    | none =>
      have := Shape.root_eq_none hr
      subst this
      refine ⟨AVL.Initialize q.mem p, p, ?_, rfl, heapTree_init_node _ _,
        (Touches.init_node _ _).mono (by simp)⟩
      have hr2 : q.tree.pRoot = none := h.root
      simp [AVLTree.AddNode, hr2]
    | some a =>
      obtain ⟨m2, x, e, rt, t2, T2⟩ := insertNode_spec t q.brk a h.tree hr h.depth_le ndp
      refine ⟨m2, x, ?_, rt, t2, T2⟩
      have hr2 : q.tree.pRoot = some a := by rw [h.root, hr]
      simp [AVLTree.AddNode, hr2, e]
  obtain ⟨m2, x, e, rt, t2, T2⟩ := core
  have hperm := Shape.inorder_insert_perm (fun z => (q.mem z).NodeKey) p t
  have off : ∀ {l : List Nat}, p ∉ l → (∀ y ∈ t.inorder, y ∉ l) → ∀ y ∈ l, m2 y = q.mem y := by
    intro l h1 h2 y hy
    refine T2.1 y ?_
    simp only [List.mem_cons, not_or]
    exact ⟨fun e => h1 (e ▸ hy), fun h3 => h2 y h3 hy⟩
  have nd := h.owned.nodup
  rw [List.nodup_append] at nd
  obtain ⟨nd1, -, d3⟩ := nd
  rw [List.nodup_append] at nd1
  obtain ⟨-, -, d2⟩ := nd1
  refine ⟨m2, _, e, T2, ?_, rt.symm, ?_, ?_, ?_, ?_, ?_, ?_, ?_, h.time⟩
  · exact t2
  · show _ ≤ q.tree.Count + 1
    have hc := h.count
    rw [hperm.length_eq]
    simp only [List.length_cons, Nat.cast_add, Nat.cast_one]
    omega
  · exact h.topS.stack_frame (fun y hy => by
      show (m2 y).RChild = _
      rw [off hp2.1.2 (fun z hz hz2 => d2 hz hz2) y hy])
  · exact h.poolS.stack_frame (fun y hy => by
      show (m2 y).RChild = _
      rw [off hp2.2 (fun z hz hz2 => d3 (List.mem_append_left _ hz) hz2) y hy])
  · refine h.owned.capture (a := p) ?_ hb hp (fun y hy => T2.1 y ?_)
    · have := (hperm.append_right top).append_right pool
      simpa using this
    · intro hy2
      apply hy
      simp only [List.mem_append, Shape.mem_inorder_insert]
      simp only [List.mem_cons] at hy2
      tauto
  · have := Shape.sorted_inorder_insert (fun z => (q.mem z).NodeKey) p t h.sorted
    refine this.imp ?_
    intro a b hab
    show (m2 a).NodeKey ≤ (m2 b).NodeKey
    rw [T2.key, T2.key]; exact hab
  · intro y hy
    show q.eqCurrentTime ≤ (m2 y).NodeKey ∧ (m2 y).NodeKey ≤ INT64_MAX
    rw [T2.key]
    rcases (Shape.mem_inorder_insert _ _ _ _).1 hy with rfl | hy
    · exact hk
    · exact h.future y hy
  · intro y hy
    show (m2 y).NodeKey = q.eqCurrentTime
    rw [T2.key]; exact h.now y hy

theorem QueueInv.remove_head {q : CEventQueue} {t : Shape} {pool : List Nat} {a : Nat}
    (h : QueueInv q t [] pool) (hr : t.root = some a) :
    ∃ m1 x rest, AVLTree.RemoveHead q.brk q.mem q.tree
        = some (m1, { pRoot := t.removeLeftEnd.root, Count := q.tree.Count - 1 }, some x) ∧
      t.inorder = x :: rest ∧ t.removeLeftEnd.inorder = rest ∧
      Touches q.mem m1 t.inorder ∧
      QueueInv { q with mem := CEventQueue.Activate m1 x,
                        tree := { pRoot := t.removeLeftEnd.root, Count := q.tree.Count - 1 },
                        eqCurrentTime := (m1 x).NodeKey } t.removeLeftEnd [] pool := by
  have nd := h.owned.nodup
  simp only [List.append_nil] at nd
  obtain ⟨ndt, ndp, dtp⟩ := List.nodup_append.1 nd
  obtain ⟨m1, x, e, hd, t1, T1⟩ := removeLeftEnd_spec t q.brk a h.tree hr h.depth_le ndt
  have htl := Shape.inorder_removeLeftEnd t
  obtain ⟨rest, hrest⟩ : ∃ rest, t.inorder = x :: rest := by
    cases hh : t.inorder with
    | nil => rw [hh] at hd; simp at hd
    | cons z zs =>
      rw [hh] at hd
      simp only [List.head?_cons, Option.some.injEq] at hd
      exact ⟨zs, by rw [hd]⟩
  have htl2 : t.removeLeftEnd.inorder = rest := by rw [htl, hrest]; rfl
  have hr2 : q.tree.pRoot = some a := by rw [h.root, hr]
  rw [hrest] at ndt
  obtain ⟨x_rest, ndrest⟩ := List.nodup_cons.1 ndt
  have x_pool : x ∉ pool := fun hx => dtp (by rw [hrest]; simp) hx
  have hperm : (t.inorder ++ [] ++ pool).Perm (x :: (t.removeLeftEnd.inorder ++ [] ++ pool)) := by
    rw [hrest, htl2]; simp
  have ow1 : Owned m1 q.brk (t.inorder ++ [] ++ pool) :=
    h.owned.owned_frame (fun y hy => T1.1 y (fun hy2 => hy (by simp [hy2])))
  have fut := h.future
  have srt := h.sorted
  rw [hrest] at fut srt
  obtain ⟨hmin, srest⟩ := List.pairwise_cons.1 srt
  refine ⟨m1, x, rest, ?_, hrest, htl2, T1, ?_, rfl, ?_, ?_, ?_, ow1.release hperm,
    ?_, ?_, ?_, ?_⟩
  · simp [AVLTree.RemoveHead, hr2, e]
  · exact t1.tree_frame (fun y hy => CEventQueue.activate_other _ (by
      rw [htl2] at hy; rintro rfl; exact x_rest hy))
  · show _ ≤ q.tree.Count - 1
    have hc := h.count
    rw [hrest] at hc
    rw [htl2]
    simp only [List.length_cons, Nat.cast_add, Nat.cast_one] at hc
    omega
  · exact ⟨h.topS.1, h.topS.2.1, h.topS.2.2⟩
  · exact h.poolS.stack_frame (fun y hy => by
      have hy1 : y ≠ x := fun e => x_pool (e ▸ hy)
      have hy2 : y ∉ t.inorder := fun h2 => dtp h2 hy
      show (CEventQueue.Activate m1 x y).RChild = _
      rw [CEventQueue.activate_other _ hy1, T1.1 y hy2])
  · rw [htl2]
    refine srest.imp ?_
    intro a b hab
    show (CEventQueue.Activate m1 x a).NodeKey ≤ (CEventQueue.Activate m1 x b).NodeKey
    simp only [CEventQueue.activate_key, T1.key]; exact hab
  · intro y hy
    rw [htl2] at hy
    show (m1 x).NodeKey ≤ (CEventQueue.Activate m1 x y).NodeKey ∧
      (CEventQueue.Activate m1 x y).NodeKey ≤ INT64_MAX
    simp only [CEventQueue.activate_key, T1.key]
    exact ⟨hmin y hy, (fut y (List.mem_cons_of_mem _ hy)).2⟩
  · intro y hy; simp at hy
  · show 0 ≤ (m1 x).NodeKey ∧ (m1 x).NodeKey ≤ INT64_MAX
    rw [T1.key]
    have := fut x (List.mem_cons_self _ _)
    exact ⟨le_trans h.time.1 this.1, this.2⟩

/-! ## Specification of the queue methods under the invariant -/

theorem QueueInv.new (heap : Mem) : QueueInv (CEventQueue.new heap) Shape.nil [] [] := by
  refine ⟨trivial, rfl, le_refl _, ⟨rfl, rfl, rfl⟩, ⟨rfl, rfl, rfl⟩, ⟨List.nodup_nil, ?_, ?_⟩,
    List.Pairwise.nil, ?_, ?_, ?_⟩
  · intro a ha; simp [Shape.inorder] at ha
  · intro a ha; simp [CEventQueue.new] at ha
  · intro a ha; simp [Shape.inorder] at ha
  · intro a ha; simp at ha
  · simp [CEventQueue.new, INT64_MAX]

theorem allocateEvent_eq {q : CEventQueue} {t : Shape} {top pool : List Nat}
    (h : QueueInv q t top pool) :
    (pool = [] ∧ q.AllocateEvent =
      ({ q with brk := q.brk + 1,
                mem := CEventQueue.Activate (CEventQueue.construct q.mem q.brk) q.brk },
       some q.brk)) ∨
    (∃ a pool2, pool = a :: pool2 ∧ q.AllocateEvent =
      ({ q with eqEventPool := (Stack.Pop q.mem q.eqEventPool).1,
                mem := CEventQueue.Activate q.mem a }, some a)) := by
  cases pool with
  | nil =>
    have hc : q.eqEventPool.Count = 0 := (h.poolS.nil_iff).2 rfl
    exact Or.inl ⟨rfl, by simp [CEventQueue.AllocateEvent, hc]⟩
  | cons a pool2 =>
    have hc : q.eqEventPool.Count ≠ 0 := fun e => by
      have := (h.poolS.nil_iff).1 e
      simp at this
    have hpop := (StackOf.pop h.poolS).1
    have e : Stack.Pop q.mem q.eqEventPool = ((Stack.Pop q.mem q.eqEventPool).1, some a) := by
      rw [← hpop]
    refine Or.inr ⟨a, pool2, rfl, ?_⟩
    simp only [CEventQueue.AllocateEvent, hc, ne_eq, not_false_eq_true, if_true]
    rw [e]

theorem allocateEvent_spec {q : CEventQueue} {t : Shape} {top pool : List Nat}
    (h : QueueInv q t top pool) :
    ∃ p pool2, q.AllocateEvent.2 = some p ∧ QueueInv q.AllocateEvent.1 t top pool2 ∧
      CEventQueue.IsActive q.AllocateEvent.1.mem p = true ∧ p < q.AllocateEvent.1.brk ∧
      q.AllocateEvent.1.eqCurrentTime = q.eqCurrentTime ∧ q.brk ≤ q.AllocateEvent.1.brk ∧
      (pool = p :: pool2 ∨ (pool = [] ∧ pool2 = [] ∧ p = q.brk)) ∧
      (∀ x, x < q.brk → (q.AllocateEvent.1.mem x).data = (q.mem x).data) := by
  rcases allocateEvent_eq h with ⟨hp, e⟩ | ⟨a, pool2, hp, e⟩
  · subst hp
    rw [e]
    refine ⟨q.brk, [], rfl, h.fresh, by simp, by simp, rfl, by simp, Or.inr ⟨rfl, rfl, rfl⟩, ?_⟩
    intro x hx
    have : x ≠ q.brk := Nat.ne_of_lt hx
    simp [CEventQueue.construct, AVL.Initialize, this]
  · subst hp
    rw [e]
    have ha : a < q.brk := h.owned.alloc a (by simp)
    exact ⟨a, pool2, rfl, h.pop_pool, by simp, ha, rfl, le_refl _, Or.inl rfl,
      fun x _ => by simp⟩

/-- The record `a` as `RegisterEvent` stamps it: the activation time is written, nothing else. -/
theorem registerEvent_inactive {q : CEventQueue} {a : Nat} (i : Int)
    (ha : CEventQueue.IsActive q.mem a = false) : q.RegisterEvent (some a) i = some q := by
  simp [CEventQueue.RegisterEvent, ha]

theorem registerEvent_spec {q : CEventQueue} {t : Shape} {top pool : List Nat} {a : Nat}
    {i : Int} (h : QueueInv q t top pool) (hb : a < q.brk)
    (ha : CEventQueue.IsActive q.mem a = true) (hi : -(2 ^ 63) ≤ i)
    (ho : q.eqCurrentTime + (if i < 0 then 0 else i) ≤ INT64_MAX) :
    ∃ q2, q.RegisterEvent (some a) i = some q2 ∧
      q2.eqCurrentTime = q.eqCurrentTime ∧ q2.brk = q.brk ∧
      q2.eqEventPool = q.eqEventPool ∧
      (q2.mem a).NodeKey = q.eqCurrentTime + (if i < 0 then 0 else i) ∧
      (∀ x, x ≠ a → (q2.mem x).data = (q.mem x).data) ∧
      (q.mem a).assign (q2.mem a) = q.mem a ∧
      ((if i < 0 then 0 else i) = 0 →
        QueueInv q2 t (a :: top) pool ∧ q2.tree = q.tree ∧ q2.eqTopEvents.pTop = some a) ∧
      ((if i < 0 then 0 else i) ≠ 0 →
        QueueInv q2 (t.insert (fun z => (q2.mem z).NodeKey) a) top pool ∧
        q2.eqTopEvents = q.eqTopEvents) := by
  have hcur := h.time.1
  by_cases c : i ≤ 0
  · have hiv : (if i < 0 then 0 else i) = 0 := by split_ifs <;> omega
    simp only [hiv, add_zero] at ho ⊢
    have hk : wrap64 q.eqCurrentTime = q.eqCurrentTime := wrap64_eq (by omega) ho
    have h1 : QueueInv { q with mem := q.mem.set a { q.mem a with NodeKey := q.eqCurrentTime } }
        t top pool := h.write_active _ ha ⟨rfl, rfl⟩
    have ha1 : CEventQueue.IsActive (q.mem.set a { q.mem a with NodeKey := q.eqCurrentTime }) a
        = true := by simpa [CEventQueue.IsActive] using ha
    have hpush := h1.push_top hb ha1 (by simp)
    refine ⟨{ q with
        mem := (Stack.Push (q.mem.set a { q.mem a with NodeKey := q.eqCurrentTime })
          q.eqTopEvents (some a)).1,
        eqTopEvents := (Stack.Push (q.mem.set a { q.mem a with NodeKey := q.eqCurrentTime })
          q.eqTopEvents (some a)).2 }, ?_, ?_⟩
    · simp only [CEventQueue.RegisterEvent, ha, if_true, hiv, add_zero, hk]
    · refine ⟨rfl, rfl, rfl, ?_, ?_, ?_, fun _ => ⟨hpush, rfl, rfl⟩, fun hne => absurd rfl hne⟩
      · simp [Stack.Push, Mem.setR]
      · intro x hx
        simp [Stack.Push, Mem.setR, hx]
      · simp [Stack.Push, Mem.setR, CEvent.assign]
  · have hiv : (if i < 0 then 0 else i) = i := by split_ifs <;> omega
    simp only [hiv] at ho ⊢
    have hk : wrap64 (q.eqCurrentTime + i) = q.eqCurrentTime + i := wrap64_eq (by omega) ho
    have h1 : QueueInv
        { q with mem := q.mem.set a { q.mem a with NodeKey := q.eqCurrentTime + i } }
        t top pool := h.write_active _ ha ⟨rfl, rfl⟩
    have ha1 : CEventQueue.IsActive
        (q.mem.set a { q.mem a with NodeKey := q.eqCurrentTime + i }) a = true := by
      simpa [CEventQueue.IsActive] using ha
    obtain ⟨m2, tr, e, hT, hadd⟩ := h1.add_node (p := a) hb ha1 (by simp; omega)
    have i0 : i ≠ 0 := by omega
    have hkey : ∀ x, (m2 x).NodeKey
        = ((q.mem.set a { q.mem a with NodeKey := q.eqCurrentTime + i }) x).NodeKey :=
      fun x => hT.key x
    have hfun : (fun z => (m2 z).NodeKey)
        = (fun z => ((q.mem.set a { q.mem a with NodeKey := q.eqCurrentTime + i }) z).NodeKey) :=
      funext hkey
    refine ⟨{ q with mem := m2, tree := tr }, ?_, rfl, rfl, rfl, ?_, ?_, ?_,
      fun h0 => absurd h0 i0, fun _ => ⟨?_, rfl⟩⟩
    · simp only [CEventQueue.RegisterEvent, ha, if_true, hiv, hk, i0, if_false]
      rw [e]
    · show (m2 a).NodeKey = _
      rw [hkey]; simp
    · intro x hx
      show (m2 x).data = _
      rw [hT.2 x]; simp [hx]
    · show (q.mem a).assign (m2 a) = _
      have := hT.2 a
      simp only [Mem.set_same, CEvent.data, CEvent.mk.injEq] at this
      simp [CEvent.assign, this]
    · show QueueInv { q with mem := m2, tree := tr } (t.insert (fun z => (m2 z).NodeKey) a) top pool
      rw [hfun]; exact hadd

theorem getNextEvent_top {q : CEventQueue} {t : Shape} {top pool : List Nat} {a : Nat}
    (h : QueueInv q t (a :: top) pool) :
    ∃ q2, q.GetNextEvent = some (q2, some a) ∧ QueueInv q2 t top pool ∧
      q.eqTopEvents.pTop = some a ∧
      q2.eqCurrentTime = (q.mem a).NodeKey ∧ (q.mem a).NodeKey = q.eqCurrentTime ∧
      CEventQueue.IsActive q2.mem a = true ∧ q2.brk = q.brk ∧
      q2.eqEventPool = q.eqEventPool ∧ q2.tree = q.tree ∧
      (∀ x, (q2.mem x).data = (q.mem x).data) := by
  have hc : q.eqTopEvents.Count ≠ 0 := fun e => by
    have := (h.topS.nil_iff).1 e
    simp at this
  have hpop := (StackOf.pop h.topS).1
  have e : Stack.Pop q.mem q.eqTopEvents = ((Stack.Pop q.mem q.eqTopEvents).1, some a) := by
    rw [← hpop]
  refine ⟨{ q with eqTopEvents := (Stack.Pop q.mem q.eqTopEvents).1,
                   eqCurrentTime := (q.mem a).NodeKey,
                   mem := CEventQueue.Activate q.mem a }, ?_, h.pop_top, h.topS.1.1, rfl,
    h.now a (List.mem_cons_self _ _), by simp, rfl, rfl, rfl, fun x => by simp⟩
  simp only [CEventQueue.GetNextEvent, hc, ne_eq, not_false_eq_true, if_true]
  rw [e]

theorem getNextEvent_tree {q : CEventQueue} {t : Shape} {pool : List Nat} {x : Nat}
    {rest : List Nat} (h : QueueInv q t [] pool) (hx : t.inorder = x :: rest) :
    ∃ q2, q.GetNextEvent = some (q2, some x) ∧ QueueInv q2 t.removeLeftEnd [] pool ∧
      t.removeLeftEnd.inorder = rest ∧
      q2.eqCurrentTime = (q.mem x).NodeKey ∧
      (∀ y ∈ t.inorder, (q.mem x).NodeKey ≤ (q.mem y).NodeKey) ∧
      CEventQueue.IsActive q2.mem x = true ∧ q2.brk = q.brk ∧
      q2.eqEventPool = q.eqEventPool ∧ q2.eqTopEvents = q.eqTopEvents ∧
      (∀ y, (q2.mem y).data = (q.mem y).data) := by
  have hc : q.eqTopEvents.Count = 0 := (h.topS.nil_iff).2 rfl
  obtain ⟨a, hr⟩ : ∃ a, t.root = some a := by
    cases t with
    | nil => simp [Shape.inorder] at hx
    | node l a r => exact ⟨a, rfl⟩
  obtain ⟨m1, x2, rest2, e, hi, htl, T1, hinv⟩ := h.remove_head hr
  rw [hx] at hi
  simp only [List.cons.injEq] at hi
  obtain ⟨rfl, rfl⟩ := hi
  have srt := h.sorted
  rw [hx] at srt
  refine ⟨_, ?_, hinv, htl, T1.key x, ?_, by simp, rfl, rfl, rfl, fun y => ?_⟩
  · simp only [CEventQueue.GetNextEvent, hc, ne_eq, not_true_eq_false, if_false, e]
  · intro y hy
    rw [hx] at hy
    rcases List.mem_cons.1 hy with rfl | hy
    · exact le_refl _
    · exact (List.pairwise_cons.1 srt).1 y hy
  · show (CEventQueue.Activate m1 x y).data = _
    rw [CEventQueue.activate_data, T1.2]

theorem getNextEvent_empty {q : CEventQueue} {pool : List Nat}
    (h : QueueInv q Shape.nil [] pool) : q.GetNextEvent = some (q, none) := by
  have hc : q.eqTopEvents.Count = 0 := (h.topS.nil_iff).2 rfl
  have hr : q.tree.pRoot = none := h.root
  simp [CEventQueue.GetNextEvent, hc, AVLTree.RemoveHead, hr]

theorem destroyEvent_inactive {q : CEventQueue} {a : Nat}
    (ha : CEventQueue.IsActive q.mem a = false) : q.DestroyEvent (some a) = q := by
  simp [CEventQueue.DestroyEvent, ha]

theorem destroyEvent_spec {q : CEventQueue} {t : Shape} {top pool : List Nat} {a : Nat}
    (h : QueueInv q t top pool) (hb : a < q.brk)
    (ha : CEventQueue.IsActive q.mem a = true) :
    QueueInv (q.DestroyEvent (some a)) t top (a :: pool) ∧
      (q.DestroyEvent (some a)).eqEventPool.Count = q.eqEventPool.Count + 1 ∧
      (q.DestroyEvent (some a)).eqEventPool.pTop = some a := by
  have := h.push_pool hb ha
  simp only [CEventQueue.DestroyEvent, ha, if_true]
  exact ⟨this, rfl, rfl⟩

theorem QueueInv.write_public {q : CEventQueue} {t : Shape} {top pool : List Nat}
    (h : QueueInv q t top pool) (p : Nat) (d : CEvent) :
    QueueInv { q with mem := q.mem.set p ((q.mem p).assign d) } t top pool := by
  refine h.write (fun x => ?_)
  by_cases hx : x = p
  · subst hx; simp [CEvent.assign]
  · simp [hx]

theorem cancelEvent_spec {q : CEventQueue} {t : Shape} {top pool : List Nat}
    (h : QueueInv q t top pool) (p : Ptr) : QueueInv (q.CancelEvent p) t top pool := by
  cases p with
  | none => exact h
  | some a =>
    refine h.write (fun x => ?_)
    by_cases hx : x = a
    · subst hx; simp
    · simp [hx]

/-! ## Reset of the event queue -/

theorem Shape.clearOrder_perm (t : Shape) : t.clearOrder.Perm t.inorder := by
  induction t with
  | nil => exact List.Perm.refl _
  | node l a r ihl ihr =>
    simp only [Shape.clearOrder, Shape.inorder]
    refine List.Perm.trans ?_ List.perm_middle.symm
    exact List.Perm.cons a ((ihr.append ihl).trans List.perm_append_comm)

theorem Chain.append_set {m : Mem} {l1 : List Nat} {b : Nat} {q : Ptr} (h1 : Chain m l1 q) :
    ∀ (l2 : List Nat) (p : Ptr), Chain m (l2 ++ [b]) p → ((l2 ++ [b]) ++ l1).Nodup →
      Chain (m.setR b q) ((l2 ++ [b]) ++ l1) p := by
  intro l2
  induction l2 with
  | nil =>
    intro p h2 nd
    simp only [List.nil_append, List.singleton_append] at h2 nd ⊢
    refine ⟨h2.1, ?_⟩
    simp only [Mem.setR, Mem.set_same]
    exact h1.chain_frame (fun x hx => by
      have : x ≠ b := fun e => (List.nodup_cons.1 nd).1 (e ▸ hx)
      simp [this])
  | cons a l2 ih =>
    intro p h2 nd
    simp only [List.cons_append] at h2 nd ⊢
    obtain ⟨h3, h4⟩ := h2
    have hab : a ≠ b := by
      intro e
      have := (List.nodup_cons.1 nd).1
      apply this
      rw [e]
      simp
    refine ⟨h3, ?_⟩
    have e : ((m.setR b q) a).RChild = (m a).RChild := by simp [Mem.setR, hab]
    rw [e]
    exact ih _ h4 (List.nodup_cons.1 nd).2

theorem StackOf.combine {m : Mem} {s p : Stack} {l1 l2 : List Nat} (h1 : StackOf m s l1)
    (h2 : StackOf m p l2) (nd : (l2 ++ l1).Nodup) :
    StackOf (Stack.Combine m s p).1 (Stack.Combine m s p).2.1 (l2 ++ l1) ∧
      StackOf (Stack.Combine m s p).1 (Stack.Combine m s p).2.2 [] ∧
      (Stack.Combine m s p).2.1.Count = s.Count + p.Count ∧
      Touches m (Stack.Combine m s p).1 l2 := by
  obtain ⟨c1, b1, n1⟩ := h1
  obtain ⟨c2, b2, n2⟩ := h2
  rcases List.eq_nil_or_concat l2 with rfl | ⟨l, b, hl⟩
  rotate_left
  · rw [List.concat_eq_append] at hl
    subst hl
    have hb : p.pBtm = some b := by rw [b2]; simp
    simp only [Stack.Combine, hb]
    refine ⟨⟨Chain.append_set c1 l p.pTop c2 nd, ?_, ?_⟩, ⟨rfl, rfl, rfl⟩, trivial, ?_⟩
    · cases l1 with
      | nil =>
        have hs : s.pBtm = none := b1
        simp [hs]
      | cons x l1 =>
        have hs : s.pBtm = (x :: l1).getLast? := b1
        have hne : s.pBtm ≠ none := by rw [hs]; simp
        rw [if_neg hne, hs, List.getLast?_append_of_ne_nil _ (by simp)]
    · simp only [n1, n2]
      simp
      omega
    · exact (Touches.setR m b s.pTop).mono (by simp)
  · have hb : p.pBtm = none := b2
    simp only [Stack.Combine, hb, List.nil_append]
    refine ⟨⟨c1, b1, n1⟩, ⟨c2, b2, n2⟩, ?_, Touches.refl _ _⟩
    rw [n2]; simp

theorem clearEventChain_spec (t : Shape) :
    ∀ (fuel a : Nat) (m : Mem) (s : Stack) (l : List Nat), HeapTree m t → t.root = some a →
      t.depth ≤ fuel → StackOf m s l → (t.inorder ++ l).Nodup →
      ∃ m2 s2, CEventQueue.ClearEventChain fuel m s a = some (m2, s2) ∧
        StackOf m2 s2 (t.clearOrder ++ l) ∧ Touches m m2 t.inorder := by
  induction t with
  | nil => intro fuel a m s l _ hr; simp [Shape.root] at hr
  | node tl b tr ihl ihr =>
    intro fuel a m s l ht hr hd hs nd
    have hab : b = a := by simpa [Shape.root] using hr
    subst hab
    obtain ⟨hL, hR, _, _, htl, htr⟩ := ht
    obtain ⟨f, rfl⟩ : ∃ f, fuel = f + 1 := ⟨fuel - 1, by simp [Shape.depth] at hd; omega⟩
    have hdl : tl.depth ≤ f := by simp [Shape.depth] at hd; omega
    have hdr : tr.depth ≤ f := by simp [Shape.depth] at hd; omega
    simp only [Shape.inorder, List.append_assoc, List.cons_append] at nd
    obtain ⟨ndl, ndrest, hdisj⟩ := List.nodup_append.1 nd
    obtain ⟨hb1, ndr⟩ := List.nodup_cons.1 ndrest
    have hbl : b ∉ tl.inorder := fun hm => hdisj hm (List.mem_cons_self _ _)
    have hbr : b ∉ tr.inorder := fun hm => hb1 (List.mem_append_left _ hm)
    have hbs : b ∉ l := fun hm => hb1 (List.mem_append_right _ hm)
    -- the left subtree
    have left : ∃ m1 s1, (match (m b).LChild with
          | some x => CEventQueue.ClearEventChain f m s x
          | none => some (m, s)) = some (m1, s1) ∧
        StackOf m1 s1 (tl.clearOrder ++ l) ∧ Touches m m1 tl.inorder := by
      cases hrl : tl.root with
      | none =>
        have := Shape.root_eq_none hrl
        subst this
        rw [hL, hrl]
        exact ⟨m, s, rfl, hs, Touches.refl _ _⟩
      | some x =>
        rw [hL, hrl]
        refine ihl f x m s l htl hrl hdl hs ?_
        refine List.nodup_append.2 ⟨ndl, (List.nodup_append.1 ndr).2.1, ?_⟩
        intro y hy1 hy2
        exact hdisj hy1 (List.mem_cons_of_mem _ (List.mem_append_right _ hy2))
    obtain ⟨m1, s1, e1, hs1, T1⟩ := left
    have hm1b : m1 b = m b := T1.1 b hbl
    have htr1 : HeapTree m1 tr := htr.touch T1 (fun y hy hy2 =>
      hdisj hy2 (List.mem_cons_of_mem _ (List.mem_append_left _ hy)))
    have ndr1 : (tr.inorder ++ (tl.clearOrder ++ l)).Nodup := by
      have hp : (tr.inorder ++ (tl.clearOrder ++ l)).Perm (tl.inorder ++ (tr.inorder ++ l)) := by
        have h1 : (tl.clearOrder ++ l).Perm (tl.inorder ++ l) :=
          tl.clearOrder_perm.append_right l
        have h2 : (tr.inorder ++ (tl.clearOrder ++ l)).Perm (tr.inorder ++ (tl.inorder ++ l)) :=
          h1.append_left _
        refine h2.trans ?_
        rw [← List.append_assoc, ← List.append_assoc]
        exact List.perm_append_comm.append_right l
      refine hp.nodup_iff.2 ?_
      refine List.nodup_append.2 ⟨ndl, ndr, ?_⟩
      intro y hy1 hy2
      exact hdisj hy1 (List.mem_cons_of_mem _ hy2)
    -- the right subtree
    have right : ∃ m2 s2, (match (m1 b).RChild with
          | some x => CEventQueue.ClearEventChain f m1 s1 x
          | none => some (m1, s1)) = some (m2, s2) ∧
        StackOf m2 s2 (tr.clearOrder ++ (tl.clearOrder ++ l)) ∧ Touches m1 m2 tr.inorder := by
      cases hrr : tr.root with
      | none =>
        have := Shape.root_eq_none hrr
        subst this
        rw [hm1b, hR, hrr]
        exact ⟨m1, s1, rfl, hs1, Touches.refl _ _⟩
      | some x =>
        rw [hm1b, hR, hrr]
        exact ihr f x m1 s1 _ htr1 hrr hdr hs1 ndr1
    obtain ⟨m2, s2, e2, hs2, T2⟩ := right
    have hbn : b ∉ tr.clearOrder ++ (tl.clearOrder ++ l) := by
      simp only [List.mem_append, not_or]
      exact ⟨fun hm => hbr (tr.clearOrder_perm.subset hm),
        fun hm => hbl (tl.clearOrder_perm.subset hm), hbs⟩
    refine ⟨(Stack.Push m2 s2 (some b)).1, (Stack.Push m2 s2 (some b)).2, ?_, ?_, ?_⟩
    · simp only [CEventQueue.ClearEventChain, e1, e2]
    · have := hs2.push hbn
      simpa [Shape.clearOrder, List.append_assoc] using this
    · have T3 : Touches m2 (Stack.Push m2 s2 (some b)).1 [b] := Touches.setR m2 b s2.pTop
      refine (T1.trans T2 (S := tl.inorder ++ tr.inorder)
        (fun x hx => List.mem_append_left _ hx)
        (fun x hx => List.mem_append_right _ hx)).trans T3 ?_ ?_
      · intro y hy
        simp only [Shape.inorder, List.mem_append, List.mem_cons] at hy ⊢
        tauto
      · intro y hy
        simp only [Shape.inorder, List.mem_append, List.mem_cons, List.mem_singleton] at hy ⊢
        tauto

theorem reset_spec {q : CEventQueue} {t : Shape} {top pool : List Nat}
    (h : QueueInv q t top pool) :
    ∃ q2, q.Reset = some q2 ∧ q2.eqCurrentTime = 0 ∧ q2.tree.pRoot = none ∧
      q2.tree.Count = q.tree.Count ∧ q2.brk = q.brk ∧
      StackOf q2.mem q2.eqEventPool (top ++ (t.clearOrder ++ pool)) ∧
      StackOf q2.mem q2.eqTopEvents [] ∧
      q2.eqEventPool.Count = q.eqEventPool.Count + (t.inorder.length + top.length) ∧
      Touches q.mem q2.mem (t.inorder ++ top) := by
  have nd := h.owned.nodup
  have ndtp : (t.inorder ++ pool).Nodup := by
    rw [List.append_assoc] at nd
    obtain ⟨n1, n2, d⟩ := List.nodup_append.1 nd
    exact List.nodup_append.2 ⟨n1, (List.nodup_append.1 n2).2.1,
      fun y hy1 hy2 => d hy1 (List.mem_append_right _ hy2)⟩
  have ndall : (top ++ (t.clearOrder ++ pool)).Nodup := by
    have hp : (top ++ (t.clearOrder ++ pool)).Perm (t.inorder ++ top ++ pool) := by
      rw [← List.append_assoc]
      refine List.Perm.append_right _ ?_
      exact (List.Perm.append_left _ t.clearOrder_perm).trans List.perm_append_comm
    exact hp.nodup_iff.2 nd
  cases hr : t.root with
  | none =>
    have ht := Shape.root_eq_none hr
    subst ht
    have hroot : q.tree.pRoot = none := h.root
    obtain ⟨c1, c2, c3, c4⟩ := StackOf.combine h.poolS h.topS
      (by simpa [Shape.clearOrder] using ndall)
    refine ⟨CEventQueue.mk (Stack.Combine q.mem q.eqEventPool q.eqTopEvents).1 q.brk q.tree 0
      (Stack.Combine q.mem q.eqEventPool q.eqTopEvents).2.1
      (Stack.Combine q.mem q.eqEventPool q.eqTopEvents).2.2,
      by simp only [CEventQueue.Reset, hroot], rfl, hroot, rfl, rfl, ?_, c2, ?_, ?_⟩
    · simpa [Shape.clearOrder] using c1
    · show (Stack.Combine q.mem q.eqEventPool q.eqTopEvents).2.1.Count = _
      rw [c3, h.topS.2.2]
      simp [Shape.inorder]
    · exact c4.mono (fun x hx => List.mem_append_right _ hx)
  | some a =>
    have hroot : q.tree.pRoot = some a := by rw [h.root, hr]
    obtain ⟨m2, s2, e2, hs2, T2⟩ :=
      clearEventChain_spec t q.brk a q.mem q.eqEventPool pool h.tree hr h.depth_le h.poolS ndtp
    have htop2 : StackOf m2 q.eqTopEvents top := by
      refine h.topS.stack_frame (fun x hx => ?_)
      rw [T2.1 x ?_]
      intro hm
      rw [List.append_assoc] at nd
      exact (List.nodup_append.1 nd).2.2 hm (List.mem_append_left _ hx)
    obtain ⟨c1, c2, c3, c4⟩ := StackOf.combine hs2 htop2 ndall
    refine ⟨CEventQueue.mk (Stack.Combine m2 s2 q.eqTopEvents).1 q.brk
      (AVLTree.mk none q.tree.Count) 0 (Stack.Combine m2 s2 q.eqTopEvents).2.1
      (Stack.Combine m2 s2 q.eqTopEvents).2.2,
      by simp only [CEventQueue.Reset, hroot, e2], rfl, rfl, rfl, rfl, c1, c2, ?_, ?_⟩
    · show (Stack.Combine m2 s2 q.eqTopEvents).2.1.Count = _
      rw [c3, hs2.2.2, h.topS.2.2, h.poolS.2.2, List.length_append,
        t.clearOrder_perm.length_eq]
      push_cast
      ring
    · exact T2.trans c4 (fun x hx => List.mem_append_left _ hx)
        (fun x hx => List.mem_append_right _ hx)

/-- The queue invariant after `Reset`: the ordered queue and the top-events stack are empty,
the free pool holds the records of the three containers, and no record is constructed. -/
theorem reset_inv {q : CEventQueue} {t : Shape} {top pool : List Nat}
    (h : QueueInv q t top pool) :
    ∃ q2, q.Reset = some q2 ∧ QueueInv q2 Shape.nil [] (top ++ (t.clearOrder ++ pool)) ∧
      q2.brk = q.brk ∧ q2.eqCurrentTime = 0 ∧ q2.tree.Count = q.tree.Count := by
  obtain ⟨q2, e, htime, hroot, hc, hbrk, hpool, htop, -, T⟩ := reset_spec h
  have hp : (top ++ (t.clearOrder ++ pool)).Perm (t.inorder ++ top ++ pool) := by
    rw [← List.append_assoc]
    refine List.Perm.append_right _ ?_
    exact (List.Perm.append_left _ t.clearOrder_perm).trans List.perm_append_comm
  refine ⟨q2, e, ⟨trivial, hroot, ?_, htop, hpool, ⟨?_, ?_, ?_⟩, List.Pairwise.nil, ?_, ?_, ?_⟩,
    hbrk, htime, hc⟩
  · have := h.count
    rw [hc]
    simp only [Shape.inorder, List.length_nil, Nat.cast_zero]
    omega
  · exact hp.nodup_iff.2 h.owned.nodup
  · intro a ha
    rw [hbrk]
    exact h.owned.alloc a (hp.mem_iff.1 ha)
  · intro a hb ha
    rw [hbrk] at hb
    have hn : a ∉ t.inorder ++ top ++ pool := fun hm => ha (hp.mem_iff.2 hm)
    have hn2 : a ∉ t.inorder ++ top := fun hm => hn (List.mem_append_left _ hm)
    have := h.owned.active a hb hn
    unfold CEventQueue.IsActive at this ⊢
    rw [T.1 a hn2]
    exact this
  · intro a ha; simp [Shape.inorder] at ha
  · intro a ha; simp at ha
  · rw [htime]
    exact ⟨le_refl _, by unfold INT64_MAX; norm_num⟩

theorem QueueInv.poolS_nodup {q : CEventQueue} {t : Shape} {top pool : List Nat}
    (h : QueueInv q t top pool) : pool.Nodup :=
  (List.nodup_append.1 h.owned.nodup).2.1

theorem StackOf.eq_clear {m : Mem} {s : Stack} (h : StackOf m s []) : s = Stack.Clear := by
  obtain ⟨h1, h2, h3⟩ := h
  cases s with
  | mk pTop pBtm Count =>
    have e1 : pTop = none := h1
    have e2 : pBtm = none := h2
    have e3 : Count = 0 := by simpa using h3
    subst e1 e2 e3
    rfl

theorem deletePool_spec {m : Mem} (l : List Nat) : ∀ (fuel : Nat) (s : Stack),
    StackOf m s l → l.length ≤ fuel → CEventQueue.deletePool fuel m s = some Stack.Clear := by
  induction l with
  | nil =>
    intro fuel s h _
    have e := h.eq_clear
    subst e
    cases fuel <;> simp [CEventQueue.deletePool, Stack.Clear]
  | cons a l ih =>
    intro fuel s h hf
    have hc : s.Count > 0 := by
      rw [h.2.2]
      simp only [List.length_cons, Nat.cast_add, Nat.cast_one]
      omega
    cases fuel with
    | zero => simp at hf
    | succ fuel =>
      simp only [CEventQueue.deletePool, hc, if_true]
      exact ih fuel _ h.pop.2 (by simpa using hf)

/-- Method `DeleteEvents` in a state that satisfies the queue invariant: it returns, the
state it leaves is the state left by `Reset` with an empty free pool, with the ordered queue
and the top-events stack empty and the current time `0`; `Reset` and `DeleteEvents` called
again in that state (the destructor after `GlobalFree`) return and change nothing. -/
theorem deleteEvents_spec {q : CEventQueue} {t : Shape} {top pool : List Nat}
    (h : QueueInv q t top pool) :
    ∃ q1 q2, q.Reset = some q1 ∧ q.DeleteEvents = some q2 ∧
      q2 = { q1 with eqEventPool := Stack.Clear } ∧ q2.tree.pRoot = none ∧
      q2.eqTopEvents = Stack.Clear ∧ q2.eqEventPool = Stack.Clear ∧ q2.eqCurrentTime = 0 ∧
      q2.Reset = some q2 ∧ q2.DeleteEvents = some q2 := by
  obtain ⟨q1, e, hinv, hbrk, htime, -⟩ := reset_inv h
  have hlen : (top ++ (t.clearOrder ++ pool)).length ≤ q1.brk :=
    nodup_bound hinv.poolS_nodup (fun a ha => hinv.owned.alloc a (by
      simp only [Shape.inorder, List.nil_append]; exact ha))
  have hd := deletePool_spec (top ++ (t.clearOrder ++ pool)) q1.brk q1.eqEventPool
    hinv.poolS hlen
  have hroot : q1.tree.pRoot = none := hinv.root
  have htop : q1.eqTopEvents = Stack.Clear := hinv.topS.eq_clear
  have hr2 : ({ q1 with eqEventPool := Stack.Clear } : CEventQueue).Reset
      = some { q1 with eqEventPool := Stack.Clear } := by
    cases q1 with
    | mk mem brk tree time pl tp =>
      simp only at hroot htop htime
      subst htop htime
      simp [CEventQueue.Reset, hroot, Stack.Combine, Stack.Clear]
  refine ⟨q1, { q1 with eqEventPool := Stack.Clear }, e, ?_, rfl, hroot, htop, rfl, htime, hr2,
    ?_⟩
  · simp only [CEventQueue.DeleteEvents, e, hd]
  · simp only [CEventQueue.DeleteEvents, hr2]
    cases hb : q1.brk <;> simp [CEventQueue.deletePool, Stack.Clear]

/-- The queue invariant after `DeleteEvents` when no constructed record is left: the three
containers are empty. -/
theorem deleteEvents_inv {q q2 : CEventQueue} {t : Shape} {top pool : List Nat}
    (h : QueueInv q t top pool) (e : q.DeleteEvents = some q2) :
    QueueInv { q2 with brk := 0 } Shape.nil [] [] := by
  obtain ⟨q1, q3, e1, e3, h3, hroot, htop, hpool, htime, -, -⟩ := deleteEvents_spec h
  rw [e] at e3
  simp only [Option.some.injEq] at e3
  subst e3
  obtain ⟨q4, e4, hinv4, -, -, hc4⟩ := reset_inv h
  rw [e1] at e4
  simp only [Option.some.injEq] at e4
  subst e4
  have hcount : (0 : Int) ≤ q2.tree.Count := by
    have := h.count
    rw [h3]
    show 0 ≤ q1.tree.Count
    rw [hc4]
    omega
  refine ⟨trivial, hroot, ?_, ?_, ?_, ⟨List.nodup_nil, ?_, ?_⟩, List.Pairwise.nil, ?_, ?_, ?_⟩
  · simpa [Shape.inorder] using hcount
  · show StackOf q2.mem q2.eqTopEvents []
    rw [htop]
    exact ⟨rfl, rfl, rfl⟩
  · show StackOf q2.mem q2.eqEventPool []
    rw [hpool]
    exact ⟨rfl, rfl, rfl⟩
  · intro a ha; simp [Shape.inorder] at ha
  · intro a ha; exact absurd ha (Nat.not_lt_zero a)
  · intro a ha; simp [Shape.inorder] at ha
  · intro a ha; simp at ha
  · show 0 ≤ q2.eqCurrentTime ∧ q2.eqCurrentTime ≤ INT64_MAX
    rw [htime]
    exact ⟨le_refl _, by unfold INT64_MAX; norm_num⟩

/-! ## Calls, traces and reachable states -/

theorem destroyEvent_inv {q : CEventQueue} {t : Shape} {top pool : List Nat}
    (h : QueueInv q t top pool) (p : Ptr) (hp : validPtr q p = true) :
    ∃ pool2, QueueInv (q.DestroyEvent p) t top pool2 ∧
      (q.DestroyEvent p).eqCurrentTime = q.eqCurrentTime ∧ (q.DestroyEvent p).brk = q.brk := by
  cases p with
  | none => exact ⟨pool, h, rfl, rfl⟩
  | some a =>
    have hb : a < q.brk := by simpa [validPtr] using hp
    cases ha : CEventQueue.IsActive q.mem a with
    | false =>
      rw [destroyEvent_inactive ha]
      exact ⟨pool, h, rfl, rfl⟩
    | true =>
      refine ⟨a :: pool, (destroyEvent_spec h hb ha).1, ?_, ?_⟩ <;>
        simp [CEventQueue.DestroyEvent, ha]

theorem step_spec {q : CEventQueue} {t : Shape} {top pool : List Nat}
    (h : QueueInv q t top pool) (op : Op) (hok : op.ok q = true) :
    ∃ q2 t2 top2 pool2, step q op = some q2 ∧ QueueInv q2 t2 top2 pool2 ∧
      q.eqCurrentTime ≤ q2.eqCurrentTime ∧ q.brk ≤ q2.brk := by
  cases op with
  | AllocateEvent =>
    obtain ⟨p, pool2, -, hinv, -, -, ht, hbrk, -, -⟩ := allocateEvent_spec h
    exact ⟨_, t, top, pool2, rfl, hinv, le_of_eq ht.symm, hbrk⟩
  | RegisterEvent p i =>
    simp only [Op.ok, Bool.and_eq_true, decide_eq_true_eq] at hok
    obtain ⟨⟨⟨hp, hi1⟩, -⟩, ho⟩ := hok
    cases p with
    | none => exact ⟨q, t, top, pool, rfl, h, le_refl _, le_refl _⟩
    | some a =>
      have hb : a < q.brk := by simpa [validPtr] using hp
      cases ha : CEventQueue.IsActive q.mem a with
      | false =>
        exact ⟨q, t, top, pool, registerEvent_inactive i ha, h, le_refl _, le_refl _⟩
      | true =>
        obtain ⟨q2, e, ht, hbrk, -, -, -, -, h0, h1⟩ := registerEvent_spec h hb ha hi1 ho
        by_cases c : (if i < 0 then 0 else i) = 0
        · exact ⟨q2, t, a :: top, pool, e, (h0 c).1, le_of_eq ht.symm, le_of_eq hbrk.symm⟩
        · exact ⟨q2, _, top, pool, e, (h1 c).1, le_of_eq ht.symm, le_of_eq hbrk.symm⟩
  | CancelEvent p =>
    refine ⟨_, t, top, pool, rfl, cancelEvent_spec h p, ?_, ?_⟩ <;>
      cases p <;> simp [CEventQueue.CancelEvent]
  | DestroyEvent p =>
    obtain ⟨pool2, hinv, ht, hbrk⟩ := destroyEvent_inv h p hok
    exact ⟨_, t, top, pool2, rfl, hinv, le_of_eq ht.symm, le_of_eq hbrk.symm⟩
  | GetNextEvent =>
    cases top with
    | cons a top2 =>
      obtain ⟨q2, e, hinv, -, ht, hnow, -, hbrk, -⟩ := getNextEvent_top h
      refine ⟨q2, t, top2, pool, by simp [step, e], hinv, ?_, le_of_eq hbrk.symm⟩
      rw [ht, hnow]
    | nil =>
      cases hx : t.inorder with
      | nil =>
        have : t = Shape.nil := by
          cases t with
          | nil => rfl
          | node l a r => simp [Shape.inorder] at hx
        subst this
        exact ⟨q, Shape.nil, [], pool, by simp [step, getNextEvent_empty h], h, le_refl _,
          le_refl _⟩
      | cons x rest =>
        obtain ⟨q2, e, hinv, -, ht, -, -, hbrk, -⟩ := getNextEvent_tree h hx
        refine ⟨q2, _, [], pool, by simp [step, e], hinv, ?_, le_of_eq hbrk.symm⟩
        rw [ht]
        exact (h.future x (by rw [hx]; simp)).1
  | Write p d =>
    exact ⟨_, t, top, pool, rfl, h.write_public p d, le_refl _, le_refl _⟩

theorem run_spec (ops : List Op) : ∀ {q : CEventQueue} {t : Shape} {top pool : List Nat},
    QueueInv q t top pool → okTrace q ops = true →
    ∃ q2 t2 top2 pool2, run q ops = some q2 ∧ QueueInv q2 t2 top2 pool2 ∧
      q.eqCurrentTime ≤ q2.eqCurrentTime ∧ q.brk ≤ q2.brk := by
  induction ops with
  | nil =>
    intro q t top pool h _
    exact ⟨q, t, top, pool, rfl, h, le_refl _, le_refl _⟩
  | cons op ops ih =>
    intro q t top pool h hok
    simp only [okTrace, Bool.and_eq_true] at hok
    obtain ⟨q1, t1, top1, pool1, e1, h1, ht1, hb1⟩ := step_spec h op hok.1
    have hok2 := hok.2
    rw [e1] at hok2
    obtain ⟨q2, t2, top2, pool2, e2, h2, ht2, hb2⟩ := ih h1 hok2
    exact ⟨q2, t2, top2, pool2, by simp [run, e1, e2], h2, le_trans ht1 ht2, le_trans hb1 hb2⟩

theorem stepCall_spec {q : CEventQueue} {t : Shape} {top pool : List Nat}
    (h : QueueInv q t top pool) (c : Call) (hok : c.ok q = true) :
    ∃ q2 t2 top2 pool2, stepCall q c = some q2 ∧ QueueInv q2 t2 top2 pool2 ∧
      q.eqCurrentTime ≤ q2.eqCurrentTime ∧ q.brk ≤ q2.brk := by
  cases c with
  | op o => exact step_spec h o hok
  | dispatch p handler =>
    simp only [Call.ok, Bool.and_eq_true] at hok
    obtain ⟨hp, hh⟩ := hok
    cases p with
    | none => exact ⟨q, t, top, pool, rfl, h, le_refl _, le_refl _⟩
    | some a =>
      have hb : a < q.brk := by simpa [validPtr] using hp
      cases hc : (q.mem a).Consumer with
      | none =>
        obtain ⟨pool2, hinv, ht, hbrk⟩ := destroyEvent_inv h (some a) hp
        refine ⟨_, t, top, pool2, ?_, hinv, le_of_eq ht.symm, le_of_eq hbrk.symm⟩
        simp [stepCall, DESL.DispatchEvent, hc]
      | some c =>
        simp only [hc] at hh
        obtain ⟨q1, t1, top1, pool1, e1, h1, ht1, hb1⟩ := run_spec handler h hh
        have hp1 : validPtr q1 (some a) = true := by
          simp only [validPtr, decide_eq_true_eq]; omega
        obtain ⟨pool2, hinv, ht, hbrk⟩ := destroyEvent_inv h1 (some a) hp1
        refine ⟨_, t1, top1, pool2, ?_, hinv, ?_, ?_⟩
        · simp [stepCall, DESL.DispatchEvent, hc, e1]
        · rw [ht]; exact ht1
        · rw [hbrk]; exact hb1

theorem reachable_inv {heap : Mem} {q : CEventQueue} (h : Reachable heap q) :
    ∃ t top pool, QueueInv q t top pool := by
  induction h with
  | init => exact ⟨_, _, _, QueueInv.new heap⟩
  | call c _ hok hstep ih =>
    obtain ⟨t, top, pool, hinv⟩ := ih
    obtain ⟨q2, t2, top2, pool2, e, h2, -, -⟩ := stepCall_spec hinv c hok
    rw [hstep] at e
    simp only [Option.some.injEq] at e
    subst e
    exact ⟨t2, top2, pool2, h2⟩
  | reset _ hreset ih =>
    obtain ⟨t, top, pool, hinv⟩ := ih
    obtain ⟨q2, e, h2, -, -, -⟩ := reset_inv hinv
    rw [hreset] at e
    simp only [Option.some.injEq] at e
    subst e
    exact ⟨_, _, _, h2⟩
  | deleteEvents _ _ hdel ih =>
    obtain ⟨t, top, pool, hinv⟩ := ih
    exact ⟨_, _, _, deleteEvents_inv hinv hdel⟩

theorem run_append (ops1 ops2 : List Op) : ∀ (q : CEventQueue),
    run q (ops1 ++ ops2) = (run q ops1).bind (fun q1 => run q1 ops2) := by
  induction ops1 with
  | nil => intro q; rfl
  | cons op ops ih =>
    intro q
    simp only [List.cons_append, run]
    cases step q op with
    | none => rfl
    | some q1 => exact ih q1

theorem okTrace_append (ops1 ops2 : List Op) : ∀ (q : CEventQueue),
    okTrace q (ops1 ++ ops2) = true →
    okTrace q ops1 = true ∧ ∀ q1, run q ops1 = some q1 → okTrace q1 ops2 = true := by
  induction ops1 with
  | nil =>
    intro q h
    refine ⟨rfl, fun q1 e => ?_⟩
    simp only [run, Option.some.injEq] at e
    subst e; exact h
  | cons op ops ih =>
    intro q h
    simp only [List.cons_append, okTrace, Bool.and_eq_true] at h ⊢
    cases hs : step q op with
    | none =>
      refine ⟨⟨h.1, rfl⟩, fun q1 e => ?_⟩
      simp [run, hs] at e
    | some q2 =>
      have h2 := h.2
      rw [hs] at h2
      obtain ⟨i1, i2⟩ := ih q2 h2
      refine ⟨⟨h.1, i1⟩, fun q1 e => i2 q1 ?_⟩
      simpa [run, hs] using e

/-- A cleared consumer stays cleared under every call except an assignment to the record. -/
theorem step_consumer_none {q q2 : CEventQueue} {t : Shape} {top pool : List Nat}
    (h : QueueInv q t top pool) (op : Op) (hok : op.ok q = true) (e : step q op = some q2)
    {a : Nat} (hb : a < q.brk) (hw : ∀ d, op ≠ Op.Write a d)
    (hc : (q.mem a).Consumer = none) : (q2.mem a).Consumer = none := by
  have hdata : ∀ {m : Mem}, (m a).data = (q.mem a).data → (m a).Consumer = none := by
    intro m hm
    have := congrArg CEvent.Consumer hm
    simp only [CEvent.data] at this
    rw [this]; exact hc
  cases op with
  | AllocateEvent =>
    simp only [step, Option.some.injEq] at e
    subst e
    obtain ⟨-, -, -, -, -, -, -, -, -, hd⟩ := allocateEvent_spec h
    exact hdata (hd a hb)
  | RegisterEvent p i =>
    simp only [Op.ok, Bool.and_eq_true, decide_eq_true_eq] at hok
    obtain ⟨⟨⟨hp, hi1⟩, -⟩, ho⟩ := hok
    cases p with
    | none =>
      simp only [step, CEventQueue.RegisterEvent, Option.some.injEq] at e
      subst e; exact hc
    | some b =>
      have hb2 : b < q.brk := by simpa [validPtr] using hp
      cases ha : CEventQueue.IsActive q.mem b with
      | false =>
        simp only [step, registerEvent_inactive i ha, Option.some.injEq] at e
        subst e; exact hc
      | true =>
        obtain ⟨q3, e3, -, -, -, -, hd, hpub, -, -⟩ := registerEvent_spec h hb2 ha hi1 ho
        simp only [step, e3, Option.some.injEq] at e
        subst e
        by_cases hab : a = b
        · subst hab
          have := congrArg CEvent.Consumer hpub
          simp only [CEvent.assign] at this
          rw [this]; exact hc
        · exact hdata (hd a hab)
  | CancelEvent p =>
    simp only [step, Option.some.injEq] at e
    subst e
    cases p with
    | none => exact hc
    | some b =>
      simp only [CEventQueue.CancelEvent]
      by_cases hab : a = b
      · subst hab; simp
      · simp [hab, hc]
  | DestroyEvent p =>
    simp only [step, Option.some.injEq] at e
    subst e
    cases p with
    | none => exact hc
    | some b =>
      simp only [CEventQueue.DestroyEvent]
      split_ifs
      · apply hdata
        simp only [Stack.Push]
        exact (Touches.setR q.mem b _).2 a
      · exact hc
  | GetNextEvent =>
    cases top with
    | cons b top2 =>
      obtain ⟨q3, e3, -, -, -, -, -, -, -, -, hd⟩ := getNextEvent_top h
      simp only [step, e3, Option.map_some', Option.some.injEq] at e
      subst e
      exact hdata (hd a)
    | nil =>
      cases hx : t.inorder with
      | nil =>
        have : t = Shape.nil := by
          cases t with
          | nil => rfl
          | node l a r => simp [Shape.inorder] at hx
        subst this
        simp only [step, getNextEvent_empty h, Option.map_some', Option.some.injEq] at e
        subst e; exact hc
      | cons x rest =>
        obtain ⟨q3, e3, -, -, -, -, -, -, -, -, hd⟩ := getNextEvent_tree h hx
        simp only [step, e3, Option.map_some', Option.some.injEq] at e
        subst e
        exact hdata (hd a)
  | Write p d =>
    simp only [step, Option.some.injEq] at e
    subst e
    have hpa : a ≠ p := fun e => hw d (by rw [e])
    simp [hpa, hc]

/-! ## Claims about the event engine -/

/-- C1: starting from the constructor, every sequence of engine calls with admissible arguments
(valid event pointers, `int64s` intervals with `eqCurrentTime + interval` not overflowing; no
`Reset`) runs to completion, and `eqCurrentTime` after any prefix of the sequence is at most
`eqCurrentTime` after the whole sequence; in particular it never decreases from one
`GetNextEvent` call to the next. -/
theorem C1_current_time_monotone (heap : Mem) (ops1 ops2 : List Op)
    (hok : okTrace (CEventQueue.new heap) (ops1 ++ ops2) = true) :
    ∃ q1 q2, run (CEventQueue.new heap) ops1 = some q1 ∧ run q1 ops2 = some q2 ∧
      run (CEventQueue.new heap) (ops1 ++ ops2) = some q2 ∧
      q1.eqCurrentTime ≤ q2.eqCurrentTime := by
  obtain ⟨ok1, ok2⟩ := okTrace_append ops1 ops2 _ hok
  obtain ⟨q1, t1, top1, pool1, e1, h1, -, -⟩ := run_spec ops1 (QueueInv.new heap) ok1
  obtain ⟨q2, t2, top2, pool2, e2, -, ht, -⟩ := run_spec ops2 h1 (ok2 q1 e1)
  exact ⟨q1, q2, e1, e2, by rw [run_append, e1]; exact e2, ht⟩

theorem C1_current_time_monotone_witness :
    ∃ q1 q2,
      run (CEventQueue.new heap0)
        [Op.AllocateEvent, Op.RegisterEvent (some 0) 5, Op.GetNextEvent] = some q1 ∧
      run q1 [Op.AllocateEvent, Op.RegisterEvent (some 1) 0, Op.RegisterEvent (some 0) 3,
        Op.GetNextEvent, Op.GetNextEvent] = some q2 ∧
      run (CEventQueue.new heap0)
        ([Op.AllocateEvent, Op.RegisterEvent (some 0) 5, Op.GetNextEvent] ++
         [Op.AllocateEvent, Op.RegisterEvent (some 1) 0, Op.RegisterEvent (some 0) 3,
          Op.GetNextEvent, Op.GetNextEvent]) = some q2 ∧
      q1.eqCurrentTime ≤ q2.eqCurrentTime :=
  C1_current_time_monotone heap0 _ _ (by decide)

/-! ## States of the running simulation, after `GlobalReset` -/

theorem reachable_run {heap : Mem} (ops : List Op) : ∀ {q q2 : CEventQueue},
    Reachable heap q → okTrace q ops = true → run q ops = some q2 → Reachable heap q2 := by
  induction ops with
  | nil =>
    intro q q2 h _ e
    simp only [run, Option.some.injEq] at e
    subst e
    exact h
  | cons op ops ih =>
    intro q q2 h hok e
    simp only [okTrace, Bool.and_eq_true] at hok
    cases hs : step q op with
    | none => simp [run, hs] at e
    | some q1 =>
      simp only [run, hs] at e
      have hok2 := hok.2
      simp only [hs] at hok2
      exact ih (Reachable.call (Call.op op) h hok.1 hs) hok2 e

theorem reachable_qBoot : Reachable heap0 qBoot :=
  reachable_run [Op.AllocateEvent, Op.AllocateEvent, Op.AllocateEvent,
    Op.RegisterEvent (some 1) 7, Op.RegisterEvent (some 2) 0] Reachable.init (by decide) rfl

theorem reachable_qReset : Reachable heap0 qReset :=
  Reachable.reset reachable_qBoot rfl

theorem reachable_qRun : Reachable heap0 qRun :=
  reachable_run [Op.AllocateEvent, Op.RegisterEvent (some 2) 1000000] reachable_qReset
    (by decide) rfl

/-- The state `qRun` of the running simulation: the counter of the tree is `2` although the
tree holds the single node `2`. -/
theorem qRun_facts :
    qBoot.tree.Count = 1 ∧ qReset.tree.Count = 1 ∧ qReset.tree.pRoot = none ∧
    qRun.tree.Count = 2 ∧ qRun.tree.pRoot = some 2 ∧ (qRun.mem 2).LChild = none ∧
    (qRun.mem 2).RChild = none ∧ (qRun.mem 2).NodeKey = 1000000 ∧
    qRun.eqEventPool.pTop = some 1 ∧ qRun.eqEventPool.Count = 1 ∧
    qRun.eqTopEvents.Count = 0 ∧ qRun.brk = 3 ∧ qRun.eqCurrentTime = 0 ∧
    CEventQueue.IsActive qRun.mem 0 = true := by
  decide

theorem reachable_qAlloc : Reachable heap0 qAlloc :=
  Reachable.call (Call.op Op.AllocateEvent) Reachable.init rfl rfl

theorem reachable_rTop : Reachable heap0 rTop :=
  Reachable.call (Call.op (Op.RegisterEvent (some 0) 0)) reachable_qRun (by decide) rfl

theorem reachable_qTree : Reachable heap0 qTree :=
  Reachable.call (Call.op (Op.RegisterEvent (some 0) 7)) reachable_qAlloc (by decide) rfl

theorem reachable_rSame : Reachable heap0 rSame :=
  reachable_run [Op.RegisterEvent (some 0) 7, Op.AllocateEvent, Op.RegisterEvent (some 1) 7]
    reachable_qRun (by decide) rfl

theorem reachable_rQueued : Reachable heap0 rQueued :=
  reachable_run [Op.Write 0 { CEvent.zero with Type_ := EV_PCKT_ARRIVAL, Consumer := some 9 },
    Op.RegisterEvent (some 0) 7] reachable_qRun (by decide) rfl

/-- The record returned by `GetNextEvent` was in the ordered queue or on the top-events
stack. -/
theorem getNextEvent_mem {q q2 : CEventQueue} {t : Shape} {top pool : List Nat} {a : Nat}
    (h : QueueInv q t top pool) (e : q.GetNextEvent = some (q2, some a)) :
    a ∈ t.inorder ++ top := by
  cases top with
  | cons b rest =>
    obtain ⟨q3, e3, -⟩ := getNextEvent_top h
    rw [e3] at e
    simp only [Option.some.injEq, Prod.mk.injEq] at e
    rw [← e.2]
    simp
  | nil =>
    cases hx : t.inorder with
    | nil =>
      have ht : t = Shape.nil := by
        cases t with
        | nil => rfl
        | node l a r => simp [Shape.inorder] at hx
      subst ht
      rw [getNextEvent_empty h] at e
      simp at e
    | cons x rest =>
      obtain ⟨q3, e3, -⟩ := getNextEvent_tree h hx
      rw [e3] at e
      simp only [Option.some.injEq, Prod.mk.injEq] at e
      rw [← e.2]
      simp

theorem max_zero_eq (i : Int) : max i 0 = if i < 0 then 0 else i := by
  split_ifs with c
  · exact max_eq_right (le_of_lt c)
  · exact max_eq_left (not_lt.1 c)

/-- C2: in every reachable state of the engine, with `t` the ordered queue, `top` the stack of
immediate events (most recent first) and `pool` the free records: when `top` is not empty,
`GetNextEvent` returns its head, which is the record at `pTop` (whatever the ordered queue
holds); when `top` is empty and the ordered queue is not, it removes and returns the first
record of the ordered queue, whose activation time is minimal among all pending records; in
both cases `eqCurrentTime` becomes the activation time of the returned record and the record is
left active (detached); when nothing is pending it returns `NULL` and leaves the queue, hence
`eqCurrentTime`, unchanged.  A detached record registered with an interval `≤ 0` is the one
the next `GetNextEvent` returns (last in, first out). -/
theorem C2_getNextEvent (heap : Mem) (q : CEventQueue) (h : Reachable heap q) :
    ∃ t top pool, QueueInv q t top pool ∧
      (∀ a rest, top = a :: rest →
        q.eqTopEvents.pTop = some a ∧
        ∃ q2, q.GetNextEvent = some (q2, some a) ∧ QueueInv q2 t rest pool ∧
          q2.eqCurrentTime = (q.mem a).NodeKey ∧ CEventQueue.IsActive q2.mem a = true) ∧
      (top = [] → ∀ x rest, t.inorder = x :: rest →
        ∃ q2 t2, q.GetNextEvent = some (q2, some x) ∧ QueueInv q2 t2 [] pool ∧
          t2.inorder = rest ∧
          (∀ y ∈ t.inorder ++ top, (q.mem x).NodeKey ≤ (q.mem y).NodeKey) ∧
          q2.eqCurrentTime = (q.mem x).NodeKey ∧ CEventQueue.IsActive q2.mem x = true) ∧
      (top = [] → t.inorder = [] → q.GetNextEvent = some (q, none)) ∧
      (∀ a i, a < q.brk → CEventQueue.IsActive q.mem a = true → i ≤ 0 → -(2 ^ 63) ≤ i →
        ∃ q1 q2, q.RegisterEvent (some a) i = some q1 ∧
          q1.GetNextEvent = some (q2, some a)) := by
  obtain ⟨t, top, pool, hinv⟩ := reachable_inv h
  refine ⟨t, top, pool, hinv, ?_, ?_, ?_, ?_⟩
  · intro a rest e
    subst e
    obtain ⟨q2, e2, h2, hp, ht, -, ha, -⟩ := getNextEvent_top hinv
    exact ⟨hp, q2, e2, h2, ht, ha⟩
  · intro e x rest hx
    subst e
    obtain ⟨q2, e2, h2, hr, ht, hmin, ha, -⟩ := getNextEvent_tree hinv hx
    refine ⟨q2, _, e2, h2, hr, ?_, ht, ha⟩
    intro y hy
    exact hmin y (by simpa using hy)
  · intro e hx
    subst e
    have : t = Shape.nil := by
      cases t with
      | nil => rfl
      | node l a r => simp [Shape.inorder] at hx
    subst this
    exact getNextEvent_empty hinv
  · intro a i hb ha hi0 hi1
    have hiv : (if i < 0 then 0 else i) = 0 := by split_ifs <;> omega
    obtain ⟨q1, e1, -, -, -, -, -, -, h0, -⟩ := registerEvent_spec hinv hb ha hi1
      (by rw [hiv]; simpa using hinv.time.2)
    obtain ⟨q2, e2, -⟩ := getNextEvent_top (h0 hiv).1
    exact ⟨q1, q2, e1, e2⟩

/-- The witness of C2 takes four states of the running simulation, reached after a `Reset`.
In `rTop` record `0` is on the top-events stack and record `2` in the ordered queue:
`GetNextEvent` returns record `0`.  In `rSame` the stack is empty and the ordered queue holds
the records `1` and `0` with activation time `7` and record `2` with `1000000`: it returns
record `1` and the current time becomes `7`.  In `qReset` nothing is pending: it returns null
and changes nothing.  In `qRun` the detached record `0` registered with the interval `-3` is
the one returned next. -/
theorem C2_getNextEvent_witness :
    (rTop.eqTopEvents.pTop = some 0 ∧ rTop.tree.pRoot = some 2 ∧
      ∃ q2, rTop.GetNextEvent = some (q2, some 0) ∧ q2.eqCurrentTime = 0 ∧
        CEventQueue.IsActive q2.mem 0 = true) ∧
    (rSame.eqTopEvents.Count = 0 ∧ (rSame.mem 1).NodeKey = 7 ∧ (rSame.mem 0).NodeKey = 7 ∧
      (rSame.mem 2).NodeKey = 1000000 ∧
      ∃ q2, rSame.GetNextEvent = some (q2, some 1) ∧ q2.eqCurrentTime = 7 ∧
        CEventQueue.IsActive q2.mem 1 = true) ∧
    (qReset.eqTopEvents.Count = 0 ∧ qReset.tree.pRoot = none ∧
      qReset.GetNextEvent = some (qReset, none)) ∧
    (∃ q1 q2, qRun.RegisterEvent (some 0) (-3) = some q1 ∧
      q1.GetNextEvent = some (q2, some 0)) := by
  refine ⟨?_, ?_, ?_, ?_⟩
  · obtain ⟨t, top, pool, hinv, h1, -, -, -⟩ := C2_getNextEvent heap0 rTop reachable_rTop
    have hp : rTop.eqTopEvents.pTop = some 0 := by decide
    cases top with
    | nil =>
      have : rTop.eqTopEvents.pTop = none := hinv.topS.1
      rw [hp] at this
      exact Option.noConfusion this
    | cons a rest =>
      obtain ⟨hpa, q2, e, -, ht, ha⟩ := h1 a rest rfl
      rw [hp] at hpa
      simp only [Option.some.injEq] at hpa
      subst hpa
      exact ⟨hp, by decide, q2, e, ht.trans (by decide), ha⟩
  · obtain ⟨t, top, pool, hinv, -, h2, -, -⟩ := C2_getNextEvent heap0 rSame reachable_rSame
    have hc : rSame.eqTopEvents.Count = 0 := by decide
    have htop : top = [] := (hinv.topS.nil_iff).1 hc
    have hr : rSame.tree.pRoot = some 0 := by decide
    cases hx : t.inorder with
    | nil =>
      have ht : t = Shape.nil := by
        cases t with
        | nil => rfl
        | node l a r => simp [Shape.inorder] at hx
      subst ht
      have : rSame.tree.pRoot = none := hinv.root
      rw [hr] at this
      exact Option.noConfusion this
    | cons x rest =>
      obtain ⟨q2, t2, e, -, -, -, ht, ha⟩ := h2 htop x rest hx
      have e2 : rSame.GetNextEvent
          = some ((rSame.GetNextEvent.getD (rSame, none)).1, some 1) := rfl
      have hx1 : x = 1 := by
        rw [e] at e2
        simp only [Option.some.injEq, Prod.mk.injEq] at e2
        exact e2.2
      subst hx1
      exact ⟨hc, by decide, by decide, by decide, q2, e, ht.trans (by decide), ha⟩
  · obtain ⟨t, top, pool, hinv, -, -, h3, -⟩ := C2_getNextEvent heap0 qReset reachable_qReset
    have hc : qReset.eqTopEvents.Count = 0 := by decide
    have hr : qReset.tree.pRoot = none := by decide
    have htop : top = [] := (hinv.topS.nil_iff).1 hc
    have ht : t.inorder = [] := by
      have h0 : t.root = none := by rw [← hinv.root]; exact hr
      rw [Shape.root_eq_none h0]
      rfl
    exact ⟨hc, hr, h3 htop ht⟩
  · obtain ⟨t, top, pool, hinv, -, -, -, h4⟩ := C2_getNextEvent heap0 qRun reachable_qRun
    exact h4 0 (-3) (by decide) (by decide) (by decide) (by decide)

/-- C3: in every reachable state, for every detached (active) record `a` and every `int64s`
interval `i` with `eqCurrentTime + max(i, 0)` not overflowing, `RegisterEvent` returns and sets
the activation time of `a` to `eqCurrentTime + max(i, 0)`; when `max(i, 0) = 0` the record
becomes the head of the top-events stack and the ordered queue is untouched, otherwise it is
inserted in the ordered (AVL) queue and the top-events stack is untouched; a negative interval
schedules the record at exactly `eqCurrentTime`. -/
theorem C3_registerEvent (heap : Mem) (q : CEventQueue) (h : Reachable heap q) (a : Nat)
    (i : Int) (hb : a < q.brk) (ha : CEventQueue.IsActive q.mem a = true)
    (hi : -(2 ^ 63) ≤ i) (ho : q.eqCurrentTime + max i 0 ≤ INT64_MAX) :
    ∃ t top pool, QueueInv q t top pool ∧ ∃ q2, q.RegisterEvent (some a) i = some q2 ∧
      (q2.mem a).NodeKey = q.eqCurrentTime + max i 0 ∧
      q2.eqCurrentTime = q.eqCurrentTime ∧
      (max i 0 = 0 →
        QueueInv q2 t (a :: top) pool ∧ q2.tree = q.tree ∧ q2.eqTopEvents.pTop = some a) ∧
      (max i 0 ≠ 0 →
        QueueInv q2 (t.insert (fun z => (q2.mem z).NodeKey) a) top pool ∧
        q2.eqTopEvents = q.eqTopEvents) ∧
      (i < 0 → (q2.mem a).NodeKey = q.eqCurrentTime) := by
  obtain ⟨t, top, pool, hinv⟩ := reachable_inv h
  rw [max_zero_eq] at ho ⊢
  obtain ⟨q2, e, ht, -, -, hk, -, -, h0, h1⟩ := registerEvent_spec hinv hb ha hi ho
  refine ⟨t, top, pool, hinv, q2, e, hk, ht, h0, h1, ?_⟩
  intro hneg
  rw [hk, if_pos hneg, add_zero]

/-- The witness of C3 registers the detached record `0` of the state `qRun` of the running
simulation, once with the interval `-4` (the record goes on the top-events stack with the
activation time `0`, the current time) and once with the interval `7` (it is inserted in the
ordered queue, which holds record `2`, with the activation time `7`). -/
theorem C3_registerEvent_witness :
    (∃ t top pool, QueueInv qRun t top pool ∧ ∃ q2,
      qRun.RegisterEvent (some 0) (-4) = some q2 ∧ (q2.mem 0).NodeKey = 0 ∧
      q2.eqCurrentTime = 0 ∧ QueueInv q2 t (0 :: top) pool ∧ q2.tree = qRun.tree ∧
      q2.eqTopEvents.pTop = some 0) ∧
    (∃ t top pool, QueueInv qRun t top pool ∧ ∃ q2,
      qRun.RegisterEvent (some 0) 7 = some q2 ∧ (q2.mem 0).NodeKey = 7 ∧
      q2.eqCurrentTime = 0 ∧
      QueueInv q2 (t.insert (fun z => (q2.mem z).NodeKey) 0) top pool ∧
      q2.eqTopEvents = qRun.eqTopEvents ∧ q2.tree.pRoot = some 2 ∧
      (q2.mem 2).LChild = some 0) := by
  constructor
  · obtain ⟨t, top, pool, hinv, q2, e, hk, ht, h0, -, hneg⟩ :=
      C3_registerEvent heap0 qRun reachable_qRun 0 (-4) (by decide) (by decide) (by decide)
        (by decide)
    obtain ⟨g1, g2, g3⟩ := h0 (by decide)
    exact ⟨t, top, pool, hinv, q2, e, hneg (by decide), ht, g1, g2, g3⟩
  · obtain ⟨t, top, pool, hinv, q2, e, hk, ht, -, h1, -⟩ :=
      C3_registerEvent heap0 qRun reachable_qRun 0 7 (by decide) (by decide) (by decide)
        (by decide)
    obtain ⟨g1, g2⟩ := h1 (by decide)
    have e2 : qRun.RegisterEvent (some 0) 7
        = some ((qRun.RegisterEvent (some 0) 7).getD qRun) := rfl
    have hq2 : q2 = (qRun.RegisterEvent (some 0) 7).getD qRun :=
      Option.some.inj (e.symm.trans e2)
    exact ⟨t, top, pool, hinv, q2, e, hk, ht, g1, g2, by rw [hq2]; decide,
      by rw [hq2]; decide⟩

theorem getNextEvent_some {q q2 : CEventQueue} {t : Shape} {top pool : List Nat} {a : Nat}
    (h : QueueInv q t top pool) (e : q.GetNextEvent = some (q2, some a)) :
    ∃ t2 top2, QueueInv q2 t2 top2 pool ∧ CEventQueue.IsActive q2.mem a = true ∧
      a < q2.brk ∧ (∀ x, (q2.mem x).data = (q.mem x).data) ∧ a ∈ t.inorder ++ top := by
  cases top with
  | cons b top2 =>
    obtain ⟨q3, e3, h3, -, -, -, ha, hbrk, -, -, hd⟩ := getNextEvent_top h
    rw [e3] at e
    simp only [Option.some.injEq, Prod.mk.injEq] at e
    obtain ⟨rfl, rfl⟩ := e
    exact ⟨t, top2, h3, ha, by rw [hbrk]; exact h.owned.alloc _ (by simp), hd, by simp⟩
  | nil =>
    cases hx : t.inorder with
    | nil =>
      have : t = Shape.nil := by
        cases t with
        | nil => rfl
        | node l a r => simp [Shape.inorder] at hx
      subst this
      rw [getNextEvent_empty h] at e
      simp at e
    | cons x rest =>
      obtain ⟨q3, e3, h3, -, -, -, ha, hbrk, -, -, hd⟩ := getNextEvent_tree h hx
      rw [e3] at e
      simp only [Option.some.injEq, Prod.mk.injEq] at e
      obtain ⟨rfl, rfl⟩ := e
      exact ⟨_, [], h3, ha, by rw [hbrk]; exact h.owned.alloc _ (by simp [hx]), hd, by simp⟩

theorem run_consumer_none (ops : List Op) : ∀ {q q2 : CEventQueue} {t : Shape}
    {top pool : List Nat} {a : Nat}, QueueInv q t top pool → okTrace q ops = true →
    run q ops = some q2 → a < q.brk → (∀ o ∈ ops, o.writes a = false) →
    (q.mem a).Consumer = none → (q2.mem a).Consumer = none := by
  induction ops with
  | nil =>
    intro q q2 t top pool a _ _ e _ _ hc
    simp only [run, Option.some.injEq] at e
    subst e; exact hc
  | cons op ops ih =>
    intro q q2 t top pool a h hok e hb hw hc
    simp only [okTrace, Bool.and_eq_true] at hok
    obtain ⟨q1, t1, top1, pool1, e1, h1, -, hb1⟩ := step_spec h op hok.1
    have hok2 := hok.2
    rw [e1] at hok2
    simp only [run, e1] at e
    have hw1 : ∀ d, op ≠ Op.Write a d := by
      intro d hd
      have := hw op (List.mem_cons_self _ _)
      rw [hd] at this
      simp [Op.writes] at this
    have hc1 := step_consumer_none h op hok.1 e1 hb hw1 hc
    exact ih h1 hok2 e (by omega) (fun o ho => hw o (List.mem_cons_of_mem _ ho)) hc1

/-- C4: in every state reachable through `AllocateEvent`, `RegisterEvent`, `CancelEvent`,
`DestroyEvent`, `GetNextEvent`, assignments to public members and `DispatchEvent`, every
constructed record is in exactly one of four places: the ordered queue `t`, the top-events stack
`top`, the free pool `pool`, or detached (active).  `DispatchEvent` of a record whose consumer
runs the handler `handler` returns the state left by the handler followed by `DestroyEvent`: if
the handler left the record detached it is pushed on the pool exactly once (it was in no
container and the pool counter grows by one); if the handler re-registered or destroyed it (it is
in a container) the final `DestroyEvent` changes nothing. -/
theorem C4_one_place_per_event (heap : Mem) (q : CEventQueue) (h : Reachable heap q) :
    ∃ t top pool, QueueInv q t top pool ∧
      (∀ a, a < q.brk →
        t.inorder.count a + top.count a + pool.count a +
          (if CEventQueue.IsActive q.mem a = true then 1 else 0) = 1) ∧
      (∀ a c handler, a < q.brk → (q.mem a).Consumer = some c → okTrace q handler = true →
        ∃ q1 t1 top1 pool1, run q handler = some q1 ∧ QueueInv q1 t1 top1 pool1 ∧
          stepCall q (Call.dispatch (some a) handler) = some (q1.DestroyEvent (some a)) ∧
          (CEventQueue.IsActive q1.mem a = true →
            a ∉ t1.inorder ++ top1 ++ pool1 ∧
            QueueInv (q1.DestroyEvent (some a)) t1 top1 (a :: pool1) ∧
            (q1.DestroyEvent (some a)).eqEventPool.Count = q1.eqEventPool.Count + 1) ∧
          (a ∈ t1.inorder ++ top1 ++ pool1 → q1.DestroyEvent (some a) = q1)) := by
  obtain ⟨t, top, pool, hinv⟩ := reachable_inv h
  refine ⟨t, top, pool, hinv, ?_, ?_⟩
  · intro a hb
    have hcount : t.inorder.count a + top.count a + pool.count a
        = (t.inorder ++ top ++ pool).count a := by simp [List.count_append, Nat.add_assoc]
    rw [hcount]
    by_cases hm : a ∈ t.inorder ++ top ++ pool
    · rw [List.count_eq_one_of_mem hinv.owned.nodup hm, hinv.not_active hm]
      simp
    · rw [List.count_eq_zero_of_not_mem hm, hinv.owned.active a hb hm]
      simp
  · intro a c handler hb hc hok
    obtain ⟨q1, t1, top1, pool1, e1, h1, -, hb1⟩ := run_spec handler hinv hok
    refine ⟨q1, t1, top1, pool1, e1, h1, ?_, ?_, ?_⟩
    · simp [stepCall, DESL.DispatchEvent, hc, e1]
    · intro ha
      obtain ⟨hd1, hd2, -⟩ := destroyEvent_spec h1 (by omega) ha
      exact ⟨h1.not_mem_of_active ha, hd1, hd2⟩
    · intro hm
      exact destroyEvent_inactive (h1.not_active hm)

theorem reachable_rFour : Reachable heap0 rFour :=
  reachable_run [Op.AllocateEvent, Op.AllocateEvent, Op.DestroyEvent (some 1),
    Op.RegisterEvent (some 0) 0,
    Op.Write 3 { CEvent.zero with Type_ := EV_PCKT_ARRIVAL, Consumer := some 9 }]
    reachable_qRun (by decide) rfl

/-- The witness of C4 is the state `rFour` of the running simulation, in which the four
places are occupied: record `2` is the root of the ordered queue, record `0` the top of the
top-events stack, record `1` the top of the free pool, and record `3`, whose consumer is the
object `9`, is detached.  `DispatchEvent` of record `3` is exercised with three handlers: one
that leaves the record detached (the record is pushed on the pool once, the pool counter
grows from `1` to `2`), one that registers it again and one that destroys it (in both cases
the state left by the handler is the result, the final `DestroyEvent` changes nothing). -/
theorem C4_one_place_per_event_witness :
    rFour.brk = 4 ∧ rFour.tree.pRoot = some 2 ∧ rFour.eqTopEvents.pTop = some 0 ∧
    rFour.eqEventPool.pTop = some 1 ∧ rFour.eqEventPool.Count = 1 ∧
    CEventQueue.IsActive rFour.mem 3 = true ∧ (rFour.mem 3).Consumer = some 9 ∧
    (∃ t top pool, QueueInv rFour t top pool ∧
      ∀ a, a < 4 →
        t.inorder.count a + top.count a + pool.count a +
          (if CEventQueue.IsActive rFour.mem a = true then 1 else 0) = 1) ∧
    (stepCall rFour (Call.dispatch (some 3) []) = some (rFour.DestroyEvent (some 3)) ∧
      (rFour.DestroyEvent (some 3)).eqEventPool.pTop = some 3 ∧
      (rFour.DestroyEvent (some 3)).eqEventPool.Count = 2) ∧
    (∃ q1, run rFour [Op.RegisterEvent (some 3) 5] = some q1 ∧
      stepCall rFour (Call.dispatch (some 3) [Op.RegisterEvent (some 3) 5]) = some q1 ∧
      q1.eqEventPool.Count = 1) ∧
    (∃ q1, run rFour [Op.DestroyEvent (some 3)] = some q1 ∧
      stepCall rFour (Call.dispatch (some 3) [Op.DestroyEvent (some 3)]) = some q1 ∧
      q1.eqEventPool.Count = 2) := by
  obtain ⟨t, top, pool, hinv, hone, hdisp⟩ :=
    C4_one_place_per_event heap0 rFour reachable_rFour
  have hb : (3 : Nat) < rFour.brk := by decide
  have hc : (rFour.mem 3).Consumer = some 9 := by decide
  refine ⟨by decide, by decide, by decide, by decide, by decide, by decide, hc,
    ⟨t, top, pool, hinv, hone⟩, ?_, ?_, ?_⟩
  · obtain ⟨q1, t1, top1, pool1, e1, -, hstep, hdet, -⟩ := hdisp 3 9 [] hb hc (by decide)
    simp only [run, Option.some.injEq] at e1
    subst e1
    have ha : CEventQueue.IsActive rFour.mem 3 = true := by decide
    exact ⟨hstep, by decide, by rw [(hdet ha).2.2]; decide⟩
  · obtain ⟨q1, t1, top1, pool1, e1, h1, hstep, -, hkeep⟩ :=
      hdisp 3 9 [Op.RegisterEvent (some 3) 5] hb hc (by decide)
    have e2 : q1 = (run rFour [Op.RegisterEvent (some 3) 5]).getD rFour :=
      Option.some.inj (e1.symm.trans (show run rFour [Op.RegisterEvent (some 3) 5]
        = some ((run rFour [Op.RegisterEvent (some 3) 5]).getD rFour) from rfl))
    have hna : CEventQueue.IsActive q1.mem 3 = false := by rw [e2]; decide
    have hb1 : (3 : Nat) < q1.brk := by rw [e2]; decide
    have hm : 3 ∈ t1.inorder ++ top1 ++ pool1 := by
      by_contra hn
      have := h1.owned.active 3 hb1 hn
      rw [hna] at this
      exact Bool.noConfusion this
    rw [hkeep hm] at hstep
    exact ⟨q1, e1, hstep, by rw [e2]; decide⟩
  · obtain ⟨q1, t1, top1, pool1, e1, h1, hstep, -, hkeep⟩ :=
      hdisp 3 9 [Op.DestroyEvent (some 3)] hb hc (by decide)
    have e2 : q1 = (run rFour [Op.DestroyEvent (some 3)]).getD rFour :=
      Option.some.inj (e1.symm.trans (show run rFour [Op.DestroyEvent (some 3)]
        = some ((run rFour [Op.DestroyEvent (some 3)]).getD rFour) from rfl))
    have hna : CEventQueue.IsActive q1.mem 3 = false := by rw [e2]; decide
    have hb1 : (3 : Nat) < q1.brk := by rw [e2]; decide
    have hm : 3 ∈ t1.inorder ++ top1 ++ pool1 := by
      by_contra hn
      have := h1.owned.active 3 hb1 hn
      rw [hna] at this
      exact Bool.noConfusion this
    rw [hkeep hm] at hstep
    exact ⟨q1, e1, hstep, by rw [e2]; decide⟩

/-- C5: in every reachable state and for every queued record `a` (in the ordered queue or on
the top-events stack), `CancelEvent` only clears `Consumer` of `a`: the queue keeps the same
contents in the same order, the activation time of `a` and `GetCount` are unchanged.  After any
further admissible calls that do not assign to `a`, when `GetNextEvent` returns `a` and it is
passed to `DispatchEvent`, the result is that of `DestroyEvent` alone whatever the
`ProcessEvent` methods are (none is invoked), and the free-pool counter grows by exactly one. -/
theorem C5_cancel_then_dispatch (heap : Mem) (q : CEventQueue) (h : Reachable heap q) :
    ∃ t top pool, QueueInv q t top pool ∧ ∀ a ∈ t.inorder ++ top,
      q.CancelEvent (some a) = { q with mem := q.mem.set a { q.mem a with Consumer := none } } ∧
      QueueInv (q.CancelEvent (some a)) t top pool ∧
      ((q.CancelEvent (some a)).mem a).NodeKey = (q.mem a).NodeKey ∧
      (q.CancelEvent (some a)).GetCount = q.GetCount ∧
      ∀ ops, okTrace (q.CancelEvent (some a)) ops = true → (∀ o ∈ ops, o.writes a = false) →
        ∃ q1, run (q.CancelEvent (some a)) ops = some q1 ∧
          ∀ q2, q1.GetNextEvent = some (q2, some a) →
            ∀ P, DESL.DispatchEvent P q2 (some a) = some (q2.DestroyEvent (some a)) ∧
              (q2.DestroyEvent (some a)).eqEventPool.Count = q2.eqEventPool.Count + 1 := by
  obtain ⟨t, top, pool, hinv⟩ := reachable_inv h
  refine ⟨t, top, pool, hinv, ?_⟩
  intro a ha
  have hb : a < q.brk := hinv.owned.alloc a (by
    simp only [List.mem_append] at ha ⊢
    exact Or.inl ha)
  have hcan := cancelEvent_spec hinv (some a)
  refine ⟨rfl, hcan, by simp [CEventQueue.CancelEvent], rfl, ?_⟩
  intro ops hok hw
  obtain ⟨q1, t1, top1, pool1, e1, h1, -, -⟩ := run_spec ops hcan hok
  refine ⟨q1, e1, ?_⟩
  intro q2 e2 P
  have hc1 : (q1.mem a).Consumer = none :=
    run_consumer_none ops hcan hok e1 hb hw (by simp [CEventQueue.CancelEvent])
  obtain ⟨t2, top2, h2, hact, hb2, hd, -⟩ := getNextEvent_some h1 e2
  have hc2 : (q2.mem a).Consumer = none := by
    have := congrArg CEvent.Consumer (hd a)
    simp only [CEvent.data] at this
    rw [this]; exact hc1
  refine ⟨by simp [DESL.DispatchEvent, hc2], (destroyEvent_spec h2 hb2 hact).2.1⟩

/-- The witness of C5 is the state `rQueued` of the running simulation, in which record `0`,
whose consumer is the object `9`, waits in the ordered queue with the activation time `7`
before record `2`.  After `CancelEvent` the record is still the root's left child with the
same activation time, its consumer is null, and `GetCount()` is unchanged; `GetNextEvent`
then returns it, and `DispatchEvent` only destroys it whatever the `ProcessEvent` methods
are: the counter of the free pool grows from `1` to `2`. -/
theorem C5_cancel_then_dispatch_witness :
    (rQueued.mem 0).Consumer = some 9 ∧ (rQueued.mem 0).NodeKey = 7 ∧
    rQueued.tree.pRoot = some 2 ∧ (rQueued.mem 2).LChild = some 0 ∧
    ((rQueued.CancelEvent (some 0)).mem 0).Consumer = none ∧
    ((rQueued.CancelEvent (some 0)).mem 0).NodeKey = 7 ∧
    (rQueued.CancelEvent (some 0)).tree = rQueued.tree ∧
    ((rQueued.CancelEvent (some 0)).mem 2).LChild = some 0 ∧
    (rQueued.CancelEvent (some 0)).GetCount = rQueued.GetCount ∧
    ∃ q2, (rQueued.CancelEvent (some 0)).GetNextEvent = some (q2, some 0) ∧
      q2.eqEventPool.Count = 1 ∧
      ∀ P, DESL.DispatchEvent P q2 (some 0) = some (q2.DestroyEvent (some 0)) ∧
        (q2.DestroyEvent (some 0)).eqEventPool.Count = 2 := by
  obtain ⟨t, top, pool, hinv, h⟩ := C5_cancel_then_dispatch heap0 rQueued reachable_rQueued
  have e0 : rQueued.GetNextEvent
      = some ((rQueued.GetNextEvent.getD (rQueued, none)).1, some 0) := rfl
  obtain ⟨-, -, hk, hg, hops⟩ := h 0 (getNextEvent_mem hinv e0)
  obtain ⟨q1, e1, hq1⟩ := hops [] rfl (by simp)
  simp only [run, Option.some.injEq] at e1
  subst e1
  have e2 : (rQueued.CancelEvent (some 0)).GetNextEvent
      = some (((rQueued.CancelEvent (some 0)).GetNextEvent.getD (rQueued, none)).1, some 0) :=
    rfl
  have hpc : (((rQueued.CancelEvent (some 0)).GetNextEvent.getD (rQueued, none)).1).eqEventPool.Count
      = 1 := by decide
  refine ⟨by decide, by decide, by decide, by decide, by decide, by decide, rfl, by decide, hg,
    _, e2, hpc, ?_⟩
  intro P
  obtain ⟨g1, g2⟩ := hq1 _ e2 P
  exact ⟨g1, by rw [g2, hpc]; rfl⟩

/-! ## Handlers on top of the engine -/

theorem QueueInv.modify_public {q : CEventQueue} {t : Shape} {top pool : List Nat}
    (h : QueueInv q t top pool) (p : Nat) {f : CEvent → CEvent} (hf : PublicOnly f) :
    QueueInv (q.modify p f) t top pool := by
  refine h.write (fun x => ?_)
  by_cases hx : x = p
  · subst hx; simpa using hf (q.mem x)
  · simp [hx]

theorem isActive_modify (q : CEventQueue) (p a : Nat) {f : CEvent → CEvent}
    (hf : PublicOnly f) :
    CEventQueue.IsActive (q.modify p f).mem a = CEventQueue.IsActive q.mem a := by
  by_cases hx : a = p
  · subst hx
    simp [CEventQueue.IsActive, CEventQueue.modify, (hf (q.mem a)).1, (hf (q.mem a)).2.1]
  · simp [CEventQueue.IsActive, CEventQueue.modify, hx]

theorem assign_eq_fields {e e2 : CEvent} (h : e.assign e2 = e) :
    e2.Type_ = e.Type_ ∧ e2.Pckt = e.Pckt ∧ e2.GATE = e.GATE ∧ e2.RPRT = e.RPRT ∧
      e2.Producer = e.Producer ∧ e2.Consumer = e.Consumer := by
  refine ⟨?_, ?_, ?_, ?_, ?_, ?_⟩
  · simpa [CEvent.assign] using congrArg CEvent.Type_ h
  · simpa [CEvent.assign] using congrArg CEvent.Pckt h
  · simpa [CEvent.assign] using congrArg CEvent.GATE h
  · simpa [CEvent.assign] using congrArg CEvent.RPRT h
  · simpa [CEvent.assign] using congrArg CEvent.Producer h
  · simpa [CEvent.assign] using congrArg CEvent.Consumer h

theorem desl_registerEvent_spec {q : CEventQueue} {t : Shape} {top pool : List Nat} {a : Nat}
    {i : Int} (h : QueueInv q t top pool) (hb : a < q.brk)
    (ha : CEventQueue.IsActive q.mem a = true) (hi : -(2 ^ 63) ≤ i)
    (ho : q.eqCurrentTime + (if i < 0 then 0 else i) ≤ INT64_MAX) (producer : Ptr) :
    ∃ q2, DESL.RegisterEvent q (some a) i producer = some q2 ∧
      q2.eqCurrentTime = q.eqCurrentTime ∧ q2.brk = q.brk ∧
      q2.eqEventPool = q.eqEventPool ∧
      (q2.mem a).NodeKey = q.eqCurrentTime + (if i < 0 then 0 else i) ∧
      (q2.mem a).Producer = producer ∧ (q2.mem a).Type_ = (q.mem a).Type_ ∧
      (q2.mem a).Pckt = (q.mem a).Pckt ∧ (q2.mem a).GATE = (q.mem a).GATE ∧
      (q2.mem a).RPRT = (q.mem a).RPRT ∧ (q2.mem a).Consumer = (q.mem a).Consumer ∧
      (∀ x, x ≠ a → (q2.mem x).data = (q.mem x).data) ∧
      ((if i < 0 then 0 else i) = 0 →
        QueueInv q2 t (a :: top) pool ∧ q2.tree = q.tree ∧ q2.eqTopEvents.pTop = some a) ∧
      ((if i < 0 then 0 else i) ≠ 0 →
        QueueInv q2 (t.insert (fun z => (q2.mem z).NodeKey) a) top pool ∧
        q2.eqTopEvents = q.eqTopEvents) := by
  have hf : PublicOnly (fun e => { e with Producer := producer }) :=
    fun e => ⟨rfl, rfl, rfl, rfl, rfl⟩
  have h1 := h.modify_public a hf
  have ha1 : CEventQueue.IsActive (q.modify a (fun e => { e with Producer := producer })).mem a
      = true := by rw [isActive_modify q a a hf]; exact ha
  obtain ⟨q2, e, ht, hbrk, hpool, hk, hd, hpub, h0, h1⟩ :=
    registerEvent_spec (i := i) h1 hb ha1 hi ho
  obtain ⟨f1, f2, f3, f4, f5, f6⟩ := assign_eq_fields hpub
  refine ⟨q2, e, ht, hbrk, hpool, hk, ?_, ?_, ?_, ?_, ?_, ?_, ?_, h0, h1⟩
  · rw [f5]; simp [CEventQueue.modify]
  · rw [f1]; simp [CEventQueue.modify]
  · rw [f2]; simp [CEventQueue.modify]
  · rw [f3]; simp [CEventQueue.modify]
  · rw [f4]; simp [CEventQueue.modify]
  · rw [f6]; simp [CEventQueue.modify]
  · intro x hx
    rw [hd x hx]; simp [CEventQueue.modify, hx]

theorem wrap32_eq {x : Int} (h : fits32 x) : wrap32 x = x := by
  unfold wrap32
  unfold fits32 at h
  rw [Int.emod_eq_of_lt (by omega) (by omega)]
  omega

theorem wrap64_fits {x : Int} (h : fits64 x) : wrap64 x = x := by
  unfold fits64 at h
  exact wrap64_eq h.1 (by unfold INT64_MAX; exact h.2)

theorem OnuInv.congr {o o2 : ONU} (h : OnuInv o) (h1 : o2.FIFO = o.FIFO)
    (h2 : o2.QueueBytes = o.QueueBytes) : OnuInv o2 := by
  unfold OnuInv at h ⊢
  rw [h1, h2]; exact h

theorem OnuInv.nonneg {o : ONU} (h : OnuInv o) : 0 ≤ o.QueueBytes := by
  rw [h.1]
  apply List.sum_nonneg
  intro x hx
  obtain ⟨p, hp, rfl⟩ := List.mem_map.1 hx
  exact (h.2.2 p hp).1

theorem OnuInv.enqueue {o : ONU} (h : OnuInv o) {pckt : Pckt_Data_t}
    (hs : isUInt16 pckt.PcktSize) (hc : wrap32 (o.QueueBytes + pckt.PcktSize) ≤ BUFFER_SIZE) :
    OnuInv (o.EnqueuePacket pckt) ∧
      (o.EnqueuePacket pckt).QueueBytes = o.QueueBytes + pckt.PcktSize ∧
      o.QueueBytes + pckt.PcktSize ≤ BUFFER_SIZE := by
  have h0 := h.nonneg
  have hB := h.2.1
  have hw : wrap32 (o.QueueBytes + pckt.PcktSize) = o.QueueBytes + pckt.PcktSize := by
    apply wrap32_eq
    unfold fits32 isUInt16 BUFFER_SIZE at *
    constructor <;> omega
  rw [hw] at hc
  refine ⟨⟨?_, ?_, ?_⟩, ?_, hc⟩
  · show wrap32 (o.QueueBytes + pckt.PcktSize) = ((o.FIFO ++ [pckt]).map Pckt_Data_t.PcktSize).sum
    rw [hw, h.1]
    simp
  · simp only [ONU.EnqueuePacket, hw]; exact hc
  · intro p hp
    simp only [ONU.EnqueuePacket, List.mem_append, List.mem_singleton] at hp
    rcases hp with hp | rfl
    · exact h.2.2 p hp
    · exact hs
  · simp only [ONU.EnqueuePacket, hw]

theorem OnuInv.dequeue {o : ONU} (h : OnuInv o) {head : Pckt_Data_t} {rest : List Pckt_Data_t}
    (hf : o.FIFO = head :: rest) :
    o.DequeuePacket = ({ o with FIFO := rest, QueueBytes := o.QueueBytes - head.PcktSize }, head) ∧
      OnuInv { o with FIFO := rest, QueueBytes := o.QueueBytes - head.PcktSize } := by
  have hB := h.2.1
  have hsum := h.1
  rw [hf] at hsum
  simp only [List.map_cons, List.sum_cons] at hsum
  have hrest : 0 ≤ (rest.map Pckt_Data_t.PcktSize).sum := by
    apply List.sum_nonneg
    intro x hx
    obtain ⟨p, hp, rfl⟩ := List.mem_map.1 hx
    exact (h.2.2 p (by rw [hf]; exact List.mem_cons_of_mem _ hp)).1
  have hhead := h.2.2 head (by rw [hf]; exact List.mem_cons_self _ _)
  have hw : wrap32 (o.QueueBytes - head.PcktSize) = o.QueueBytes - head.PcktSize := by
    apply wrap32_eq
    unfold fits32 isUInt16 BUFFER_SIZE at *
    constructor <;> omega
  refine ⟨?_, ?_, ?_, ?_⟩
  · simp only [ONU.DequeuePacket, hf, hw]
  · show o.QueueBytes - head.PcktSize = (rest.map Pckt_Data_t.PcktSize).sum
    omega
  · show o.QueueBytes - head.PcktSize ≤ BUFFER_SIZE
    unfold isUInt16 at hhead
    omega
  · intro p hp
    exact h.2.2 p (by rw [hf]; exact List.mem_cons_of_mem _ hp)

theorem startSending_onu {o o2 : ONU} {q q2 : CEventQueue}
    (h : o.StartSendingPacket q = some (o2, q2)) :
    o2 = o ∨ o2 = (ONU.DequeuePacket { o with Sending := true }).1 := by
  unfold ONU.StartSendingPacket at h
  split at h
  · split at h
    · exact Option.noConfusion h
    · split at h
      · split at h
        · exact Option.noConfusion h
        · simp only at h
          split at h
          · exact Option.noConfusion h
          · simp only [Option.some.injEq, Prod.mk.injEq] at h
            exact Or.inr h.1.symm
      · simp only [Option.some.injEq, Prod.mk.injEq] at h
        exact Or.inl h.1.symm
  · simp only [Option.some.injEq, Prod.mk.injEq] at h
    exact Or.inl h.1.symm

theorem OnuInv.startSending {o o2 : ONU} {q q2 : CEventQueue} (hi : OnuInv o)
    (h : o.StartSendingPacket q = some (o2, q2)) : OnuInv o2 := by
  rcases startSending_onu h with rfl | rfl
  · exact hi
  · obtain hf | ⟨head, rest, hf⟩ : o.FIFO = [] ∨ ∃ head rest, o.FIFO = head :: rest := by
      cases o.FIFO <;> simp
    · have : (ONU.DequeuePacket { o with Sending := true }).1 = { o with Sending := true } := by
        simp [ONU.DequeuePacket, hf]
      rw [this]
      exact hi.congr rfl rfl
    · have hi1 : OnuInv { o with Sending := true } := hi.congr rfl rfl
      obtain ⟨e, hinv⟩ := @OnuInv.dequeue { o with Sending := true } hi1 head rest hf
      rw [e]
      exact hinv

theorem OnuInv.processEvent {o o2 : ONU} {q q2 : CEventQueue} {p : Nat} (hi : OnuInv o)
    (hs : isUInt16 (q.mem p).Pckt.PcktSize) (h : o.ProcessEvent q p = some (o2, q2)) :
    OnuInv o2 := by
  unfold ONU.ProcessEvent at h
  split_ifs at h
  · -- ProcessGATE
    unfold ONU.ProcessGATE at h
    simp only at h
    split_ifs at h
    all_goals
      first
      | (simp only [Option.some.injEq, Prod.mk.injEq] at h
         rw [← h.1]; exact hi.congr rfl rfl)
      | (split at h
         · exact Option.noConfusion h
         · split at h
           · exact Option.noConfusion h
           · simp only [Option.some.injEq, Prod.mk.injEq] at h
             rw [← h.1]; exact hi.congr rfl rfl)
  · -- SendREPORT
    unfold ONU.SendREPORT at h
    simp only at h
    split at h
    · exact Option.noConfusion h
    · simp only [Option.some.injEq, Prod.mk.injEq] at h
      rw [← h.1]; exact hi
  · -- OpenSlot
    unfold ONU.OpenSlot at h
    simp only at h
    refine OnuInv.startSending ?_ h
    exact hi.congr rfl rfl
  · -- ReceiveDataPacket
    unfold ONU.ReceiveDataPacket at h
    simp only at h
    split at h
    · exact Option.noConfusion h
    · simp only [Option.some.injEq, Prod.mk.injEq] at h
      rw [← h.1]
      split_ifs with c
      · exact (hi.enqueue hs c).1
      · exact hi
  · -- FinishSendingPacket
    unfold ONU.FinishSendingPacket at h
    simp only at h
    split at h
    · exact Option.noConfusion h
    · refine OnuInv.startSending ?_ h
      exact hi.congr rfl rfl
  · simp only [Option.some.injEq, Prod.mk.injEq] at h
    rw [← h.1]; exact hi

theorem reachable_arrival : ONU.Reachable arrivalResult.1 :=
  @ONU.Reachable.event onu0 arrivalResult.1 qArrival arrivalResult.2 0
    (ONU.Reachable.ctor 7 0x1000 0) (by decide) rfl

theorem onu_reachable_inv {o : ONU} (h : ONU.Reachable o) : OnuInv o := by
  induction h with
  | ctor this id lastSent =>
    refine ⟨rfl, by simp [ONU.new, ONU.Reset, BUFFER_SIZE], ?_⟩
    intro p hp
    simp [ONU.new, ONU.Reset] at hp
  | setPort dst _ ih => exact ih.congr rfl rfl
  | reset _ _ =>
    refine ⟨rfl, by simp [ONU.Reset, BUFFER_SIZE], ?_⟩
    intro p hp
    simp [ONU.Reset] at hp
  | event _ hs he ih => exact ih.processEvent hs he

/-! ## Claims about the ONU and the OLT -/

/-- C6: in every state an ONU reaches from its constructor through `SetPort`, `Reset` and
`ProcessEvent` on arbitrary events (PCKT_ARRIVAL, MPCP_GATE, TIMER_GRANT_DATA,
TIMER_GRANT_REPORT, PCKT_DEQUE or any other type) carrying `int16u` packet sizes, `QueueBytes`
equals the sum of the sizes of the packets in the FIFO and does not exceed `BUFFER_SIZE`. -/
theorem C6_queue_bytes_invariant (o : ONU) (h : ONU.Reachable o) :
    o.QueueBytes = (o.FIFO.map Pckt_Data_t.PcktSize).sum ∧ o.QueueBytes ≤ BUFFER_SIZE :=
  ⟨(onu_reachable_inv h).1, (onu_reachable_inv h).2.1⟩

theorem C6_queue_bytes_invariant_witness :
    arrivalResult.1.QueueBytes = (arrivalResult.1.FIFO.map Pckt_Data_t.PcktSize).sum ∧
      arrivalResult.1.QueueBytes ≤ BUFFER_SIZE :=
  C6_queue_bytes_invariant arrivalResult.1 reachable_arrival

theorem modify_mem_same (q : CEventQueue) (a : Nat) (f : CEvent → CEvent) :
    (q.modify a f).mem a = f (q.mem a) := by
  simp [CEventQueue.modify]

theorem modify_mem_other (q : CEventQueue) {a x : Nat} (f : CEvent → CEvent) (h : x ≠ a) :
    (q.modify a f).mem x = q.mem x := by
  simp [CEventQueue.modify, h]

theorem modify_eqCurrentTime (q : CEventQueue) (a : Nat) (f : CEvent → CEvent) :
    (q.modify a f).eqCurrentTime = q.eqCurrentTime := rfl

theorem localTime_eq (c : CClockSync) (q : CEventQueue) :
    c.LocalTime q = wrap64 (q.eqCurrentTime + c.timeOffset) := rfl

theorem publicOnly_type (v : Int) : PublicOnly (fun e => { e with Type_ := v }) :=
  fun _ => ⟨rfl, rfl, rfl, rfl, rfl⟩

theorem publicOnly_consumer (c : Ptr) : PublicOnly (fun e => { e with Consumer := c }) :=
  fun _ => ⟨rfl, rfl, rfl, rfl, rfl⟩

theorem publicOnly_pckt (v : Pckt_Data_t) : PublicOnly (fun e => { e with Pckt := v }) :=
  fun _ => ⟨rfl, rfl, rfl, rfl, rfl⟩

theorem publicOnly_gate (g : CEvent → GATE_Data_t) : PublicOnly (fun e => { e with GATE := g e }) :=
  fun _ => ⟨rfl, rfl, rfl, rfl, rfl⟩

theorem publicOnly_rprt (g : CEvent → RPRT_Data_t) : PublicOnly (fun e => { e with RPRT := g e }) :=
  fun _ => ⟨rfl, rfl, rfl, rfl, rfl⟩

theorem receiveDataPacket_spec {q : CEventQueue} {t : Shape} {top pool : List Nat} {o : ONU}
    (hinv : QueueInv q t top pool) (hoi : OnuInv o) {p : Nat} (hb : p < q.brk)
    (ha : CEventQueue.IsActive q.mem p = true) (hty : (q.mem p).Type_ = EV_PCKT_ARRIVAL)
    (hs : isUInt16 (q.mem p).Pckt.PcktSize) :
    ∃ o2 q2, o.ProcessEvent q p = some (o2, q2) ∧
      (o.QueueBytes + (q.mem p).Pckt.PcktSize ≤ BUFFER_SIZE →
        o2.FIFO = o.FIFO ++ [(q.mem p).Pckt] ∧
        o2.QueueBytes = o.QueueBytes + (q.mem p).Pckt.PcktSize ∧
        (q2.mem p).Type_ = EV_PCKT_ENQUE) ∧
      (¬ o.QueueBytes + (q.mem p).Pckt.PcktSize ≤ BUFFER_SIZE →
        o2.FIFO = o.FIFO ∧ o2.QueueBytes = o.QueueBytes ∧ (q2.mem p).Type_ = EV_PCKT_DROP) ∧
      (q2.mem p).Consumer = none ∧ (q2.mem p).Producer = some o.this ∧
      (q2.mem p).Pckt = (q.mem p).Pckt ∧
      (q2.mem p).NodeKey = q.eqCurrentTime ∧ q2.eqCurrentTime = q.eqCurrentTime ∧
      QueueInv q2 t (p :: top) pool ∧ q2.eqTopEvents.pTop = some p ∧ q2.tree = q.tree ∧
      o2.Sending = o.Sending ∧ o2.SlotEnd = o.SlotEnd ∧ o2.timeOffset = o.timeOffset := by
  have h0 := hoi.nonneg
  have hB := hoi.2.1
  have hw : wrap32 (o.QueueBytes + (q.mem p).Pckt.PcktSize)
      = o.QueueBytes + (q.mem p).Pckt.PcktSize := by
    apply wrap32_eq
    unfold fits32 isUInt16 BUFFER_SIZE at *
    constructor <;> omega
  have hdisp : o.ProcessEvent q p = o.ReceiveDataPacket q p := by
    simp [ONU.ProcessEvent, hty, EV_PCKT_ARRIVAL, EV_MPCP_GATE, EV_TIMER_GRANT_REPORT,
      EV_TIMER_GRANT_DATA]
  rw [hdisp]
  -- the registration of the rewritten event
  have key : ∀ (v : Int), ∃ q2,
      o.toCClockSync.RegisterEvent
        ((q.modify p (fun e => { e with Type_ := v })).modify p
          (fun e => { e with Consumer := none })) (some p) 0 = some q2 ∧
      (q2.mem p).Type_ = v ∧ (q2.mem p).Consumer = none ∧ (q2.mem p).Producer = some o.this ∧
      (q2.mem p).Pckt = (q.mem p).Pckt ∧
      (q2.mem p).NodeKey = q.eqCurrentTime ∧ q2.eqCurrentTime = q.eqCurrentTime ∧
      QueueInv q2 t (p :: top) pool ∧ q2.eqTopEvents.pTop = some p ∧ q2.tree = q.tree := by
    intro v
    have h1 := (hinv.modify_public p (publicOnly_type v)).modify_public p
      (publicOnly_consumer none)
    have ha1 : CEventQueue.IsActive ((q.modify p (fun e => { e with Type_ := v })).modify p
        (fun e => { e with Consumer := none })).mem p = true := by
      rw [isActive_modify _ p p (publicOnly_consumer none),
        isActive_modify _ p p (publicOnly_type v)]
      exact ha
    obtain ⟨q2, e, ht, -, -, hk, hprod, hty2, hpk, -, -, hcons, -, hz, -⟩ :=
      desl_registerEvent_spec (i := 0) h1 hb ha1 (by norm_num)
        (by simpa using hinv.time.2) (some o.this)
    obtain ⟨hinv2, htree, htop⟩ := hz (by simp)
    refine ⟨q2, e, ?_, ?_, hprod, ?_, ?_, ht, hinv2, htop, htree⟩
    · rw [hty2]; simp [CEventQueue.modify]
    · rw [hcons]; simp [CEventQueue.modify]
    · rw [hpk]; simp [CEventQueue.modify]
    · rw [hk]; simp [CEventQueue.modify]
  by_cases c : o.QueueBytes + (q.mem p).Pckt.PcktSize ≤ BUFFER_SIZE
  · obtain ⟨q2, e, f1, f2, f3, f4, f5, f6, f7, f8, f9⟩ := key EV_PCKT_ENQUE
    have henq := hoi.enqueue hs (by rw [hw]; exact c)
    refine ⟨o.EnqueuePacket (q.mem p).Pckt, q2, ?_, fun _ => ⟨rfl, henq.2.1, f1⟩,
      fun hn => absurd c hn, f2, f3, f4, f5, f6, f7, f8, f9, rfl, rfl, rfl⟩
    simp only [ONU.ReceiveDataPacket, hw, c, if_true, e]
  · obtain ⟨q2, e, f1, f2, f3, f4, f5, f6, f7, f8, f9⟩ := key EV_PCKT_DROP
    refine ⟨o, q2, ?_, fun hn => absurd hn c, fun _ => ⟨rfl, rfl, f1⟩,
      f2, f3, f4, f5, f6, f7, f8, f9, rfl, rfl, rfl⟩
    simp only [ONU.ReceiveDataPacket, hw, c, if_false, e]

/-- C7: in a reachable engine state, when a reachable ONU processes a detached `PCKT_ARRIVAL`
event `p` carrying a packet of `int16u` size `s`, `ProcessEvent` returns; if
`QueueBytes + s ≤ BUFFER_SIZE` the packet is appended to the FIFO, `QueueBytes` grows by `s` and
the event type becomes `PCKT_ENQUE`, otherwise the FIFO and `QueueBytes` are unchanged and the
type becomes `PCKT_DROP`; in both cases the event is re-registered with `Consumer = NULL` and
interval 0: it becomes the head of the top-events stack with activation time
`eqCurrentTime`. -/
theorem C7_receive_data_packet (heap : Mem) (q : CEventQueue) (hq : Reachable heap q) (o : ONU)
    (ho : ONU.Reachable o) (p : Nat) (hb : p < q.brk)
    (ha : CEventQueue.IsActive q.mem p = true) (hty : (q.mem p).Type_ = EV_PCKT_ARRIVAL)
    (hs : isUInt16 (q.mem p).Pckt.PcktSize) :
    ∃ t top pool, QueueInv q t top pool ∧ ∃ o2 q2, o.ProcessEvent q p = some (o2, q2) ∧
      (o.QueueBytes + (q.mem p).Pckt.PcktSize ≤ BUFFER_SIZE →
        o2.FIFO = o.FIFO ++ [(q.mem p).Pckt] ∧
        o2.QueueBytes = o.QueueBytes + (q.mem p).Pckt.PcktSize ∧
        (q2.mem p).Type_ = EV_PCKT_ENQUE) ∧
      (¬ o.QueueBytes + (q.mem p).Pckt.PcktSize ≤ BUFFER_SIZE →
        o2.FIFO = o.FIFO ∧ o2.QueueBytes = o.QueueBytes ∧ (q2.mem p).Type_ = EV_PCKT_DROP) ∧
      (q2.mem p).Consumer = none ∧ (q2.mem p).Producer = some o.this ∧
      (q2.mem p).Pckt = (q.mem p).Pckt ∧
      (q2.mem p).NodeKey = q.eqCurrentTime ∧ q2.eqCurrentTime = q.eqCurrentTime ∧
      QueueInv q2 t (p :: top) pool ∧ q2.eqTopEvents.pTop = some p ∧ q2.tree = q.tree ∧
      o2.Sending = o.Sending ∧ o2.SlotEnd = o.SlotEnd ∧ o2.timeOffset = o.timeOffset := by
  obtain ⟨t, top, pool, hinv⟩ := reachable_inv hq
  exact ⟨t, top, pool, hinv, receiveDataPacket_spec hinv (onu_reachable_inv ho) hb ha hty hs⟩

theorem receiveDataPacket_enqueue {o o2 : ONU} {q q2 : CEventQueue} {p : Nat}
    (hty : (q.mem p).Type_ = EV_PCKT_ARRIVAL)
    (hfit : wrap32 (o.QueueBytes + (q.mem p).Pckt.PcktSize) ≤ BUFFER_SIZE)
    (e : o.ProcessEvent q p = some (o2, q2)) : o2 = o.EnqueuePacket (q.mem p).Pckt := by
  have hdisp : o.ProcessEvent q p = o.ReceiveDataPacket q p := by
    simp [ONU.ProcessEvent, hty, EV_PCKT_ARRIVAL, EV_MPCP_GATE, EV_TIMER_GRANT_REPORT,
      EV_TIMER_GRANT_DATA]
  rw [hdisp] at e
  simp only [ONU.ReceiveDataPacket, hfit, if_true] at e
  split at e
  · exact Option.noConfusion e
  · simp only [Option.some.injEq, Prod.mk.injEq] at e
    exact e.1.symm

theorem reachable_rArrivalBig : Reachable heap0 rArrivalBig :=
  Reachable.call (Call.op (Op.Write 0
    { CEvent.zero with Type_ := EV_PCKT_ARRIVAL, Pckt := pcktBig })) reachable_qRun
    (by decide) rfl

theorem reachable_rArrival : Reachable heap0 rArrival :=
  Reachable.call (Call.op (Op.Write 0
    { CEvent.zero with Type_ := EV_PCKT_ARRIVAL, Pckt := ⟨0, 100, 1⟩ })) reachable_qRun
    (by decide) rfl

/-- An ONU reaches the states `onuFill n` by `n` arrivals of packets of `65535` bytes, as
long as they fit its buffer. -/
theorem onuFill_spec : ∀ n : Nat, n ≤ 16 →
    ONU.Reachable (onuFill n) ∧ (onuFill n).QueueBytes = 65535 * (n : Int) := by
  intro n
  induction n with
  | zero => intro _; exact ⟨ONU.Reachable.ctor 7 0x1000 0, by decide⟩
  | succ n ih =>
    intro hn
    obtain ⟨hr, hq⟩ := ih (by omega)
    obtain ⟨t, top, pool, hinv⟩ := reachable_inv reachable_rArrivalBig
    have hsz : (rArrivalBig.mem 0).Pckt.PcktSize = 65535 := by decide
    have hpk : (rArrivalBig.mem 0).Pckt = pcktBig := by decide
    have hs : isUInt16 (rArrivalBig.mem 0).Pckt.PcktSize := by decide
    have hty : (rArrivalBig.mem 0).Type_ = EV_PCKT_ARRIVAL := by decide
    obtain ⟨o2, q2, e, -⟩ := receiveDataPacket_spec (o := onuFill n) hinv
      (onu_reachable_inv hr) (p := 0) (by decide) (by decide) hty hs
    have hw : wrap32 ((onuFill n).QueueBytes + (rArrivalBig.mem 0).Pckt.PcktSize)
        = 65535 * ((n : Int) + 1) := by
      rw [hq, hsz]
      rw [wrap32_eq (by unfold fits32; constructor <;> omega)]
      ring
    have ho2 := receiveDataPacket_enqueue hty (by rw [hw]; unfold BUFFER_SIZE; omega) e
    rw [hpk] at ho2
    subst ho2
    refine ⟨ONU.Reachable.event hr hs e, ?_⟩
    show wrap32 ((onuFill n).QueueBytes + pcktBig.PcktSize) = _
    have : pcktBig.PcktSize = (rArrivalBig.mem 0).Pckt.PcktSize := by rw [hpk]
    rw [this, hw]
    push_cast
    ring

/-- The witness of C7 covers both branches: the ONU `onu0` with an empty buffer enqueues the
packet of `rArrival`, and the ONU `onuFill 16`, which holds `16 * 65535` bytes, drops the
packet of `65535` bytes of `rArrivalBig` as `1048560 + 65535 > BUFFER_SIZE`. -/
theorem C7_receive_data_packet_witness :
    (∃ t top pool, QueueInv rArrival t top pool ∧
      ∃ o2 q2, onu0.ProcessEvent rArrival 0 = some (o2, q2) ∧
      o2.FIFO = [⟨0, 100, 1⟩] ∧ o2.QueueBytes = 100 ∧ (q2.mem 0).Type_ = EV_PCKT_ENQUE ∧
      (q2.mem 0).Consumer = none ∧ (q2.mem 0).Producer = some 7 ∧
      (q2.mem 0).Pckt = ⟨0, 100, 1⟩ ∧ (q2.mem 0).NodeKey = 0 ∧
      QueueInv q2 t (0 :: top) pool ∧ q2.eqTopEvents.pTop = some 0) ∧
    ((onuFill 16).QueueBytes = 1048560 ∧ (onuFill 16).FIFO.length = 16 ∧
      ∃ t top pool, QueueInv rArrivalBig t top pool ∧
      ∃ o2 q2, (onuFill 16).ProcessEvent rArrivalBig 0 = some (o2, q2) ∧
      o2.FIFO = (onuFill 16).FIFO ∧ o2.QueueBytes = 1048560 ∧
      (q2.mem 0).Type_ = EV_PCKT_DROP ∧
      (q2.mem 0).Consumer = none ∧ (q2.mem 0).Producer = some 7 ∧
      (q2.mem 0).Pckt = pcktBig ∧ (q2.mem 0).NodeKey = 0 ∧
      QueueInv q2 t (0 :: top) pool ∧ q2.eqTopEvents.pTop = some 0) := by
  constructor
  · obtain ⟨t, top, pool, hinv, o2, q2, e, henq, -, f1, f2, f3, f4, -, f6, f7, -⟩ :=
      C7_receive_data_packet heap0 rArrival reachable_rArrival onu0
        (ONU.Reachable.ctor 7 0x1000 0) 0 (by decide) (by decide) (by decide) (by decide)
    obtain ⟨g1, g2, g3⟩ := henq (by decide)
    exact ⟨t, top, pool, hinv, o2, q2, e, g1, g2, g3, f1, f2, f3, f4, f6, f7⟩
  · have hq : (onuFill 16).QueueBytes = 1048560 := (onuFill_spec 16 (le_refl _)).2
    obtain ⟨t, top, pool, hinv, o2, q2, e, -, hdrop, f1, f2, f3, f4, -, f6, f7, -⟩ :=
      C7_receive_data_packet heap0 rArrivalBig reachable_rArrivalBig (onuFill 16)
        (onuFill_spec 16 (le_refl _)).1 0 (by decide) (by decide) (by decide) (by decide)
    have hsz : (rArrivalBig.mem 0).Pckt.PcktSize = 65535 := by decide
    obtain ⟨g1, g2, g3⟩ := hdrop (by rw [hq, hsz]; decide)
    exact ⟨hq, by decide, t, top, pool, hinv, o2, q2, e, g1, g2.trans hq, g3, f1, f2, f3, f4,
      f6, f7⟩

theorem allocateEvent_pair {q : CEventQueue} {t : Shape} {top pool : List Nat}
    (h : QueueInv q t top pool) :
    ∃ q1 p pool2, q.AllocateEvent = (q1, some p) ∧ QueueInv q1 t top pool2 ∧
      CEventQueue.IsActive q1.mem p = true ∧ p < q1.brk ∧
      q1.eqCurrentTime = q.eqCurrentTime ∧ q.brk ≤ q1.brk ∧
      (pool = p :: pool2 ∨ (pool = [] ∧ pool2 = [] ∧ p = q.brk)) ∧
      (∀ x, x < q.brk → (q1.mem x).data = (q.mem x).data) := by
  obtain ⟨p, pool2, hp, h1, ha1, hb1, ht1, hbrk, hpl, hd⟩ := allocateEvent_spec h
  exact ⟨q.AllocateEvent.1, p, pool2, Prod.ext rfl hp, h1, ha1, hb1, ht1, hbrk, hpl, hd⟩

theorem pon_pckt_time_eq {s : Int} (hs : isUInt16 s) :
    _PON_PCKT_TIME s = (s + PACKET_OVERHEAD) * PON_BYTE_TIME := by
  unfold isUInt16 at hs
  have h1 : wrap32 (s + PACKET_OVERHEAD) = s + PACKET_OVERHEAD := by
    apply wrap32_eq
    unfold fits32 PACKET_OVERHEAD PREAMBLE_SIZE MIN_IFG_SIZE
    constructor <;> omega
  have h2 : wrap32 ((s + PACKET_OVERHEAD) * PON_BYTE_TIME) = (s + PACKET_OVERHEAD) * PON_BYTE_TIME := by
    apply wrap32_eq
    unfold fits32 PACKET_OVERHEAD PREAMBLE_SIZE MIN_IFG_SIZE PON_BYTE_TIME
    constructor <;> omega
  simp only [_PON_PCKT_TIME, _PON_TIME, _OVERHEAD, h1, h2]

/-- C8: in a reachable engine state and for a reachable ONU whose local-time sums do not
overflow, with `lt = eqCurrentTime + timeOffset` the local time and
`ppt(s) = (s + PACKET_OVERHEAD) * PON_BYTE_TIME`: if the ONU is not sending, the FIFO has a
head and `lt + ppt(head.size) ≤ SlotEnd`, then `StartSendingPacket` returns, sets `Sending`,
removes the head from the FIFO (`QueueBytes` drops by its size) and schedules exactly one new
event, a `PCKT_DEQUE` carrying the whole head packet, consumed by the ONU, inserted in the
ordered queue at `eqCurrentTime + ppt(head.size)`, a time that in local time is not after
`SlotEnd`; in every other case (sending, empty FIFO, or head not fitting the rest of the slot)
`StartSendingPacket` returns the ONU and the queue unchanged. -/
theorem C8_start_sending_packet (heap : Mem) (q : CEventQueue) (hq : Reachable heap q)
    (o : ONU) (ho : ONU.Reachable o)
    (hlt : fits64 (q.eqCurrentTime + o.timeOffset))
    (hov : ∀ head ∈ o.FIFO.head?,
      fits64 (q.eqCurrentTime + o.timeOffset + (head.PcktSize + PACKET_OVERHEAD) * PON_BYTE_TIME) ∧
      q.eqCurrentTime + (head.PcktSize + PACKET_OVERHEAD) * PON_BYTE_TIME ≤ INT64_MAX) :
    ∃ t top pool, QueueInv q t top pool ∧
      (∀ head rest, o.Sending = false → o.FIFO = head :: rest →
        q.eqCurrentTime + o.timeOffset + (head.PcktSize + PACKET_OVERHEAD) * PON_BYTE_TIME
          ≤ o.SlotEnd →
        ∃ q2 ptr pool2,
          o.StartSendingPacket q
            = some ({ o with Sending := true, FIFO := rest,
                             QueueBytes := o.QueueBytes - head.PcktSize }, q2) ∧
          (pool = ptr :: pool2 ∨ (pool = [] ∧ pool2 = [] ∧ ptr = q.brk)) ∧
          (q2.mem ptr).Type_ = EV_PCKT_DEQUE ∧ (q2.mem ptr).Pckt = head ∧
          (q2.mem ptr).Consumer = some o.this ∧ (q2.mem ptr).Producer = some o.this ∧
          (q2.mem ptr).NodeKey
            = q.eqCurrentTime + (head.PcktSize + PACKET_OVERHEAD) * PON_BYTE_TIME ∧
          QueueInv q2 (t.insert (fun z => (q2.mem z).NodeKey) ptr) top pool2 ∧
          q2.eqCurrentTime = q.eqCurrentTime ∧
          (q2.mem ptr).NodeKey + o.timeOffset ≤ o.SlotEnd) ∧
      (¬ (o.Sending = false ∧ ∃ head rest, o.FIFO = head :: rest ∧
          q.eqCurrentTime + o.timeOffset + (head.PcktSize + PACKET_OVERHEAD) * PON_BYTE_TIME
            ≤ o.SlotEnd) →
        o.StartSendingPacket q = some (o, q)) := by
  obtain ⟨t, top, pool, hinv⟩ := reachable_inv hq
  have hoi := onu_reachable_inv ho
  refine ⟨t, top, pool, hinv, ?_, ?_⟩
  · intro head rest hsend hf hfit
    have hhead : isUInt16 head.PcktSize := hoi.2.2 head (by rw [hf]; simp)
    obtain ⟨hov1, hov2⟩ := hov head (by rw [hf]; simp)
    have hppt := pon_pckt_time_eq hhead
    have hLT : o.toCClockSync.LocalTime q = q.eqCurrentTime + o.timeOffset := by
      simp only [CClockSync.LocalTime, DESL.GlobalTime, CEventQueue.GetCurrentTime]
      exact wrap64_fits hlt
    have hcond : wrap64 (o.toCClockSync.LocalTime q + _PON_PCKT_TIME head.PcktSize)
        ≤ o.SlotEnd := by
      rw [hLT, hppt, wrap64_fits hov1]; exact hfit
    obtain ⟨q1, p, pool2, e1, h1, ha1, hb1, ht1, -, hpl, -⟩ := allocateEvent_pair hinv
    have hdeq := @OnuInv.dequeue { o with Sending := true } (hoi.congr rfl rfl) head rest hf
    -- the three assignments to the fresh event
    have h4 := ((h1.modify_public p (publicOnly_consumer (some o.this))).modify_public p
      (publicOnly_type EV_PCKT_DEQUE)).modify_public p (publicOnly_pckt head)
    have ha4 : CEventQueue.IsActive
        (((q1.modify p (fun e => { e with Consumer := some o.this })).modify p
          (fun e => { e with Type_ := EV_PCKT_DEQUE })).modify p
          (fun e => { e with Pckt := head })).mem p = true := by
      rw [isActive_modify _ p p (publicOnly_pckt head),
        isActive_modify _ p p (publicOnly_type EV_PCKT_DEQUE),
        isActive_modify _ p p (publicOnly_consumer (some o.this))]
      exact ha1
    have hpos : 0 < (head.PcktSize + PACKET_OVERHEAD) * PON_BYTE_TIME := by
      unfold isUInt16 at hhead
      unfold PACKET_OVERHEAD PREAMBLE_SIZE MIN_IFG_SIZE PON_BYTE_TIME
      omega
    have hiv : (if (head.PcktSize + PACKET_OVERHEAD) * PON_BYTE_TIME < 0 then 0
        else (head.PcktSize + PACKET_OVERHEAD) * PON_BYTE_TIME)
        = (head.PcktSize + PACKET_OVERHEAD) * PON_BYTE_TIME := by
      rw [if_neg (not_lt.2 (le_of_lt hpos))]
    obtain ⟨q2, e2, ht2, -, -, hk, hprod, hty, hpk, -, -, hcons, -, -, hnz⟩ :=
      desl_registerEvent_spec (i := (head.PcktSize + PACKET_OVERHEAD) * PON_BYTE_TIME) h4 hb1 ha4
        (by omega) (by rw [hiv]; show q1.eqCurrentTime + _ ≤ _
                       rw [ht1]; exact hov2) (some o.this)
    rw [hiv] at hk hnz
    obtain ⟨hinv2, -⟩ := hnz (ne_of_gt hpos)
    have hk2 : (q2.mem p).NodeKey
        = q.eqCurrentTime + (head.PcktSize + PACKET_OVERHEAD) * PON_BYTE_TIME := by
      rw [hk]; show q1.eqCurrentTime + _ = _
      rw [ht1]
    refine ⟨q2, p, pool2, ?_, hpl, ?_, ?_, ?_, hprod, hk2, hinv2, ?_, ?_⟩
    · have hlen : (o.FIFO.length : Int) > 0 := by rw [hf]; simp
      have hh : o.FIFO.head? = some head := by rw [hf]; rfl
      simp only [ONU.StartSendingPacket, hsend, hlen, and_self, if_true, hh, hcond, e1]
      simp only [hdeq.1]
      have : (_PON_PCKT_TIME ((((q1.modify p
          (fun e => { e with Consumer := some o.this })).modify p
          (fun e => { e with Type_ := EV_PCKT_DEQUE })).modify p
          (fun e => { e with Pckt := head })).mem p).Pckt.PcktSize)
          = (head.PcktSize + PACKET_OVERHEAD) * PON_BYTE_TIME := by
        simp [CEventQueue.modify, hppt]
      rw [this]
      simp only [CClockSync.RegisterEvent]
      rw [e2]
    · rw [hty]; simp [CEventQueue.modify]
    · rw [hpk]; simp [CEventQueue.modify]
    · rw [hcons]; simp [CEventQueue.modify]
    · rw [ht2]; exact ht1
    · rw [hk2]; omega
  · intro hn
    unfold ONU.StartSendingPacket
    by_cases c1 : o.Sending = false ∧ (o.FIFO.length : Int) > 0
    · rw [if_pos c1]
      obtain hf | ⟨head, rest, hf⟩ : o.FIFO = [] ∨ ∃ head rest, o.FIFO = head :: rest := by
        cases o.FIFO <;> simp
      · rw [hf] at c1; simp at c1
      · have hhead : isUInt16 head.PcktSize := hoi.2.2 head (by rw [hf]; simp)
        obtain ⟨hov1, -⟩ := hov head (by rw [hf]; simp)
        have hLT : o.toCClockSync.LocalTime q = q.eqCurrentTime + o.timeOffset := by
          simp only [CClockSync.LocalTime, DESL.GlobalTime, CEventQueue.GetCurrentTime]
          exact wrap64_fits hlt
        have hnc : ¬ wrap64 (o.toCClockSync.LocalTime q + _PON_PCKT_TIME head.PcktSize)
            ≤ o.SlotEnd := by
          rw [hLT, pon_pckt_time_eq hhead, wrap64_fits hov1]
          intro hle
          exact hn ⟨c1.1, head, rest, hf, hle⟩
        simp only [hf, List.head?_cons, hnc, if_false]
    · rw [if_neg c1]

theorem reachable_onuReady : ONU.Reachable onuReady :=
  @ONU.Reachable.event onuOpen onuReady rArrival
    ((onuOpen.ProcessEvent rArrival 0).getD (onuOpen, rArrival)).2 0
    (@ONU.Reachable.event onu0 onuOpen rGrant
      ((onu0.ProcessEvent rGrant 0).getD (onu0, rGrant)).2 0
      (ONU.Reachable.ctor 7 0x1000 0) (by decide) rfl)
    (by decide) rfl

/-- The witness of C8 covers both branches in the state `qRun` at local time `0`.  The ONU
`onuReady` is not sending, its slot is open until `8000` and the head of its FIFO has `100`
bytes, which take `960` time units: the transmission starts, the FIFO becomes empty and one
`PCKT_DEQUE` event carrying the packet is scheduled at time `960`.  The ONU `arrivalResult.1`
holds the same packet but its slot ended at `0`: nothing changes. -/
theorem C8_start_sending_packet_witness :
    (onuReady.Sending = false ∧ onuReady.FIFO = [⟨0, 100, 1⟩] ∧ onuReady.SlotEnd = 8000 ∧
      onuReady.QueueBytes = 100 ∧
      ∃ t top pool, QueueInv qRun t top pool ∧ ∃ q2 ptr pool2,
        onuReady.StartSendingPacket qRun
          = some ({ onuReady with Sending := true, FIFO := [], QueueBytes := 0 }, q2) ∧
        (pool = ptr :: pool2 ∨ (pool = [] ∧ pool2 = [] ∧ ptr = qRun.brk)) ∧
        (q2.mem ptr).Type_ = EV_PCKT_DEQUE ∧ (q2.mem ptr).Pckt = ⟨0, 100, 1⟩ ∧
        (q2.mem ptr).Consumer = some 7 ∧ (q2.mem ptr).Producer = some 7 ∧
        (q2.mem ptr).NodeKey = 960 ∧
        QueueInv q2 (t.insert (fun z => (q2.mem z).NodeKey) ptr) top pool2 ∧
        q2.eqCurrentTime = 0 ∧ (q2.mem ptr).NodeKey + onuReady.timeOffset ≤ onuReady.SlotEnd) ∧
    (arrivalResult.1.Sending = false ∧ arrivalResult.1.FIFO = [⟨0, 100, 1⟩] ∧
      arrivalResult.1.SlotEnd = 0 ∧
      arrivalResult.1.StartSendingPacket qRun = some (arrivalResult.1, qRun)) := by
  have hf1 : onuReady.FIFO = [⟨0, 100, 1⟩] := by decide
  have hf2 : arrivalResult.1.FIFO = [⟨0, 100, 1⟩] := by decide
  constructor
  · obtain ⟨t, top, pool, hinv, hsend, -⟩ :=
      C8_start_sending_packet heap0 qRun reachable_qRun onuReady reachable_onuReady
        (by decide)
        (by
          intro head hh
          rw [hf1] at hh
          simp only [List.head?_cons, Option.mem_def, Option.some.injEq] at hh
          subst hh
          exact ⟨by decide, by decide⟩)
    obtain ⟨q2, ptr, pool2, e, g1, g2, g3, g4, g5, g6, g7, g8, g9⟩ :=
      hsend ⟨0, 100, 1⟩ [] (by decide) hf1 (by decide)
    exact ⟨by decide, hf1, by decide, by decide, t, top, pool, hinv, q2, ptr, pool2, e, g1, g2,
      g3, g4, g5, g6, g7, g8, g9⟩
  · obtain ⟨-, -, -, -, -, hstall⟩ :=
      C8_start_sending_packet heap0 qRun reachable_qRun arrivalResult.1 reachable_arrival
        (by decide)
        (by
          intro head hh
          rw [hf2] at hh
          simp only [List.head?_cons, Option.mem_def, Option.some.injEq] at hh
          subst hh
          exact ⟨by decide, by decide⟩)
    refine ⟨by decide, hf2, by decide, hstall ?_⟩
    rintro ⟨-, head, rest, hfifo, hfit⟩
    rw [hf2] at hfifo
    simp only [List.cons.injEq] at hfifo
    rw [← hfifo.1] at hfit
    exact absurd hfit (by decide)

theorem MAX_eq_max (x y : Int) : MAX x y = max x y := by
  unfold MAX
  split_ifs with c
  · exact (max_eq_left (le_of_lt c)).symm
  · exact (max_eq_right (not_lt.1 c)).symm

theorem MIN_eq_min (x y : Int) : MIN x y = min x y := by
  unfold MIN
  split_ifs with c
  · exact (min_eq_left (le_of_lt c)).symm
  · exact (min_eq_right (not_lt.1 c)).symm

theorem pon_pckt_time_mpcp : _PON_PCKT_TIME MPCP_PACKET_SIZE = 672 := by decide

theorem overhead_mpcp : _OVERHEAD MPCP_PACKET_SIZE = 84 := by decide

/-- C9: in a reachable engine state, for a detached REPORT event `p` processed by the OLT at
local time `t = eqCurrentTime + timeOffset`, with `rtt = t - report.Timestamp`, and when none
of the sums below overflows its machine type, `ReceiveREPORTPacket` returns; it takes one
event record `ptr` (from the pool, or a new one) and makes it a GATE whose consumer is the
producer of the REPORT, with
`Timestamp = t + pon_pckt_time(MPCP_SIZE) + OLT_HW_PROCESS_DELAY`,
`StartTime = max(Timestamp + ONU_HW_PROCESS_DELAY, ScheduleEnd - rtt)` and
`Length = min(report.Length + overhead(MPCP_SIZE), MaxSlot) ≤ MaxSlot`; the GATE is inserted in
the ordered queue with an activation time at which the OLT's local time equals `Timestamp`;
and `ScheduleEnd` becomes `StartTime + rtt + pon_time(Length) + GUARD_BAND_TIME`. -/
theorem C9_receive_report (heap : Mem) (q : CEventQueue) (hq : Reachable heap q) (o : OLT)
    (p : Nat) (hb : p < q.brk) (ha : CEventQueue.IsActive q.mem p = true)
    (t rtt stamp start len : Int)
    (ht : t = q.eqCurrentTime + o.timeOffset)
    (hrtt : rtt = t - (q.mem p).RPRT.Timestamp)
    (hstamp : stamp = t + (MPCP_PACKET_SIZE + PACKET_OVERHEAD) * PON_BYTE_TIME
      + OLT_HW_PROCESS_DELAY)
    (hstart : start = max (stamp + ONU_HW_PROCESS_DELAY) (o.ScheduleEnd - rtt))
    (hlen : len = min ((q.mem p).RPRT.Length + (MPCP_PACKET_SIZE + PACKET_OVERHEAD)) o.MaxSlot)
    (f1 : fits64 t) (f2 : fits64 rtt) (f3 : fits64 stamp)
    (f4 : fits64 (stamp + ONU_HW_PROCESS_DELAY)) (f5 : fits64 (o.ScheduleEnd - rtt))
    (f6 : fits32 ((q.mem p).RPRT.Length + (MPCP_PACKET_SIZE + PACKET_OVERHEAD)))
    (f7 : fits32 (len * PON_BYTE_TIME)) (f8 : fits64 (start + rtt))
    (f9 : fits64 (start + rtt + len * PON_BYTE_TIME))
    (f10 : fits64 (start + rtt + len * PON_BYTE_TIME + GUARD_BAND_TIME))
    (f11 : q.eqCurrentTime + (stamp - t) ≤ INT64_MAX) :
    ∃ tr top pool, QueueInv q tr top pool ∧ ∃ o2 q2 ptr pool2,
      o.ReceiveREPORTPacket q p = some (o2, q2) ∧
      (pool = ptr :: pool2 ∨ (pool = [] ∧ pool2 = [] ∧ ptr = q.brk)) ∧
      (q2.mem ptr).Type_ = EV_MPCP_GATE ∧ (q2.mem ptr).Consumer = (q.mem p).Producer ∧
      (q2.mem ptr).GATE = ⟨stamp, start, len⟩ ∧ len ≤ o.MaxSlot ∧
      (q2.mem ptr).NodeKey + o.timeOffset = stamp ∧
      QueueInv q2 (tr.insert (fun z => (q2.mem z).NodeKey) ptr) top pool2 ∧
      o2.ScheduleEnd = start + rtt + len * PON_BYTE_TIME + GUARD_BAND_TIME ∧
      o2.LastPacketArrival = t ∧ o2.MaxSlot = o.MaxSlot ∧ o2.timeOffset = o.timeOffset := by
  obtain ⟨tr, top, pool, hinv⟩ := reachable_inv hq
  refine ⟨tr, top, pool, hinv, ?_⟩
  obtain ⟨q1, a, pool2, e1, h1, ha1, hb1, ht1, -, hpl, hd1⟩ := allocateEvent_pair hinv
  -- the allocated record is not the REPORT
  have hpa : p ≠ a := by
    have hp := hinv.not_mem_of_active ha
    simp only [List.mem_append, not_or] at hp
    rcases hpl with hpl | ⟨-, -, hpl⟩
    · intro e; subst e; rw [hpl] at hp; simp at hp
    · omega
  have hLT : ∀ q3 : CEventQueue, q3.eqCurrentTime = q.eqCurrentTime →
      (o.CheckPacketCollision q MPCP_PACKET_SIZE).toCClockSync.LocalTime q3 = t := by
    intro q3 h3
    simp only [CClockSync.LocalTime, DESL.GlobalTime, CEventQueue.GetCurrentTime,
      OLT.CheckPacketCollision, h3]
    rw [← ht]; exact wrap64_fits f1
  have hpk : (MPCP_PACKET_SIZE + PACKET_OVERHEAD) * PON_BYTE_TIME = 672 := by decide
  have hoh : MPCP_PACKET_SIZE + PACKET_OVERHEAD = 84 := by decide
  rw [hpk] at hstamp
  rw [hoh] at hlen f6
  have hdp : (q1.mem p).data = (q.mem p).data := hd1 p hb
  have hprod : (q1.mem p).Producer = (q.mem p).Producer := by
    simpa [CEvent.data] using congrArg CEvent.Producer hdp
  have hrl : (q1.mem p).RPRT = (q.mem p).RPRT := by
    simpa [CEvent.data] using congrArg CEvent.RPRT hdp
  have hrtt2 : wrap64 (t - (q.mem p).RPRT.Timestamp) = rtt := by
    rw [← hrtt]; exact wrap64_fits f2
  have hst1 : wrap64 (wrap64 (t + 672) + OLT_HW_PROCESS_DELAY) = stamp := by
    have : fits64 (t + 672) := by
      unfold fits64 OLT_HW_PROCESS_DELAY at *
      constructor <;> omega
    rw [wrap64_fits this, ← hstamp]; exact wrap64_fits f3
  have hstart2 : MAX (wrap64 (stamp + ONU_HW_PROCESS_DELAY)) (wrap64 (o.ScheduleEnd - rtt))
      = start := by
    rw [wrap64_fits f4, wrap64_fits f5, MAX_eq_max, hstart]
  have hlen2 : MIN (wrap32 ((q.mem p).RPRT.Length + 84)) o.MaxSlot = len := by
    rw [wrap32_eq f6, MIN_eq_min, hlen]
  have hse : wrap64 (wrap64 (wrap64 (start + rtt) + _PON_TIME len) + GUARD_BAND_TIME)
      = start + rtt + len * PON_BYTE_TIME + GUARD_BAND_TIME := by
    have hp : _PON_TIME len = len * PON_BYTE_TIME := wrap32_eq f7
    rw [hp, wrap64_fits f8, wrap64_fits f9, wrap64_fits f10]
  -- the queue holding the finished GATE
  set g : CEventQueue :=
    ((((q1.modify a (fun e => { e with Type_ := EV_MPCP_GATE })).modify a
      (fun e => { e with Consumer := (q.mem p).Producer })).modify a
      (fun e => { e with GATE := { e.GATE with Timestamp := stamp } })).modify a
      (fun e => { e with GATE := { e.GATE with StartTime := start } })).modify a
      (fun e => { e with GATE := { e.GATE with Length := len } }) with hg
  have hg5 : QueueInv g tr top pool2 :=
    ((((h1.modify_public a (publicOnly_type _)).modify_public a
      (publicOnly_consumer _)).modify_public a (publicOnly_gate _)).modify_public a
      (publicOnly_gate _)).modify_public a (publicOnly_gate _)
  have hga : CEventQueue.IsActive g.mem a = true := by
    rw [hg, isActive_modify _ a a (publicOnly_gate _), isActive_modify _ a a (publicOnly_gate _),
      isActive_modify _ a a (publicOnly_gate _), isActive_modify _ a a (publicOnly_consumer _),
      isActive_modify _ a a (publicOnly_type _)]
    exact ha1
  have hgt : g.eqCurrentTime = q.eqCurrentTime := ht1
  have hival : stamp - t = 17056 := by
    rw [hstamp]; unfold OLT_HW_PROCESS_DELAY; omega
  have hwi : wrap64 (stamp - t) = 17056 := by rw [hival]; decide
  obtain ⟨q2, e2, ht2, -, -, hk, -, hty, -, hgate, -, hcons, -, -, hnz⟩ :=
    desl_registerEvent_spec (i := 17056) hg5 hb1 hga (by norm_num)
      (by rw [hgt]; simpa [hival] using f11) (some o.this)
  obtain ⟨hinv2, -⟩ := hnz (by norm_num)
  have hgty : (g.mem a).Type_ = EV_MPCP_GATE := by simp [hg, CEventQueue.modify]
  have hgcons : (g.mem a).Consumer = (q.mem p).Producer := by simp [hg, CEventQueue.modify]
  have hggate : (g.mem a).GATE = ⟨stamp, start, len⟩ := by simp [hg, CEventQueue.modify]
  refine ⟨{ toCClockSync := o.toCClockSync, OutPort := o.OutPort,
            ScheduleEnd := start + rtt + len * PON_BYTE_TIME + GUARD_BAND_TIME,
            LastPacketArrival := t, MaxSlot := o.MaxSlot },
    q2, a, pool2, ?_, hpl, by rw [hty, hgty], by rw [hcons, hgcons],
    by rw [hgate, hggate], by rw [hlen]; exact min_le_right _ _, ?_, hinv2, rfl, rfl, rfl, rfl⟩
  · have hm1 : ∀ (f : CEvent → CEvent) (q3 : CEventQueue), (q3.modify a f).mem p = q3.mem p :=
      fun f q3 => modify_mem_other q3 f hpa
    have hc1 : (o.CheckPacketCollision q MPCP_PACKET_SIZE).ScheduleEnd = o.ScheduleEnd := rfl
    have hc2 : (o.CheckPacketCollision q MPCP_PACKET_SIZE).MaxSlot = o.MaxSlot := rfl
    have hc3 : (o.CheckPacketCollision q MPCP_PACKET_SIZE).timeOffset = o.timeOffset := rfl
    have hc4 : (o.CheckPacketCollision q MPCP_PACKET_SIZE).this = o.this := rfl
    have hc5 : (o.CheckPacketCollision q MPCP_PACKET_SIZE).LastPacketArrival = t := by
      show wrap64 (q.eqCurrentTime + o.timeOffset) = t
      rw [← ht]; exact wrap64_fits f1
    have hwt : wrap64 (q.eqCurrentTime + o.timeOffset) = t := by
      rw [← ht]; exact wrap64_fits f1
    simp only [OLT.ReceiveREPORTPacket, e1, hm1, hprod, hrl, localTime_eq,
      modify_eqCurrentTime, ht1, hc3, hwt, hrtt2, pon_pckt_time_mpcp, overhead_mpcp, hst1,
      modify_mem_same, hc1, hc2, hstart2, hlen2, CClockSync.RegisterEventAbs,
      CClockSync.RegisterEvent, hwi, hc4]
    split
    · rename_i heq
      have := heq.symm.trans e2
      exact Option.noConfusion this
    · rename_i q7 heq
      have h72 : q7 = q2 := Option.some.inj (heq.symm.trans e2)
      subst h72
      have hs2 : (q7.mem a).GATE.StartTime = start := by rw [hgate, hggate]
      have hl2 : (q7.mem a).GATE.Length = len := by rw [hgate, hggate]
      simp only [hs2, hl2, hse, hc5]
      rfl
  · rw [hk, hgt, hstamp, ht]
    unfold OLT_HW_PROCESS_DELAY
    split_ifs <;> omega

theorem reachable_rReport : Reachable heap0 rReport :=
  Reachable.call (Call.op (Op.Write 0
    { CEvent.zero with Type_ := EV_MPCP_REPORT, RPRT := ⟨0, 100⟩, Producer := some 7 }))
    reachable_qRun (by decide) rfl

theorem C9_receive_report_witness :
    ∃ tr top pool, QueueInv rReport tr top pool ∧ ∃ o2 q2 ptr pool2,
      olt0.ReceiveREPORTPacket rReport 0 = some (o2, q2) ∧
      (pool = ptr :: pool2 ∨ (pool = [] ∧ pool2 = [] ∧ ptr = rReport.brk)) ∧
      (q2.mem ptr).Type_ = EV_MPCP_GATE ∧ (q2.mem ptr).Consumer = (rReport.mem 0).Producer ∧
      (q2.mem ptr).GATE = ⟨17056, 33440, 184⟩ ∧ (184 : Int) ≤ olt0.MaxSlot ∧
      (q2.mem ptr).NodeKey + olt0.timeOffset = 17056 ∧
      QueueInv q2 (tr.insert (fun z => (q2.mem z).NodeKey) ptr) top pool2 ∧
      o2.ScheduleEnd = 33440 + 0 + 184 * PON_BYTE_TIME + GUARD_BAND_TIME ∧
      o2.LastPacketArrival = 0 ∧ o2.MaxSlot = olt0.MaxSlot ∧
      o2.timeOffset = olt0.timeOffset :=
  C9_receive_report heap0 rReport reachable_rReport olt0 0 (by decide) (by decide)
    0 0 17056 33440 184 (by decide) (by decide) (by decide) (by decide) (by decide)
    (by decide) (by decide) (by decide) (by decide) (by decide) (by decide) (by decide)
    (by decide) (by decide) (by decide) (by decide)

theorem wrap64_resync (a b : Int) (hb : fits64 b) : wrap64 (a + wrap64 (b - a)) = b := by
  unfold fits64 at hb
  unfold wrap64
  omega

/-- C10 (as stated) fails: for the ONU `onu0` (clock offset `0`) and the late GATE of `qGate`
(start time `0`, below the local time plus `ONU_HW_PROCESS_DELAY` both before and after the
resynchronisation), `ProcessGATE` returns an ONU whose clock offset is `100`, not `0`. -/
theorem C10_late_grant_counterexample :
    (qGate.mem 0).GATE.StartTime < onu0.toCClockSync.LocalTime qGate + ONU_HW_PROCESS_DELAY ∧
      (qGate.mem 0).GATE.StartTime < (qGate.mem 0).GATE.Timestamp + ONU_HW_PROCESS_DELAY ∧
      onu0.ProcessGATE qGate 0 = some ({ onu0 with timeOffset := 100 }, qGate) ∧
      ({ onu0 with timeOffset := 100 } : ONU).timeOffset ≠ onu0.timeOffset :=
  ⟨by decide, by decide, rfl, by decide⟩

/-- C10 (amended): for every ONU, every queue and every GATE event `p` whose timestamp `ts` and
`ts + ONU_HW_PROCESS_DELAY` are `int64s` values, if `StartTime < ts + ONU_HW_PROCESS_DELAY` (a
late grant, judged against the local time after the resynchronisation to `ts`), then
`ProcessEvent` (through `ProcessGATE`) returns the queue unchanged (no TIMER_GRANT_REPORT, no
TIMER_GRANT_DATA, nothing allocated or registered) and an ONU whose FIFO, `QueueBytes`,
`SlotEnd` and `Sending` are unchanged and whose clock offset is resynchronised so that its
local time equals `ts`. -/
theorem C10_late_grant_amended (o : ONU) (q : CEventQueue) (p : Nat)
    (hty : (q.mem p).Type_ = EV_MPCP_GATE)
    (hts : fits64 (q.mem p).GATE.Timestamp)
    (hsum : fits64 ((q.mem p).GATE.Timestamp + ONU_HW_PROCESS_DELAY))
    (hlate : (q.mem p).GATE.StartTime < (q.mem p).GATE.Timestamp + ONU_HW_PROCESS_DELAY) :
    o.ProcessEvent q p
        = some ({ o with timeOffset := wrap64 ((q.mem p).GATE.Timestamp - q.eqCurrentTime) }, q) ∧
      o.ProcessGATE q p = o.ProcessEvent q p ∧
      CClockSync.LocalTime
        { o.toCClockSync with
          timeOffset := wrap64 ((q.mem p).GATE.Timestamp - q.eqCurrentTime) } q
        = (q.mem p).GATE.Timestamp := by
  have hdisp : o.ProcessEvent q p = o.ProcessGATE q p := by
    simp [ONU.ProcessEvent, hty]
  have hl : wrap64 (q.eqCurrentTime + wrap64 ((q.mem p).GATE.Timestamp - q.eqCurrentTime))
      = (q.mem p).GATE.Timestamp := wrap64_resync _ _ hts
  refine ⟨?_, hdisp.symm, hl⟩
  rw [hdisp]
  simp only [ONU.ProcessGATE, CClockSync.setLocalTime, CClockSync.LocalTime, DESL.GlobalTime,
    CEventQueue.GetCurrentTime, hl, wrap64_fits hsum, hlate, if_true]

theorem C10_late_grant_amended_witness :
    onu0.ProcessEvent qGate 0
        = some ({ onu0 with
                  timeOffset := wrap64 ((qGate.mem 0).GATE.Timestamp - qGate.eqCurrentTime) },
                qGate) ∧
      onu0.ProcessGATE qGate 0 = onu0.ProcessEvent qGate 0 ∧
      CClockSync.LocalTime
        { onu0.toCClockSync with
          timeOffset := wrap64 ((qGate.mem 0).GATE.Timestamp - qGate.eqCurrentTime) } qGate
        = (qGate.mem 0).GATE.Timestamp :=
  C10_late_grant_amended onu0 qGate 0 (by decide) (by decide) (by decide) (by decide)

theorem destroyEvent_data (q : CEventQueue) (p : Ptr) (x : Nat) :
    ((q.DestroyEvent p).mem x).data = (q.mem x).data := by
  cases p with
  | none => rfl
  | some a =>
    unfold CEventQueue.DestroyEvent
    simp only
    split
    · by_cases hx : x = a
      · subst hx; simp [Stack.Push, Mem.setR, CEvent.data]
      · simp [Stack.Push, Mem.setR, hx]
    · rfl

theorem overhead_min : _OVERHEAD MIN_PACKET_SIZE = 84 := by decide

/-- C13: in a reachable engine state, when an ONU processes a detached GATE event `p` whose
length is smaller than `overhead(MPCP_SIZE)`, `ProcessEvent` (through `ProcessGATE`) returns and
schedules nothing: the ordered queue and the top-events stack hold the same records as before,
`GetCount` is unchanged, no record is constructed and no record has its type, payload, consumer,
producer or activation time changed, so there is neither a TIMER_GRANT_REPORT nor a
TIMER_GRANT_DATA event; the free pool is unchanged (late grant) or gains `p`. -/
theorem C13_small_grant (heap : Mem) (q : CEventQueue) (hq : Reachable heap q) (o : ONU)
    (p : Nat) (hb : p < q.brk) (ha : CEventQueue.IsActive q.mem p = true)
    (hty : (q.mem p).Type_ = EV_MPCP_GATE)
    (hlen : (q.mem p).GATE.Length < MPCP_PACKET_SIZE + PACKET_OVERHEAD) :
    ∃ tr top pool, QueueInv q tr top pool ∧ ∃ o2 q2 pool2,
      o.ProcessEvent q p = some (o2, q2) ∧ o.ProcessGATE q p = some (o2, q2) ∧
      QueueInv q2 tr top pool2 ∧ (pool2 = pool ∨ pool2 = p :: pool) ∧
      q2.GetCount = q.GetCount ∧ q2.brk = q.brk ∧
      (∀ x, (q2.mem x).data = (q.mem x).data) ∧
      o2.FIFO = o.FIFO ∧ o2.QueueBytes = o.QueueBytes ∧ o2.SlotEnd = o.SlotEnd ∧
      o2.Sending = o.Sending := by
  obtain ⟨tr, top, pool, hinv⟩ := reachable_inv hq
  refine ⟨tr, top, pool, hinv, ?_⟩
  have hdisp : o.ProcessEvent q p = o.ProcessGATE q p := by
    simp [ONU.ProcessEvent, hty]
  have h84 : MPCP_PACKET_SIZE + PACKET_OVERHEAD = 84 := by decide
  rw [h84] at hlen
  have hn : ¬ (q.mem p).GATE.Length ≥ 84 := by omega
  rw [hdisp]
  unfold ONU.ProcessGATE
  simp only [overhead_mpcp, overhead_min, hn, if_false]
  split
  · exact ⟨_, q, pool, rfl, rfl, hinv, Or.inl rfl, rfl, rfl, fun _ => rfl, rfl, rfl, rfl, rfl⟩
  · obtain ⟨hd, -, -⟩ := destroyEvent_spec hinv hb ha
    refine ⟨_, q.DestroyEvent (some p), p :: pool, rfl, rfl, hd, Or.inr rfl, ?_, ?_,
      destroyEvent_data q (some p), rfl, rfl, rfl, rfl⟩
    · simp [CEventQueue.DestroyEvent, ha, CEventQueue.GetCount, Stack.Push]
    · simp [CEventQueue.DestroyEvent, ha, Stack.Push]

theorem wrap64_shift (a b x : Int) (hx : fits64 x) (h : a + b = x) :
    wrap64 (a + wrap64 b) = x := by
  unfold fits64 at hx
  unfold wrap64
  omega

/-- A record that is detached before a record is inserted in the ordered queue and another
record leaves the pool is still detached afterwards. -/
theorem QueueInv.active_after_insert {q q2 : CEventQueue} {tr : Shape} {top pool pool2 : List Nat}
    (h : QueueInv q tr top pool) {key : Nat → Int} {a p : Nat}
    (h2 : QueueInv q2 (tr.insert key a) top pool2) (hbrk : q.brk ≤ q2.brk)
    (hpl : pool = a :: pool2 ∨ (pool = [] ∧ pool2 = [] ∧ a = q.brk)) (hb : p < q.brk)
    (ha : CEventQueue.IsActive q.mem p = true) :
    p ≠ a ∧ CEventQueue.IsActive q2.mem p = true := by
  have hp := h.not_mem_of_active ha
  simp only [List.mem_append, not_or] at hp
  have hpa : p ≠ a := by
    rcases hpl with hpl | ⟨-, -, hpl⟩
    · intro e; subst e; rw [hpl] at hp; simp at hp
    · omega
  refine ⟨hpa, h2.owned.active p (by omega) ?_⟩
  simp only [List.mem_append, not_or, Shape.mem_inorder_insert]
  refine ⟨⟨?_, hp.1.2⟩, ?_⟩
  · exact ⟨hpa, hp.1.1⟩
  · rcases hpl with hpl | ⟨-, hpl, -⟩
    · intro e; apply hp.2; rw [hpl]; simp [e]
    · rw [hpl]; simp

theorem data_fields {e1 e2 : CEvent} (h : e1.data = e2.data) :
    e1.NodeKey = e2.NodeKey ∧ e1.Type_ = e2.Type_ ∧ e1.Pckt = e2.Pckt ∧ e1.GATE = e2.GATE ∧
      e1.RPRT = e2.RPRT ∧ e1.Producer = e2.Producer ∧ e1.Consumer = e2.Consumer := by
  refine ⟨?_, ?_, ?_, ?_, ?_, ?_, ?_⟩
  · simpa [CEvent.data] using congrArg CEvent.NodeKey h
  · simpa [CEvent.data] using congrArg CEvent.Type_ h
  · simpa [CEvent.data] using congrArg CEvent.Pckt h
  · simpa [CEvent.data] using congrArg CEvent.GATE h
  · simpa [CEvent.data] using congrArg CEvent.RPRT h
  · simpa [CEvent.data] using congrArg CEvent.Producer h
  · simpa [CEvent.data] using congrArg CEvent.Consumer h

/-- What `ProcessGATE` does with a grant that is not late and has room for a REPORT. -/
theorem processGATE_spec {q : CEventQueue} {tr : Shape} {top pool : List Nat}
    (hinv : QueueInv q tr top pool) (o : ONU) {p : Nat} (hb : p < q.brk)
    (ha : CEventQueue.IsActive q.mem p = true) {ts st L : Int}
    (hg : (q.mem p).GATE = ⟨ts, st, L⟩) (hts : fits64 ts)
    (hnl : ts + ONU_HW_PROCESS_DELAY ≤ st)
    (hL : 84 ≤ L) (hpt : fits32 ((L - 84) * PON_BYTE_TIME))
    (hrt : fits64 (st + (L - 84) * PON_BYTE_TIME))
    (hkey : q.eqCurrentTime + (st + (L - 84) * PON_BYTE_TIME - ts) ≤ INT64_MAX) :
    ∃ q4 a pool2,
      (pool = a :: pool2 ∨ (pool = [] ∧ pool2 = [] ∧ a = q.brk)) ∧
      QueueInv q4 (tr.insert (fun z => (q4.mem z).NodeKey) a) top pool2 ∧
      q4.eqCurrentTime = q.eqCurrentTime ∧ q.brk ≤ q4.brk ∧ a < q4.brk ∧
      CEventQueue.IsActive q4.mem p = true ∧ p ≠ a ∧
      (q4.mem a).Type_ = EV_TIMER_GRANT_REPORT ∧ (q4.mem a).Consumer = some o.this ∧
      (q4.mem a).Producer = some o.this ∧
      (q4.mem a).NodeKey = q.eqCurrentTime + (st + (L - 84) * PON_BYTE_TIME - ts) ∧
      (∀ x, x < q.brk → x ≠ a → (q4.mem x).data = (q.mem x).data) ∧
      (L < 168 → o.ProcessGATE q p
        = some ({ o with timeOffset := wrap64 (ts - q.eqCurrentTime) },
                q4.DestroyEvent (some p))) ∧
      (168 ≤ L → ∃ q9 b pool3,
        o.ProcessGATE q p
          = some ({ o with timeOffset := wrap64 (ts - q.eqCurrentTime) },
                  q9.DestroyEvent (some p)) ∧
        (pool2 = b :: pool3 ∨ (pool2 = [] ∧ pool3 = [] ∧ b = q4.brk)) ∧
        QueueInv q9 ((tr.insert (fun z => (q4.mem z).NodeKey) a).insert
          (fun z => (q9.mem z).NodeKey) b) top pool3 ∧
        q9.eqCurrentTime = q.eqCurrentTime ∧ q4.brk ≤ q9.brk ∧ b < q9.brk ∧
        CEventQueue.IsActive q9.mem p = true ∧ p ≠ b ∧
        (q9.mem b).Type_ = EV_TIMER_GRANT_DATA ∧ (q9.mem b).Consumer = some o.this ∧
        (q9.mem b).Producer = some o.this ∧ (q9.mem b).GATE.Length = L - 84 ∧
        (q9.mem b).NodeKey = q.eqCurrentTime + (st - ts) ∧
        (∀ x, x < q4.brk → x ≠ b → (q9.mem x).data = (q4.mem x).data)) := by
  obtain ⟨q1, a, pool2, e1, h1, ha1, hb1, ht1, hbrk1, hpl, hd1⟩ := allocateEvent_pair hinv
  have hcur := hinv.time
  unfold INT64_MAX at hcur hkey
  have hL1 : wrap32 (L - 84) = L - 84 := by
    apply wrap32_eq
    unfold fits32 PON_BYTE_TIME at *
    constructor <;> omega
  have hpt1 : _PON_TIME (L - 84) = (L - 84) * PON_BYTE_TIME := wrap32_eq hpt
  have hlt : wrap64 (q.eqCurrentTime + wrap64 (ts - q.eqCurrentTime)) = ts :=
    wrap64_resync _ _ hts
  have hnl1 : wrap64 (ts + ONU_HW_PROCESS_DELAY) = ts + ONU_HW_PROCESS_DELAY := by
    apply wrap64_fits
    unfold fits64 ONU_HW_PROCESS_DELAY PON_BYTE_TIME at *
    constructor <;> omega
  have hnl2 : ¬ st < ts + ONU_HW_PROCESS_DELAY := by omega
  have hrt1 : wrap64 (st + (L - 84) * PON_BYTE_TIME) = st + (L - 84) * PON_BYTE_TIME :=
    wrap64_fits hrt
  have hiv : wrap64 (st + (L - 84) * PON_BYTE_TIME - ts)
      = st + (L - 84) * PON_BYTE_TIME - ts := by
    apply wrap64_fits
    unfold fits64 ONU_HW_PROCESS_DELAY PON_BYTE_TIME at *
    constructor <;> omega
  have hivd : wrap64 (st - ts) = st - ts := by
    apply wrap64_fits
    unfold fits64 ONU_HW_PROCESS_DELAY PON_BYTE_TIME at *
    constructor <;> omega
  have hLge : L ≥ 84 := hL
  have hts0 : (q.mem p).GATE.Timestamp = ts := by rw [hg]
  have hst0 : (q.mem p).GATE.StartTime = st := by rw [hg]
  have hL0 : (q.mem p).GATE.Length = L := by rw [hg]
  -- the REPORT timer
  obtain ⟨g, hgdef⟩ : ∃ g : CEventQueue, g =
    (q1.modify a (fun e => { e with Consumer := some o.this })).modify a
      (fun e => { e with Type_ := EV_TIMER_GRANT_REPORT }) := ⟨_, rfl⟩
  have hg2 : QueueInv g tr top pool2 := by
    rw [hgdef]
    exact (h1.modify_public a (publicOnly_consumer _)).modify_public a (publicOnly_type _)
  have hgb : g.brk = q1.brk := by rw [hgdef]; rfl
  have hga : CEventQueue.IsActive g.mem a = true := by
    rw [hgdef, isActive_modify _ a a (publicOnly_type _),
      isActive_modify _ a a (publicOnly_consumer _)]
    exact ha1
  have hgt : g.eqCurrentTime = q.eqCurrentTime := by rw [hgdef]; exact ht1
  have hpos : ¬ st + (L - 84) * PON_BYTE_TIME - ts < 0 := by
    unfold ONU_HW_PROCESS_DELAY PON_BYTE_TIME at *
    omega
  obtain ⟨q4, e4, ht4, hbrk4, hpool4, hk4, hprod4, hty4, -, -, -, hcons4, hd4, -, hnz4⟩ :=
    desl_registerEvent_spec (i := st + (L - 84) * PON_BYTE_TIME - ts) hg2
      (by rw [hgb]; exact hb1) hga
      (by unfold ONU_HW_PROCESS_DELAY PON_BYTE_TIME at *; omega)
      (by rw [hgt, if_neg hpos]; unfold INT64_MAX; exact hkey) (some o.this)
  rw [if_neg hpos] at hk4 hnz4
  obtain ⟨hinv4, -⟩ := hnz4 (by unfold ONU_HW_PROCESS_DELAY PON_BYTE_TIME at *; omega)
  have hbrk14 : q.brk ≤ q4.brk := by rw [hbrk4, hgb]; exact hbrk1
  obtain ⟨hpa, hact4⟩ := hinv.active_after_insert hinv4 hbrk14 hpl hb ha
  have hgty : (g.mem a).Type_ = EV_TIMER_GRANT_REPORT := by simp [hgdef, CEventQueue.modify]
  have hgcons : (g.mem a).Consumer = some o.this := by simp [hgdef, CEventQueue.modify]
  have hdat4 : ∀ x, x < q.brk → x ≠ a → (q4.mem x).data = (q.mem x).data := by
    intro x hx hxa
    rw [hd4 x hxa, ← hd1 x hx, hgdef, modify_mem_other _ _ hxa, modify_mem_other _ _ hxa]
  have hm1 : ∀ (f : CEvent → CEvent) (q3 : CEventQueue), (q3.modify a f).mem p = q3.mem p :=
    fun f q3 => modify_mem_other q3 f hpa
  have hgate1 : (q1.mem p).GATE = ⟨ts, st, L⟩ := by
    rw [(data_fields (hd1 p hb)).2.2.2.1, hg]
  have hst1 : (q1.mem p).GATE.StartTime = st := by rw [hgate1]
  have e4c := e4
  rw [hgdef] at e4c
  refine ⟨q4, a, pool2, hpl, hinv4, ht4.trans hgt, hbrk14, by rw [hbrk4, hgb]; exact hb1, hact4,
    hpa, by rw [hty4, hgty], by rw [hcons4, hgcons], hprod4, by rw [hk4, hgt], hdat4, ?_, ?_⟩
  · intro hsmall
    have hnd : ¬ L - 84 ≥ 84 := by omega
    simp only [ONU.ProcessGATE, hts0, hst0, hL0, CClockSync.setLocalTime, localTime_eq,
      DESL.GlobalTime, CEventQueue.GetCurrentTime, hlt, hnl1, hnl2, if_false, overhead_mpcp,
      overhead_min, hLge, if_true, e1, hL1, hpt1, CClockSync.RegisterEventAbs,
      CClockSync.RegisterEvent, modify_eqCurrentTime, ht1, hm1, hst1, hrt1, hiv, e4c, hnd]
  · intro hbig
    have hdge : L - 84 ≥ 84 := by omega
    have hb4 : p < q4.brk := by omega
    obtain ⟨q5, b, pool3, e5, h5, ha5, hb5, ht5, hbrk5, hpl5, hd5⟩ := allocateEvent_pair hinv4
    obtain ⟨g2, hg2def⟩ : ∃ g2 : CEventQueue, g2 =
      ((q5.modify b (fun e => { e with Consumer := some o.this })).modify b
        (fun e => { e with Type_ := EV_TIMER_GRANT_DATA })).modify b
        (fun e => { e with GATE := { e.GATE with Length := L - 84 } }) := ⟨_, rfl⟩
    have hg5 : QueueInv g2 (tr.insert (fun z => (q4.mem z).NodeKey) a) top pool3 := by
      rw [hg2def]
      exact ((h5.modify_public b (publicOnly_consumer _)).modify_public b
        (publicOnly_type _)).modify_public b (publicOnly_gate _)
    have hg2a : CEventQueue.IsActive g2.mem b = true := by
      rw [hg2def, isActive_modify _ b b (publicOnly_gate _),
        isActive_modify _ b b (publicOnly_type _),
        isActive_modify _ b b (publicOnly_consumer _)]
      exact ha5
    have hg2t : g2.eqCurrentTime = q.eqCurrentTime := by
      rw [hg2def]; exact ht5.trans (ht4.trans hgt)
    have hposd : ¬ st - ts < 0 := by
      unfold ONU_HW_PROCESS_DELAY at *
      omega
    obtain ⟨q9, e9, ht9, hbrk9, -, hk9, hprod9, hty9, -, hgate9, -, hcons9, hd9, -, hnz9⟩ :=
      desl_registerEvent_spec (i := st - ts) hg5 (by rw [hg2def]; exact hb5) hg2a
        (by unfold ONU_HW_PROCESS_DELAY PON_BYTE_TIME at *; omega)
        (by rw [hg2t, if_neg hposd]; unfold INT64_MAX ONU_HW_PROCESS_DELAY PON_BYTE_TIME at *
            omega) (some o.this)
    rw [if_neg hposd] at hk9 hnz9
    obtain ⟨hinv9, -⟩ := hnz9 (by unfold ONU_HW_PROCESS_DELAY at *; omega)
    have hbrk49 : q4.brk ≤ q9.brk := by rw [hbrk9, hg2def]; exact hbrk5
    obtain ⟨hpb, hact9⟩ := hinv4.active_after_insert hinv9 hbrk49 hpl5 hb4 hact4
    have hm2 : ∀ (f : CEvent → CEvent) (q3 : CEventQueue), (q3.modify b f).mem p = q3.mem p :=
      fun f q3 => modify_mem_other q3 f hpb
    have hst5 : (q5.mem p).GATE.StartTime = st := by
      rw [(data_fields (hd5 p hb4)).2.2.2.1, (data_fields (hdat4 p hb hpa)).2.2.2.1, hg]
    have hdat9 : ∀ x, x < q4.brk → x ≠ b → (q9.mem x).data = (q4.mem x).data := by
      intro x hx hxb
      rw [hd9 x hxb, ← hd5 x hx, hg2def, modify_mem_other _ _ hxb, modify_mem_other _ _ hxb,
        modify_mem_other _ _ hxb]
    have e9c := e9
    rw [hg2def] at e9c
    refine ⟨q9, b, pool3, ?_, hpl5, hinv9, ht9.trans hg2t, hbrk49,
      by rw [hbrk9, hg2def]; exact hb5, hact9, hpb, ?_, ?_, hprod9, ?_, by rw [hk9, hg2t],
      hdat9⟩
    · simp only [ONU.ProcessGATE, hts0, hst0, hL0, CClockSync.setLocalTime, localTime_eq,
        DESL.GlobalTime, CEventQueue.GetCurrentTime, hlt, hnl1, hnl2, if_false, overhead_mpcp,
        overhead_min, hLge, if_true, e1, hL1, hpt1, CClockSync.RegisterEventAbs,
        CClockSync.RegisterEvent, modify_eqCurrentTime, ht1, hm1, hst1, hrt1, hiv, e4c, hdge,
        e5, hm2, hst5, ht5, ht4, hgt, hivd, e9c]
    · rw [hty9, hg2def]; simp [CEventQueue.modify]
    · rw [hcons9, hg2def]; simp [CEventQueue.modify]
    · rw [hgate9, hg2def]; simp [CEventQueue.modify]

theorem QueueInv.inserted_new {q : CEventQueue} {tr : Shape} {top pool : List Nat}
    {key : Nat → Int} {a : Nat} (h : QueueInv q (tr.insert key a) top pool) :
    a ∉ tr.inorder ++ top := by
  have nd := h.owned.nodup
  rw [List.nodup_append] at nd
  obtain ⟨nd1, -, -⟩ := nd
  rw [List.nodup_append] at nd1
  obtain ⟨ndt, -, hdis⟩ := nd1
  have hp := (Shape.inorder_insert_perm key a tr).nodup_iff.1 ndt
  simp only [List.mem_append, not_or]
  refine ⟨(List.nodup_cons.1 hp).1, ?_⟩
  intro hm
  exact hdis ((Shape.mem_inorder_insert key a tr a).2 (Or.inl rfl)) hm

theorem reachable_rGateReport : Reachable heap0 rGateReport :=
  Reachable.call (Call.op (Op.Write 0
    { CEvent.zero with Type_ := EV_MPCP_GATE, GATE := ⟨100, 20000, 84⟩ }))
    reachable_qRun (by decide) rfl

theorem reachable_rGateData : Reachable heap0 rGateData :=
  Reachable.call (Call.op (Op.Write 0
    { CEvent.zero with Type_ := EV_MPCP_GATE, GATE := ⟨100, 20000, 1000⟩ }))
    reachable_qRun (by decide) rfl

theorem reachable_rGateSmall : Reachable heap0 rGateSmall :=
  Reachable.call (Call.op (Op.Write 0
    { CEvent.zero with Type_ := EV_MPCP_GATE, GATE := ⟨100, 20000, 50⟩ }))
    reachable_qRun (by decide) rfl

theorem C13_small_grant_witness :
    ∃ tr top pool, QueueInv rGateSmall tr top pool ∧ ∃ o2 q2 pool2,
      onu0.ProcessEvent rGateSmall 0 = some (o2, q2) ∧
      onu0.ProcessGATE rGateSmall 0 = some (o2, q2) ∧
      QueueInv q2 tr top pool2 ∧ (pool2 = pool ∨ pool2 = 0 :: pool) ∧
      q2.GetCount = rGateSmall.GetCount ∧ q2.brk = rGateSmall.brk ∧
      (∀ x, (q2.mem x).data = (rGateSmall.mem x).data) ∧
      o2.FIFO = onu0.FIFO ∧ o2.QueueBytes = onu0.QueueBytes ∧ o2.SlotEnd = onu0.SlotEnd ∧
      o2.Sending = onu0.Sending :=
  C13_small_grant heap0 rGateSmall reachable_rGateSmall onu0 0 (by decide) (by decide)
    (by decide) (by decide)

/-- C12: in a reachable engine state, when an ONU processes a detached GATE event `p` with
timestamp `ts`, start time `st` and length `L` that is not late (`st` is not before
`ts + ONU_HW_PROCESS_DELAY`, `ts` being the ONU's local time once the GATE is received) and
has `L ≥ overhead(MPCP_SIZE)`, and when the sums involved do not overflow, `ProcessEvent`
(through `ProcessGATE`) returns; the ordered queue then holds the records it held before, one
new record `a` of type TIMER_GRANT_REPORT consumed by the ONU, and the records of `extra`,
at most one and of type TIMER_GRANT_DATA: exactly one TIMER_GRANT_REPORT event is scheduled.
The ONU's local time at the activation time of `a` is
`st + pon_time(L - overhead(MPCP_SIZE))`.  The events that were pending keep their contents. -/
theorem C12_grant_report (heap : Mem) (q : CEventQueue) (hq : Reachable heap q) (o : ONU)
    (p : Nat) (hb : p < q.brk) (ha : CEventQueue.IsActive q.mem p = true)
    (hty : (q.mem p).Type_ = EV_MPCP_GATE) (ts st L : Int)
    (hg : (q.mem p).GATE = ⟨ts, st, L⟩) (hts : fits64 ts)
    (hnl : ¬ st < ts + ONU_HW_PROCESS_DELAY)
    (hL : MPCP_PACKET_SIZE + PACKET_OVERHEAD ≤ L)
    (hpt : fits32 ((L - (MPCP_PACKET_SIZE + PACKET_OVERHEAD)) * PON_BYTE_TIME))
    (hrt : fits64 (st + (L - (MPCP_PACKET_SIZE + PACKET_OVERHEAD)) * PON_BYTE_TIME))
    (hkey : q.eqCurrentTime
      + (st + (L - (MPCP_PACKET_SIZE + PACKET_OVERHEAD)) * PON_BYTE_TIME - ts) ≤ INT64_MAX) :
    ∃ tr top pool, QueueInv q tr top pool ∧ ∃ o2 q2 a extra tr2 pool2,
      o.ProcessEvent q p = some (o2, q2) ∧ QueueInv q2 tr2 top pool2 ∧
      tr2.inorder.Perm (extra ++ a :: tr.inorder) ∧ extra.length ≤ 1 ∧
      (∀ x ∈ extra, (q2.mem x).Type_ = EV_TIMER_GRANT_DATA) ∧
      (q2.mem a).Type_ = EV_TIMER_GRANT_REPORT ∧ (q2.mem a).Consumer = some o.this ∧
      wrap64 ((q2.mem a).NodeKey + o2.timeOffset)
        = st + (L - (MPCP_PACKET_SIZE + PACKET_OVERHEAD)) * PON_BYTE_TIME ∧
      (∀ x ∈ tr.inorder ++ top, (q2.mem x).data = (q.mem x).data) := by
  obtain ⟨tr, top, pool, hinv⟩ := reachable_inv hq
  refine ⟨tr, top, pool, hinv, ?_⟩
  have hdisp : o.ProcessEvent q p = o.ProcessGATE q p := by
    simp [ONU.ProcessEvent, hty]
  have h84 : MPCP_PACKET_SIZE + PACKET_OVERHEAD = 84 := by decide
  rw [h84] at hL hpt hrt hkey ⊢
  obtain ⟨q4, a, pool2, hpl, hinv4, ht4, hbrk4, hb4, hact4, hpa, hty4, hcons4, -, hk4, hdat4,
    hsmall, hbig⟩ := processGATE_spec hinv o hb ha hg hts (by omega) hL hpt hrt hkey
  have hold : ∀ x ∈ tr.inorder ++ top, x < q.brk ∧ x ≠ a := by
    intro x hx
    refine ⟨hinv.owned.alloc x (by simp only [List.mem_append] at hx ⊢; exact Or.inl hx), ?_⟩
    intro e
    subst e
    exact hinv4.inserted_new hx
  have hfire : wrap64 (q.eqCurrentTime + (st + (L - 84) * PON_BYTE_TIME - ts)
      + wrap64 (ts - q.eqCurrentTime)) = st + (L - 84) * PON_BYTE_TIME :=
    wrap64_shift _ _ _ hrt (by omega)
  rw [hdisp]
  by_cases hc : L < 168
  · obtain ⟨hd, -, -⟩ := destroyEvent_spec hinv4 (by omega) hact4
    have hdd := destroyEvent_data q4 (some p)
    refine ⟨_, _, a, [], _, _, hsmall hc, hd, Shape.inorder_insert_perm _ a tr, by simp, by simp,
      ?_, ?_, ?_, ?_⟩
    · rw [(data_fields (hdd a)).2.1, hty4]
    · rw [(data_fields (hdd a)).2.2.2.2.2.2, hcons4]
    · rw [(data_fields (hdd a)).1, hk4]; exact hfire
    · intro x hx
      rw [hdd x]
      exact hdat4 x (hold x hx).1 (hold x hx).2
  · obtain ⟨q9, b, pool3, e9, hpl9, hinv9, ht9, hbrk9, hb9, hact9, hpb, hty9, -, -, -, -,
      hdat9⟩ := hbig (by omega)
    obtain ⟨hd, -, -⟩ := destroyEvent_spec hinv9 (by omega) hact9
    have hdd := destroyEvent_data q9 (some p)
    have hab : a ≠ b := by
      intro e
      have := hinv9.inserted_new
      simp only [List.mem_append, not_or, Shape.mem_inorder_insert] at this
      exact this.1.1 e.symm
    refine ⟨_, _, a, [b], _, _, e9, hd, ?_, by simp, ?_, ?_, ?_, ?_, ?_⟩
    · exact (Shape.inorder_insert_perm _ b _).trans
        (List.Perm.cons b (Shape.inorder_insert_perm _ a tr))
    · intro x hx
      simp only [List.mem_singleton] at hx
      subst hx
      rw [(data_fields (hdd x)).2.1, hty9]
    · rw [(data_fields (hdd a)).2.1, (data_fields (hdat9 a hb4 hab)).2.1, hty4]
    · rw [(data_fields (hdd a)).2.2.2.2.2.2, (data_fields (hdat9 a hb4 hab)).2.2.2.2.2.2,
        hcons4]
    · rw [(data_fields (hdd a)).1, (data_fields (hdat9 a hb4 hab)).1, hk4]; exact hfire
    · intro x hx
      have hxb : x ≠ b := by
        intro e
        subst e
        have := hinv9.inserted_new
        simp only [List.mem_append, not_or, Shape.mem_inorder_insert] at this hx
        rcases hx with hx | hx
        · exact this.1.2 hx
        · exact this.2 hx
      rw [hdd x, hdat9 x (by have := (hold x hx).1; omega) hxb]
      exact hdat4 x (hold x hx).1 (hold x hx).2

theorem C12_grant_report_witness :
    ∃ tr top pool, QueueInv rGateData tr top pool ∧ ∃ o2 q2 a extra tr2 pool2,
      onu0.ProcessEvent rGateData 0 = some (o2, q2) ∧ QueueInv q2 tr2 top pool2 ∧
      tr2.inorder.Perm (extra ++ a :: tr.inorder) ∧ extra.length ≤ 1 ∧
      (∀ x ∈ extra, (q2.mem x).Type_ = EV_TIMER_GRANT_DATA) ∧
      (q2.mem a).Type_ = EV_TIMER_GRANT_REPORT ∧ (q2.mem a).Consumer = some onu0.this ∧
      wrap64 ((q2.mem a).NodeKey + o2.timeOffset)
        = 20000 + (1000 - (MPCP_PACKET_SIZE + PACKET_OVERHEAD)) * PON_BYTE_TIME ∧
      (∀ x ∈ tr.inorder ++ top, (q2.mem x).data = (rGateData.mem x).data) :=
  C12_grant_report heap0 rGateData reachable_rGateData onu0 0 (by decide) (by decide)
    (by decide) 100 20000 1000 rfl (by decide) (by decide) (by decide) (by decide) (by decide)
    (by decide)

/-- C11 (as stated) fails: the GATE of `qGateReport` is not late (its start time `20000` is not
before the local time plus `ONU_HW_PROCESS_DELAY`, before or after the resynchronisation) and
its length `84` is at least `overhead(MIN_PACKET_SIZE)`, yet after `ProcessGATE` the engine
holds two records only, the GATE itself and a TIMER_GRANT_REPORT, and one pending event: no
TIMER_GRANT_DATA event was scheduled. -/
theorem C11_grant_data_counterexample :
    (qGateReport.mem 0).Type_ = EV_MPCP_GATE ∧
      ¬ ((qGateReport.mem 0).GATE.StartTime
          < onu0.toCClockSync.LocalTime qGateReport + ONU_HW_PROCESS_DELAY) ∧
      ¬ ((qGateReport.mem 0).GATE.StartTime
          < (qGateReport.mem 0).GATE.Timestamp + ONU_HW_PROCESS_DELAY) ∧
      (qGateReport.mem 0).GATE.Length ≥ _OVERHEAD MIN_PACKET_SIZE ∧
      onu0.ProcessGATE qGateReport 0 = some gateReportResult ∧
      gateReportResult.2.brk = 2 ∧ gateReportResult.2.GetCount = 1 ∧
      (gateReportResult.2.mem 0).Type_ = EV_MPCP_GATE ∧
      (gateReportResult.2.mem 1).Type_ = EV_TIMER_GRANT_REPORT ∧
      ∀ x, x < gateReportResult.2.brk →
        (gateReportResult.2.mem x).Type_ ≠ EV_TIMER_GRANT_DATA :=
  ⟨by decide, by decide, by decide, by decide, rfl, rfl, rfl, rfl, rfl, by decide⟩

/-- C11 (amended): in a reachable engine state, when an ONU processes a detached GATE event
`p` with timestamp `ts`, start time `st` and length `L` that is not late and has
`L ≥ overhead(MPCP_SIZE) + overhead(MIN_PACKET_SIZE)` (the length left once
`overhead(MPCP_SIZE)` bytes are set aside for the REPORT is at least
`overhead(MIN_PACKET_SIZE)`), and when the sums involved do not overflow, `ProcessEvent`
(through `ProcessGATE`) returns and the ordered queue gains two records: the REPORT timer `a`
and a record `b` of type TIMER_GRANT_DATA, consumed by the ONU and carrying the remaining
length `L - overhead(MPCP_SIZE)`; the ONU's local time at the activation time of `b` is
`st`. -/
theorem C11_grant_data_amended (heap : Mem) (q : CEventQueue) (hq : Reachable heap q)
    (o : ONU) (p : Nat) (hb : p < q.brk) (ha : CEventQueue.IsActive q.mem p = true)
    (hty : (q.mem p).Type_ = EV_MPCP_GATE) (ts st L : Int)
    (hg : (q.mem p).GATE = ⟨ts, st, L⟩) (hts : fits64 ts)
    (hnl : ¬ st < ts + ONU_HW_PROCESS_DELAY)
    (hL : (MPCP_PACKET_SIZE + PACKET_OVERHEAD) + (MIN_PACKET_SIZE + PACKET_OVERHEAD) ≤ L)
    (hpt : fits32 ((L - (MPCP_PACKET_SIZE + PACKET_OVERHEAD)) * PON_BYTE_TIME))
    (hrt : fits64 (st + (L - (MPCP_PACKET_SIZE + PACKET_OVERHEAD)) * PON_BYTE_TIME))
    (hkey : q.eqCurrentTime
      + (st + (L - (MPCP_PACKET_SIZE + PACKET_OVERHEAD)) * PON_BYTE_TIME - ts) ≤ INT64_MAX) :
    ∃ tr top pool, QueueInv q tr top pool ∧ ∃ o2 q2 a b tr2 pool2,
      o.ProcessEvent q p = some (o2, q2) ∧ QueueInv q2 tr2 top pool2 ∧
      tr2.inorder.Perm (b :: a :: tr.inorder) ∧
      (q2.mem b).Type_ = EV_TIMER_GRANT_DATA ∧ (q2.mem b).Consumer = some o.this ∧
      (q2.mem b).GATE.Length = L - (MPCP_PACKET_SIZE + PACKET_OVERHEAD) ∧
      wrap64 ((q2.mem b).NodeKey + o2.timeOffset) = st ∧
      (q2.mem a).Type_ = EV_TIMER_GRANT_REPORT := by
  obtain ⟨tr, top, pool, hinv⟩ := reachable_inv hq
  refine ⟨tr, top, pool, hinv, ?_⟩
  have hdisp : o.ProcessEvent q p = o.ProcessGATE q p := by
    simp [ONU.ProcessEvent, hty]
  have h84 : MPCP_PACKET_SIZE + PACKET_OVERHEAD = 84 := by decide
  have h84b : MIN_PACKET_SIZE + PACKET_OVERHEAD = 84 := by decide
  rw [h84, h84b] at hL
  rw [h84] at hpt hrt hkey ⊢
  obtain ⟨q4, a, pool2, -, hinv4, -, hbrk4, hb4, -, -, hty4, -, -, -, -, -, hbig⟩ :=
    processGATE_spec hinv o hb ha hg hts (by omega) (by omega) hpt hrt hkey
  obtain ⟨q9, b, pool3, e9, -, hinv9, -, hbrk9, hb9, hact9, hpb, hty9, hcons9, -, hlen9, hk9,
    hdat9⟩ := hbig (by omega)
  obtain ⟨hd, -, -⟩ := destroyEvent_spec hinv9 (by omega) hact9
  have hdd := destroyEvent_data q9 (some p)
  have hab : a ≠ b := by
    intro e
    have := hinv9.inserted_new
    simp only [List.mem_append, not_or, Shape.mem_inorder_insert] at this
    exact this.1.1 e.symm
  have hst : fits64 st := by
    unfold fits64 fits32 ONU_HW_PROCESS_DELAY PON_BYTE_TIME at *
    constructor <;> omega
  have hfire : wrap64 (q.eqCurrentTime + (st - ts) + wrap64 (ts - q.eqCurrentTime)) = st :=
    wrap64_shift _ _ _ hst (by omega)
  rw [hdisp]
  refine ⟨_, _, a, b, _, _, e9, hd, ?_, ?_, ?_, ?_, ?_, ?_⟩
  · exact (Shape.inorder_insert_perm _ b _).trans
      (List.Perm.cons b (Shape.inorder_insert_perm _ a tr))
  · rw [(data_fields (hdd b)).2.1, hty9]
  · rw [(data_fields (hdd b)).2.2.2.2.2.2, hcons9]
  · rw [(data_fields (hdd b)).2.2.2.1, hlen9]
  · rw [(data_fields (hdd b)).1, hk9]; exact hfire
  · rw [(data_fields (hdd a)).2.1, (data_fields (hdat9 a hb4 hab)).2.1, hty4]

theorem C11_grant_data_amended_witness :
    ∃ tr top pool, QueueInv rGateData tr top pool ∧ ∃ o2 q2 a b tr2 pool2,
      onu0.ProcessEvent rGateData 0 = some (o2, q2) ∧ QueueInv q2 tr2 top pool2 ∧
      tr2.inorder.Perm (b :: a :: tr.inorder) ∧
      (q2.mem b).Type_ = EV_TIMER_GRANT_DATA ∧ (q2.mem b).Consumer = some onu0.this ∧
      (q2.mem b).GATE.Length = 1000 - (MPCP_PACKET_SIZE + PACKET_OVERHEAD) ∧
      wrap64 ((q2.mem b).NodeKey + o2.timeOffset) = 20000 ∧
      (q2.mem a).Type_ = EV_TIMER_GRANT_REPORT :=
  C11_grant_data_amended heap0 rGateData reachable_rGateData onu0 0 (by decide) (by decide)
    (by decide) 100 20000 1000 rfl (by decide) (by decide) (by decide) (by decide) (by decide)
    (by decide)

theorem sum_sizes_overhead (l : List Pckt_Data_t) (c : Int) :
    (l.map (fun k => k.PcktSize + c)).sum
      = (l.map Pckt_Data_t.PcktSize).sum + (l.length : Int) * c := by
  induction l with
  | nil => simp
  | cons k l ih =>
    simp only [List.map_cons, List.sum_cons, List.length_cons, ih]
    push_cast
    ring

/-- C14: in a reachable engine state, when a reachable ONU processes a detached
TIMER_GRANT_REPORT event `p`, and the sums involved do not overflow, `ProcessEvent` (through
`SendREPORT`) returns the ONU unchanged (FIFO, `QueueBytes`, `SlotEnd`, `Sending` and all other
members) and the event `p` as an MPCP_REPORT whose consumer is output port 0, with
`Timestamp = local time + pon_pckt_time(MPCP_SIZE)` and
`Length = QueueBytes + FIFO.GetCount() * PACKET_OVERHEAD`, which is the sum of
`size + PACKET_OVERHEAD` over the queued packets; the event is inserted in the ordered queue
with activation time `eqCurrentTime + pon_pckt_time(MPCP_SIZE)`. -/
theorem C14_send_report (heap : Mem) (q : CEventQueue) (hq : Reachable heap q) (o : ONU)
    (ho : ONU.Reachable o) (p : Nat) (hb : p < q.brk)
    (ha : CEventQueue.IsActive q.mem p = true)
    (hty : (q.mem p).Type_ = EV_TIMER_GRANT_REPORT)
    (hlt : fits64 (q.eqCurrentTime + o.timeOffset))
    (hstamp : fits64 (q.eqCurrentTime + o.timeOffset
      + (MPCP_PACKET_SIZE + PACKET_OVERHEAD) * PON_BYTE_TIME))
    (hcnt : fits32 ((o.FIFO.length : Int) * PACKET_OVERHEAD))
    (hlen : fits32 (o.QueueBytes + (o.FIFO.length : Int) * PACKET_OVERHEAD))
    (hkey : q.eqCurrentTime + (MPCP_PACKET_SIZE + PACKET_OVERHEAD) * PON_BYTE_TIME
      ≤ INT64_MAX) :
    ∃ tr top pool, QueueInv q tr top pool ∧ ∃ q2,
      o.ProcessEvent q p = some (o, q2) ∧
      (q2.mem p).Type_ = EV_MPCP_REPORT ∧ (q2.mem p).Consumer = o.OutPort ∧
      (q2.mem p).Producer = some o.this ∧
      (q2.mem p).RPRT.Timestamp = q.eqCurrentTime + o.timeOffset
        + (MPCP_PACKET_SIZE + PACKET_OVERHEAD) * PON_BYTE_TIME ∧
      (q2.mem p).RPRT.Length = o.QueueBytes + (o.FIFO.length : Int) * PACKET_OVERHEAD ∧
      (q2.mem p).RPRT.Length = (o.FIFO.map (fun k => k.PcktSize + PACKET_OVERHEAD)).sum ∧
      (q2.mem p).NodeKey
        = q.eqCurrentTime + (MPCP_PACKET_SIZE + PACKET_OVERHEAD) * PON_BYTE_TIME ∧
      QueueInv q2 (tr.insert (fun z => (q2.mem z).NodeKey) p) top pool ∧
      q2.eqCurrentTime = q.eqCurrentTime ∧
      (∀ x, x ≠ p → (q2.mem x).data = (q.mem x).data) := by
  obtain ⟨tr, top, pool, hinv⟩ := reachable_inv hq
  refine ⟨tr, top, pool, hinv, ?_⟩
  have hoi := onu_reachable_inv ho
  have hdisp : o.ProcessEvent q p = o.SendREPORT q p := by
    have h1 : EV_TIMER_GRANT_REPORT ≠ EV_MPCP_GATE := by decide
    simp [ONU.ProcessEvent, hty, h1]
  have hpk : (MPCP_PACKET_SIZE + PACKET_OVERHEAD) * PON_BYTE_TIME = 672 := by decide
  rw [hpk] at hstamp hkey ⊢
  have hw1 : wrap64 (q.eqCurrentTime + o.timeOffset) = q.eqCurrentTime + o.timeOffset :=
    wrap64_fits hlt
  have hw2 : wrap64 (q.eqCurrentTime + o.timeOffset + 672)
      = q.eqCurrentTime + o.timeOffset + 672 := wrap64_fits hstamp
  have hw3 : wrap32 ((o.FIFO.length : Int) * PACKET_OVERHEAD)
      = (o.FIFO.length : Int) * PACKET_OVERHEAD := wrap32_eq hcnt
  have hw4 : wrap32 (o.QueueBytes + (o.FIFO.length : Int) * PACKET_OVERHEAD)
      = o.QueueBytes + (o.FIFO.length : Int) * PACKET_OVERHEAD := wrap32_eq hlen
  obtain ⟨g, hgdef⟩ : ∃ g : CEventQueue, g =
    (((q.modify p (fun e => { e with Consumer := o.OutPort })).modify p
      (fun e => { e with Type_ := EV_MPCP_REPORT })).modify p
      (fun e => { e with RPRT := { e.RPRT with
        Timestamp := q.eqCurrentTime + o.timeOffset + 672 } })).modify p
      (fun e => { e with RPRT := { e.RPRT with
        Length := o.QueueBytes + (o.FIFO.length : Int) * PACKET_OVERHEAD } }) := ⟨_, rfl⟩
  have hg2 : QueueInv g tr top pool := by
    rw [hgdef]
    exact (((hinv.modify_public p (publicOnly_consumer _)).modify_public p
      (publicOnly_type _)).modify_public p (publicOnly_rprt _)).modify_public p
      (publicOnly_rprt _)
  have hga : CEventQueue.IsActive g.mem p = true := by
    rw [hgdef, isActive_modify _ p p (publicOnly_rprt _),
      isActive_modify _ p p (publicOnly_rprt _), isActive_modify _ p p (publicOnly_type _),
      isActive_modify _ p p (publicOnly_consumer _)]
    exact ha
  have hgt : g.eqCurrentTime = q.eqCurrentTime := by rw [hgdef]; rfl
  have hgb : g.brk = q.brk := by rw [hgdef]; rfl
  obtain ⟨q2, e2, ht2, -, -, hk2, hprod2, hty2, -, -, hrprt2, hcons2, hd2, -, hnz2⟩ :=
    desl_registerEvent_spec (i := 672) hg2 (by rw [hgb]; exact hb) hga (by norm_num)
      (by rw [hgt]; simpa using hkey) (some o.this)
  obtain ⟨hinv2, -⟩ := hnz2 (by norm_num)
  have e2c := e2
  rw [hgdef] at e2c
  have hrp : (q2.mem p).RPRT = ⟨q.eqCurrentTime + o.timeOffset + 672,
      o.QueueBytes + (o.FIFO.length : Int) * PACKET_OVERHEAD⟩ := by
    rw [hrprt2, hgdef]; simp [CEventQueue.modify]
  refine ⟨q2, ?_, ?_, ?_, hprod2, by rw [hrp], by rw [hrp], ?_, ?_, hinv2, ht2.trans hgt, ?_⟩
  · rw [hdisp]
    simp only [ONU.SendREPORT, localTime_eq, modify_eqCurrentTime, hw1, pon_pckt_time_mpcp,
      hw2, hw3, hw4, CClockSync.RegisterEvent, e2c]
  · rw [hty2, hgdef]; simp [CEventQueue.modify]
  · rw [hcons2, hgdef]; simp [CEventQueue.modify]
  · rw [hrp, sum_sizes_overhead, ← hoi.1]
  · rw [hk2, hgt]; norm_num
  · intro x hx
    rw [hd2 x hx, hgdef, modify_mem_other _ _ hx, modify_mem_other _ _ hx,
      modify_mem_other _ _ hx, modify_mem_other _ _ hx]

theorem reachable_rTimerReport : Reachable heap0 rTimerReport :=
  Reachable.call (Call.op (Op.Write 0 { CEvent.zero with Type_ := EV_TIMER_GRANT_REPORT }))
    reachable_qRun (by decide) rfl

theorem C14_send_report_witness :
    ∃ tr top pool, QueueInv rTimerReport tr top pool ∧ ∃ q2,
      arrivalResult.1.ProcessEvent rTimerReport 0 = some (arrivalResult.1, q2) ∧
      (q2.mem 0).Type_ = EV_MPCP_REPORT ∧ (q2.mem 0).Consumer = arrivalResult.1.OutPort ∧
      (q2.mem 0).Producer = some arrivalResult.1.this ∧
      (q2.mem 0).RPRT.Timestamp = rTimerReport.eqCurrentTime + arrivalResult.1.timeOffset
        + (MPCP_PACKET_SIZE + PACKET_OVERHEAD) * PON_BYTE_TIME ∧
      (q2.mem 0).RPRT.Length
        = arrivalResult.1.QueueBytes + (arrivalResult.1.FIFO.length : Int) * PACKET_OVERHEAD ∧
      (q2.mem 0).RPRT.Length
        = (arrivalResult.1.FIFO.map (fun k => k.PcktSize + PACKET_OVERHEAD)).sum ∧
      (q2.mem 0).NodeKey
        = rTimerReport.eqCurrentTime + (MPCP_PACKET_SIZE + PACKET_OVERHEAD) * PON_BYTE_TIME ∧
      QueueInv q2 (tr.insert (fun z => (q2.mem z).NodeKey) 0) top pool ∧
      q2.eqCurrentTime = rTimerReport.eqCurrentTime ∧
      (∀ x, x ≠ 0 → (q2.mem x).data = (rTimerReport.mem x).data) :=
  C14_send_report heap0 rTimerReport reachable_rTimerReport arrivalResult.1 reachable_arrival 0
    (by decide) (by decide) (by decide) (by decide) (by decide) (by decide) (by decide)
    (by decide)

theorem discoverySchedule_eq (T : Int) (k : Nat) :
    discoverySchedule T k = if k = 0 then T else T + 16384 + (k : Int) * 201000 := by
  induction k with
  | zero => simp [discoverySchedule]
  | succ k ih =>
    have hc : (MPCP_PACKET_SIZE + PACKET_OVERHEAD) * PON_BYTE_TIME + OLT_HW_PROCESS_DELAY
        = 17056 := by decide
    have hd : 2 * PON_MAX_LINK_DISTANCE * FIBER_DELAY = 200000 := by decide
    have hk : (0 : Int) ≤ k := Int.ofNat_nonneg k
    rw [discoverySchedule, ih, hc, hd, if_neg (Nat.succ_ne_zero k)]
    unfold ONU_HW_PROCESS_DELAY GUARD_BAND_TIME
    push_cast
    by_cases h0 : k = 0
    · subst h0
      simp only [if_true, max_def]
      split_ifs <;> omega
    · have h1 : (1 : Int) ≤ k := by omega
      simp only [if_neg h0, max_def]
      split_ifs <;> omega

/-- One pass of the discovery loop: the `k`-th GATE. -/
theorem discovery_body_spec {q : CEventQueue} {tr : Shape} {top pool : List Nat}
    (hinv : QueueInv q tr top pool) (o : OLT) (T : Int) (k : Nat)
    (hT : q.eqCurrentTime + o.timeOffset = T) (hfT : fits64 T) (hk : k < 16)
    (hmax : fits64 (T + 16384 + 16 * 201000))
    (hkey : q.eqCurrentTime + 15 * 17056 ≤ INT64_MAX)
    (hse : o.ScheduleEnd = if k = 0 then T else T + 16384 + (k : Int) * 201000) :
    ∃ q7 a tr7 top7 pool7,
      OLT.SimplifiedDiscovery.body o q (T + (k : Int) * 17056) k
        = some ({ o with ScheduleEnd := T + 16384 + ((k : Int) + 1) * 201000 }, q7,
            T + ((k : Int) + 1) * 17056) ∧
      QueueInv q7 tr7 top7 pool7 ∧ (tr7.inorder ++ top7).Perm (a :: (tr.inorder ++ top)) ∧
      q7.eqCurrentTime = q.eqCurrentTime ∧ q.brk ≤ q7.brk ∧ a < q7.brk ∧
      (q7.mem a).Type_ = EV_MPCP_GATE ∧ (q7.mem a).Consumer = o.OutPort k ∧
      (q7.mem a).Producer = some o.this ∧
      (q7.mem a).GATE = ⟨T + (k : Int) * 17056, T + 16384 + (k : Int) * 201000, 84⟩ ∧
      (q7.mem a).NodeKey = q.eqCurrentTime + (k : Int) * 17056 ∧
      (∀ x, x < q.brk → x ≠ a → (q7.mem x).data = (q.mem x).data) := by
  obtain ⟨q1, a, pool2, e1, h1, ha1, hb1, ht1, hbrk1, hpl, hd1⟩ := allocateEvent_pair hinv
  have hcur := hinv.time
  have hk0 : (0 : Int) ≤ k := Int.ofNat_nonneg k
  have hk16 : (k : Int) < 16 := by exact_mod_cast hk
  unfold INT64_MAX at hcur hkey
  unfold fits64 at hfT hmax
  have hlt : wrap64 (q.eqCurrentTime + o.timeOffset) = T := by
    rw [hT]; exact wrap64_fits hfT
  have hts : wrap64 (T + (k : Int) * 17056 + ONU_HW_PROCESS_DELAY)
      = T + (k : Int) * 17056 + 16384 := by
    unfold ONU_HW_PROCESS_DELAY
    apply wrap64_fits
    unfold fits64
    constructor <;> omega
  have hmx : MAX (T + (k : Int) * 17056 + 16384) o.ScheduleEnd
      = T + 16384 + (k : Int) * 201000 := by
    rw [MAX_eq_max, hse]
    split_ifs with h0
    · subst h0
      simp
    · have : (1 : Int) ≤ k := by omega
      rw [max_eq_right (by omega)]
  have hiv : wrap64 (T + (k : Int) * 17056 - T) = (k : Int) * 17056 := by
    have : T + (k : Int) * 17056 - T = (k : Int) * 17056 := by ring
    rw [this]
    apply wrap64_fits
    unfold fits64
    constructor <;> omega
  have hdf : wrap32 (wrap32 (2 * PON_MAX_LINK_DISTANCE) * FIBER_DELAY) = 200000 := by decide
  have hinc : wrap32 (_PON_PCKT_TIME MPCP_PACKET_SIZE + OLT_HW_PROCESS_DELAY) = 17056 := by
    decide
  have hse2 : wrap64 (wrap64 (T + 16384 + (k : Int) * 201000 + 200000) + GUARD_BAND_TIME)
      = T + 16384 + ((k : Int) + 1) * 201000 := by
    unfold GUARD_BAND_TIME
    have a1 : wrap64 (T + 16384 + (k : Int) * 201000 + 200000)
        = T + 16384 + (k : Int) * 201000 + 200000 :=
      wrap64_fits (by unfold fits64; constructor <;> omega)
    rw [a1, wrap64_fits (by unfold fits64; constructor <;> omega)]
    ring
  have hts2 : wrap64 (T + (k : Int) * 17056 + 17056) = T + ((k : Int) + 1) * 17056 := by
    rw [wrap64_fits (by unfold fits64; constructor <;> omega)]
    ring
  obtain ⟨g, hgdef⟩ : ∃ g : CEventQueue, g =
    ((((q1.modify a (fun e => { e with Type_ := EV_MPCP_GATE })).modify a
      (fun e => { e with Consumer := o.OutPort k })).modify a
      (fun e => { e with GATE := { e.GATE with Timestamp := T + (k : Int) * 17056 } })).modify a
      (fun e => { e with GATE := { e.GATE with Length := 84 } })).modify a
      (fun e => { e with GATE := { e.GATE with
        StartTime := T + 16384 + (k : Int) * 201000 } }) := ⟨_, rfl⟩
  have hg2 : QueueInv g tr top pool2 := by
    rw [hgdef]
    exact ((((h1.modify_public a (publicOnly_type _)).modify_public a
      (publicOnly_consumer _)).modify_public a (publicOnly_gate _)).modify_public a
      (publicOnly_gate _)).modify_public a (publicOnly_gate _)
  have hga : CEventQueue.IsActive g.mem a = true := by
    rw [hgdef, isActive_modify _ a a (publicOnly_gate _),
      isActive_modify _ a a (publicOnly_gate _), isActive_modify _ a a (publicOnly_gate _),
      isActive_modify _ a a (publicOnly_consumer _), isActive_modify _ a a (publicOnly_type _)]
    exact ha1
  have hgt : g.eqCurrentTime = q.eqCurrentTime := by rw [hgdef]; exact ht1
  have hgb : g.brk = q1.brk := by rw [hgdef]; rfl
  have hpos : ¬ (k : Int) * 17056 < 0 := by omega
  obtain ⟨q7, e7, ht7, hbrk7, -, hk7, hprod7, hty7, -, hgate7, -, hcons7, hd7, hz7, hnz7⟩ :=
    desl_registerEvent_spec (i := (k : Int) * 17056) hg2 (by rw [hgb]; exact hb1) hga
      (by omega) (by rw [hgt, if_neg hpos]; unfold INT64_MAX; omega) (some o.this)
  rw [if_neg hpos] at hk7 hz7 hnz7
  have e7c := e7
  rw [hgdef] at e7c
  have hggate : (g.mem a).GATE
      = ⟨T + (k : Int) * 17056, T + 16384 + (k : Int) * 201000, 84⟩ := by
    rw [hgdef]; simp [CEventQueue.modify]
  have hst7 : (q7.mem a).GATE.StartTime = T + 16384 + (k : Int) * 201000 := by
    rw [hgate7, hggate]
  have hbody : OLT.SimplifiedDiscovery.body o q (T + (k : Int) * 17056) k
      = some ({ o with ScheduleEnd := T + 16384 + ((k : Int) + 1) * 201000 }, q7,
          T + ((k : Int) + 1) * 17056) := by
    simp only [OLT.SimplifiedDiscovery.body, e1, modify_mem_same, overhead_mpcp, hts, hmx,
      CClockSync.RegisterEventAbs, CClockSync.RegisterEvent, localTime_eq,
      modify_eqCurrentTime, ht1, hlt, hiv, e7c, hst7, hdf, hse2, hinc, hts2]
  have hdat : ∀ x, x < q.brk → x ≠ a → (q7.mem x).data = (q.mem x).data := by
    intro x hx hxa
    rw [hd7 x hxa, ← hd1 x hx, hgdef, modify_mem_other _ _ hxa, modify_mem_other _ _ hxa,
      modify_mem_other _ _ hxa, modify_mem_other _ _ hxa, modify_mem_other _ _ hxa]
  have hfields : (q7.mem a).Type_ = EV_MPCP_GATE ∧ (q7.mem a).Consumer = o.OutPort k := by
    constructor
    · rw [hty7, hgdef]; simp [CEventQueue.modify]
    · rw [hcons7, hgdef]; simp [CEventQueue.modify]
  by_cases h0 : (k : Int) * 17056 = 0
  · obtain ⟨hinv7, -, -⟩ := hz7 h0
    refine ⟨q7, a, tr, a :: top, pool2, hbody, hinv7, ?_, ht7.trans hgt,
      by rw [hbrk7, hgb]; exact hbrk1, by rw [hbrk7, hgb]; exact hb1, hfields.1, hfields.2,
      hprod7, by rw [hgate7, hggate], by rw [hk7, hgt], hdat⟩
    exact List.perm_middle
  · obtain ⟨hinv7, -⟩ := hnz7 h0
    refine ⟨q7, a, _, top, pool2, hbody, hinv7, ?_, ht7.trans hgt,
      by rw [hbrk7, hgb]; exact hbrk1, by rw [hbrk7, hgb]; exact hb1, hfields.1, hfields.2,
      hprod7, by rw [hgate7, hggate], by rw [hk7, hgt], hdat⟩
    exact List.Perm.append_right top (Shape.inorder_insert_perm _ a tr)

/-- The discovery loop from the index `k` on, with `n` GATEs left to send. -/
theorem discovery_loop_spec (T : Int) (hfT : fits64 T)
    (hmax : fits64 (T + 16384 + 16 * 201000)) :
    ∀ (n k : Nat) (o : OLT) (q : CEventQueue) (tr : Shape) (top pool : List Nat),
      k + n = 16 → QueueInv q tr top pool → q.eqCurrentTime + o.timeOffset = T →
      q.eqCurrentTime + 15 * 17056 ≤ INT64_MAX →
      (o.ScheduleEnd = if k = 0 then T else T + 16384 + (k : Int) * 201000) →
      ∃ q2 news tr2 top2 pool2,
        OLT.SimplifiedDiscovery.loop (n + 1) o q (T + (k : Int) * 17056) k
          = some ({ o with ScheduleEnd := T + 16384 + 16 * 201000 }, q2) ∧
        news.length = n ∧ QueueInv q2 tr2 top2 pool2 ∧
        (tr2.inorder ++ top2).Perm (news ++ (tr.inorder ++ top)) ∧
        q2.eqCurrentTime = q.eqCurrentTime ∧ q.brk ≤ q2.brk ∧
        (∀ j x, news[j]? = some x →
          (q2.mem x).Type_ = EV_MPCP_GATE ∧ (q2.mem x).Consumer = o.OutPort (k + j) ∧
          (q2.mem x).Producer = some o.this ∧
          (q2.mem x).GATE = ⟨T + ((k + j : Nat) : Int) * 17056,
            T + 16384 + ((k + j : Nat) : Int) * 201000, 84⟩ ∧
          (q2.mem x).NodeKey = q.eqCurrentTime + ((k + j : Nat) : Int) * 17056) ∧
        (∀ x, x < q.brk → x ∉ news → (q2.mem x).data = (q.mem x).data) := by
  intro n
  induction n with
  | zero =>
    intro k o q tr top pool hkn hinv hT hkey hse
    have hk : k = 16 := by omega
    subst hk
    have hse2 : o.ScheduleEnd = T + 16384 + 16 * 201000 := by simpa using hse
    refine ⟨q, [], tr, top, pool, ?_, rfl, hinv, by simp, rfl, le_refl _, ?_, fun _ _ _ => rfl⟩
    · have hn : ¬ (((16 : Nat) : Int) < NUM_LLID) := by decide
      simp only [OLT.SimplifiedDiscovery.loop, hn, if_false, ← hse2]
    · intro j x hx
      simp at hx
  | succ n ih =>
    intro k o q tr top pool hkn hinv hT hkey hse
    have hk : k < 16 := by omega
    obtain ⟨q7, a, tr7, top7, pool7, hbody, hinv7, hperm7, ht7, hbrk7, hb7, hty7, hcons7,
      hprod7, hgate7, hk7, hdat7⟩ := discovery_body_spec hinv o T k hT hfT hk hmax hkey hse
    have hcast : T + ((k : Int) + 1) * 17056 = T + ((k + 1 : Nat) : Int) * 17056 := by
      push_cast; ring
    obtain ⟨q2, news, tr2, top2, pool2, hloop, hlen, hinv2, hperm2, ht2, hbrk2, hnews,
      hdat2⟩ := ih (k + 1) { o with ScheduleEnd := T + 16384 + ((k : Int) + 1) * 201000 } q7
        tr7 top7 pool7 (by omega) hinv7 (by rw [ht7]; exact hT) (by rw [ht7]; exact hkey)
        (by rw [if_neg (Nat.succ_ne_zero k)]; push_cast; ring)
    have hnd : (news ++ (tr7.inorder ++ top7)).Nodup := by
      have nd := hinv2.owned.nodup
      rw [List.nodup_append] at nd
      exact hperm2.nodup_iff.1 nd.1
    have ha7 : a ∈ tr7.inorder ++ top7 := hperm7.mem_iff.2 (List.mem_cons_self _ _)
    have han : a ∉ news := by
      intro hm
      exact (List.nodup_append.1 hnd).2.2 hm ha7
    refine ⟨q2, a :: news, tr2, top2, pool2, ?_, by simp [hlen], hinv2, ?_, ht2.trans ht7,
      le_trans hbrk7 hbrk2, ?_, ?_⟩
    · have hc : ((k : Int) < NUM_LLID) := by
        unfold NUM_LLID; exact_mod_cast hk
      simp only [OLT.SimplifiedDiscovery.loop, hc, if_true, hbody, hcast]
      exact hloop
    · refine hperm2.trans ?_
      refine (List.Perm.append_left news hperm7).trans ?_
      simp only [List.cons_append]
      exact List.perm_middle
    · intro j x hx
      cases j with
      | zero =>
        simp only [List.getElem?_cons_zero, Option.some.injEq] at hx
        subst hx
        have hda := data_fields (hdat2 a hb7 han)
        refine ⟨by rw [hda.2.1, hty7], by rw [hda.2.2.2.2.2.2, hcons7]; rfl,
          by rw [hda.2.2.2.2.2.1, hprod7], ?_, ?_⟩
        · rw [hda.2.2.2.1, hgate7]; simp
        · rw [hda.1, hk7]; simp
      | succ j =>
        simp only [List.getElem?_cons_succ] at hx
        have := hnews j x hx
        have hidx : k + 1 + j = k + (j + 1) := by omega
        rw [hidx, ht7] at this
        exact this
    · intro x hx hxn
      simp only [List.mem_cons, not_or] at hxn
      rw [hdat2 x (by omega) hxn.2]
      exact hdat7 x hx hxn.1

/-- C15: in a reachable engine state, with `T = eqCurrentTime + timeOffset` the OLT's local time
and when the sums involved do not overflow, `OLT::Reset` returns with
`LastPacketArrival = T`; the pending events gain exactly the `NUM_LLID` records of `ptrs`, and
the `k`-th of them is a GATE whose consumer is port `k`, with length `overhead(MPCP_SIZE)`,
timestamp `T + k * (pon_pckt_time(MPCP_SIZE) + OLT_HW_PROCESS_DELAY)` (the OLT's local time at
its activation time) and start time `max(timestamp + ONU_HW_PROCESS_DELAY, S k)`, where `S k`
(`discoverySchedule`) is the schedule end before it: `S 0 = T` and
`S (k + 1) = start time of GATE k + 2 * PON_MAX_LINK_DISTANCE * FIBER_DELAY + GUARD_BAND_TIME`;
the final `ScheduleEnd` is `S NUM_LLID`.  With the constants of the configuration the start
time of GATE `k` is `T + 16384 + k * 201000`. -/
theorem C15_olt_reset (heap : Mem) (q : CEventQueue) (hq : Reachable heap q) (o : OLT)
    (T : Int) (hT : T = q.eqCurrentTime + o.timeOffset) (hfT : fits64 T)
    (hmax : fits64 (T + ONU_HW_PROCESS_DELAY
      + NUM_LLID * (2 * PON_MAX_LINK_DISTANCE * FIBER_DELAY + GUARD_BAND_TIME)))
    (hkey : q.eqCurrentTime + (NUM_LLID - 1)
      * ((MPCP_PACKET_SIZE + PACKET_OVERHEAD) * PON_BYTE_TIME + OLT_HW_PROCESS_DELAY)
        ≤ INT64_MAX) :
    ∃ tr top pool, QueueInv q tr top pool ∧ ∃ o2 q2 ptrs tr2 top2 pool2,
      o.Reset q = some (o2, q2) ∧ o2.LastPacketArrival = T ∧
      o2.ScheduleEnd = discoverySchedule T NUM_LLID.toNat ∧
      o2.timeOffset = o.timeOffset ∧ q2.eqCurrentTime = q.eqCurrentTime ∧
      (ptrs.length : Int) = NUM_LLID ∧ QueueInv q2 tr2 top2 pool2 ∧
      (tr2.inorder ++ top2).Perm (ptrs ++ (tr.inorder ++ top)) ∧
      (∀ k x, ptrs[k]? = some x →
        (q2.mem x).Type_ = EV_MPCP_GATE ∧ (q2.mem x).Consumer = o.OutPort k ∧
        (q2.mem x).GATE.Length = MPCP_PACKET_SIZE + PACKET_OVERHEAD ∧
        (q2.mem x).GATE.Timestamp = T + (k : Int)
          * ((MPCP_PACKET_SIZE + PACKET_OVERHEAD) * PON_BYTE_TIME + OLT_HW_PROCESS_DELAY) ∧
        (q2.mem x).NodeKey + o2.timeOffset = (q2.mem x).GATE.Timestamp ∧
        (q2.mem x).GATE.StartTime
          = max ((q2.mem x).GATE.Timestamp + ONU_HW_PROCESS_DELAY) (discoverySchedule T k) ∧
        discoverySchedule T (k + 1) = (q2.mem x).GATE.StartTime
          + 2 * PON_MAX_LINK_DISTANCE * FIBER_DELAY + GUARD_BAND_TIME ∧
        (q2.mem x).GATE.StartTime = T + 16384 + (k : Int) * 201000) ∧
      (∀ x, x < q.brk → x ∉ ptrs → (q2.mem x).data = (q.mem x).data) := by
  obtain ⟨tr, top, pool, hinv⟩ := reachable_inv hq
  refine ⟨tr, top, pool, hinv, ?_⟩
  have hc1 : ONU_HW_PROCESS_DELAY = 16384 := rfl
  have hc2 : 2 * PON_MAX_LINK_DISTANCE * FIBER_DELAY + GUARD_BAND_TIME = 201000 := by decide
  have hc3 : NUM_LLID = 16 := rfl
  have hc4 : (MPCP_PACKET_SIZE + PACKET_OVERHEAD) * PON_BYTE_TIME + OLT_HW_PROCESS_DELAY
      = 17056 := by decide
  have hc5 : MPCP_PACKET_SIZE + PACKET_OVERHEAD = 84 := by decide
  rw [hc1, hc2, hc3] at hmax
  rw [hc3, hc4] at hkey
  have hlt : wrap64 (q.eqCurrentTime + o.timeOffset) = T := by
    rw [← hT]; exact wrap64_fits hfT
  obtain ⟨q2, news, tr2, top2, pool2, hloop, hlen, hinv2, hperm2, ht2, -, hnews, hdat2⟩ :=
    discovery_loop_spec T hfT hmax 16 0 { o with LastPacketArrival := T, ScheduleEnd := T } q
      tr top pool rfl hinv hT.symm (by simpa using hkey) (by simp)
  refine ⟨{ o with LastPacketArrival := T, ScheduleEnd := T + 16384 + 16 * 201000 }, q2, news,
    tr2, top2, pool2, ?_, rfl, ?_, rfl, ht2, ?_, hinv2, hperm2, ?_, hdat2⟩
  · simp only [OLT.Reset, OLT.SimplifiedDiscovery, localTime_eq, hlt]
    have h17 : NUM_LLID.toNat + 1 = 16 + 1 := rfl
    rw [h17]
    simpa using hloop
  · have h16 : NUM_LLID.toNat = 16 := rfl
    rw [h16, discoverySchedule_eq]
    simp
  · rw [hlen, hc3]; rfl
  · intro k x hx
    obtain ⟨h1, h2, -, h4, h5⟩ := hnews k x hx
    simp only [Nat.zero_add] at h1 h2 h4 h5
    have hk0 : (0 : Int) ≤ k := Int.ofNat_nonneg k
    have hst : (q2.mem x).GATE.StartTime = T + 16384 + (k : Int) * 201000 := by rw [h4]
    have hts : (q2.mem x).GATE.Timestamp = T + (k : Int) * 17056 := by rw [h4]
    have hmx : (q2.mem x).GATE.StartTime
        = max ((q2.mem x).GATE.Timestamp + ONU_HW_PROCESS_DELAY) (discoverySchedule T k) := by
      rw [hst, hts, hc1, discoverySchedule_eq]
      by_cases h0 : k = 0
      · subst h0
        simp
      · have : (1 : Int) ≤ k := by omega
        rw [if_neg h0, max_eq_right (by omega)]
    refine ⟨h1, h2, by rw [h4, hc5], by rw [hts, hc4], ?_, hmx, ?_, hst⟩
    · rw [h5, hts, hT]
      show q.eqCurrentTime + (k : Int) * 17056 + o.timeOffset = _
      ring
    · rw [hmx, hts, hc1]
      simp only [discoverySchedule, hc4, hc1]

theorem C15_olt_reset_witness :
    ∃ tr top pool, QueueInv qReset tr top pool ∧
      ∃ o2 q2 ptrs tr2 top2 pool2,
      olt0.Reset qReset = some (o2, q2) ∧ o2.LastPacketArrival = 0 ∧
      o2.ScheduleEnd = discoverySchedule 0 NUM_LLID.toNat ∧
      o2.timeOffset = olt0.timeOffset ∧
      q2.eqCurrentTime = qReset.eqCurrentTime ∧
      (ptrs.length : Int) = NUM_LLID ∧ QueueInv q2 tr2 top2 pool2 ∧
      (tr2.inorder ++ top2).Perm (ptrs ++ (tr.inorder ++ top)) ∧
      (∀ k x, ptrs[k]? = some x →
        (q2.mem x).Type_ = EV_MPCP_GATE ∧ (q2.mem x).Consumer = olt0.OutPort k ∧
        (q2.mem x).GATE.Length = MPCP_PACKET_SIZE + PACKET_OVERHEAD ∧
        (q2.mem x).GATE.Timestamp = 0 + (k : Int)
          * ((MPCP_PACKET_SIZE + PACKET_OVERHEAD) * PON_BYTE_TIME + OLT_HW_PROCESS_DELAY) ∧
        (q2.mem x).NodeKey + o2.timeOffset = (q2.mem x).GATE.Timestamp ∧
        (q2.mem x).GATE.StartTime
          = max ((q2.mem x).GATE.Timestamp + ONU_HW_PROCESS_DELAY) (discoverySchedule 0 k) ∧
        discoverySchedule 0 (k + 1) = (q2.mem x).GATE.StartTime
          + 2 * PON_MAX_LINK_DISTANCE * FIBER_DELAY + GUARD_BAND_TIME ∧
        (q2.mem x).GATE.StartTime = 0 + 16384 + (k : Int) * 201000) ∧
      (∀ x, x < qReset.brk → x ∉ ptrs →
        (q2.mem x).data = (qReset.mem x).data) :=
  C15_olt_reset heap0 qReset reachable_qReset olt0 0 (by decide) (by decide)
    (by decide) (by decide)

theorem getIndex_loop_spec (d : GenericDistribByIndex) (v : Int) (hN : d.N ≤ 2 ^ 30) :
    ∀ (fuel : Nat) (lo hi : Int), -1 ≤ lo → lo < hi → hi ≤ d.N - 1 → hi - lo ≤ fuel →
      (lo = -1 ∨ d.cdf lo.toNat ≤ v) → (hi = d.N - 1 ∨ v < d.cdf hi.toNat) →
      ∃ r, GenericDistribByIndex.GetIndex.loop d v fuel lo hi = some r ∧ 0 ≤ r ∧ r ≤ d.N - 1 ∧
        (r = 0 ∨ d.cdf (r - 1).toNat ≤ v) ∧ (r = d.N - 1 ∨ v < d.cdf r.toNat) := by
  intro fuel
  induction fuel with
  | zero =>
    intro lo hi _ h2 _ h4
    exact absurd h4 (by push_cast; omega)
  | succ fuel ih =>
    intro lo hi h1 h2 h3 h4 hlo hhi
    push_cast at h4
    have hw : wrap32 (hi - lo) = hi - lo := by
      apply wrap32_eq; unfold fits32; constructor <;> omega
    simp only [GenericDistribByIndex.GetIndex.loop, hw]
    by_cases hg : hi - lo > 1
    · have hw2 : wrap32 (lo + hi) = lo + hi := by
        apply wrap32_eq; unfold fits32; constructor <;> omega
      have hmd : (lo + hi).tdiv 2 = (lo + hi) / 2 :=
        Int.tdiv_eq_ediv (by omega) (by norm_num)
      have hr : d.read ((lo + hi) / 2) = some (d.cdf ((lo + hi) / 2).toNat) := by
        unfold GenericDistribByIndex.read
        rw [if_pos]
        constructor <;> omega
      simp only [hg, if_true, hw2, hmd, hr]
      by_cases hc : v < d.cdf ((lo + hi) / 2).toNat
      · simp only [hc, if_true]
        exact ih lo ((lo + hi) / 2) h1 (by omega) (by omega) (by omega) hlo (Or.inr hc)
      · simp only [hc, if_false]
        exact ih ((lo + hi) / 2) hi (by omega) (by omega) h3 (by omega)
          (Or.inr (not_lt.1 hc)) hhi
    · simp only [hg, if_false]
      have he : hi - 1 = lo := by omega
      refine ⟨hi, rfl, by omega, h3, ?_, hhi⟩
      rcases hlo with hlo | hlo
      · left; omega
      · right; rw [he]; exact hlo

/-- C17 (as stated) fails: for the array `cdf = [1, 1]` built from the frequencies `1, 0`
(non-decreasing, non-negative frequencies) and the sample `v = 1 = cdf[N-1]`, which is in the
range `0 ≤ v ≤ cdf[N-1]`, `GetIndex` returns index `1` although `v < cdf[1]` is false: no
index `i` has `v < cdf[i]`, so the result is not the smallest such index. -/
theorem C17_get_index_counterexample :
    GenericDistribByIndex.new 2 (fun i => if i = 0 then 1 else 0) = some distOneZero ∧
      distOneZero.N = 2 ∧ distOneZero.cdf 0 = 1 ∧ distOneZero.cdf 1 = 1 ∧
      ((0 : Int) ≤ 1 ∧ (1 : Int) ≤ distOneZero.cdf 1) ∧
      distOneZero.GetIndex 1 = some 1 ∧ ¬ ((1 : Int) < distOneZero.cdf 1) ∧
      ∀ i : Nat, i < 2 → ¬ ((1 : Int) < distOneZero.cdf i) :=
  ⟨rfl, rfl, rfl, rfl, by decide, rfl, by decide, by decide⟩

/-- What `GetIndex` returns on a non-decreasing array. -/
theorem getIndex_spec (d : GenericDistribByIndex) (v : Int) (hN1 : 1 ≤ d.N)
    (hN : d.N ≤ 2 ^ 30)
    (hmono : ∀ i j : Nat, i ≤ j → (j : Int) < d.N → d.cdf i ≤ d.cdf j) :
    ∃ r : Nat, d.GetIndex v = some (r : Int) ∧ (r : Int) ≤ d.N - 1 ∧
      (v < d.cdf (d.N - 1).toNat →
        v < d.cdf r ∧ ∀ i : Nat, (i : Int) < d.N → v < d.cdf i → r ≤ i) ∧
      (d.cdf (d.N - 1).toNat ≤ v → (r : Int) = d.N - 1) := by
  have hw : wrap32 (d.N - 1) = d.N - 1 := by
    apply wrap32_eq; unfold fits32; constructor <;> omega
  obtain ⟨r, hr, h0, h1, hlo, hhi⟩ :=
    getIndex_loop_spec d v hN (d.N.toNat + 1) (-1) (d.N - 1) (le_refl _) (by omega)
      (le_refl _) (by push_cast; omega) (Or.inl rfl) (Or.inl rfl)
  obtain ⟨n, rfl⟩ := Int.eq_ofNat_of_zero_le h0
  have hprev : ∀ i : Nat, i < n → d.cdf i ≤ v := by
    intro i hi
    rcases hlo with hlo | hlo
    · omega
    · have e : ((n : Int) - 1).toNat = n - 1 := by omega
      rw [e] at hlo
      exact le_trans (hmono i (n - 1) (by omega) (by omega)) hlo
  refine ⟨n, ?_, h1, ?_, ?_⟩
  · unfold GenericDistribByIndex.GetIndex
    rw [hw]; exact hr
  · intro hv
    constructor
    · rcases hhi with hhi | hhi
      · have e : (d.N - 1).toNat = n := by omega
        rw [e] at hv; exact hv
      · simpa using hhi
    · intro i _ hvi
      by_contra hc
      exact absurd hvi (not_lt.2 (hprev i (by omega)))
  · intro hv
    rcases hhi with hhi | hhi
    · exact hhi
    · exfalso
      have e : (n : Int).toNat = n := by omega
      rw [e] at hhi
      have := hmono n (d.N - 1).toNat (by omega) (by omega)
      omega

/-- C17 (amended): for every array `cdf` of `1 ≤ N ≤ 2^30` entries that is non-decreasing and
every sample `v`, the binary search of `GetIndex` terminates and returns an index `r` in
`[0, N-1]`; if `v < cdf[N-1]` then `r` is the smallest index with `v < cdf[r]`, and if
`v ≥ cdf[N-1]` (for a sample in range: `v = cdf[N-1]`) then `r = N - 1`. -/
theorem C17_get_index_amended (d : GenericDistribByIndex) (v : Int) (hN1 : 1 ≤ d.N)
    (hN : d.N ≤ 2 ^ 30)
    (hmono : ∀ i j : Nat, i ≤ j → (j : Int) < d.N → d.cdf i ≤ d.cdf j) :
    ∃ r : Nat, d.GetIndex v = some (r : Int) ∧ (r : Int) ≤ d.N - 1 ∧
      (v < d.cdf (d.N - 1).toNat →
        v < d.cdf r ∧ ∀ i : Nat, (i : Int) < d.N → v < d.cdf i → r ≤ i) ∧
      (d.cdf (d.N - 1).toNat ≤ v → (r : Int) = d.N - 1) :=
  getIndex_spec d v hN1 hN hmono

theorem C17_get_index_amended_witness :
    ∃ r : Nat, distOneZero.GetIndex 0 = some (r : Int) ∧ (r : Int) ≤ distOneZero.N - 1 ∧
      ((0 : Int) < distOneZero.cdf (distOneZero.N - 1).toNat →
        (0 : Int) < distOneZero.cdf r ∧
          ∀ i : Nat, (i : Int) < distOneZero.N → (0 : Int) < distOneZero.cdf i → r ≤ i) ∧
      (distOneZero.cdf (distOneZero.N - 1).toNat ≤ 0 → (r : Int) = distOneZero.N - 1) :=
  C17_get_index_amended distOneZero 0 (by decide) (by decide) (by
    intro i j hij hj
    have h2 : distOneZero.N = 2 := rfl
    rw [h2] at hj
    have hj2 : j < 2 := by exact_mod_cast hj
    have key : ∀ i < 2, ∀ j < 2, i ≤ j → distOneZero.cdf i ≤ distOneZero.cdf j := by decide
    exact key i (by omega) j hj2 hij)

theorem ctorLoop_spec (F : Int → Int) (N : Int)
    (hsum : ∀ i : Nat, (i : Int) < N → fits32 (∑ j ∈ Finset.range (i + 1), F (j : Int))) :
    ∀ (fuel : Nat) (d : GenericDistribByIndex) (ndx : Nat), d.N = N → 1 ≤ ndx →
      (ndx : Int) ≤ N → N - ndx + 1 ≤ fuel →
      (∀ i < ndx, d.cdf i = ∑ j ∈ Finset.range (i + 1), F (j : Int)) →
      ∃ d2, GenericDistribByIndex.ctorLoop F fuel d (ndx : Int) = some d2 ∧ d2.N = N ∧
        ∀ i : Nat, (i : Int) < N → d2.cdf i = ∑ j ∈ Finset.range (i + 1), F (j : Int) := by
  intro fuel
  induction fuel with
  | zero =>
    intro d ndx _ _ h3 h4
    exact absurd h4 (by push_cast; omega)
  | succ fuel ih =>
    intro d ndx hdN h1 h3 h4 hinv
    push_cast at h4
    simp only [GenericDistribByIndex.ctorLoop, hdN]
    by_cases hc : (ndx : Int) < N
    · have hr : d.read ((ndx : Int) - 1) = some (d.cdf (ndx - 1)) := by
        unfold GenericDistribByIndex.read
        rw [if_pos (by rw [hdN]; constructor <;> omega)]
        have e : ((ndx : Int) - 1).toNat = ndx - 1 := by omega
        rw [e]
      have hv : wrap32 (d.cdf (ndx - 1) + F (ndx : Int))
          = ∑ j ∈ Finset.range (ndx + 1), F (j : Int) := by
        rw [hinv (ndx - 1) (by omega)]
        have e : ndx - 1 + 1 = ndx := by omega
        rw [e, ← Finset.sum_range_succ]
        exact wrap32_eq (hsum ndx hc)
      have hw : d.write (ndx : Int) (∑ j ∈ Finset.range (ndx + 1), F (j : Int))
          = some { d with cdf := fun j => if j = ndx then
              ∑ j ∈ Finset.range (ndx + 1), F (j : Int) else d.cdf j } := by
        unfold GenericDistribByIndex.write
        rw [if_pos (by rw [hdN]; constructor <;> omega)]
        simp
      simp only [hc, if_true, hr, hv, hw]
      have := ih { d with cdf := fun j => if j = ndx then
              ∑ j ∈ Finset.range (ndx + 1), F (j : Int) else d.cdf j } (ndx + 1) hdN
        (by omega) (by push_cast; omega) (by push_cast; omega) (by
          intro i hi
          by_cases e : i = ndx
          · subst e; simp
          · simp only [e, if_false]
            exact hinv i (by omega))
      push_cast at this
      exact this
    · simp only [hc, if_false]
      refine ⟨d, rfl, hdN, ?_⟩
      intro i hi
      exact hinv i (by omega)

theorem new_spec (F : Int → Int) (N : Int) (hN1 : 1 ≤ N)
    (hsum : ∀ i : Nat, (i : Int) < N → fits32 (∑ j ∈ Finset.range (i + 1), F (j : Int))) :
    ∃ d, GenericDistribByIndex.new N F = some d ∧ d.N = N ∧
      ∀ i : Nat, (i : Int) < N → d.cdf i = ∑ j ∈ Finset.range (i + 1), F (j : Int) := by
  have hw : ({ N := N, cdf := fun _ => 0 } : GenericDistribByIndex).write 0 (F 0)
      = some { N := N, cdf := fun j => if j = 0 then F 0 else 0 } := by
    unfold GenericDistribByIndex.write
    rw [if_pos ⟨le_refl _, by show (0 : Int) < N; omega⟩]
    simp
  have := ctorLoop_spec F N hsum N.toNat { N := N, cdf := fun j => if j = 0 then F 0 else 0 } 1
    rfl (le_refl _) (by push_cast; omega) (by push_cast; omega) (by
      intro i hi
      have e : i = 0 := by omega
      subst e
      simp)
  simp only [GenericDistribByIndex.new, hw]
  simpa using this

/-- C18: for every `N` with `1 ≤ N ≤ 2^30` and every frequency function `F` with non-negative
values whose running sums are `int32s` values, the constructor returns with
`cdf[i] = F(0) + ... + F(i)` for every index, and for every index `i` the number of integer
samples `v` in `[0, cdf[N-1])` for which `GetIndex` returns `i` is exactly `F(i)`; in
particular an index with `F(i) = 0` is returned for no such sample. -/
theorem C18_cdf_frequencies (N : Int) (F : Int → Int) (hN1 : 1 ≤ N) (hN : N ≤ 2 ^ 30)
    (hF : ∀ i : Nat, (i : Int) < N → 0 ≤ F (i : Int))
    (hsum : ∀ i : Nat, (i : Int) < N → fits32 (∑ j ∈ Finset.range (i + 1), F (j : Int))) :
    ∃ d, GenericDistribByIndex.new N F = some d ∧ d.N = N ∧
      (∀ i : Nat, (i : Int) < N → d.cdf i = ∑ j ∈ Finset.range (i + 1), F (j : Int)) ∧
      (∀ i : Nat, (i : Int) < N →
        (((Finset.Ico 0 (d.cdf (N - 1).toNat)).filter
          (fun v => d.GetIndex v = some (i : Int))).card : Int) = F (i : Int)) ∧
      (∀ i : Nat, (i : Int) < N → F (i : Int) = 0 →
        ∀ v, 0 ≤ v → v < d.cdf (N - 1).toNat → d.GetIndex v ≠ some (i : Int)) := by
  obtain ⟨d, hnew, hdN, hcdf⟩ := new_spec F N hN1 hsum
  have hstep : ∀ i : Nat, (i : Int) + 1 < N → d.cdf (i + 1) = d.cdf i + F ((i : Int) + 1) := by
    intro i hi
    rw [hcdf (i + 1) (by push_cast; omega), hcdf i (by omega), Finset.sum_range_succ _ (i + 1)]
    push_cast
    rfl
  have hmono1 : ∀ i : Nat, (i : Int) + 1 < N → d.cdf i ≤ d.cdf (i + 1) := by
    intro i hi
    have := hF (i + 1) (by push_cast; omega)
    push_cast at this
    rw [hstep i hi]
    omega
  have hmono : ∀ i j : Nat, i ≤ j → (j : Int) < d.N → d.cdf i ≤ d.cdf j := by
    intro i j hij
    induction j with
    | zero =>
      intro _
      have : i = 0 := by omega
      subst this
      exact le_refl _
    | succ j ih =>
      intro hj
      rw [hdN] at hj
      push_cast at hj
      by_cases e : i = j + 1
      · subst e; exact le_refl _
      · exact le_trans (ih (by omega) (by rw [hdN]; omega)) (hmono1 j hj)
  have h0 : 0 ≤ d.cdf 0 := by
    rw [hcdf 0 (by omega)]
    simpa using hF 0 (by simpa using hN1)
  have hcount : ∀ i : Nat, (i : Int) < N →
      (Finset.Ico 0 (d.cdf (N - 1).toNat)).filter (fun v => d.GetIndex v = some (i : Int))
        = Finset.Ico (if i = 0 then 0 else d.cdf (i - 1)) (d.cdf i) := by
    intro i hi
    have hile : d.cdf i ≤ d.cdf (N - 1).toNat :=
      hmono i (N - 1).toNat (by omega) (by rw [hdN]; omega)
    have hprev0 : 0 ≤ (if i = 0 then 0 else d.cdf (i - 1)) := by
      split_ifs
      · exact le_refl _
      · exact le_trans h0 (hmono 0 (i - 1) (Nat.zero_le _) (by rw [hdN]; omega))
    ext v
    simp only [Finset.mem_filter, Finset.mem_Ico]
    obtain ⟨r, hr, -, hlt, -⟩ := getIndex_spec d v (by rw [hdN]; exact hN1)
      (by rw [hdN]; exact hN) hmono
    rw [hdN] at hlt
    constructor
    · rintro ⟨⟨hv0, hvt⟩, hg⟩
      obtain ⟨hvr, hmin⟩ := hlt hvt
      have hri : r = i := by
        rw [hr] at hg
        exact_mod_cast Option.some.inj hg
      subst hri
      refine ⟨?_, hvr⟩
      split_ifs with h0i
      · exact hv0
      · by_contra hc
        have := hmin (r - 1) (by omega) (not_le.1 hc)
        omega
    · rintro ⟨hp, hvi⟩
      have hvt : v < d.cdf (N - 1).toNat := lt_of_lt_of_le hvi hile
      obtain ⟨hvr, hmin⟩ := hlt hvt
      refine ⟨⟨le_trans hprev0 hp, hvt⟩, ?_⟩
      have hle : r ≤ i := hmin i hi hvi
      have hge : i ≤ r := by
        by_contra hc
        have hi0 : i ≠ 0 := by omega
        rw [if_neg hi0] at hp
        have := hmono r (i - 1) (by omega) (by rw [hdN]; omega)
        omega
      have : r = i := le_antisymm hle hge
      rw [hr, this]
  have hcard : ∀ i : Nat, (i : Int) < N →
      (((Finset.Ico 0 (d.cdf (N - 1).toNat)).filter
        (fun v => d.GetIndex v = some (i : Int))).card : Int) = F (i : Int) := by
    intro i hi
    rw [hcount i hi, Int.card_Ico]
    have hFi := hF i hi
    by_cases h0i : i = 0
    · subst h0i
      simp only [if_true, sub_zero]
      rw [Int.toNat_of_nonneg h0, hcdf 0 (by omega)]
      simp
    · rw [if_neg h0i]
      obtain ⟨k, rfl⟩ : ∃ k, i = k + 1 := ⟨i - 1, by omega⟩
      have hs := hstep k (by push_cast at hi; omega)
      simp only [Nat.add_sub_cancel]
      push_cast at hFi
      rw [Int.toNat_of_nonneg (by omega), hs]
      push_cast
      ring
  refine ⟨d, hnew, hdN, hcdf, hcard, ?_⟩
  intro i hi hzero v hv0 hvt hg
  have hmem : v ∈ (Finset.Ico 0 (d.cdf (N - 1).toNat)).filter
      (fun v => d.GetIndex v = some (i : Int)) := by
    simp only [Finset.mem_filter, Finset.mem_Ico]
    exact ⟨⟨hv0, hvt⟩, hg⟩
  have hc := hcard i hi
  rw [hzero] at hc
  have : ((Finset.Ico 0 (d.cdf (N - 1).toNat)).filter
      (fun v => d.GetIndex v = some (i : Int))).card = 0 := by exact_mod_cast hc
  rw [Finset.card_eq_zero] at this
  rw [this] at hmem
  simp at hmem

theorem C18_cdf_frequencies_witness :
    ∃ d, GenericDistribByIndex.new 2 freqOneZero = some d ∧ d.N = 2 ∧
      (∀ i : Nat, (i : Int) < 2 →
        d.cdf i = ∑ j ∈ Finset.range (i + 1), freqOneZero (j : Int)) ∧
      (∀ i : Nat, (i : Int) < 2 →
        (((Finset.Ico 0 (d.cdf ((2 : Int) - 1).toNat)).filter
          (fun v => d.GetIndex v = some (i : Int))).card : Int) = freqOneZero (i : Int)) ∧
      (∀ i : Nat, (i : Int) < 2 → freqOneZero (i : Int) = 0 →
        ∀ v, 0 ≤ v → v < d.cdf ((2 : Int) - 1).toNat → d.GetIndex v ≠ some (i : Int)) :=
  C18_cdf_frequencies 2 freqOneZero (by decide) (by decide)
    (by intro i _; unfold freqOneZero; split_ifs <;> decide)
    (by
      intro i hi
      have hi2 : i < 2 := by exact_mod_cast hi
      interval_cases i <;> simp [Finset.sum_range_succ, fits32, freqOneZero])

/-- C19: `Stream::Reset` draws a burst `b`, a pause `p` (both `int32u` values) and then an
offset: the value `u` returned by `RND.randInt( n )`, with `0 ≤ u ≤ n` as the library
promises, becomes the local `start_time = s`.  For every such `s` with `0 ≤ s < b + p`: if
`s < b` the stream's `BurstSize` becomes `b - s` and its arrival bytestamp `0`; otherwise
`BurstSize` is the freshly drawn burst `burst2` and the arrival bytestamp is `(b + p) - s`.
The other streams are not changed. -/
theorem C19_stream_reset {L : Type} (h : StreamHeap L) (this : Nat) (d : ResetDraws)
    (hb : fitsU32 d.burst) (hp : fitsU32 d.pause)
    (hu : 0 ≤ d.offset ∧ d.offset ≤ Stream.randIntArg (wrapU32 (d.pause + d.burst)))
    (s : Int) (hs : s = Stream.start_time d.offset) (hs0 : 0 ≤ s)
    (hsb : s < d.burst + d.pause) :
    (s < d.burst →
      Stream.GetBurstSize (Stream.Reset h this d) this = d.burst - s ∧
      Stream.GetArrival (Stream.Reset h this d) this = 0) ∧
    (¬ s < d.burst →
      Stream.GetBurstSize (Stream.Reset h this d) this = d.burst2 ∧
      Stream.GetArrival (Stream.Reset h this d) this = d.burst + d.pause - s) ∧
    (∀ a, a ≠ this →
      Stream.GetBurstSize (Stream.Reset h this d) a = Stream.GetBurstSize h a ∧
      (Stream.Reset h this d).node a = h.node a) := by
  unfold fitsU32 at hb hp
  unfold Stream.randIntArg wrapU32 wrap32 at hu
  subst hs
  have hst : Stream.start_time d.offset
      = (((d.offset + 0) % 2 ^ 32 + 2 ^ 31) % 2 ^ 32 - 2 ^ 31) % 2 ^ 64 := rfl
  have key : ∀ (c : Prop) [Decidable c] (x y : StreamHeap L) (a : Nat),
      Stream.GetBurstSize (if c then x else y) a
        = if c then Stream.GetBurstSize x a else Stream.GetBurstSize y a := by
    intro c _ x y a; split_ifs <;> rfl
  have key2 : ∀ (c : Prop) [Decidable c] (x y : StreamHeap L) (a : Nat),
      Stream.GetArrival (if c then x else y) a
        = if c then Stream.GetArrival x a else Stream.GetArrival y a := by
    intro c _ x y a; split_ifs <;> rfl
  refine ⟨?_, ?_, ?_⟩
  · intro hlt
    have hc : Stream.start_time d.offset < d.burst := hlt
    simp only [Stream.Reset, key, key2, Stream.GetBurstSize, Stream.GetArrival,
      Stream.setBurstSize, Stream.setBurstTime, Mem.set, if_true, hc]
    refine ⟨?_, trivial⟩
    unfold wrapU32
    omega
  · intro hge
    have hc : ¬ Stream.start_time d.offset < d.burst := hge
    simp only [Stream.Reset, key, key2, Stream.GetBurstSize, Stream.GetArrival,
      Stream.setBurstSize, Stream.setBurstTime, Mem.set, if_true, hc, if_false]
    refine ⟨trivial, ?_⟩
    unfold wrapU32 wrapU64
    omega
  · intro a ha
    unfold Stream.Reset
    simp only []
    split_ifs <;>
      simp [Stream.setBurstSize, Stream.setBurstTime, Stream.GetBurstSize, Mem.set, ha]

theorem C19_stream_reset_witness :
    ((120 : Int) < (ResetDraws.mk 100 50 120 77).burst →
      Stream.GetBurstSize (Stream.Reset streams0 0 (ResetDraws.mk 100 50 120 77)) 0
        = (ResetDraws.mk 100 50 120 77).burst - 120 ∧
      Stream.GetArrival (Stream.Reset streams0 0 (ResetDraws.mk 100 50 120 77)) 0 = 0) ∧
    (¬ (120 : Int) < (ResetDraws.mk 100 50 120 77).burst →
      Stream.GetBurstSize (Stream.Reset streams0 0 (ResetDraws.mk 100 50 120 77)) 0
        = (ResetDraws.mk 100 50 120 77).burst2 ∧
      Stream.GetArrival (Stream.Reset streams0 0 (ResetDraws.mk 100 50 120 77)) 0
        = (ResetDraws.mk 100 50 120 77).burst + (ResetDraws.mk 100 50 120 77).pause - 120) ∧
    (∀ a, a ≠ 0 →
      Stream.GetBurstSize (Stream.Reset streams0 0 (ResetDraws.mk 100 50 120 77)) a
        = Stream.GetBurstSize streams0 a ∧
      (Stream.Reset streams0 0 (ResetDraws.mk 100 50 120 77)).node a = streams0.node a) :=
  C19_stream_reset streams0 0 (ResetDraws.mk 100 50 120 77) (by decide) (by decide)
    (by decide) 120 (by decide) (by decide) (by decide)

/-! ## The stream pools of the generator -/

theorem treeAdd_spec {m : Mem} {t : AVLTree} {tr : Shape} {a : Nat} (ht : HeapTree m tr)
    (hr : t.pRoot = tr.root) (hc : t.Count = tr.inorder.length)
    (nd : (a :: tr.inorder).Nodup) :
    ∃ m2, AVLTree.AddNode t.Count.toNat m t (some a)
        = some (m2, { pRoot := (tr.insert (fun z => (m z).NodeKey) a).root,
                      Count := ((tr.insert (fun z => (m z).NodeKey) a).inorder.length : Int) }) ∧
      HeapTree m2 (tr.insert (fun z => (m z).NodeKey) a) ∧
      Touches m m2 (a :: tr.inorder) := by
  have hlen : ((tr.insert (fun z => (m z).NodeKey) a).inorder.length : Int) = t.Count + 1 := by
    rw [(Shape.inorder_insert_perm _ a tr).length_eq, hc]; simp
  cases hroot : tr.root with
  | none =>
    have := Shape.root_eq_none hroot
    subst this
    have hr2 : t.pRoot = none := hr
    refine ⟨AVL.Initialize m a, ?_, heapTree_init_node _ _,
      (Touches.init_node _ _).mono (by simp)⟩
    simp only [AVLTree.AddNode, hr2]
    rw [hlen]
    rfl
  | some r =>
    have hd : tr.depth ≤ t.Count.toNat := by
      rw [hc]; simpa using Shape.depth_le_length tr
    obtain ⟨m2, x, e, rt, t2, T2⟩ := insertNode_spec tr t.Count.toNat r ht hroot hd nd
    refine ⟨m2, ?_, t2, T2⟩
    have hr2 : t.pRoot = some r := by rw [hr, hroot]
    simp only [AVLTree.AddNode, hr2, e]
    rw [hlen, rt]

theorem treeRemoveHead_nil {m : Mem} {t : AVLTree} (hr : t.pRoot = none) (fuel : Nat) :
    AVLTree.RemoveHead fuel m t = some (m, t, none) := by
  simp [AVLTree.RemoveHead, hr]

theorem treeRemoveHead_spec {m : Mem} {t : AVLTree} {tr : Shape} {x : Nat} {rest : List Nat}
    (ht : HeapTree m tr) (hr : t.pRoot = tr.root) (hc : t.Count = tr.inorder.length)
    (nd : tr.inorder.Nodup) (hx : tr.inorder = x :: rest) :
    ∃ m2, AVLTree.RemoveHead t.Count.toNat m t
        = some (m2, { pRoot := tr.removeLeftEnd.root,
                      Count := (tr.removeLeftEnd.inorder.length : Int) }, some x) ∧
      HeapTree m2 tr.removeLeftEnd ∧ tr.removeLeftEnd.inorder = rest ∧
      Touches m m2 tr.inorder := by
  cases hroot : tr.root with
  | none =>
    have := Shape.root_eq_none hroot
    subst this
    simp [Shape.inorder] at hx
  | some r =>
    have hd : tr.depth ≤ t.Count.toNat := by
      rw [hc]; simpa using Shape.depth_le_length tr
    obtain ⟨m2, y, e, hhead, t2, T2⟩ := removeLeftEnd_spec tr t.Count.toNat r ht hroot hd nd
    have hy : y = x := by
      rw [hx] at hhead
      simpa using hhead.symm
    subst hy
    have htl : tr.removeLeftEnd.inorder = rest := by
      rw [Shape.inorder_removeLeftEnd, hx]; rfl
    refine ⟨m2, ?_, t2, htl, T2⟩
    have hr2 : t.pRoot = some r := by rw [hr, hroot]
    simp only [AVLTree.RemoveHead, hr2, e]
    rw [htl, hc, hx]
    simp

theorem setPool_pool_same {L : Type} (g : PacketGenerator L) (r : PoolRef) (t : AVLTree)
    (m : Mem) : (g.setPool r t m).pool r = t := by
  cases r <;> rfl

theorem setPool_pool_other {L : Type} (g : PacketGenerator L) {r r2 : PoolRef} (h : r2 ≠ r)
    (t : AVLTree) (m : Mem) : (g.setPool r t m).pool r2 = g.pool r2 := by
  cases r <;> cases r2 <;> first | rfl | exact absurd rfl h

theorem setPool_node {L : Type} (g : PacketGenerator L) (r : PoolRef) (t : AVLTree)
    (m : Mem) : (g.setPool r t m).streams.node = m := by
  cases r <;> rfl

theorem setPool_fields {L : Type} (g : PacketGenerator L) (r : PoolRef) (t : AVLTree)
    (m : Mem) :
    (g.setPool r t m).streams.BurstSize = g.streams.BurstSize ∧
      (g.setPool r t m).streams.calls = g.streams.calls ∧
      (g.setPool r t m).Tokens = g.Tokens ∧ (g.setPool r t m).Elapsed = g.Elapsed ∧
      (g.setPool r t m).MinIFG = g.MinIFG ∧ (g.setPool r t m).NextPacket = g.NextPacket ∧
      (g.setPool r t m).BusyPool = g.BusyPool ∧ (g.setPool r t m).IdlePool = g.IdlePool ∧
      (g.setPool r t m).brk = g.brk := by
  cases r <;> exact ⟨rfl, rfl, rfl, rfl, rfl, rfl, rfl, rfl, rfl⟩

theorem setPool_self {L : Type} (g : PacketGenerator L) (r : PoolRef) :
    g.setPool r (g.pool r) g.streams.node = g := by
  cases r <;> rfl

/-- The invariant only depends on the pools and on the nodes of the streams they hold. -/
theorem GenInv.frame {L : Type} {g g2 : PacketGenerator L} {tb ti : Shape}
    (h : GenInv g tb ti) (h1 : g2.Pool1 = g.Pool1) (h2 : g2.Pool2 = g.Pool2)
    (hb : g2.BusyPool = g.BusyPool) (hi : g2.IdlePool = g.IdlePool)
    (hm : ∀ y ∈ tb.inorder ++ ti.inorder, g2.streams.node y = g.streams.node y) :
    GenInv g2 tb ti := by
  have hp : ∀ r, g2.pool r = g.pool r := by
    intro r; cases r
    · exact h1
    · exact h2
  refine ⟨h.busy.tree_frame (fun y hy => hm y (List.mem_append_left _ hy)),
    h.idle.tree_frame (fun y hy => hm y (List.mem_append_right _ hy)), ?_, ?_, ?_, ?_, h.nodup,
    ?_⟩
  · rw [hb, hp]; exact h.busyRoot
  · rw [hb, hp]; exact h.busyCount
  · rw [hi, hp]; exact h.idleRoot
  · rw [hi, hp]; exact h.idleCount
  · rw [hb, hi]; exact h.distinct

theorem GenInv.removeStream {L : Type} {g : PacketGenerator L} {tb ti : Shape} {x : Nat}
    {rest : List Nat} (h : GenInv g tb ti) (hx : tb.inorder = x :: rest) :
    ∃ m2, g.RemoveStream
        = some (g.setPool g.BusyPool (AVLTree.mk (tb.removeLeftEnd.root)
            (tb.removeLeftEnd.inorder.length : Int)) m2, some x) ∧
      GenInv (g.setPool g.BusyPool (AVLTree.mk (tb.removeLeftEnd.root)
            (tb.removeLeftEnd.inorder.length : Int)) m2) tb.removeLeftEnd ti ∧
      tb.removeLeftEnd.inorder = rest ∧ Touches g.streams.node m2 tb.inorder := by
  have ndb := (List.nodup_append.1 h.nodup).1
  obtain ⟨m2, e, t2, htl, T2⟩ := treeRemoveHead_spec h.busy h.busyRoot h.busyCount ndb hx
  refine ⟨m2, ?_, ?_, htl, T2⟩
  · simp only [PacketGenerator.RemoveStream, PacketGenerator.poolRemoveHead, e]
  · have hf := setPool_fields g g.BusyPool (AVLTree.mk (tb.removeLeftEnd.root)
            (tb.removeLeftEnd.inorder.length : Int)) m2
    have hdis := (List.nodup_append.1 h.nodup).2.2
    refine ⟨by rw [setPool_node]; exact t2, ?_, ?_, ?_, ?_, ?_, ?_, ?_⟩
    · rw [setPool_node]
      exact h.idle.touch T2 (fun y hy hy2 => hdis hy2 hy)
    · rw [hf.2.2.2.2.2.2.1, setPool_pool_same]
    · rw [hf.2.2.2.2.2.2.1, setPool_pool_same]
    · rw [hf.2.2.2.2.2.2.2.1, setPool_pool_other _ (Ne.symm h.distinct)]; exact h.idleRoot
    · rw [hf.2.2.2.2.2.2.2.1, setPool_pool_other _ (Ne.symm h.distinct)]; exact h.idleCount
    · rw [htl]
      have := h.nodup
      rw [hx] at this
      exact (List.nodup_cons.1 this).2
    · rw [hf.2.2.2.2.2.2.1, hf.2.2.2.2.2.2.2.1]; exact h.distinct

theorem GenInv.removeStream_nil {L : Type} {g : PacketGenerator L} {ti : Shape}
    (h : GenInv g Shape.nil ti) : g.RemoveStream = some (g, none) := by
  have hr : (g.pool g.BusyPool).pRoot = none := h.busyRoot
  simp only [PacketGenerator.RemoveStream, PacketGenerator.poolRemoveHead,
    treeRemoveHead_nil hr, setPool_self]

theorem GenInv.addBusy {L : Type} {g : PacketGenerator L} {tb ti : Shape} {a : Nat}
    (h : GenInv g tb ti) (ha : a ∉ tb.inorder ++ ti.inorder) :
    ∃ m2, g.poolAddNode g.BusyPool (some a)
        = some (g.setPool g.BusyPool
            (AVLTree.mk ((tb.insert (fun z => (g.streams.node z).NodeKey) a).root)
            ((tb.insert (fun z => (g.streams.node z).NodeKey) a).inorder.length : Int)) m2) ∧
      GenInv (g.setPool g.BusyPool
            (AVLTree.mk ((tb.insert (fun z => (g.streams.node z).NodeKey) a).root)
            ((tb.insert (fun z => (g.streams.node z).NodeKey) a).inorder.length : Int)) m2)
        (tb.insert (fun z => (g.streams.node z).NodeKey) a) ti ∧
      Touches g.streams.node m2 (a :: tb.inorder) := by
  simp only [List.mem_append, not_or] at ha
  have ndb := (List.nodup_append.1 h.nodup).1
  have hdis := (List.nodup_append.1 h.nodup).2.2
  obtain ⟨m2, e, t2, T2⟩ := treeAdd_spec h.busy h.busyRoot h.busyCount
    (List.nodup_cons.2 ⟨ha.1, ndb⟩)
  refine ⟨m2, ?_, ?_, T2⟩
  · simp only [PacketGenerator.poolAddNode, e]
  · have hf := setPool_fields g g.BusyPool
      (AVLTree.mk ((tb.insert (fun z => (g.streams.node z).NodeKey) a).root)
            ((tb.insert (fun z => (g.streams.node z).NodeKey) a).inorder.length : Int)) m2
    refine ⟨by rw [setPool_node]; exact t2, ?_, ?_, ?_, ?_, ?_, ?_, ?_⟩
    · rw [setPool_node]
      refine h.idle.touch T2 (fun y hy hy2 => ?_)
      rcases List.mem_cons.1 hy2 with e | hy2
      · exact ha.2 (e ▸ hy)
      · exact hdis hy2 hy
    · rw [hf.2.2.2.2.2.2.1, setPool_pool_same]
    · rw [hf.2.2.2.2.2.2.1, setPool_pool_same]
    · rw [hf.2.2.2.2.2.2.2.1, setPool_pool_other _ (Ne.symm h.distinct)]; exact h.idleRoot
    · rw [hf.2.2.2.2.2.2.2.1, setPool_pool_other _ (Ne.symm h.distinct)]; exact h.idleCount
    · have hp := (Shape.inorder_insert_perm (fun z => (g.streams.node z).NodeKey) a tb)
      refine (hp.append_right ti.inorder).nodup_iff.2 ?_
      simp only [List.cons_append, List.nodup_cons, List.mem_append, not_or]
      exact ⟨ha, h.nodup⟩
    · rw [hf.2.2.2.2.2.2.1, hf.2.2.2.2.2.2.2.1]; exact h.distinct

theorem GenInv.addIdle {L : Type} {g : PacketGenerator L} {tb ti : Shape} {a : Nat}
    (h : GenInv g tb ti) (ha : a ∉ tb.inorder ++ ti.inorder) :
    ∃ m2, g.poolAddNode g.IdlePool (some a)
        = some (g.setPool g.IdlePool
            (AVLTree.mk ((ti.insert (fun z => (g.streams.node z).NodeKey) a).root)
            ((ti.insert (fun z => (g.streams.node z).NodeKey) a).inorder.length : Int)) m2) ∧
      GenInv (g.setPool g.IdlePool
            (AVLTree.mk ((ti.insert (fun z => (g.streams.node z).NodeKey) a).root)
            ((ti.insert (fun z => (g.streams.node z).NodeKey) a).inorder.length : Int)) m2)
        tb (ti.insert (fun z => (g.streams.node z).NodeKey) a) ∧
      Touches g.streams.node m2 (a :: ti.inorder) := by
  simp only [List.mem_append, not_or] at ha
  have ndi := (List.nodup_append.1 h.nodup).2.1
  have hdis := (List.nodup_append.1 h.nodup).2.2
  obtain ⟨m2, e, t2, T2⟩ := treeAdd_spec h.idle h.idleRoot h.idleCount
    (List.nodup_cons.2 ⟨ha.2, ndi⟩)
  refine ⟨m2, ?_, ?_, T2⟩
  · simp only [PacketGenerator.poolAddNode, e]
  · have hf := setPool_fields g g.IdlePool
      (AVLTree.mk ((ti.insert (fun z => (g.streams.node z).NodeKey) a).root)
            ((ti.insert (fun z => (g.streams.node z).NodeKey) a).inorder.length : Int)) m2
    refine ⟨?_, by rw [setPool_node]; exact t2, ?_, ?_, ?_, ?_, ?_, ?_⟩
    · rw [setPool_node]
      refine h.busy.touch T2 (fun y hy hy2 => ?_)
      rcases List.mem_cons.1 hy2 with e | hy2
      · exact ha.1 (e ▸ hy)
      · exact hdis hy hy2
    · rw [hf.2.2.2.2.2.2.1, setPool_pool_other _ h.distinct]; exact h.busyRoot
    · rw [hf.2.2.2.2.2.2.1, setPool_pool_other _ h.distinct]; exact h.busyCount
    · rw [hf.2.2.2.2.2.2.2.1, setPool_pool_same]
    · rw [hf.2.2.2.2.2.2.2.1, setPool_pool_same]
    · have hp := (Shape.inorder_insert_perm (fun z => (g.streams.node z).NodeKey) a ti)
      refine (hp.append_left tb.inorder).nodup_iff.2 ?_
      refine (List.perm_middle).nodup_iff.2 ?_
      simp only [List.nodup_cons, List.mem_append, not_or]
      exact ⟨ha, h.nodup⟩
    · rw [hf.2.2.2.2.2.2.1, hf.2.2.2.2.2.2.2.1]; exact h.distinct

theorem Shape.inorder_eq_nil {t : Shape} (h : t.inorder = []) : t = Shape.nil := by
  cases t with
  | nil => rfl
  | node l a r => simp [Shape.inorder] at h

theorem setLoadReset_loop_succ {L : Type} (load : L) (rnd : Nat → ResetDraws) (f i : Nat)
    {g g1 : PacketGenerator L} {x : Nat} (e1 : g.RemoveStream = some (g1, some x)) :
    PacketGenerator.SetLoadReset.loop load rnd (f + 1) i g
      = match ({ g1 with streams := Stream.Reset (Stream.SetLoad g1.streams x load) x (rnd i) }
            : PacketGenerator L).poolAddNode g1.IdlePool (some x) with
        | none => none
        | some g4 => PacketGenerator.SetLoadReset.loop load rnd f (i + 1) g4 := by
  simp only [PacketGenerator.SetLoadReset.loop, e1]

/-- The loop of `SetLoadReset` moves every stream of the busy pool to the idle pool, after one
`SetLoad` and one `Reset`. -/
theorem setLoadReset_loop_spec {L : Type} (load : L) (rnd : Nat → ResetDraws) :
    ∀ (n fuel i : Nat) (g : PacketGenerator L) (tb ti : Shape), GenInv g tb ti →
      tb.inorder.length = n → n < fuel →
      ∃ g2 ti2, PacketGenerator.SetLoadReset.loop load rnd fuel i g = some g2 ∧
        GenInv g2 Shape.nil ti2 ∧ ti2.inorder.Perm (tb.inorder ++ ti.inorder) ∧
        g2.BusyPool = g.BusyPool ∧ g2.IdlePool = g.IdlePool ∧ g2.Tokens = g.Tokens ∧
        g2.NextPacket = g.NextPacket ∧ g2.MinIFG = g.MinIFG ∧ g2.brk = g.brk ∧
        (∀ a ∈ tb.inorder, g2.streams.calls a
          = g.streams.calls a ++ [StreamCall.SetLoad load, StreamCall.Reset]) ∧
        (∀ a, a ∉ tb.inorder → g2.streams.calls a = g.streams.calls a ∧
          g2.streams.BurstSize a = g.streams.BurstSize a ∧
          (g2.streams.node a).NodeKey = (g.streams.node a).NodeKey) := by
  intro n
  induction n with
  | zero =>
    intro fuel i g tb ti h hn hf
    have hnil : tb = Shape.nil := Shape.inorder_eq_nil (List.length_eq_zero.1 hn)
    subst hnil
    obtain ⟨f, rfl⟩ : ∃ f, fuel = f + 1 := ⟨fuel - 1, by omega⟩
    refine ⟨g, ti, ?_, h, by simp [Shape.inorder], rfl, rfl, rfl, rfl, rfl, rfl, ?_,
      fun a _ => ⟨rfl, rfl, rfl⟩⟩
    · simp only [PacketGenerator.SetLoadReset.loop, h.removeStream_nil]
    · intro a ha
      simp [Shape.inorder] at ha
  | succ n ih =>
    intro fuel i g tb ti h hn hf
    obtain ⟨f, rfl⟩ : ∃ f, fuel = f + 1 := ⟨fuel - 1, by omega⟩
    obtain ⟨x, rest, hx⟩ : ∃ x rest, tb.inorder = x :: rest := by
      cases hh : tb.inorder with
      | nil => rw [hh] at hn; simp at hn
      | cons x rest => exact ⟨x, rest, rfl⟩
    obtain ⟨m2, e1, h1, htl, T1⟩ := h.removeStream hx
    have hf1 := setPool_fields g g.BusyPool (AVLTree.mk (tb.removeLeftEnd.root)
      (tb.removeLeftEnd.inorder.length : Int)) m2
    obtain ⟨g1, hg1⟩ : ∃ g1, g1 = g.setPool g.BusyPool (AVLTree.mk (tb.removeLeftEnd.root)
      (tb.removeLeftEnd.inorder.length : Int)) m2 := ⟨_, rfl⟩
    rw [← hg1] at e1 h1 hf1
    have hnd := h.nodup
    rw [hx] at hnd
    have hxn : x ∉ tb.removeLeftEnd.inorder ++ ti.inorder := by
      rw [htl]
      exact (List.nodup_cons.1 hnd).1
    -- the stream after `SetLoad` and `Reset`
    obtain ⟨g3, hg3⟩ : ∃ g3 : PacketGenerator L, g3 =
      { g1 with streams := Stream.Reset (Stream.SetLoad g1.streams x load) x (rnd i) } :=
      ⟨_, rfl⟩
    have hnode3 : ∀ y, y ≠ x → g3.streams.node y = g1.streams.node y := by
      intro y hy
      rw [hg3]
      show (Stream.Reset (Stream.SetLoad g1.streams x load) x (rnd i)).node y = _
      unfold Stream.Reset
      simp only []
      split_ifs <;>
        simp [Stream.setBurstSize, Stream.setBurstTime, Stream.SetLoad, Mem.set, hy]
    have h3 : GenInv g3 tb.removeLeftEnd ti := by
      refine h1.frame (by rw [hg3]) (by rw [hg3]) (by rw [hg3]) (by rw [hg3]) ?_
      intro y hy
      exact hnode3 y (fun e => hxn (e ▸ hy))
    obtain ⟨m4, e4, h4, T4⟩ := h3.addIdle hxn
    obtain ⟨g4, hg4⟩ : ∃ g4, g4 = g3.setPool g3.IdlePool
        (AVLTree.mk ((ti.insert (fun z => (g3.streams.node z).NodeKey) x).root)
          ((ti.insert (fun z => (g3.streams.node z).NodeKey) x).inorder.length : Int)) m4 :=
      ⟨_, rfl⟩
    have hf4 := setPool_fields g3 g3.IdlePool
        (AVLTree.mk ((ti.insert (fun z => (g3.streams.node z).NodeKey) x).root)
          ((ti.insert (fun z => (g3.streams.node z).NodeKey) x).inorder.length : Int)) m4
    rw [← hg4] at e4 h4 hf4
    have hlen : tb.removeLeftEnd.inorder.length = n := by
      rw [htl]
      have := hn
      rw [hx] at this
      simpa using this
    obtain ⟨g5, ti5, e5, h5, hperm5, hb5, hi5, htok5, hnp5, hifg5, hbrk5, hcalls5, hother5⟩ :=
      ih f (i + 1) g4 tb.removeLeftEnd _ h4 hlen (by omega)
    have hcalls4 : ∀ a, g4.streams.calls a = if a = x then
        g.streams.calls a ++ [StreamCall.SetLoad load, StreamCall.Reset]
        else g.streams.calls a := by
      intro a
      rw [hf4.2.1, hg3]
      show (Stream.Reset (Stream.SetLoad g1.streams x load) x (rnd i)).calls a = _
      have hc1 : g1.streams.calls = g.streams.calls := hf1.2.1
      unfold Stream.Reset
      simp only []
      split_ifs <;>
        simp_all [Stream.setBurstSize, Stream.setBurstTime, Stream.SetLoad]
    have hburst4 : ∀ a, a ≠ x → g4.streams.BurstSize a = g.streams.BurstSize a := by
      intro a ha
      rw [hf4.1, hg3]
      show (Stream.Reset (Stream.SetLoad g1.streams x load) x (rnd i)).BurstSize a = _
      have hc1 : g1.streams.BurstSize = g.streams.BurstSize := hf1.1
      unfold Stream.Reset
      simp only []
      split_ifs <;>
        simp [Stream.setBurstSize, Stream.setBurstTime, Stream.SetLoad, ha, hc1,
          Stream.GetBurstSize]
    have hkey4 : ∀ a, a ≠ x → (g4.streams.node a).NodeKey = (g.streams.node a).NodeKey := by
      intro a ha
      have e1 : g4.streams.node = m4 := by rw [hg4]; exact setPool_node _ _ _ _
      have e2 : g1.streams.node = m2 := by rw [hg1]; exact setPool_node _ _ _ _
      rw [e1, T4.key, hnode3 a ha, e2, T1.key]
    have hxrest : x ∉ rest := by
      have := (List.nodup_cons.1 hnd).1
      exact fun hm => this (List.mem_append_left _ hm)
    refine ⟨g5, ti5, ?_, h5, ?_, ?_, ?_, ?_, ?_, ?_, ?_, ?_, ?_⟩
    · have hI : g3.IdlePool = g1.IdlePool := by rw [hg3]
      rw [hI] at e4
      rw [setLoadReset_loop_succ load rnd f i e1, ← hg3, e4]
      exact e5
    · refine hperm5.trans ?_
      rw [htl, hx]
      refine (List.Perm.append_left rest (Shape.inorder_insert_perm _ x ti)).trans ?_
      simp only [List.cons_append]
      exact List.perm_middle
    · rw [hb5, hf4.2.2.2.2.2.2.1, hg3]; exact hf1.2.2.2.2.2.2.1
    · rw [hi5, hf4.2.2.2.2.2.2.2.1, hg3]; exact hf1.2.2.2.2.2.2.2.1
    · rw [htok5, hf4.2.2.1, hg3]; exact hf1.2.2.1
    · rw [hnp5, hf4.2.2.2.2.2.1, hg3]; exact hf1.2.2.2.2.2.1
    · rw [hifg5, hf4.2.2.2.2.1, hg3]; exact hf1.2.2.2.2.1
    · rw [hbrk5, hf4.2.2.2.2.2.2.2.2, hg3]; exact hf1.2.2.2.2.2.2.2.2
    · intro a ha
      rw [hx] at ha
      rcases List.mem_cons.1 ha with e | ha
      · subst e
        have := (hother5 a (by rw [htl]; exact hxrest)).1
        rw [this, hcalls4 a, if_pos rfl]
      · have hax : a ≠ x := fun e => hxrest (e ▸ ha)
        rw [hcalls5 a (by rw [htl]; exact ha), hcalls4 a, if_neg hax]
    · intro a ha
      rw [hx] at ha
      simp only [List.mem_cons, not_or] at ha
      obtain ⟨o1, o2, o3⟩ := hother5 a (by rw [htl]; exact ha.2)
      refine ⟨by rw [o1, hcalls4 a, if_neg ha.1], by rw [o2, hburst4 a ha.1],
        by rw [o3, hkey4 a ha.1]⟩

theorem getNextPacket_loop_succ {L : Type} (size : Int) (rnd : Nat → Int × Int) (f i : Nat)
    (pt : Int) {g g1 : PacketGenerator L} {x : Nat} (ht : g.Tokens < size)
    (e1 : g.RemoveStream = some (g1, some x)) :
    PacketGenerator.GetNextPacket.loop size rnd (f + 1) i g pt
      = match ({ g1 with
                  Tokens := wrapU32 (g1.Tokens + Stream.GetBurstSize g1.streams x),
                  streams := Stream.ExtractBurst g1.streams x (rnd i).1 (rnd i).2 }
            : PacketGenerator L).poolAddNode g1.BusyPool (some x) with
        | none => none
        | some g4 =>
          PacketGenerator.GetNextPacket.loop size rnd f (i + 1) g4
            (if Stream.GetArrival g1.streams x > wrapU64 (pt + g1.Tokens) then
              wrapU64 (Stream.GetArrival g1.streams x - g1.Tokens)
            else pt) := by
  simp only [PacketGenerator.GetNextPacket.loop, ht, if_true, e1]

theorem getNextPacket_loop_exit {L : Type} (size : Int) (rnd : Nat → Int × Int) (f i : Nat)
    (pt : Int) {g : PacketGenerator L} (ht : ¬ g.Tokens < size) :
    PacketGenerator.GetNextPacket.loop size rnd (f + 1) i g pt = some (g, pt) := by
  simp only [PacketGenerator.GetNextPacket.loop, ht, if_false]

theorem extractBurst_node {L : Type} (h : StreamHeap L) (x : Nat) (pause burst : Int)
    (y : Nat) (hy : y ≠ x) : (Stream.ExtractBurst h x pause burst).node y = h.node y := by
  simp [Stream.ExtractBurst, Stream.setBurstSize, Stream.setBurstTime, Mem.set, hy]

theorem extractBurst_key {L : Type} (h : StreamHeap L) (x : Nat) (pause burst : Int) :
    ((Stream.ExtractBurst h x pause burst).node x).NodeKey
      = wrapU64 ((h.node x).NodeKey + wrapU32 (h.BurstSize x + pause)) := by
  simp [Stream.ExtractBurst, Stream.setBurstSize, Stream.setBurstTime, Mem.set,
    Stream.GetArrival, Stream.GetBurstSize]

theorem extractBurst_burst {L : Type} (h : StreamHeap L) (x : Nat) (pause burst : Int)
    (y : Nat) :
    (Stream.ExtractBurst h x pause burst).BurstSize y
      = if y = x then burst else h.BurstSize y := by
  simp [Stream.ExtractBurst, Stream.setBurstSize, Stream.setBurstTime]

theorem extractBurst_calls {L : Type} (h : StreamHeap L) (x : Nat) (pause burst : Int) :
    (Stream.ExtractBurst h x pause burst).calls = h.calls := by
  simp [Stream.ExtractBurst, Stream.setBurstSize, Stream.setBurstTime]

/-- One pass of the `while` loop of `GetNextPacket` on a generator whose busy pool is not
empty: the head `x` of the pool gives its burst to the tokens, draws its next burst and goes
back to the pool. -/
theorem getNextPacket_loop_step {L : Type} (size : Int) (rnd : Nat → Int × Int) (i : Nat)
    (pt : Int) {g : PacketGenerator L} {tb ti : Shape} (h : GenInv g tb ti)
    (hne : tb.inorder ≠ []) (ht : g.Tokens < size) :
    ∃ x rest g4 tb4, tb.inorder = x :: rest ∧
      (∀ f, PacketGenerator.GetNextPacket.loop size rnd (f + 1) i g pt
        = PacketGenerator.GetNextPacket.loop size rnd f (i + 1) g4
            (if (g.streams.node x).NodeKey > wrapU64 (pt + g.Tokens) then
              wrapU64 ((g.streams.node x).NodeKey - g.Tokens)
            else pt)) ∧
      GenInv g4 tb4 ti ∧ tb4.inorder.Perm tb.inorder ∧
      g4.Tokens = wrapU32 (g.Tokens + g.streams.BurstSize x) ∧
      (∀ a, (g4.streams.node a).NodeKey = if a = x then
          wrapU64 ((g.streams.node x).NodeKey + wrapU32 (g.streams.BurstSize x + (rnd i).1))
        else (g.streams.node a).NodeKey) ∧
      (∀ a, g4.streams.BurstSize a = if a = x then (rnd i).2 else g.streams.BurstSize a) ∧
      g4.streams.calls = g.streams.calls ∧ g4.Elapsed = g.Elapsed ∧ g4.MinIFG = g.MinIFG ∧
      g4.NextPacket = g.NextPacket ∧ g4.BusyPool = g.BusyPool ∧ g4.IdlePool = g.IdlePool ∧
      g4.brk = g.brk := by
  obtain ⟨x, rest, hx⟩ : ∃ x rest, tb.inorder = x :: rest := by
    cases hh : tb.inorder with
    | nil => exact absurd hh hne
    | cons x rest => exact ⟨x, rest, rfl⟩
  obtain ⟨m2, e1, h1, htl, T1⟩ := h.removeStream hx
  have hf1 := setPool_fields g g.BusyPool (AVLTree.mk (tb.removeLeftEnd.root)
    (tb.removeLeftEnd.inorder.length : Int)) m2
  have hn1 := setPool_node g g.BusyPool (AVLTree.mk (tb.removeLeftEnd.root)
    (tb.removeLeftEnd.inorder.length : Int)) m2
  obtain ⟨g1, hg1⟩ : ∃ g1, g1 = g.setPool g.BusyPool (AVLTree.mk (tb.removeLeftEnd.root)
    (tb.removeLeftEnd.inorder.length : Int)) m2 := ⟨_, rfl⟩
  rw [← hg1] at e1 h1 hf1 hn1
  have hnd := h.nodup
  rw [hx] at hnd
  have hxn : x ∉ tb.removeLeftEnd.inorder ++ ti.inorder := by
    rw [htl]
    exact (List.nodup_cons.1 hnd).1
  obtain ⟨g3, hg3⟩ : ∃ g3 : PacketGenerator L, g3 =
    { g1 with
        Tokens := wrapU32 (g1.Tokens + Stream.GetBurstSize g1.streams x),
        streams := Stream.ExtractBurst g1.streams x (rnd i).1 (rnd i).2 } := ⟨_, rfl⟩
  have hs3 : g3.streams = Stream.ExtractBurst g1.streams x (rnd i).1 (rnd i).2 := by rw [hg3]
  have h3 : GenInv g3 tb.removeLeftEnd ti := by
    refine h1.frame (by rw [hg3]) (by rw [hg3]) (by rw [hg3]) (by rw [hg3]) ?_
    intro y hy
    rw [hs3]
    exact extractBurst_node _ _ _ _ _ (fun e => hxn (e ▸ hy))
  obtain ⟨m4, e4, h4, T4⟩ := h3.addBusy hxn
  have hf4 := setPool_fields g3 g3.BusyPool
      (AVLTree.mk ((tb.removeLeftEnd.insert (fun z => (g3.streams.node z).NodeKey) x).root)
        ((tb.removeLeftEnd.insert (fun z => (g3.streams.node z).NodeKey) x).inorder.length
          : Int)) m4
  have hn4 := setPool_node g3 g3.BusyPool
      (AVLTree.mk ((tb.removeLeftEnd.insert (fun z => (g3.streams.node z).NodeKey) x).root)
        ((tb.removeLeftEnd.insert (fun z => (g3.streams.node z).NodeKey) x).inorder.length
          : Int)) m4
  obtain ⟨g4, hg4⟩ : ∃ g4, g4 = g3.setPool g3.BusyPool
      (AVLTree.mk ((tb.removeLeftEnd.insert (fun z => (g3.streams.node z).NodeKey) x).root)
        ((tb.removeLeftEnd.insert (fun z => (g3.streams.node z).NodeKey) x).inorder.length
          : Int)) m4 := ⟨_, rfl⟩
  rw [← hg4] at e4 h4 hf4 hn4
  have hkx : (g1.streams.node x).NodeKey = (g.streams.node x).NodeKey := by
    rw [hn1, T1.key]
  have hb1 : g1.streams.BurstSize = g.streams.BurstSize := hf1.1
  have ht1 : g1.Tokens = g.Tokens := hf1.2.2.1
  refine ⟨x, rest, g4, _, hx, ?_, h4, ?_, ?_, ?_, ?_, ?_, ?_, ?_, ?_, ?_, ?_, ?_⟩
  · intro f
    have hB : g3.BusyPool = g1.BusyPool := by rw [hg3]
    rw [hB] at e4
    rw [getNextPacket_loop_succ size rnd f i pt ht e1, ← hg3, e4]
    simp only [Stream.GetArrival, hkx, ht1]
  · refine (Shape.inorder_insert_perm _ x _).trans ?_
    rw [htl, hx]
  · rw [hf4.2.2.1, hg3]
    show wrapU32 (g1.Tokens + Stream.GetBurstSize g1.streams x) = _
    rw [ht1]
    simp only [Stream.GetBurstSize, hb1]
  · intro a
    rw [hn4, T4.key, hs3]
    by_cases ha : a = x
    · subst ha
      rw [if_pos rfl, extractBurst_key, hkx, hb1]
    · rw [if_neg ha, extractBurst_node _ _ _ _ _ ha, hn1, T1.key]
  · intro a
    rw [hf4.1, hs3, extractBurst_burst, hb1]
  · rw [hf4.2.1, hs3, extractBurst_calls]; exact hf1.2.1
  · rw [hf4.2.2.2.1, hg3]; exact hf1.2.2.2.1
  · rw [hf4.2.2.2.2.1, hg3]; exact hf1.2.2.2.2.1
  · rw [hf4.2.2.2.2.2.1, hg3]; exact hf1.2.2.2.2.2.1
  · rw [hf4.2.2.2.2.2.2.1, hg3]; exact hf1.2.2.2.2.2.2.1
  · rw [hf4.2.2.2.2.2.2.2.1, hg3]; exact hf1.2.2.2.2.2.2.2.1
  · rw [hf4.2.2.2.2.2.2.2.2, hg3]; exact hf1.2.2.2.2.2.2.2.2

/-- Whenever the `while` loop of `GetNextPacket` ends on a generator whose busy pool is not
empty, the tokens cover the packet, the pools hold the same streams, and the time cursor has
not moved back; `B` bounds the arrival times in the pool. -/
theorem getNextPacket_loop_spec {L : Type} (size : Int) (rnd : Nat → Int × Int) (ti : Shape) :
    ∀ (fuel i : Nat) (g : PacketGenerator L) (pt : Int) (tb : Shape) (B : Int),
      GenInv g tb ti → tb.inorder ≠ [] → 0 ≤ g.Tokens → g.Tokens < 2 ^ 32 → 0 ≤ pt →
      pt ≤ B →
      (∀ a ∈ tb.inorder, 0 ≤ (g.streams.node a).NodeKey ∧ (g.streams.node a).NodeKey ≤ B) →
      B + (fuel : Int) * 2 ^ 32 ≤ 2 ^ 64 →
      ∀ g2 pt2, PacketGenerator.GetNextPacket.loop size rnd fuel i g pt = some (g2, pt2) →
        ∃ tb2, GenInv g2 tb2 ti ∧ tb2.inorder.Perm tb.inorder ∧ size ≤ g2.Tokens ∧
          0 ≤ g2.Tokens ∧ g2.Tokens < 2 ^ 32 ∧ pt ≤ pt2 ∧ pt2 ≤ B + (fuel : Int) * 2 ^ 32 ∧
          (∀ a ∈ tb2.inorder, 0 ≤ (g2.streams.node a).NodeKey ∧
            (g2.streams.node a).NodeKey ≤ B + (fuel : Int) * 2 ^ 32) ∧
          g2.streams.calls = g.streams.calls ∧ g2.Elapsed = g.Elapsed ∧
          g2.MinIFG = g.MinIFG ∧ g2.NextPacket = g.NextPacket ∧ g2.BusyPool = g.BusyPool ∧
          g2.IdlePool = g.IdlePool ∧ g2.brk = g.brk := by
  intro fuel
  induction fuel with
  | zero =>
    intro i g pt tb B _ _ _ _ _ _ _ _ g2 pt2 e
    simp [PacketGenerator.GetNextPacket.loop] at e
  | succ f ih =>
    intro i g pt tb B h hne ht0 ht1 hp0 hpB hk hB g2 pt2 e
    by_cases ht : g.Tokens < size
    · obtain ⟨x, rest, g4, tb4, hx, hloop, h4, hperm, htok, hkey, _, hcalls, hel, hifg, hnp,
        hbp, hip, hbrk⟩ := getNextPacket_loop_step size rnd i pt h hne ht
      rw [hloop f] at e
      have hxk := hk x (by rw [hx]; exact List.mem_cons_self _ _)
      have hne4 : tb4.inorder ≠ [] := by
        intro e0
        have := hperm.length_eq
        rw [e0, hx] at this
        simp at this
      have hB1 : B + 2 ^ 32 + (f : Int) * 2 ^ 32 ≤ 2 ^ 64 := by push_cast at hB; omega
      have hk4 : ∀ a ∈ tb4.inorder, 0 ≤ (g4.streams.node a).NodeKey ∧
          (g4.streams.node a).NodeKey ≤ B + 2 ^ 32 := by
        intro a ha
        rw [hkey a]
        split_ifs with hax
        · unfold wrapU64 wrapU32
          omega
        · have := hk a (hperm.subset ha)
          omega
      have hpt1 : pt ≤ (if (g.streams.node x).NodeKey > wrapU64 (pt + g.Tokens) then
            wrapU64 ((g.streams.node x).NodeKey - g.Tokens) else pt) ∧
          (if (g.streams.node x).NodeKey > wrapU64 (pt + g.Tokens) then
            wrapU64 ((g.streams.node x).NodeKey - g.Tokens) else pt) ≤ B := by
        split_ifs with hc
        · unfold wrapU64 at hc ⊢
          omega
        · omega
      obtain ⟨tb2, r1, r2, r3, r4, r5, r6, r7, r8, r9, r10, r11, r12, r13, r14, r15⟩ :=
        ih (i + 1) g4 _ tb4 (B + 2 ^ 32) h4 hne4
          (by rw [htok]; unfold wrapU32; omega) (by rw [htok]; unfold wrapU32; omega)
          (by omega) (by omega) hk4 hB1 g2 pt2 e
      refine ⟨tb2, r1, r2.trans hperm, r3, r4, r5, by omega, by push_cast; omega, ?_,
        r9.trans hcalls, r10.trans hel, r11.trans hifg, r12.trans hnp, r13.trans hbp,
        r14.trans hip, r15.trans hbrk⟩
      intro a ha
      have := r8 a ha
      push_cast
      omega
    · rw [getNextPacket_loop_exit size rnd f i pt ht] at e
      simp only [Option.some.injEq, Prod.mk.injEq] at e
      obtain ⟨e1, e2⟩ := e
      subst e1
      subst e2
      refine ⟨tb, h, List.Perm.refl _, by omega, ht0, ht1, le_refl _, by push_cast; omega, ?_,
        rfl, rfl, rfl, rfl, rfl, rfl, rfl⟩
      intro a ha
      have := hk a ha
      push_cast
      omega

/-- The `while` loop of `GetNextPacket` ends when every burst in the pool and every drawn
burst is positive: each pass adds at least one token. -/
theorem getNextPacket_loop_total {L : Type} (size M : Int) (rnd : Nat → Int × Int)
    (ti : Shape) (hM : size + M ≤ 2 ^ 32)
    (hrnd : ∀ j, 1 ≤ (rnd j).2 ∧ (rnd j).2 ≤ M) :
    ∀ (fuel i : Nat) (g : PacketGenerator L) (pt : Int) (tb : Shape),
      GenInv g tb ti → tb.inorder ≠ [] → 0 ≤ g.Tokens →
      (∀ a ∈ tb.inorder, 1 ≤ g.streams.BurstSize a ∧ g.streams.BurstSize a ≤ M) →
      size - g.Tokens < fuel → 0 < fuel →
      ∃ r, PacketGenerator.GetNextPacket.loop size rnd fuel i g pt = some r := by
  intro fuel
  induction fuel with
  | zero =>
    intro i g pt tb _ _ _ _ _ h0
    omega
  | succ f ih =>
    intro i g pt tb h hne ht0 hb hfuel _
    by_cases ht : g.Tokens < size
    · obtain ⟨x, rest, g4, tb4, hx, hloop, h4, hperm, htok, _, hburst, _⟩ :=
        getNextPacket_loop_step size rnd i pt h hne ht
      rw [hloop f]
      have hxb := hb x (by rw [hx]; exact List.mem_cons_self _ _)
      have hne4 : tb4.inorder ≠ [] := by
        intro e0
        have := hperm.length_eq
        rw [e0, hx] at this
        simp at this
      have htok4 : g4.Tokens = g.Tokens + g.streams.BurstSize x := by
        rw [htok]
        unfold wrapU32
        omega
      refine ih (i + 1) g4 _ tb4 h4 hne4 (by omega) ?_ (by push_cast at hfuel; omega)
        (by push_cast at hfuel; omega)
      intro a ha
      rw [hburst a]
      split_ifs with hax
      · exact hrnd i
      · exact hb a (hperm.subset ha)
    · exact ⟨_, getNextPacket_loop_exit size rnd f i pt ht⟩

/-- The pools of the generator `genTwo`: stream `0` at the root, stream `1` to its left. -/
theorem genInv_genTwo :
    GenInv genTwo (Shape.node (Shape.node Shape.nil 1 Shape.nil) 0 Shape.nil) Shape.nil := by
  refine ⟨?_, trivial, rfl, rfl, rfl, rfl, by decide, by decide⟩
  exact ⟨rfl, rfl, rfl, rfl, ⟨rfl, rfl, rfl, rfl, trivial, trivial⟩, trivial⟩

/-- C20: on a generator whose busy pool holds the `N` streams of `tb` (`N` within `int32s`)
and whose idle pool is empty, `SetLoadReset( ρ )` returns; every one of the `N` streams
received exactly the calls `SetLoad( ρ / N )` and then `Reset()`, no other stream received a
call, the `N` streams are in the busy pool again (`GetStreams() = N`), the idle pool is empty
and `Elapsed` is `0`. -/
theorem C20_set_load_reset {L : Type} (div : L → Int → L) (g : PacketGenerator L)
    (tb : Shape) (ρ : L) (rnd : Nat → ResetDraws) (hinv : GenInv g tb Shape.nil)
    (h31 : (tb.inorder.length : Int) < 2 ^ 31) :
    ∃ g2 tb2, g.SetLoadReset div ρ rnd = some g2 ∧ GenInv g2 tb2 Shape.nil ∧
      tb2.inorder.Perm tb.inorder ∧ g.GetStreams = tb.inorder.length ∧
      g2.GetStreams = tb.inorder.length ∧ (g2.pool g2.IdlePool).pRoot = none ∧
      (g2.pool g2.IdlePool).Count = 0 ∧ g2.Elapsed = 0 ∧
      (∀ a ∈ tb.inorder, g2.streams.calls a = g.streams.calls a
        ++ [StreamCall.SetLoad (div ρ (tb.inorder.length : Int)), StreamCall.Reset]) ∧
      (∀ a, a ∉ tb.inorder → g2.streams.calls a = g.streams.calls a) := by
  have hcount : (g.pool g.BusyPool).Count = tb.inorder.length := hinv.busyCount
  have hgs : g.GetStreams = tb.inorder.length := by
    unfold PacketGenerator.GetStreams
    rw [hcount]
    unfold wrap32
    omega
  obtain ⟨g5, ti5, e5, h5, hperm5, hb5, hi5, _, _, _, _, hcalls5, hother5⟩ :=
    setLoadReset_loop_spec (div ρ g.GetStreams) rnd tb.inorder.length
      ((g.pool g.BusyPool).Count.toNat + 1) 0 g tb Shape.nil hinv rfl
      (by rw [hcount]; simp)
  have hperm : ti5.inorder.Perm tb.inorder := by
    simpa [Shape.inorder] using hperm5
  have h2 : GenInv ({ g5 with BusyPool := g5.IdlePool, IdlePool := g5.BusyPool, Elapsed := 0 }
      : PacketGenerator L) ti5 Shape.nil := by
    refine ⟨h5.idle, h5.busy, h5.idleRoot, h5.idleCount, h5.busyRoot, h5.busyCount, ?_,
      fun e => h5.distinct e.symm⟩
    have := h5.nodup
    simpa [Shape.inorder] using this
  refine ⟨_, ti5, ?_, h2, hperm, hgs, ?_, h2.idleRoot, ?_, rfl, ?_, ?_⟩
  · simp only [PacketGenerator.SetLoadReset, e5]
  · unfold PacketGenerator.GetStreams
    rw [h2.busyCount, hperm.length_eq]
    unfold wrap32
    omega
  · have := h2.idleCount
    simpa [Shape.inorder] using this
  · intro a ha
    have := hcalls5 a ha
    rw [hgs] at this
    exact this
  · intro a ha
    exact (hother5 a ha).1

theorem C20_set_load_reset_witness :
    ∃ g2 tb2, genTwo.SetLoadReset divInt 100 drawsMid = some g2 ∧ GenInv g2 tb2 Shape.nil ∧
      tb2.inorder.Perm [1, 0] ∧ genTwo.GetStreams = 2 ∧
      g2.GetStreams = 2 ∧ (g2.pool g2.IdlePool).pRoot = none ∧
      (g2.pool g2.IdlePool).Count = 0 ∧ g2.Elapsed = 0 ∧
      (∀ a ∈ [1, 0], g2.streams.calls a = genTwo.streams.calls a
        ++ [StreamCall.SetLoad (divInt 100 2), StreamCall.Reset]) ∧
      (∀ a, a ∉ [1, 0] → g2.streams.calls a = genTwo.streams.calls a) :=
  C20_set_load_reset divInt genTwo (Shape.node (Shape.node Shape.nil 1 Shape.nil) 0 Shape.nil)
    100 drawsMid genInv_genTwo (by decide)

/-- C16 fails on the code in two ways.  On a generator without streams the loop of
`GetNextPacket` ends with `0` tokens and the deduction of a packet of `64` bytes wraps to
`2 ^ 32 - 64`.  On a generator whose only stream has its first burst at `2 ^ 32 - 76` the
time cursor advances by `2 ^ 32` and the cached `Interval`, a 32-bit value, is `0`, less than
`64 + MinIFG`. -/
theorem C16_tokens_interval_counterexample :
    (∃ g1 pt g2 pk,
      PacketGenerator.GetNextPacket.loop 64 drawsBurst 1 0 genEmpty genEmpty.Elapsed
        = some (g1, pt) ∧
      g1.Tokens = 0 ∧ genEmpty.GetNextPacket 1 64 drawsBurst = some (g2, pk) ∧
      g2.Tokens = 4294967232) ∧
    (∃ g2 pk, genLate.GetNextPacket 2 64 drawsBurst = some (g2, pk) ∧
      g2.Elapsed - genLate.Elapsed = 4294967296 ∧ g2.NextPacket.Interval = 0 ∧
      g2.MinIFG = 12 ∧ ¬ (64 + g2.MinIFG ≤ g2.NextPacket.Interval)) :=
  ⟨⟨_, _, _, _, rfl, rfl, rfl, rfl⟩, ⟨_, _, rfl, rfl, rfl, rfl, by decide⟩⟩

/-- C16 amended: on a generator whose busy pool is not empty, with its members within their
types and the arrival times far enough from the end of `bytestamp_t`, whenever
`GetNextPacket` returns, the loop has ended with at least `size` tokens, so the deduction
does not wrap and the tokens are non-negative; `Elapsed` advances by at least
`size + MinIFG`, the cached `Interval` is that advance modulo `2 ^ 32`, and it is at least
`size + MinIFG` when the advance is below `2 ^ 32`; the pools hold the same streams.  And
`GetNextPacket` returns when every burst in the pool and every drawn burst is positive. -/
theorem C16_tokens_interval_amended {L : Type} (g : PacketGenerator L) (tb ti : Shape)
    (size : Int) (rnd : Nat → Int × Int) (fuel : Nat) (B : Int) (hinv : GenInv g tb ti)
    (hne : tb.inorder ≠ []) (ht : fitsU32 g.Tokens) (hs0 : 0 ≤ size) (hs1 : size < 2 ^ 16)
    (hi0 : 0 ≤ g.MinIFG) (hi1 : g.MinIFG < 2 ^ 16) (he0 : 0 ≤ g.Elapsed)
    (heB : g.Elapsed ≤ B)
    (hk : ∀ a ∈ tb.inorder,
      0 ≤ (g.streams.node a).NodeKey ∧ (g.streams.node a).NodeKey ≤ B)
    (hB : B + ((fuel : Int) + 1) * 2 ^ 32 ≤ 2 ^ 64) :
    (∀ g2 pk, g.GetNextPacket fuel size rnd = some (g2, pk) →
      pk = g.NextPacket ∧
      (∃ g1 pt, PacketGenerator.GetNextPacket.loop size rnd fuel 0 g g.Elapsed = some (g1, pt) ∧
        size ≤ g1.Tokens ∧ g2.Tokens = g1.Tokens - size) ∧
      0 ≤ g2.Tokens ∧ g2.MinIFG = g.MinIFG ∧
      g.Elapsed + size + g.MinIFG ≤ g2.Elapsed ∧ g2.NextPacket.PcktSize = size ∧
      g2.NextPacket.Interval = (g2.Elapsed - g.Elapsed) % 2 ^ 32 ∧
      (g2.Elapsed - g.Elapsed < 2 ^ 32 → size + g2.MinIFG ≤ g2.NextPacket.Interval) ∧
      ∃ tb2, GenInv g2 tb2 ti ∧ tb2.inorder.Perm tb.inorder) ∧
    (∀ M : Int, size + M ≤ 2 ^ 32 →
      (∀ a ∈ tb.inorder, 1 ≤ g.streams.BurstSize a ∧ g.streams.BurstSize a ≤ M) →
      (∀ j, 1 ≤ (rnd j).2 ∧ (rnd j).2 ≤ M) → size - g.Tokens < fuel → 0 < fuel →
      ∃ r, g.GetNextPacket fuel size rnd = some r) := by
  constructor
  · intro g2 pk e
    unfold PacketGenerator.GetNextPacket at e
    simp only [] at e
    cases hl : PacketGenerator.GetNextPacket.loop size rnd fuel 0 g g.Elapsed with
    | none => rw [hl] at e; simp at e
    | some r =>
      obtain ⟨g1, pt⟩ := r
      rw [hl] at e
      simp only [Option.some.injEq, Prod.mk.injEq] at e
      obtain ⟨e1, e2⟩ := e
      obtain ⟨tb2, r1, r2, r3, r4, r5, r6, r7, _, _, r10, r11, _, _, _, _⟩ :=
        getNextPacket_loop_spec size rnd ti fuel 0 g g.Elapsed tb B hinv hne ht.1 ht.2 he0 heB
          hk (by omega) g1 pt hl
      have hpt : wrapU64 (pt + wrap32 (size + g1.MinIFG)) = pt + size + g.MinIFG := by
        rw [r11]
        unfold wrapU64 wrap32
        omega
      have htok : wrapU32 (g1.Tokens - size) = g1.Tokens - size := by
        unfold wrapU32
        omega
      have hint : wrapU32 (wrap32 (wrapU64 (pt + size + g.MinIFG - g.Elapsed)))
          = (pt + size + g.MinIFG - g.Elapsed) % 2 ^ 32 := by
        unfold wrapU32 wrap32 wrapU64
        omega
      subst e1
      subst e2
      simp only [hpt, htok, r10, hint]
      refine ⟨trivial, ⟨g1, pt, rfl, r3, rfl⟩, by omega, r11, by omega, trivial, trivial, ?_, tb2,
        ?_, r2⟩
      · intro hlt
        rw [r11]
        omega
      · exact r1.frame rfl rfl rfl rfl (fun _ _ => rfl)
  · intro M hM hb hrnd hfuel hpos
    obtain ⟨r, hr⟩ := getNextPacket_loop_total size M rnd ti hM hrnd fuel 0 g g.Elapsed tb hinv
      hne ht.1 hb hfuel hpos
    obtain ⟨g1, pt⟩ := r
    unfold PacketGenerator.GetNextPacket
    simp only [hr]
    exact ⟨_, rfl⟩

theorem C16_tokens_interval_amended_witness :
    (∀ g2 pk, genTwo.GetNextPacket 65 64 drawsBurst = some (g2, pk) →
      pk = genTwo.NextPacket ∧
      (∃ g1 pt, PacketGenerator.GetNextPacket.loop 64 drawsBurst 65 0 genTwo genTwo.Elapsed
          = some (g1, pt) ∧
        64 ≤ g1.Tokens ∧ g2.Tokens = g1.Tokens - 64) ∧
      0 ≤ g2.Tokens ∧ g2.MinIFG = genTwo.MinIFG ∧
      genTwo.Elapsed + 64 + genTwo.MinIFG ≤ g2.Elapsed ∧ g2.NextPacket.PcktSize = 64 ∧
      g2.NextPacket.Interval = (g2.Elapsed - genTwo.Elapsed) % 2 ^ 32 ∧
      (g2.Elapsed - genTwo.Elapsed < 2 ^ 32 → 64 + g2.MinIFG ≤ g2.NextPacket.Interval) ∧
      ∃ tb2, GenInv g2 tb2 Shape.nil ∧
        tb2.inorder.Perm (Shape.node (Shape.node Shape.nil 1 Shape.nil) 0 Shape.nil).inorder) ∧
    (∀ M : Int, 64 + M ≤ 2 ^ 32 →
      (∀ a ∈ (Shape.node (Shape.node Shape.nil 1 Shape.nil) 0 Shape.nil).inorder,
        1 ≤ genTwo.streams.BurstSize a ∧ genTwo.streams.BurstSize a ≤ M) →
      (∀ j, 1 ≤ (drawsBurst j).2 ∧ (drawsBurst j).2 ≤ M) → 64 - genTwo.Tokens < (65 : Nat) →
      0 < 65 → ∃ r, genTwo.GetNextPacket 65 64 drawsBurst = some r) :=
  C16_tokens_interval_amended genTwo (Shape.node (Shape.node Shape.nil 1 Shape.nil) 0 Shape.nil)
    Shape.nil 64 drawsBurst 65 (2 ^ 32) genInv_genTwo (by decide) (by decide) (by decide)
    (by decide) (by decide) (by decide) (by decide) (by decide) (by decide) (by decide)

theorem stream_new_node {L : Type} (h : StreamHeap L) (this : Nat) (ld : L) (d : ResetDraws)
    (y : Nat) (hy : y ≠ this) : (Stream.new h this ld d).node y = h.node y := by
  unfold Stream.new Stream.Reset
  simp only []
  split_ifs <;>
    simp [Stream.setBurstSize, Stream.setBurstTime, Stream.SetLoad, Mem.set, hy,
      AVL.Initialize]

/-- The loop of the second constructor of the generator keeps the pool invariant: every pass
constructs a stream at a fresh address and adds it to the busy pool. -/
theorem newLoop_spec {L : Type} (div : L → Int → L) (load : L) (pool_size : Int)
    (rnd : Nat → ResetDraws) :
    ∀ (fuel : Nat) (g : PacketGenerator L) (s : Int) (tb : Shape),
      GenInv g tb Shape.nil → (∀ a ∈ tb.inorder, a < g.brk) → pool_size - s < fuel →
      0 < fuel →
      ∃ g2 tb2, PacketGenerator.newLoop div load pool_size rnd fuel g s = some g2 ∧
        GenInv g2 tb2 Shape.nil ∧ (∀ a ∈ tb2.inorder, a < g2.brk) ∧
        (tb2.inorder.length : Int) = tb.inorder.length + max (pool_size - s) 0 ∧
        g2.Tokens = g.Tokens ∧ g2.Elapsed = g.Elapsed ∧ g2.MinIFG = g.MinIFG ∧
        g2.NextPacket = g.NextPacket := by
  intro fuel
  induction fuel with
  | zero => intro g s tb _ _ _ h0; omega
  | succ f ih =>
    intro g s tb h hlt hfuel _
    by_cases hs : s < pool_size
    · obtain ⟨g1, hg1⟩ : ∃ g1 : PacketGenerator L, g1 =
        { g with
            brk := g.brk + 1,
            streams := Stream.new g.streams g.brk (div load pool_size) (rnd g.brk) } :=
        ⟨_, rfl⟩
      have hfresh : g.brk ∉ tb.inorder ++ Shape.nil.inorder := by
        simp only [Shape.inorder, List.append_nil]
        intro hm
        exact absurd (hlt _ hm) (lt_irrefl _)
      have h1 : GenInv g1 tb Shape.nil := by
        refine h.frame (by rw [hg1]) (by rw [hg1]) (by rw [hg1]) (by rw [hg1]) ?_
        intro y hy
        rw [hg1]
        exact stream_new_node _ _ _ _ _ (fun e => hfresh (e ▸ hy))
      obtain ⟨m2, e2, h2, _⟩ := h1.addBusy hfresh
      have hf2 := setPool_fields g1 g1.BusyPool
        (AVLTree.mk ((tb.insert (fun z => (g1.streams.node z).NodeKey) g.brk).root)
          ((tb.insert (fun z => (g1.streams.node z).NodeKey) g.brk).inorder.length : Int)) m2
      obtain ⟨g2, hg2⟩ : ∃ g2, g2 = g1.setPool g1.BusyPool
        (AVLTree.mk ((tb.insert (fun z => (g1.streams.node z).NodeKey) g.brk).root)
          ((tb.insert (fun z => (g1.streams.node z).NodeKey) g.brk).inorder.length : Int)) m2 :=
        ⟨_, rfl⟩
      rw [← hg2] at e2 h2 hf2
      have hbrk2 : g2.brk = g.brk + 1 := by rw [hf2.2.2.2.2.2.2.2.2, hg1]
      have hlt2 : ∀ a ∈ (tb.insert (fun z => (g1.streams.node z).NodeKey) g.brk).inorder,
          a < g2.brk := by
        intro a ha
        rw [hbrk2]
        rcases (Shape.mem_inorder_insert _ _ _ _).1 ha with e | hm
        · omega
        · have := hlt a hm
          omega
      obtain ⟨g3, tb3, e3, h3, hlt3, hlen3, r1, r2, r3, r4⟩ :=
        ih g2 (s + 1) _ h2 hlt2 (by push_cast at hfuel; omega) (by push_cast at hfuel; omega)
      refine ⟨g3, tb3, ?_, h3, hlt3, ?_, ?_, ?_, ?_, ?_⟩
      · have e2b : g1.AddStream (some g.brk) = some g2 := e2
        rw [hg1] at e2b
        simp only [PacketGenerator.newLoop, hs, if_true, e2b]
        exact e3
      · rw [hlen3, (Shape.inorder_insert_perm _ _ _).length_eq]
        simp only [List.length_cons]
        push_cast
        omega
      · rw [r1, hf2.2.2.1, hg1]
      · rw [r2, hf2.2.2.2.1, hg1]
      · rw [r3, hf2.2.2.2.2.1, hg1]
      · rw [r4, hf2.2.2.2.2.2.1, hg1]
    · refine ⟨g, tb, ?_, h, hlt, ?_, rfl, rfl, rfl, rfl⟩
      · simp only [PacketGenerator.newLoop, hs, if_false]
      · omega

/-- The second constructor of the generator returns a generator whose busy pool holds
`pool_size` streams and whose idle pool is empty, with no tokens and no elapsed time. -/
theorem generator_new_spec {L : Type} (div : L → Int → L) (streams : StreamHeap L)
    (source_id inter_packet_gap first_size pool_size : Int) (load : L)
    (rnd : Nat → ResetDraws) :
    ∃ g tb, PacketGenerator.new div streams source_id inter_packet_gap first_size pool_size
        load rnd = some g ∧
      GenInv g tb Shape.nil ∧ (tb.inorder.length : Int) = max pool_size 0 ∧ g.Tokens = 0 ∧
      g.Elapsed = 0 ∧ g.MinIFG = inter_packet_gap ∧ g.NextPacket.PcktSize = first_size := by
  have h0 : GenInv (PacketGenerator.mk streams 0 AVLTree.new AVLTree.new PoolRef.Pool1
      PoolRef.Pool2 ⟨source_id, first_size, wrapU32 (wrap32 (first_size + inter_packet_gap))⟩
      0 inter_packet_gap 0 : PacketGenerator L) Shape.nil Shape.nil :=
    ⟨trivial, trivial, rfl, rfl, rfl, rfl, by simp [Shape.inorder],
      fun e => PoolRef.noConfusion e⟩
  obtain ⟨g2, tb2, e, h2, _, hlen, r1, r2, r3, r4⟩ :=
    newLoop_spec div load pool_size rnd (pool_size.toNat + 1) _ 0 Shape.nil h0
      (by simp [Shape.inorder]) (by push_cast; omega) (by omega)
  refine ⟨g2, tb2, e, h2, ?_, r1, r2, r3, by rw [r4]⟩
  rw [hlen]
  simp [Shape.inorder]

/-! ## Claims about the statistics -/

theorem samples_cnt (l : List (ℚ × ℚ)) :
    ∀ s : Stats, (s.samples l)._Cnt = s._Cnt + (l.map (fun p => p.2)).sum := by
  induction l with
  | nil => intro s; simp [Stats.samples]
  | cons p l ih =>
    intro s
    have := ih (s.Sample p.1 p.2)
    simp only [Stats.samples, List.foldl_cons, List.map_cons, List.sum_cons] at this ⊢
    rw [this]
    simp only [Stats.Sample]
    ring

theorem samples_tot (l : List (ℚ × ℚ)) :
    ∀ s : Stats, (s.samples l)._Tot = s._Tot + (l.map (fun p => p.1 * p.2)).sum := by
  induction l with
  | nil => intro s; simp [Stats.samples]
  | cons p l ih =>
    intro s
    have := ih (s.Sample p.1 p.2)
    simp only [Stats.samples, List.foldl_cons, List.map_cons, List.sum_cons] at this ⊢
    rw [this]
    simp only [Stats.Sample]
    ring

/-- C27: for every sequence of calls `Sample( x_i, w_i )` on a cleared `Stats` object, in exact
arithmetic, `GetCount()` is the total weight `W`; `GetAvg()` always returns a number: it never
divides by zero; when `W ≠ 0` it is the quotient `_Tot / _Cnt` and `GetAvg() * GetCount()` is
the weighted sum of the samples; when `W = 0`, in particular on a cleared object, it is `0`,
and it is not the result of the division `_Tot / _Cnt`, which yields no number there. -/
theorem C27_weighted_average (l : List (ℚ × ℚ)) :
    (Stats.Clear.samples l).GetCount = (l.map (fun p => p.2)).sum ∧
    (∃ a, (Stats.Clear.samples l).GetAvg = some a) ∧
    ((l.map (fun p => p.2)).sum ≠ 0 →
      ∃ a, (Stats.Clear.samples l).GetAvg = some a ∧
        Stats.quot (Stats.Clear.samples l)._Tot (Stats.Clear.samples l)._Cnt = some a ∧
        a * (Stats.Clear.samples l).GetCount = (l.map (fun p => p.1 * p.2)).sum) ∧
    ((l.map (fun p => p.2)).sum = 0 →
      (Stats.Clear.samples l).GetAvg = some 0 ∧
        Stats.quot (Stats.Clear.samples l)._Tot (Stats.Clear.samples l)._Cnt = none) ∧
    Stats.Clear.GetAvg = some 0 ∧ Stats.quot Stats.Clear._Tot Stats.Clear._Cnt = none := by
  have hc : (Stats.Clear.samples l)._Cnt = (l.map (fun p => p.2)).sum := by
    rw [samples_cnt]
    simp [Stats.Clear]
  have ht : (Stats.Clear.samples l)._Tot = (l.map (fun p => p.1 * p.2)).sum := by
    rw [samples_tot]
    simp [Stats.Clear]
  refine ⟨hc, ?_, ?_, ?_, ?_, ?_⟩
  · unfold Stats.GetAvg Stats.quot
    by_cases hW : (Stats.Clear.samples l)._Cnt = 0
    · exact ⟨0, by simp [hW]⟩
    · exact ⟨(Stats.Clear.samples l)._Tot / (Stats.Clear.samples l)._Cnt, by simp [hW]⟩
  · intro hW
    refine ⟨(l.map (fun p => p.1 * p.2)).sum / (l.map (fun p => p.2)).sum, ?_, ?_, ?_⟩
    · unfold Stats.GetAvg Stats.quot
      rw [hc, ht, if_pos hW, if_neg hW]
    · unfold Stats.quot
      rw [hc, ht, if_neg hW]
    · unfold Stats.GetCount
      rw [hc]
      field_simp
  · intro hW
    unfold Stats.GetAvg Stats.quot
    rw [hc, if_neg (not_not.2 hW), if_pos hW]
    exact ⟨rfl, rfl⟩
  · simp [Stats.GetAvg, Stats.Clear]
  · simp [Stats.quot, Stats.Clear]

theorem C27_weighted_average_witness :
    (∃ a, (Stats.Clear.samples [(3, 2), (5, 1)]).GetAvg = some a ∧
      Stats.quot (Stats.Clear.samples [(3, 2), (5, 1)])._Tot
        (Stats.Clear.samples [(3, 2), (5, 1)])._Cnt = some a ∧
      a * (Stats.Clear.samples [(3, 2), (5, 1)]).GetCount = 11) ∧
    ((Stats.Clear.samples [(3, 1), (5, -1)]).GetAvg = some 0 ∧
      Stats.quot (Stats.Clear.samples [(3, 1), (5, -1)])._Tot
        (Stats.Clear.samples [(3, 1), (5, -1)])._Cnt = none) := by
  refine ⟨?_, (C27_weighted_average [(3, 1), (5, -1)]).2.2.2.1 (by norm_num)⟩
  obtain ⟨a, h1, h2, h3⟩ := (C27_weighted_average [(3, 2), (5, 1)]).2.2.1 (by norm_num)
  refine ⟨a, h1, h2, ?_⟩
  rw [h3]
  norm_num

/-! ## Claims about the clocks -/

theorem reachable_qFarTree : Reachable heap0 qFarTree :=
  Reachable.call (Call.op (Op.RegisterEvent (some 0) 17592186044416)) reachable_qAlloc
    (by decide) rfl

theorem reachable_qFar : Reachable heap0 qFar :=
  Reachable.call (Call.op Op.GetNextEvent) reachable_qFarTree (by decide) rfl

/-- C26 fails for large time values: in the reachable state `qFar`, whose current time is
`2 ^ 44`, the product `2 ^ 44 * 1000000` does not fit `int64s`, and the local time of a `CClock`
with drift `0` and offset `0` differs from the local time of the `CClockSync` with offset `0`. -/
theorem C26_clock_sync_counterexample :
    Reachable heap0 qFar ∧ qFar.eqCurrentTime = 2 ^ 44 ∧
    (CClock.new 1 0 0).clockDrift = DRIFT_PERIOD ∧
    (CClock.new 1 0 0).timeOffset = (CClockSync.mk 1 0 0).timeOffset ∧
    (CClock.new 1 0 0).LocalTime qFar = -854558029293 ∧
    (CClockSync.mk 1 0 0).LocalTime qFar = 17592186044416 ∧
    (CClock.new 1 0 0).LocalTime qFar ≠ (CClockSync.mk 1 0 0).LocalTime qFar :=
  ⟨reachable_qFar, by decide, by decide, by decide, by decide, by decide, by decide⟩

theorem tdiv_fits64 {x d : Int} (hd : 0 < d) (hx : fits64 x) : fits64 (x.tdiv d) := by
  unfold fits64 at hx ⊢
  rcases le_or_lt 0 x with h0 | h0
  · rw [Int.tdiv_eq_ediv h0 (le_of_lt hd)]
    have h1 := Int.ediv_le_self d h0
    have h2 := Int.ediv_nonneg h0 (le_of_lt hd)
    omega
  · have hy : 0 ≤ -x := by omega
    have e : x.tdiv d = -((-x).tdiv d) := by rw [Int.neg_tdiv]; omega
    rw [e, Int.tdiv_eq_ediv hy (le_of_lt hd)]
    have h1 := Int.ediv_le_self d hy
    have h2 := Int.ediv_nonneg hy (le_of_lt hd)
    omega

/-- C26 amended: for every `int16s` drift the divisor `clockDrift = DRIFT_PERIOD + drift` is
not `0`, and the conversions of `CClock` are those of the specification whenever the product
they form fits `int64s`.  With drift `0` (`clockDrift = DRIFT_PERIOD`), for every global time
and every interval `i` whose product with `DRIFT_PERIOD` fits `int64s`, the clock agrees with
the `CClockSync` of the same offset: `LocalTime()`, the offset set by `LocalTime( t )`, the `LocalTime()` that follows, and
the interval and the result of `RegisterEvent` are the same. -/
theorem C26_clock_sync_amended (this : Nat) (id drift offset t i : Int) (q : CEventQueue)
    (ptr : Ptr) (hd1 : -(2 ^ 15) ≤ drift) (hd2 : drift < 2 ^ 15) :
    (CClock.new this drift id).clockDrift = DRIFT_PERIOD + drift ∧
    (CClock.new this drift id).clockDrift ≠ 0 ∧
    (∀ g, fits64 (g * (DRIFT_PERIOD + drift)) →
      (CClock.new this drift id).global_to_local g = spec_global_to_local drift g) ∧
    (∀ l, fits64 (l * DRIFT_PERIOD) →
      (CClock.new this drift id).local_to_global l = some (spec_local_to_global drift l)) ∧
    (fits64 (q.eqCurrentTime * DRIFT_PERIOD) → fits64 (i * DRIFT_PERIOD) →
      (CClock.mk this id offset DRIFT_PERIOD).LocalTime q
        = (CClockSync.mk this id offset).LocalTime q ∧
      ((CClock.mk this id offset DRIFT_PERIOD).setLocalTime q t).timeOffset
        = CClockSync.setLocalTime q t ∧
      ((CClock.mk this id offset DRIFT_PERIOD).setLocalTime q t).LocalTime q
        = (CClockSync.mk this id (CClockSync.setLocalTime q t)).LocalTime q ∧
      (CClock.mk this id offset DRIFT_PERIOD).local_to_global i = some i ∧
      (CClock.mk this id offset DRIFT_PERIOD).RegisterEvent q ptr i
        = (CClockSync.mk this id offset).RegisterEvent q ptr i) := by
  have hcd : (CClock.new this drift id).clockDrift = DRIFT_PERIOD + drift := by
    show wrap32 (drift + DRIFT_PERIOD) = DRIFT_PERIOD + drift
    rw [wrap32_eq (by unfold fits32 DRIFT_PERIOD; omega)]
    ring
  have hpos : 0 < DRIFT_PERIOD + drift := by unfold DRIFT_PERIOD; omega
  have hP : (0 : Int) < DRIFT_PERIOD := by unfold DRIFT_PERIOD; omega
  have hnow : fits64 (q.eqCurrentTime * DRIFT_PERIOD) →
      ∀ o : Int, (CClock.mk this id o DRIFT_PERIOD).global_to_local_now q = q.eqCurrentTime := by
    intro hg o
    show wrap64 (Int.tdiv (wrap64 (q.eqCurrentTime * DRIFT_PERIOD)) DRIFT_PERIOD) = _
    rw [wrap64_fits hg, Int.mul_tdiv_cancel _ (ne_of_gt hP)]
    apply wrap64_fits
    unfold fits64 DRIFT_PERIOD at *
    omega
  refine ⟨hcd, ?_, ?_, ?_, ?_⟩
  · rw [hcd]; exact ne_of_gt hpos
  · intro g hg
    show wrap64 (Int.tdiv (wrap64 (g * (CClock.new this drift id).clockDrift)) DRIFT_PERIOD) = _
    rw [hcd, wrap64_fits hg, wrap64_fits (tdiv_fits64 hP hg)]
    rfl
  · intro l hl
    unfold CClock.local_to_global
    rw [hcd, if_neg (ne_of_gt hpos), wrap64_fits hl, wrap64_fits (tdiv_fits64 hpos hl)]
    rfl
  · intro hg hi
    have hl2g : (CClock.mk this id offset DRIFT_PERIOD).local_to_global i = some i := by
      unfold CClock.local_to_global
      simp only []
      rw [if_neg (ne_of_gt hP), wrap64_fits hi, Int.mul_tdiv_cancel _ (ne_of_gt hP)]
      congr 1
      apply wrap64_fits
      unfold fits64 DRIFT_PERIOD at *
      omega
    refine ⟨?_, ?_, ?_, hl2g, ?_⟩
    · unfold CClock.LocalTime CClockSync.LocalTime
      rw [hnow hg]
      rfl
    · unfold CClock.setLocalTime CClockSync.setLocalTime
      simp only []
      rw [hnow hg]
      rfl
    · unfold CClock.setLocalTime CClock.LocalTime CClockSync.LocalTime
      simp only []
      rw [hnow hg, hnow hg]
      rfl
    · unfold CClock.RegisterEvent CClockSync.RegisterEvent
      rw [hl2g]

theorem C26_clock_sync_amended_witness :
    (CClock.new 1 0 0).clockDrift = DRIFT_PERIOD + 0 ∧
    (CClock.new 1 0 0).clockDrift ≠ 0 ∧
    (∀ g, fits64 (g * (DRIFT_PERIOD + 0)) →
      (CClock.new 1 0 0).global_to_local g = spec_global_to_local 0 g) ∧
    (∀ l, fits64 (l * DRIFT_PERIOD) →
      (CClock.new 1 0 0).local_to_global l = some (spec_local_to_global 0 l)) ∧
    (fits64 (qTree.eqCurrentTime * DRIFT_PERIOD) → fits64 (7 * DRIFT_PERIOD) →
      (CClock.mk 1 0 5 DRIFT_PERIOD).LocalTime qTree = (CClockSync.mk 1 0 5).LocalTime qTree ∧
      ((CClock.mk 1 0 5 DRIFT_PERIOD).setLocalTime qTree 100).timeOffset
        = CClockSync.setLocalTime qTree 100 ∧
      ((CClock.mk 1 0 5 DRIFT_PERIOD).setLocalTime qTree 100).LocalTime qTree
        = (CClockSync.mk 1 0 (CClockSync.setLocalTime qTree 100)).LocalTime qTree ∧
      (CClock.mk 1 0 5 DRIFT_PERIOD).local_to_global 7 = some 7 ∧
      (CClock.mk 1 0 5 DRIFT_PERIOD).RegisterEvent qTree (some 0) 7
        = (CClockSync.mk 1 0 5).RegisterEvent qTree (some 0) 7) :=
  C26_clock_sync_amended 1 0 0 5 100 7 qTree (some 0) (by decide) (by decide)

/-! ## Claims about the links -/

theorem reachable_qFromOnu : Reachable heap0 qFromOnu :=
  Reachable.call (Call.op (Op.Write 0 eventFromOnu)) reachable_qAlloc (by decide) rfl

theorem reachable_rFromOnu : Reachable heap0 rFromOnu :=
  Reachable.call (Call.op (Op.Write 0 eventFromOnu)) reachable_qRun (by decide) rfl

/-- C24: a `BiDirLink` handling a dispatched (detached) event `p` in a reachable state, the
delay being an `int64s` value that does not overflow the time: `ProcessEvent` returns; the
consumer of `p` becomes the object on port `1` when the producer was the object on port `0`,
and the object on port `0` otherwise; the event is registered by the call
`RegisterEvent( p, Delay, this )`, so its activation time is the current time plus the delay
(plus `0` for a negative delay) and it is no longer detached; its type and payload are kept.
Hence, when the two ports hold distinct objects, an event produced by either of them goes to
the other one and not back to its producer. -/
theorem C24_bidir_link (heap : Mem) (q : CEventQueue) (h : Reachable heap q) (l : BiDirLink)
    (p : Nat) (hb : p < q.brk) (ha : CEventQueue.IsActive q.mem p = true)
    (hi : -(2 ^ 63) ≤ l.Delay) (ho : q.eqCurrentTime + max l.Delay 0 ≤ INT64_MAX) :
    ∃ q2, l.ProcessEvent q p = some q2 ∧
      l.ProcessEvent q p = DESL.RegisterEvent
        (q.modify p (fun e =>
          { e with Consumer := l.OutPort (if e.Producer = l.OutPort 0 then 1 else 0) }))
        (some p) l.Delay (some l.this) ∧
      (q2.mem p).Consumer
        = (if (q.mem p).Producer = l.OutPort 0 then l.OutPort 1 else l.OutPort 0) ∧
      (q2.mem p).Producer = some l.this ∧
      (q2.mem p).NodeKey = q.eqCurrentTime + max l.Delay 0 ∧
      CEventQueue.IsActive q2.mem p = false ∧
      (q2.mem p).Type_ = (q.mem p).Type_ ∧ (q2.mem p).Pckt = (q.mem p).Pckt ∧
      (q2.mem p).GATE = (q.mem p).GATE ∧ (q2.mem p).RPRT = (q.mem p).RPRT ∧
      (∀ x, x ≠ p → (q2.mem x).data = (q.mem x).data) ∧
      (l.OutPort 0 ≠ l.OutPort 1 →
        ((q.mem p).Producer = l.OutPort 0 → (q2.mem p).Consumer = l.OutPort 1 ∧
          (q2.mem p).Consumer ≠ (q.mem p).Producer) ∧
        ((q.mem p).Producer = l.OutPort 1 → (q2.mem p).Consumer = l.OutPort 0 ∧
          (q2.mem p).Consumer ≠ (q.mem p).Producer)) := by
  obtain ⟨t, top, pool, hinv⟩ := reachable_inv h
  have hf : PublicOnly (fun e : CEvent =>
      { e with Consumer := l.OutPort (if e.Producer = l.OutPort 0 then 1 else 0) }) :=
    fun e => ⟨rfl, rfl, rfl, rfl, rfl⟩
  obtain ⟨g, hgdef⟩ : ∃ g : CEventQueue, g = q.modify p (fun e =>
      { e with Consumer := l.OutPort (if e.Producer = l.OutPort 0 then 1 else 0) }) := ⟨_, rfl⟩
  have hg : QueueInv g t top pool := by rw [hgdef]; exact hinv.modify_public p hf
  have hag : CEventQueue.IsActive g.mem p = true := by
    rw [hgdef, isActive_modify q p p hf]; exact ha
  have hgt : g.eqCurrentTime = q.eqCurrentTime := by rw [hgdef]; rfl
  have hgb : g.brk = q.brk := by rw [hgdef]; rfl
  have hgp : g.mem p = { q.mem p with
      Consumer := l.OutPort (if (q.mem p).Producer = l.OutPort 0 then 1 else 0) } := by
    rw [hgdef]; exact modify_mem_same q p _
  have hgx : ∀ x, x ≠ p → g.mem x = q.mem x := by
    intro x hx; rw [hgdef]; exact modify_mem_other q _ hx
  obtain ⟨q2, e, _, _, _, hk, hprod, hty, hpk, hgate, hrp, hcons, hd, h0, h1⟩ :=
    desl_registerEvent_spec hg (by rw [hgb]; exact hb) hag hi
      (by rw [hgt, ← max_zero_eq]; exact ho) (some l.this)
  have hcons2 : (q2.mem p).Consumer
      = (if (q.mem p).Producer = l.OutPort 0 then l.OutPort 1 else l.OutPort 0) := by
    rw [hcons, hgp]
    show l.OutPort (if (q.mem p).Producer = l.OutPort 0 then 1 else 0) = _
    split_ifs <;> rfl
  have hreg : l.ProcessEvent q p = some q2 := by
    rw [← e, hgdef]; rfl
  have hina : CEventQueue.IsActive q2.mem p = false := by
    by_cases hz : (if l.Delay < 0 then 0 else l.Delay) = 0
    · exact (h0 hz).1.not_active (by simp)
    · exact (h1 hz).1.not_active (by simp [Shape.mem_inorder_insert])
  refine ⟨q2, hreg, by rw [hgdef] at e; rw [hreg, e], hcons2, hprod, ?_, hina, ?_, ?_, ?_, ?_,
    ?_, ?_⟩
  · rw [hk, hgt, max_zero_eq]
  · rw [hty, hgp]
  · rw [hpk, hgp]
  · rw [hgate, hgp]
  · rw [hrp, hgp]
  · intro x hx
    rw [hd x hx, hgx x hx]
  · intro hne
    rw [hcons2]
    constructor
    · intro hp
      rw [if_pos hp, hp]
      exact ⟨rfl, fun e => hne e.symm⟩
    · intro hp
      have : ¬ (q.mem p).Producer = l.OutPort 0 := by rw [hp]; exact fun e => hne e.symm
      rw [if_neg this, hp]
      exact ⟨rfl, hne⟩

theorem C24_bidir_link_witness :
    ∃ q2, lnk0.ProcessEvent rFromOnu 0 = some q2 ∧
      lnk0.ProcessEvent rFromOnu 0 = DESL.RegisterEvent
        (rFromOnu.modify 0 (fun e =>
          { e with Consumer := lnk0.OutPort (if e.Producer = lnk0.OutPort 0 then 1 else 0) }))
        (some 0) lnk0.Delay (some lnk0.this) ∧
      (q2.mem 0).Consumer
        = (if (rFromOnu.mem 0).Producer = lnk0.OutPort 0 then lnk0.OutPort 1
          else lnk0.OutPort 0) ∧
      (q2.mem 0).Producer = some lnk0.this ∧
      (q2.mem 0).NodeKey = rFromOnu.eqCurrentTime + max lnk0.Delay 0 ∧
      CEventQueue.IsActive q2.mem 0 = false ∧
      (q2.mem 0).Type_ = (rFromOnu.mem 0).Type_ ∧ (q2.mem 0).Pckt = (rFromOnu.mem 0).Pckt ∧
      (q2.mem 0).GATE = (rFromOnu.mem 0).GATE ∧ (q2.mem 0).RPRT = (rFromOnu.mem 0).RPRT ∧
      (∀ x, x ≠ 0 → (q2.mem x).data = (rFromOnu.mem x).data) ∧
      (lnk0.OutPort 0 ≠ lnk0.OutPort 1 →
        ((rFromOnu.mem 0).Producer = lnk0.OutPort 0 → (q2.mem 0).Consumer = lnk0.OutPort 1 ∧
          (q2.mem 0).Consumer ≠ (rFromOnu.mem 0).Producer) ∧
        ((rFromOnu.mem 0).Producer = lnk0.OutPort 1 → (q2.mem 0).Consumer = lnk0.OutPort 0 ∧
          (q2.mem 0).Consumer ≠ (rFromOnu.mem 0).Producer)) :=
  C24_bidir_link heap0 rFromOnu reachable_rFromOnu lnk0 0 (by decide) (by decide) (by decide)
    (by decide)

theorem lossLessLink_spec {q : CEventQueue} {t : Shape} {top pool : List Nat}
    (h : QueueInv q t top pool) (l : LossLessLink) {p : Nat} (hb : p < q.brk)
    (ha : CEventQueue.IsActive q.mem p = true) (hi : -(2 ^ 63) ≤ l.Delay)
    (ho : q.eqCurrentTime + max l.Delay 0 ≤ INT64_MAX) :
    ∃ q2, l.ProcessEvent q p = some q2 ∧ (q2.mem p).Consumer = l.OutPort ∧
      (q2.mem p).Producer = some l.this ∧
      (q2.mem p).NodeKey = q.eqCurrentTime + max l.Delay 0 ∧
      CEventQueue.IsActive q2.mem p = false := by
  have hf : PublicOnly (fun e : CEvent => { e with Consumer := l.OutPort }) :=
    fun e => ⟨rfl, rfl, rfl, rfl, rfl⟩
  obtain ⟨g, hgdef⟩ : ∃ g : CEventQueue,
      g = q.modify p (fun e => { e with Consumer := l.OutPort }) := ⟨_, rfl⟩
  have hg : QueueInv g t top pool := by rw [hgdef]; exact h.modify_public p hf
  have hag : CEventQueue.IsActive g.mem p = true := by
    rw [hgdef, isActive_modify q p p hf]; exact ha
  have hgt : g.eqCurrentTime = q.eqCurrentTime := by rw [hgdef]; rfl
  have hgb : g.brk = q.brk := by rw [hgdef]; rfl
  have hgp : g.mem p = { q.mem p with Consumer := l.OutPort } := by
    rw [hgdef]; exact modify_mem_same q p _
  obtain ⟨q2, e, _, _, _, hk, hprod, _, _, _, _, hcons, _, h0, h1⟩ :=
    desl_registerEvent_spec hg (by rw [hgb]; exact hb) hag hi
      (by rw [hgt, ← max_zero_eq]; exact ho) (some l.this)
  refine ⟨q2, by rw [← e, hgdef]; rfl, by rw [hcons, hgp], hprod,
    by rw [hk, hgt, max_zero_eq], ?_⟩
  by_cases hz : (if l.Delay < 0 then 0 else l.Delay) = 0
  · exact (h0 hz).1.not_active (by simp)
  · exact (h1 hz).1.not_active (by simp [Shape.mem_inorder_insert])

/-- C25 fails at the draw `0`: the test of `LossyLink::ProcessEvent` is
`_uniform_real_0_1() > LossProb`, and `0 > 0` is false.  With loss probability `0` and the
draw `0`, which lies in `[0, 1]`, the lossy link leaves the event of `qFromOnu` detached and
the queue unchanged, whereas `LossLessLink::ProcessEvent` redirects the event to the output
port and registers it. -/
theorem C25_lossy_link_counterexample :
    lossy0.LossProb = 0 ∧ (0 : ℚ) ≤ 0 ∧ (0 : ℚ) ≤ 1 ∧
    lossy0.ProcessEvent 0 qFromOnu 0 = some qFromOnu ∧
    CEventQueue.IsActive qFromOnu.mem 0 = true ∧
    (qFromOnu.mem 0).Consumer = some 20 ∧
    ∃ q2, lossy0.toLossLessLink.ProcessEvent qFromOnu 0 = some q2 ∧
      CEventQueue.IsActive q2.mem 0 = false ∧ (q2.mem 0).Consumer = some 9 :=
  ⟨rfl, le_refl _, zero_le_one, rfl, by decide, by decide, _, rfl, by decide, by decide⟩

/-- C25 amended: a `LossyLink` with loss probability `0` handles an event exactly as
`LossLessLink` does for every draw `u > 0`: in a reachable state, for a detached
event `p`, the consumer becomes the output port and the event is registered with the delay;
for the draw `u = 0` it does nothing, and the event stays detached. -/
theorem C25_lossy_link_amended (heap : Mem) (q : CEventQueue) (h : Reachable heap q)
    (l : LossyLink) (p : Nat) (u : ℚ) (hl : l.LossProb = 0)
    (hb : p < q.brk) (ha : CEventQueue.IsActive q.mem p = true) (hi : -(2 ^ 63) ≤ l.Delay)
    (ho : q.eqCurrentTime + max l.Delay 0 ≤ INT64_MAX) :
    (0 < u → l.ProcessEvent u q p = l.toLossLessLink.ProcessEvent q p ∧
      ∃ q2, l.ProcessEvent u q p = some q2 ∧ (q2.mem p).Consumer = l.OutPort ∧
        (q2.mem p).Producer = some l.this ∧
        (q2.mem p).NodeKey = q.eqCurrentTime + max l.Delay 0 ∧
        CEventQueue.IsActive q2.mem p = false) ∧
    (u = 0 → l.ProcessEvent u q p = some q) := by
  obtain ⟨t, top, pool, hinv⟩ := reachable_inv h
  constructor
  · intro hpos
    have e : l.ProcessEvent u q p = l.toLossLessLink.ProcessEvent q p := by
      unfold LossyLink.ProcessEvent
      rw [hl, if_pos hpos]
    refine ⟨e, ?_⟩
    rw [e]
    exact lossLessLink_spec hinv l.toLossLessLink hb ha hi ho
  · intro hz
    unfold LossyLink.ProcessEvent
    rw [hl, hz, if_neg (lt_irrefl _)]

theorem C25_lossy_link_amended_witness :
    ((0 : ℚ) < 1 / 2 →
      lossy0.ProcessEvent (1 / 2) rFromOnu 0 = lossy0.toLossLessLink.ProcessEvent rFromOnu 0 ∧
      ∃ q2, lossy0.ProcessEvent (1 / 2) rFromOnu 0 = some q2 ∧
        (q2.mem 0).Consumer = lossy0.OutPort ∧
        (q2.mem 0).Producer = some lossy0.this ∧
        (q2.mem 0).NodeKey = rFromOnu.eqCurrentTime + max lossy0.Delay 0 ∧
        CEventQueue.IsActive q2.mem 0 = false) ∧
    ((1 / 2 : ℚ) = 0 → lossy0.ProcessEvent (1 / 2) rFromOnu 0 = some rFromOnu) :=
  C25_lossy_link_amended heap0 rFromOnu reachable_rFromOnu lossy0 0 (1 / 2) rfl (by decide)
    (by decide) (by decide) (by decide)

/-! ## Claims about registering and allocating events -/

theorem modify_self (q : CEventQueue) (a : Nat) {f : CEvent → CEvent}
    (hf : f (q.mem a) = q.mem a) : q.modify a f = q := by
  have hm : q.mem.set a (f (q.mem a)) = q.mem := by
    funext x
    by_cases hx : x = a
    · subst hx; simp [Mem.set, hf]
    · simp [Mem.set, hx]
  unfold CEventQueue.modify
  rw [hm]

theorem reachable_qRecycled : Reachable heap0 qRecycled :=
  Reachable.call (Call.op (Op.DestroyEvent (some 0))) reachable_qFromOnu (by decide) rfl

theorem reachable_rRecycled : Reachable heap0 rRecycled :=
  Reachable.call (Call.op (Op.DestroyEvent (some 0))) reachable_rFromOnu (by decide) rfl

/-- C21 fails for the producer: `DESL_environment::RegisterEvent` assigns `ptr->Producer`
before it calls `CEventQueue::RegisterEvent`, outside the test for a detached event.  In
`qTop` record `0` is on the top-events stack with no producer; registering it again with the
producer `9` changes its producer. -/
theorem C21_double_register_counterexample :
    qTop.eqTopEvents.pTop = some 0 ∧ CEventQueue.IsActive qTop.mem 0 = false ∧
    (qTop.mem 0).Producer = none ∧
    ∃ q2, DESL.RegisterEvent qTop (some 0) 5 (some 9) = some q2 ∧
      (q2.mem 0).Producer = some 9 :=
  ⟨by decide, by decide, by decide, _, rfl, by decide⟩

/-- C21 amended: in every reachable state a constructed record is not detached exactly when
it is in the ordered queue, on the top-events stack or in the free pool; for such a record
`CEventQueue::RegisterEvent` leaves the whole state unchanged, and the static
`DESL_environment::RegisterEvent` changes nothing but the producer of the record, which it
overwrites with its argument (so the state is unchanged when the argument is the producer
already stored). -/
theorem C21_double_register_amended (heap : Mem) (q : CEventQueue) (h : Reachable heap q) :
    ∃ t top pool, QueueInv q t top pool ∧
      (∀ a, a < q.brk →
        (CEventQueue.IsActive q.mem a = false ↔ a ∈ t.inorder ++ top ++ pool)) ∧
      ∀ a ∈ t.inorder ++ top ++ pool, ∀ (i : Int) (producer : Ptr),
        q.RegisterEvent (some a) i = some q ∧
        DESL.RegisterEvent q (some a) i producer
          = some (q.modify a (fun e => { e with Producer := producer })) ∧
        (producer = (q.mem a).Producer → DESL.RegisterEvent q (some a) i producer = some q) := by
  obtain ⟨t, top, pool, hinv⟩ := reachable_inv h
  refine ⟨t, top, pool, hinv, ?_, ?_⟩
  · intro a hb
    constructor
    · intro hf
      by_contra hn
      have := hinv.owned.active a hb hn
      rw [hf] at this
      exact Bool.noConfusion this
    · intro hm
      exact hinv.not_active hm
  · intro a ha i producer
    have hna := hinv.not_active ha
    have hf : PublicOnly (fun e : CEvent => { e with Producer := producer }) :=
      fun e => ⟨rfl, rfl, rfl, rfl, rfl⟩
    have e2 : DESL.RegisterEvent q (some a) i producer
        = some (q.modify a (fun e => { e with Producer := producer })) := by
      show CEventQueue.RegisterEvent (q.modify a (fun e => { e with Producer := producer }))
        (some a) i = _
      exact registerEvent_inactive i (by rw [isActive_modify q a a hf]; exact hna)
    refine ⟨registerEvent_inactive i hna, e2, ?_⟩
    intro hp
    rw [e2, modify_self q a (by rw [hp])]

/-- The witness of C21 amended is the state `rTop` of the running simulation, in which
record `0` is on the top-events stack, record `2` in the ordered queue and record `1` in the
free pool: none of them is detached, `CEventQueue::RegisterEvent` of each of them changes
nothing, and the static `RegisterEvent` changes their producer only. -/
theorem C21_double_register_amended_witness :
    rTop.eqTopEvents.pTop = some 0 ∧ rTop.tree.pRoot = some 2 ∧
    rTop.eqEventPool.pTop = some 1 ∧
    ∀ a ∈ [0, 2, 1], CEventQueue.IsActive rTop.mem a = false ∧
      ∀ (i : Int) (producer : Ptr),
        rTop.RegisterEvent (some a) i = some rTop ∧
        DESL.RegisterEvent rTop (some a) i producer
          = some (rTop.modify a (fun e => { e with Producer := producer })) ∧
        (producer = (rTop.mem a).Producer →
          DESL.RegisterEvent rTop (some a) i producer = some rTop) := by
  obtain ⟨t, top, pool, -, hiff, hreg⟩ :=
    C21_double_register_amended heap0 rTop reachable_rTop
  refine ⟨by decide, by decide, by decide, ?_⟩
  intro a ha
  have hb : a < rTop.brk := by
    simp only [List.mem_cons, List.mem_singleton, List.not_mem_nil, or_false] at ha
    rcases ha with rfl | rfl | rfl <;> decide
  have hna : CEventQueue.IsActive rTop.mem a = false := by
    simp only [List.mem_cons, List.mem_singleton, List.not_mem_nil, or_false] at ha
    rcases ha with rfl | rfl | rfl <;> decide
  exact ⟨hna, hreg a ((hiff a hb).1 hna)⟩

/-- C22 fails for recycled records: `AllocateEvent` only pops the record from the free pool
and activates it.  In `qRecycled` record `0`, destroyed while it carried a packet event
produced by the object `7` for the object `20`, is in the pool; `AllocateEvent` returns it
with that type, payload, producer and consumer. -/
theorem C22_allocate_zeroed_counterexample :
    Reachable heap0 qRecycled ∧ qRecycled.eqEventPool.pTop = some 0 ∧
    qRecycled.AllocateEvent.2 = some 0 ∧
    CEventQueue.IsActive qRecycled.AllocateEvent.1.mem 0 = true ∧
    (qRecycled.AllocateEvent.1.mem 0).Type_ = EV_PCKT_ARRIVAL ∧
    (qRecycled.AllocateEvent.1.mem 0).Pckt = ⟨0, 100, 0⟩ ∧
    (qRecycled.AllocateEvent.1.mem 0).Producer = some 7 ∧
    (qRecycled.AllocateEvent.1.mem 0).Consumer = some 20 :=
  ⟨reachable_qRecycled, by decide, by decide, by decide, by decide, by decide, by decide,
    by decide⟩

/-- C22 amended: in every reachable state `AllocateEvent` returns a detached record.  When
the free pool is empty the record is newly constructed at the next address: its producer and
consumer are null, and its type and payload are what the memory held (`EventData` has no
constructor).  When the pool is not empty the record is the one on top of the pool, and its
type, payload, producer and consumer (and activation time) are those it had in the pool. -/
theorem C22_allocate_zeroed_amended (heap : Mem) (q : CEventQueue) (h : Reachable heap q) :
    ∃ t top pool, QueueInv q t top pool ∧ ∃ p, q.AllocateEvent.2 = some p ∧
      CEventQueue.IsActive q.AllocateEvent.1.mem p = true ∧
      (pool = [] → p = q.brk ∧ (q.AllocateEvent.1.mem p).Producer = none ∧
        (q.AllocateEvent.1.mem p).Consumer = none ∧
        (q.AllocateEvent.1.mem p).Type_ = (q.mem p).Type_ ∧
        (q.AllocateEvent.1.mem p).Pckt = (q.mem p).Pckt ∧
        (q.AllocateEvent.1.mem p).GATE = (q.mem p).GATE ∧
        (q.AllocateEvent.1.mem p).RPRT = (q.mem p).RPRT) ∧
      (∀ a pool2, pool = a :: pool2 → p = a ∧ a < q.brk ∧
        (q.AllocateEvent.1.mem p).Type_ = (q.mem p).Type_ ∧
        (q.AllocateEvent.1.mem p).Pckt = (q.mem p).Pckt ∧
        (q.AllocateEvent.1.mem p).GATE = (q.mem p).GATE ∧
        (q.AllocateEvent.1.mem p).RPRT = (q.mem p).RPRT ∧
        (q.AllocateEvent.1.mem p).Producer = (q.mem p).Producer ∧
        (q.AllocateEvent.1.mem p).Consumer = (q.mem p).Consumer ∧
        (q.AllocateEvent.1.mem p).NodeKey = (q.mem p).NodeKey) := by
  obtain ⟨t, top, pool, hinv⟩ := reachable_inv h
  obtain ⟨p, pool2, hp, _, hact, _, _, _, hcase, hdata⟩ := allocateEvent_spec hinv
  refine ⟨t, top, pool, hinv, p, hp, hact, ?_, ?_⟩
  · intro hnil
    rcases allocateEvent_eq hinv with ⟨_, e⟩ | ⟨a, pl, hpl, _⟩
    · have hpb : p = q.brk := by
        rw [e] at hp
        exact (Option.some.inj hp).symm
      subst hpb
      rw [e]
      simp [CEventQueue.Activate, CEventQueue.construct, AVL.Initialize, Mem.set]
    · rw [hnil] at hpl
      exact absurd hpl (by simp)
  · intro a pl hpl
    rcases hcase with hc | ⟨hc, _, _⟩
    · rw [hpl] at hc
      have hpa : p = a := by
        have := (List.cons.inj hc).1
        exact this.symm
      have hb : a < q.brk := hinv.owned.alloc a (by rw [hpl]; simp)
      have hd := hdata p (by rw [hpa]; exact hb)
      obtain ⟨d1, d2, d3, d4, d5, d6, d7⟩ := data_fields hd
      exact ⟨hpa, hb, d2, d3, d4, d5, d6, d7, d1⟩
    · rw [hpl] at hc
      exact absurd hc (by simp)

/-- The witness of C22 amended takes two states of the running simulation.  In `rRecycled`
record `0`, destroyed while it carried a packet event produced by the object `7` for the
object `20`, is on top of the free pool: `AllocateEvent` returns it detached with these
fields.  In `rSame` the pool is empty: `AllocateEvent` constructs the record `3`, whose
producer and consumer are null. -/
theorem C22_allocate_zeroed_amended_witness :
    (rRecycled.eqEventPool.pTop = some 0 ∧ rRecycled.AllocateEvent.2 = some 0 ∧
      CEventQueue.IsActive rRecycled.AllocateEvent.1.mem 0 = true ∧
      (rRecycled.AllocateEvent.1.mem 0).Type_ = EV_PCKT_ARRIVAL ∧
      (rRecycled.AllocateEvent.1.mem 0).Pckt = ⟨0, 100, 0⟩ ∧
      (rRecycled.AllocateEvent.1.mem 0).Producer = some 7 ∧
      (rRecycled.AllocateEvent.1.mem 0).Consumer = some 20) ∧
    (rSame.eqEventPool.Count = 0 ∧ rSame.brk = 3 ∧ rSame.AllocateEvent.2 = some 3 ∧
      CEventQueue.IsActive rSame.AllocateEvent.1.mem 3 = true ∧
      (rSame.AllocateEvent.1.mem 3).Producer = none ∧
      (rSame.AllocateEvent.1.mem 3).Consumer = none ∧
      (rSame.AllocateEvent.1.mem 3).Type_ = (rSame.mem 3).Type_ ∧
      (rSame.AllocateEvent.1.mem 3).Pckt = (rSame.mem 3).Pckt) := by
  constructor
  · obtain ⟨t, top, pool, hinv, p, hp, hact, -, hrec⟩ :=
      C22_allocate_zeroed_amended heap0 rRecycled reachable_rRecycled
    have htop : rRecycled.eqEventPool.pTop = some 0 := by decide
    cases pool with
    | nil =>
      have : rRecycled.eqEventPool.pTop = none := hinv.poolS.1
      rw [htop] at this
      exact Option.noConfusion this
    | cons a pool2 =>
      have ha : rRecycled.eqEventPool.pTop = some a := hinv.poolS.1.1
      rw [htop] at ha
      simp only [Option.some.injEq] at ha
      subst ha
      obtain ⟨hp0, -, g1, g2, -, -, g5, g6, -⟩ := hrec _ pool2 rfl
      subst hp0
      exact ⟨htop, hp, hact, g1.trans (by decide), g2.trans (by decide),
        g5.trans (by decide), g6.trans (by decide)⟩
  · obtain ⟨t, top, pool, hinv, p, hp, hact, hnew, -⟩ :=
      C22_allocate_zeroed_amended heap0 rSame reachable_rSame
    have hc : rSame.eqEventPool.Count = 0 := by decide
    have hpool : pool = [] := (hinv.poolS.nil_iff).1 hc
    obtain ⟨hp3, g1, g2, g3, g4, -, -⟩ := hnew hpool
    have hbrk : rSame.brk = 3 := by decide
    rw [hbrk] at hp3
    subst hp3
    exact ⟨hc, hbrk, hp, hact, g1, g2, g3, g4⟩

/-! ## Claims about the reset of the event queue -/

/-- C23: in every state of the engine, before or after earlier calls of `Reset`, with `t` the
ordered queue, `top` the top-events stack and `pool` the free pool, `Reset` returns;
afterwards the free pool holds exactly the records of `t`, `top` and `pool`, each once (no
event is lost or duplicated), its counter has grown by the number of pending events, which
is the number of records in `t` and `top` and is at most `GetCount()`, the ordered queue and
the top-events stack are empty, the current time is `0`, no member of a record other than the
links was written, `GetNextEvent` returns null and changes nothing, and the state is again a
state of the engine.  `DeleteEvents` returns as well and leaves the state left by `Reset`
with the pool emptied, in which a further `Reset` changes nothing. -/
theorem C23_queue_reset (heap : Mem) (q : CEventQueue) (h : Reachable heap q) :
    ∃ t top pool, QueueInv q t top pool ∧ ∃ q2 pool2, q.Reset = some q2 ∧
      StackOf q2.mem q2.eqEventPool pool2 ∧ pool2.Perm (t.inorder ++ top ++ pool) ∧
      pool2.Nodup ∧
      q2.eqEventPool.Count = q.eqEventPool.Count + (t.inorder.length + top.length) ∧
      (t.inorder.length + top.length : Int) ≤ q.GetCount ∧
      q2.tree.pRoot = none ∧ q2.eqTopEvents.pTop = none ∧ q2.eqTopEvents.Count = 0 ∧
      q2.eqCurrentTime = 0 ∧ (∀ x, (q2.mem x).data = (q.mem x).data) ∧
      q2.GetNextEvent = some (q2, none) ∧ Reachable heap q2 ∧
      ∃ q3, q.DeleteEvents = some q3 ∧ q3 = { q2 with eqEventPool := Stack.Clear } ∧
        q3.Reset = some q3 := by
  obtain ⟨t, top, pool, hinv⟩ := reachable_inv h
  obtain ⟨q2, e, htime, hroot, _, _, hpool, htop, hcount, T⟩ := reset_spec hinv
  obtain ⟨q1, q3, e1, e3, h3, -, -, -, -, hr3, -⟩ := deleteEvents_spec hinv
  rw [e] at e1
  simp only [Option.some.injEq] at e1
  subst e1
  have hp : (top ++ (t.clearOrder ++ pool)).Perm (t.inorder ++ top ++ pool) := by
    rw [← List.append_assoc]
    refine List.Perm.append_right _ ?_
    exact (List.Perm.append_left _ t.clearOrder_perm).trans List.perm_append_comm
  have hgc : (t.inorder.length + top.length : Int) ≤ q.GetCount := by
    unfold CEventQueue.GetCount
    rw [hinv.topS.2.2]
    have := hinv.count
    omega
  have htc : q2.eqTopEvents.Count = 0 := by rw [htop.2.2]; rfl
  refine ⟨t, top, pool, hinv, q2, _, e, hpool, hp, hp.nodup_iff.2 hinv.owned.nodup, hcount, hgc,
    hroot, htop.1, htc, htime, T.2, ?_, Reachable.reset h e, q3, e3, h3, hr3⟩
  simp only [CEventQueue.GetNextEvent, htc, ne_eq, not_true_eq_false, if_false,
    treeRemoveHead_nil hroot]

/-- The witness of C23 is the state `rTop` of the running simulation, reached after an
earlier `Reset`: record `2` waits in the ordered queue, record `0` on the top-events stack
and record `1` is in the free pool, while `GetCount()` returns `3`.  `Reset` moves the two
pending records to the pool, whose counter grows from `1` to `3`. -/
theorem C23_queue_reset_witness :
    (∃ t top pool, QueueInv rTop t top pool ∧ ∃ q2 pool2, rTop.Reset = some q2 ∧
      StackOf q2.mem q2.eqEventPool pool2 ∧ pool2.Perm (t.inorder ++ top ++ pool) ∧
      pool2.Nodup ∧
      q2.eqEventPool.Count = rTop.eqEventPool.Count + (t.inorder.length + top.length) ∧
      (t.inorder.length + top.length : Int) ≤ rTop.GetCount ∧
      q2.tree.pRoot = none ∧ q2.eqTopEvents.pTop = none ∧ q2.eqTopEvents.Count = 0 ∧
      q2.eqCurrentTime = 0 ∧ (∀ x, (q2.mem x).data = (rTop.mem x).data) ∧
      q2.GetNextEvent = some (q2, none) ∧ Reachable heap0 q2 ∧
      ∃ q3, rTop.DeleteEvents = some q3 ∧ q3 = { q2 with eqEventPool := Stack.Clear } ∧
        q3.Reset = some q3) ∧
    rTop.tree.pRoot = some 2 ∧ rTop.eqTopEvents.pTop = some 0 ∧
    rTop.eqEventPool.pTop = some 1 ∧ rTop.eqEventPool.Count = 1 ∧ rTop.GetCount = 3 ∧
    ∃ q2, rTop.Reset = some q2 ∧ q2.eqEventPool.Count = 3 ∧ q2.eqEventPool.pTop = some 0 ∧
      (q2.mem 0).RChild = some 2 ∧ (q2.mem 2).RChild = some 1 ∧ (q2.mem 1).RChild = none :=
  ⟨C23_queue_reset heap0 rTop reachable_rTop, by decide, by decide, by decide, by decide,
    by decide, rTop.Reset.getD rTop, rfl, by decide, by decide, by decide, by decide,
    by decide⟩

/-! ## Balance of the tree shapes -/

theorem Shape.repair_balanced (l r : Shape) (a : Nat) (hl : l.balanced) (hr : r.balanced)
    (h1 : -2 ≤ r.height - l.height) (h2 : r.height - l.height ≤ 2) :
    (Shape.node l a r).repair.balanced ∧
      MAX l.height r.height ≤ (Shape.node l a r).repair.height ∧
      (Shape.node l a r).repair.height ≤ MAX l.height r.height + 1 ∧
      (-1 ≤ r.height - l.height → r.height - l.height ≤ 1 →
        (Shape.node l a r).repair.height = MAX l.height r.height + 1) := by
  have gl := l.height_ge
  have gr := r.height_ge
  by_cases c1 : r.height - l.height < -1
  · cases l with
    | nil => simp only [Shape.height] at c1 gr; omega
    | node ll b lr =>
      have gll := ll.height_ge
      have glr := lr.height_ge
      by_cases c2 : (Shape.node ll b lr).balance > 0
      · cases lr with
        | nil => simp only [Shape.balance, Shape.height] at c2 gll; omega
        | node lrl c lrr =>
          have g1 := lrl.height_ge
          have g2 := lrr.height_ge
          simp only [Shape.repair, if_pos c1, if_pos c2, Shape.promoteRight, Shape.promoteLeft]
          simp only [Shape.balanced, Shape.height, Shape.balance, MAX] at *
          refine ⟨⟨?_, ?_, ⟨?_, ?_, hl.2.2.1, hl.2.2.2.2.2.1⟩, ?_, ?_, hl.2.2.2.2.2.2, hr⟩,
            ?_, ?_, ?_⟩ <;> omega
      · simp only [Shape.repair, if_pos c1, if_neg c2, Shape.promoteLeft]
        simp only [Shape.balanced, Shape.height, Shape.balance, MAX] at *
        refine ⟨⟨?_, ?_, hl.2.2.1, ?_, ?_, hl.2.2.2, hr⟩, ?_, ?_, ?_⟩ <;> omega
  · by_cases c3 : r.height - l.height > 1
    · cases r with
      | nil => simp only [Shape.height] at c3 gl; omega
      | node rl b rr =>
        have grl := rl.height_ge
        have grr := rr.height_ge
        by_cases c4 : (Shape.node rl b rr).balance < 0
        · cases rl with
          | nil => simp only [Shape.balance, Shape.height] at c4 grr; omega
          | node rll c rlr =>
            have g1 := rll.height_ge
            have g2 := rlr.height_ge
            simp only [Shape.repair, if_neg c1, if_pos c3, if_pos c4, Shape.promoteRight,
              Shape.promoteLeft]
            simp only [Shape.balanced, Shape.height, Shape.balance, MAX] at *
            refine ⟨⟨?_, ?_, ⟨?_, ?_, hl, hr.2.2.1.2.2.1⟩, ?_, ?_, hr.2.2.1.2.2.2, hr.2.2.2⟩,
              ?_, ?_, ?_⟩ <;> omega
        · simp only [Shape.repair, if_neg c1, if_pos c3, if_neg c4, Shape.promoteRight]
          simp only [Shape.balanced, Shape.height, Shape.balance, MAX] at *
          refine ⟨⟨?_, ?_, ⟨?_, ?_, hl, hr.2.2.1⟩, hr.2.2.2⟩, ?_, ?_, ?_⟩ <;> omega
    · simp only [Shape.repair, if_neg c1, if_neg c3]
      simp only [Shape.balanced, Shape.height, MAX] at *
      refine ⟨⟨?_, ?_, hl, hr⟩, ?_, ?_, ?_⟩ <;> first | omega | exact fun _ _ => trivial

theorem Shape.insert_balanced (key : Nat → Int) (n : Nat) (t : Shape) (h : t.balanced) :
    (t.insert key n).balanced ∧ t.height ≤ (t.insert key n).height ∧
      (t.insert key n).height ≤ t.height + 1 := by
  induction t with
  | nil =>
    simp only [Shape.insert, Shape.balanced, Shape.height, MAX]
    refine ⟨⟨?_, ?_, trivial, trivial⟩, ?_, ?_⟩ <;> omega
  | node l a r ihl ihr =>
    obtain ⟨b1, b2, bl, br⟩ := h
    have gl := l.height_ge
    have gr := r.height_ge
    simp only [Shape.insert]
    split_ifs with c
    · obtain ⟨i1, i2, i3⟩ := ihr br
      obtain ⟨r1, r2, r3, r4⟩ := Shape.repair_balanced l (r.insert key n) a bl i1
        (by omega) (by omega)
      refine ⟨r1, ?_, ?_⟩
      · simp only [Shape.height, MAX] at r2 r3 r4 ⊢
        by_cases hc : (r.insert key n).height - l.height ≤ 1
        · have := r4 (by omega) hc
          omega
        · omega
      · simp only [Shape.height, MAX] at r2 r3 r4 ⊢
        omega
    · obtain ⟨i1, i2, i3⟩ := ihl bl
      obtain ⟨r1, r2, r3, r4⟩ := Shape.repair_balanced (l.insert key n) r a i1 br
        (by omega) (by omega)
      refine ⟨r1, ?_, ?_⟩
      · simp only [Shape.height, MAX] at r2 r3 r4 ⊢
        by_cases hc : -1 ≤ r.height - (l.insert key n).height
        · have := r4 hc (by omega)
          omega
        · omega
      · simp only [Shape.height, MAX] at r2 r3 r4 ⊢
        omega

theorem Shape.removeLeftEnd_balanced (t : Shape) (h : t.balanced) :
    t.removeLeftEnd.balanced ∧ t.height - 1 ≤ t.removeLeftEnd.height ∧
      t.removeLeftEnd.height ≤ t.height := by
  induction t with
  | nil => simp [Shape.removeLeftEnd, Shape.balanced]
  | node l a r ihl _ =>
    obtain ⟨b1, b2, bl, br⟩ := h
    have gr := r.height_ge
    cases l with
    | nil =>
      simp only [Shape.removeLeftEnd, Shape.height, MAX] at b1 b2 ⊢
      refine ⟨br, ?_, ?_⟩ <;> omega
    | node ll b lr =>
      obtain ⟨i1, i2, i3⟩ := ihl bl
      have gl := (Shape.node ll b lr).removeLeftEnd.height_ge
      obtain ⟨r1, r2, r3, r4⟩ := Shape.repair_balanced (Shape.node ll b lr).removeLeftEnd r a
        i1 br (by omega) (by omega)
      have e : (Shape.node (Shape.node ll b lr) a r).removeLeftEnd
          = (Shape.node (Shape.node ll b lr).removeLeftEnd a r).repair := rfl
      have eh : (Shape.node (Shape.node ll b lr) a r).height
          = MAX (Shape.node ll b lr).height r.height + 1 := rfl
      rw [e, eh]
      refine ⟨r1, ?_, ?_⟩
      · generalize (Shape.node ll b lr).height = hl at *
        generalize (Shape.node ll b lr).removeLeftEnd.height = hl2 at *
        simp only [MAX] at r2 r3 r4 ⊢
        by_cases hc : r.height - hl2 ≤ 1
        · have := r4 (by omega) hc
          omega
        · omega
      · generalize (Shape.node ll b lr).height = hl at *
        generalize (Shape.node ll b lr).removeLeftEnd.height = hl2 at *
        simp only [MAX] at r2 r3 r4 ⊢
        by_cases hc : r.height - hl2 ≤ 1
        · have := r4 (by omega) hc
          omega
        · omega

theorem Shape.removeRightEnd_balanced (t : Shape) (h : t.balanced) :
    t.removeRightEnd.balanced ∧ t.height - 1 ≤ t.removeRightEnd.height ∧
      t.removeRightEnd.height ≤ t.height := by
  induction t with
  | nil => simp [Shape.removeRightEnd, Shape.balanced]
  | node l a r _ ihr =>
    obtain ⟨b1, b2, bl, br⟩ := h
    have gl := l.height_ge
    cases r with
    | nil =>
      simp only [Shape.removeRightEnd, Shape.height, MAX] at b1 b2 ⊢
      refine ⟨bl, ?_, ?_⟩ <;> omega
    | node rl b rr =>
      obtain ⟨i1, i2, i3⟩ := ihr br
      have gr := (Shape.node rl b rr).removeRightEnd.height_ge
      obtain ⟨r1, r2, r3, r4⟩ := Shape.repair_balanced l (Shape.node rl b rr).removeRightEnd a
        bl i1 (by omega) (by omega)
      have e : (Shape.node l a (Shape.node rl b rr)).removeRightEnd
          = (Shape.node l a (Shape.node rl b rr).removeRightEnd).repair := rfl
      have eh : (Shape.node l a (Shape.node rl b rr)).height
          = MAX l.height (Shape.node rl b rr).height + 1 := rfl
      rw [e, eh]
      refine ⟨r1, ?_, ?_⟩
      · generalize (Shape.node rl b rr).height = hr at *
        generalize (Shape.node rl b rr).removeRightEnd.height = hr2 at *
        simp only [MAX] at r2 r3 r4 ⊢
        by_cases hc : -1 ≤ hr2 - l.height
        · have := r4 hc (by omega)
          omega
        · omega
      · generalize (Shape.node rl b rr).height = hr at *
        generalize (Shape.node rl b rr).removeRightEnd.height = hr2 at *
        simp only [MAX] at r2 r3 r4 ⊢
        by_cases hc : -1 ≤ hr2 - l.height
        · have := r4 hc (by omega)
          omega
        · omega

theorem Shape.inorder_removeRightEnd (t : Shape) :
    t.removeRightEnd.inorder = t.inorder.dropLast := by
  induction t with
  | nil => rfl
  | node l a r _ ihr =>
    cases r with
    | nil => simp [Shape.removeRightEnd, Shape.inorder]
    | node rl b rr =>
      have hne : (Shape.node rl b rr).inorder ≠ [] := by simp [Shape.inorder]
      show (Shape.node l a (Shape.node rl b rr).removeRightEnd).repair.inorder
        = (l.inorder ++ a :: (Shape.node rl b rr).inorder).dropLast
      rw [Shape.inorder_repair]
      show l.inorder ++ a :: (Shape.node rl b rr).removeRightEnd.inorder = _
      rw [ihr, show l.inorder ++ a :: (Shape.node rl b rr).inorder
        = (l.inorder ++ [a]) ++ (Shape.node rl b rr).inorder by simp,
        List.dropLast_append_of_ne_nil _ hne]
      simp

/-! ## Removal of the right end and the invariant of the tree object -/

theorem removeRightEnd_spec {m : Mem} (t : Shape) :
    ∀ (fuel a : Nat), HeapTree m t → t.root = some a → t.depth ≤ fuel → t.inorder.Nodup →
      ∃ m2 x, AVL.RemoveRightEnd fuel m a = some (m2, t.removeRightEnd.root, x) ∧
        t.inorder.getLast? = some x ∧ HeapTree m2 t.removeRightEnd ∧
        Touches m m2 t.inorder := by
  induction t with
  | nil => intro fuel a _ hr; simp [Shape.root] at hr
  | node l a1 r _ ihr =>
    intro fuel a ht hr hf nd
    simp only [Shape.root, Option.some.injEq] at hr
    subst hr
    cases fuel with
    | zero => simp [Shape.depth] at hf
    | succ f =>
      simp only [Shape.depth, add_le_add_iff_right, max_le_iff] at hf
      obtain ⟨hL, hR, -, -, tl, tr⟩ := ht
      obtain ⟨ndl, ndr, a_l, a_r, dlr⟩ := nodup_mid
        (show (l.inorder ++ a1 :: r.inorder).Nodup from nd)
      simp only [AVL.RemoveRightEnd]
      cases r with
      | nil =>
        have hR2 : (m a1).RChild = none := hR
        simp only [hR2, Shape.removeRightEnd]
        exact ⟨m, a1, by rw [hL], by simp [Shape.inorder], tl, Touches.refl _ _⟩
      | node rl b rr =>
        obtain ⟨m1, x, e1, hd, t1, T1⟩ := ihr f b tr rfl hf.2 ndr
        have hR2 : (m a1).RChild = some b := hR
        simp only [hR2, e1, Shape.removeRightEnd]
        have htl := Shape.inorder_removeRightEnd (Shape.node rl b rr)
        have sub : ∀ y ∈ (Shape.node rl b rr).removeRightEnd.inorder,
            y ∈ (Shape.node rl b rr).inorder := by
          intro y hy; rw [htl] at hy; exact List.mem_of_mem_dropLast hy
        obtain ⟨m2, y, e, rt, t2, T2⟩ := repair_after_setR T1 hL tl t1 a_r
          (fun y hy h => dlr y hy h)
          (by
            simp only [Shape.inorder] at nd ⊢
            rw [htl]
            exact nd.sublist (((List.dropLast_sublist _).cons₂ a1).append_left _))
        simp only [e, rt]
        refine ⟨m2, x, rfl, ?_, t2, T2.mono ?_⟩
        · show (l.inorder ++ a1 :: (Shape.node rl b rr).inorder).getLast? = some x
          rw [show l.inorder ++ a1 :: (Shape.node rl b rr).inorder
            = (l.inorder ++ [a1]) ++ (Shape.node rl b rr).inorder by simp,
            List.getLast?_append_of_ne_nil _ (by simp [Shape.inorder])]
          exact hd
        · intro z hz
          simp only [Shape.inorder, List.mem_append, List.mem_cons] at hz ⊢
          rcases hz with hz | hz | hz | hz
          · exact Or.inr (Or.inr (by simpa [Shape.inorder] using hz))
          · exact Or.inl hz
          · exact Or.inr (Or.inl hz)
          · exact Or.inr (Or.inr (by simpa [Shape.inorder] using sub z hz))

theorem TreeInv.empty_tree (m : Mem) : TreeInv m AVLTree.new Shape.nil :=
  ⟨trivial, rfl, rfl, List.nodup_nil, List.Pairwise.nil⟩

theorem pairwise_key_touch {m m2 : Mem} {S l : List Nat} (T : Touches m m2 S)
    (h : l.Pairwise (fun a b => (m a).NodeKey ≤ (m b).NodeKey)) :
    l.Pairwise (fun a b => (m2 a).NodeKey ≤ (m2 b).NodeKey) := by
  refine h.imp ?_
  intro a b hab
  rw [T.key a, T.key b]
  exact hab

theorem TreeInv.add {m : Mem} {t : AVLTree} {tr : Shape} {n fuel : Nat} (h : TreeInv m t tr)
    (hn : n ∉ tr.inorder) (hf : tr.depth ≤ fuel) :
    ∃ m2, AVLTree.AddNode fuel m t (some n)
        = some (m2, AVLTree.mk ((tr.insert (fun z => (m z).NodeKey) n).root) (t.Count + 1)) ∧
      TreeInv m2 (AVLTree.mk ((tr.insert (fun z => (m z).NodeKey) n).root) (t.Count + 1))
        (tr.insert (fun z => (m z).NodeKey) n) ∧
      Touches m m2 (n :: tr.inorder) := by
  have nd : (n :: tr.inorder).Nodup := List.nodup_cons.2 ⟨hn, h.nodup⟩
  have hlen : t.Count + 1 = ((tr.insert (fun z => (m z).NodeKey) n).inorder.length : Int) := by
    rw [(Shape.inorder_insert_perm _ n tr).length_eq, h.count]; simp
  have core : ∃ m2, AVLTree.AddNode fuel m t (some n)
        = some (m2, AVLTree.mk ((tr.insert (fun z => (m z).NodeKey) n).root) (t.Count + 1)) ∧
      HeapTree m2 (tr.insert (fun z => (m z).NodeKey) n) ∧ Touches m m2 (n :: tr.inorder) := by
    cases hroot : tr.root with
    | none =>
      have := Shape.root_eq_none hroot
      subst this
      have hr2 : t.pRoot = none := h.root
      refine ⟨AVL.Initialize m n, ?_, heapTree_init_node _ _,
        (Touches.init_node _ _).mono (by simp)⟩
      simp only [AVLTree.AddNode, hr2]
      rfl
    | some r =>
      obtain ⟨m2, x, e, rt, t2, T2⟩ := insertNode_spec tr fuel r h.heap hroot hf nd
      refine ⟨m2, ?_, t2, T2⟩
      have hr2 : t.pRoot = some r := by rw [h.root, hroot]
      simp only [AVLTree.AddNode, hr2, e]
      rw [rt]
  obtain ⟨m2, e, ht2, T2⟩ := core
  refine ⟨m2, e, ⟨ht2, rfl, hlen, Shape.nodup_inorder_insert _ _ _ nd, ?_⟩, T2⟩
  exact pairwise_key_touch T2 (Shape.sorted_inorder_insert _ n tr h.sorted)

theorem TreeInv.removeHead {m : Mem} {t : AVLTree} {tr : Shape} {x fuel : Nat}
    {rest : List Nat} (h : TreeInv m t tr) (hx : tr.inorder = x :: rest)
    (hf : tr.depth ≤ fuel) :
    ∃ m2, AVLTree.RemoveHead fuel m t
        = some (m2, AVLTree.mk tr.removeLeftEnd.root (t.Count - 1), some x) ∧
      TreeInv m2 (AVLTree.mk tr.removeLeftEnd.root (t.Count - 1)) tr.removeLeftEnd ∧
      tr.removeLeftEnd.inorder = rest ∧ Touches m m2 tr.inorder := by
  have htl : tr.removeLeftEnd.inorder = rest := by
    rw [Shape.inorder_removeLeftEnd, hx]; rfl
  cases hroot : tr.root with
  | none =>
    have := Shape.root_eq_none hroot
    subst this
    simp [Shape.inorder] at hx
  | some r =>
    obtain ⟨m2, y, e, hd, t2, T2⟩ := removeLeftEnd_spec tr fuel r h.heap hroot hf h.nodup
    have hy : y = x := by
      rw [hx] at hd
      simpa using hd.symm
    subst hy
    have hr2 : t.pRoot = some r := by rw [h.root, hroot]
    have hsub : tr.removeLeftEnd.inorder.Sublist tr.inorder := by
      rw [htl, hx]; exact List.sublist_cons_self _ _
    refine ⟨m2, by simp only [AVLTree.RemoveHead, hr2, e], ⟨t2, rfl, ?_, h.nodup.sublist hsub,
      pairwise_key_touch T2 (h.sorted.sublist hsub)⟩, htl, T2⟩
    show t.Count - 1 = _
    rw [h.count, htl, hx]
    simp

theorem TreeInv.removeTail {m : Mem} {t : AVLTree} {tr : Shape} {x fuel : Nat}
    {rest : List Nat} (h : TreeInv m t tr) (hx : tr.inorder = rest ++ [x])
    (hf : tr.depth ≤ fuel) :
    ∃ m2, AVLTree.RemoveTail fuel m t
        = some (m2, AVLTree.mk tr.removeRightEnd.root (t.Count - 1), some x) ∧
      TreeInv m2 (AVLTree.mk tr.removeRightEnd.root (t.Count - 1)) tr.removeRightEnd ∧
      tr.removeRightEnd.inorder = rest ∧ Touches m m2 tr.inorder := by
  have htl : tr.removeRightEnd.inorder = rest := by
    rw [Shape.inorder_removeRightEnd, hx]; simp
  cases hroot : tr.root with
  | none =>
    have := Shape.root_eq_none hroot
    subst this
    simp [Shape.inorder] at hx
  | some r =>
    obtain ⟨m2, y, e, hd, t2, T2⟩ := removeRightEnd_spec tr fuel r h.heap hroot hf h.nodup
    have hy : y = x := by
      rw [hx] at hd
      simpa using hd.symm
    subst hy
    have hr2 : t.pRoot = some r := by rw [h.root, hroot]
    have hsub : tr.removeRightEnd.inorder.Sublist tr.inorder := by
      rw [htl, hx]; exact List.sublist_append_left _ _
    refine ⟨m2, by simp only [AVLTree.RemoveTail, hr2, e], ⟨t2, rfl, ?_, h.nodup.sublist hsub,
      pairwise_key_touch T2 (h.sorted.sublist hsub)⟩, htl, T2⟩
    show t.Count - 1 = _
    rw [h.count, htl, hx]
    simp

/-! ## Claims about the AVL tree -/

theorem treeInv_treeThree : TreeInv treeThree.1 treeThree.2 shapeThree := by
  refine ⟨?_, rfl, rfl, by decide, by decide⟩
  exact ⟨rfl, rfl, rfl, rfl, ⟨rfl, rfl, rfl, rfl, trivial, trivial⟩,
    ⟨rfl, rfl, rfl, rfl, trivial, trivial⟩⟩

theorem balanced_shapeThree : shapeThree.balanced := by
  simp [shapeThree, Shape.balanced, Shape.height, MAX]

/-- C29: for an `AVLTree` object that satisfies the invariant of the trees built by
`AddNode`, `RemoveHead` and `RemoveTail` (the root spans a tree of distinct nodes with
non-decreasing keys, counted by `Count`) and enough fuel for its depth: on a non-empty tree
`RemoveHead` returns the first node `x` of the in-order sequence, whose key is the minimum of
all keys; the remaining nodes are the old ones minus `x`, in the same order, `Count` is
decremented by one, the invariant holds again and no key is changed; on an empty tree it
returns null and changes nothing. -/
theorem C29_remove_head_min (m : Mem) (t : AVLTree) (tr : Shape) (fuel : Nat)
    (h : TreeInv m t tr) (hf : tr.depth ≤ fuel) :
    (tr.inorder ≠ [] → ∃ x rest m2 t2, tr.inorder = x :: rest ∧
      AVLTree.RemoveHead fuel m t = some (m2, t2, some x) ∧
      (∀ y ∈ tr.inorder, (m x).NodeKey ≤ (m y).NodeKey) ∧
      TreeInv m2 t2 tr.removeLeftEnd ∧ tr.removeLeftEnd.inorder = rest ∧
      (x :: tr.removeLeftEnd.inorder).Perm tr.inorder ∧ x ∉ tr.removeLeftEnd.inorder ∧
      t2.Count = t.Count - 1 ∧ (∀ y, (m2 y).data = (m y).data)) ∧
    (tr.inorder = [] → AVLTree.RemoveHead fuel m t = some (m, t, none)) := by
  constructor
  · intro hne
    obtain ⟨x, rest, hx⟩ : ∃ x rest, tr.inorder = x :: rest := by
      cases hh : tr.inorder with
      | nil => exact absurd hh hne
      | cons x rest => exact ⟨x, rest, rfl⟩
    obtain ⟨m2, e, hinv, htl, T⟩ := h.removeHead hx hf
    refine ⟨x, rest, m2, _, hx, e, ?_, hinv, htl, by rw [htl, hx], ?_, rfl, T.2⟩
    · intro y hy
      have hs := h.sorted
      rw [hx] at hs hy
      rcases List.mem_cons.1 hy with rfl | hy
      · exact le_refl _
      · exact (List.pairwise_cons.1 hs).1 y hy
    · rw [htl]
      have := h.nodup
      rw [hx] at this
      exact (List.nodup_cons.1 this).1
  · intro hnil
    have : tr = Shape.nil := Shape.inorder_eq_nil hnil
    subst this
    exact treeRemoveHead_nil h.root fuel

theorem C29_remove_head_min_witness :
    (shapeThree.inorder ≠ [] → ∃ x rest m2 t2, shapeThree.inorder = x :: rest ∧
      AVLTree.RemoveHead 3 treeThree.1 treeThree.2 = some (m2, t2, some x) ∧
      (∀ y ∈ shapeThree.inorder, (treeThree.1 x).NodeKey ≤ (treeThree.1 y).NodeKey) ∧
      TreeInv m2 t2 shapeThree.removeLeftEnd ∧ shapeThree.removeLeftEnd.inorder = rest ∧
      (x :: shapeThree.removeLeftEnd.inorder).Perm shapeThree.inorder ∧
      x ∉ shapeThree.removeLeftEnd.inorder ∧
      t2.Count = treeThree.2.Count - 1 ∧ (∀ y, (m2 y).data = (treeThree.1 y).data)) ∧
    (shapeThree.inorder = [] →
      AVLTree.RemoveHead 3 treeThree.1 treeThree.2 = some (treeThree.1, treeThree.2, none)) :=
  C29_remove_head_min treeThree.1 treeThree.2 shapeThree 3 treeInv_treeThree (by decide)

theorem Shape.subtreeAt_none (a : Nat) (t : Shape) (h : a ∉ t.inorder) :
    t.subtreeAt a = none := by
  induction t with
  | nil => rfl
  | node l b r ihl ihr =>
    simp only [Shape.inorder, List.mem_append, List.mem_cons, not_or] at h
    obtain ⟨h1, h2, h3⟩ := h
    have hba : ¬ b = a := fun e => h2 e.symm
    simp only [Shape.subtreeAt, if_neg hba, ihl h1, ihr h3]

/-- In a heap that holds a balanced tree, every node stores the height of the subtree it
roots and the difference of the heights of its subtrees, which is `-1`, `0` or `1`. -/
theorem heapTree_node_facts {m : Mem} (t : Shape) (h : HeapTree m t) (hb : t.balanced) :
    ∀ a ∈ t.inorder, ∃ l r, t.subtreeAt a = some (Shape.node l a r) ∧
      (m a).LChild = l.root ∧ (m a).RChild = r.root ∧
      (m a).Height = (Shape.node l a r).height ∧ (m a).Balance = r.height - l.height ∧
      -1 ≤ (m a).Balance ∧ (m a).Balance ≤ 1 := by
  induction t with
  | nil => intro a ha; simp [Shape.inorder] at ha
  | node l b r ihl ihr =>
    intro a ha
    obtain ⟨h1, h2, h3, h4, h5, h6⟩ := h
    obtain ⟨b1, b2, b3, b4⟩ := hb
    by_cases hab : b = a
    · subst hab
      refine ⟨l, r, by simp [Shape.subtreeAt], h1, h2, h3, h4, ?_, ?_⟩
      · rw [h4]; exact b1
      · rw [h4]; exact b2
    · by_cases hal : a ∈ l.inorder
      · obtain ⟨l2, r2, e, f⟩ := ihl h5 b3 a hal
        exact ⟨l2, r2, by simp only [Shape.subtreeAt, if_neg hab, e], f⟩
      · have har : a ∈ r.inorder := by
          simp only [Shape.inorder, List.mem_append, List.mem_cons] at ha
          rcases ha with ha | ha | ha
          · exact absurd ha hal
          · exact absurd ha.symm hab
          · exact ha
        obtain ⟨l2, r2, e, f⟩ := ihr h6 b4 a har
        exact ⟨l2, r2, by simp only [Shape.subtreeAt, if_neg hab,
          Shape.subtreeAt_none a l hal, e], f⟩

/-- A balanced tree with `d` levels has at least `2 ^ ⌈d / 2⌉ - 1` nodes: the height is
logarithmic in the number of nodes. -/
theorem Shape.balanced_size (t : Shape) (hb : t.balanced) :
    2 ^ (((t.height + 1).toNat + 1) / 2) ≤ t.inorder.length + 1 := by
  induction t with
  | nil => simp [Shape.height, Shape.inorder]
  | node l a r ihl ihr =>
    obtain ⟨b1, b2, b3, b4⟩ := hb
    have il := ihl b3
    have ir := ihr b4
    have gl := l.height_ge
    have gr := r.height_ge
    have hh : (Shape.node l a r).height = MAX l.height r.height + 1 := rfl
    rw [hh]
    simp only [Shape.inorder, List.length_append, List.length_cons]
    generalize hE : ((MAX l.height r.height + 1 + 1).toNat + 1) / 2 = e
    generalize hEl : ((l.height + 1).toNat + 1) / 2 = el at il
    generalize hEr : ((r.height + 1).toNat + 1) / 2 = er at ir
    have h1 : 1 ≤ e := by simp only [MAX] at hE; omega
    have h2 : e - 1 ≤ el := by simp only [MAX] at hE; omega
    have h3 : e - 1 ≤ er := by simp only [MAX] at hE; omega
    have p1 : 2 ^ (e - 1) ≤ 2 ^ el := Nat.pow_le_pow_right (by decide) h2
    have p2 : 2 ^ (e - 1) ≤ 2 ^ er := Nat.pow_le_pow_right (by decide) h3
    have p3 : 2 ^ e = 2 * 2 ^ (e - 1) := by
      obtain ⟨k, rfl⟩ : ∃ k, e = k + 1 := ⟨e - 1, by omega⟩
      simp [pow_succ, mul_comm]
    omega

theorem avlNodes_of_heapTree {m : Mem} {tr : Shape} (h : HeapTree m tr) (hb : tr.balanced) :
    AvlNodes m tr := by
  intro a ha
  obtain ⟨l, r, e, _, _, f3, f4, f5, f6⟩ := heapTree_node_facts tr h hb a ha
  exact ⟨l, r, e, f3, f4, f5, f6⟩

/-- C30: on an `AVLTree` object whose tree `tr` satisfies the AVL invariant (the invariant of
the tree object, and at every node subtree heights that differ by at most one), with enough
fuel for its depth, `AddNode` of a node that is not in the tree, `RemoveHead` and
`RemoveTail` return, and the resulting tree satisfies the invariant again: every node stores
the height of its subtree and the difference of the heights of its right and left subtrees,
that difference is `-1`, `0` or `1`, and a tree with `d` levels has at least
`2 ^ ⌈d / 2⌉ - 1` nodes. -/
theorem C30_avl_invariant (m : Mem) (t : AVLTree) (tr : Shape) (fuel : Nat)
    (h : TreeInv m t tr) (hb : tr.balanced) (hf : tr.depth ≤ fuel) :
    (∀ n, n ∉ tr.inorder → ∃ m2 t2 tr2, AVLTree.AddNode fuel m t (some n) = some (m2, t2) ∧
      tr2.inorder.Perm (n :: tr.inorder) ∧ TreeInv m2 t2 tr2 ∧ tr2.balanced ∧
      AvlNodes m2 tr2 ∧ 2 ^ (((tr2.height + 1).toNat + 1) / 2) ≤ tr2.inorder.length + 1) ∧
    (∃ m2 t2 p tr2, AVLTree.RemoveHead fuel m t = some (m2, t2, p) ∧
      tr2.inorder = tr.inorder.tail ∧ TreeInv m2 t2 tr2 ∧ tr2.balanced ∧
      AvlNodes m2 tr2 ∧ 2 ^ (((tr2.height + 1).toNat + 1) / 2) ≤ tr2.inorder.length + 1) ∧
    (∃ m2 t2 p tr2, AVLTree.RemoveTail fuel m t = some (m2, t2, p) ∧
      tr2.inorder = tr.inorder.dropLast ∧ TreeInv m2 t2 tr2 ∧ tr2.balanced ∧
      AvlNodes m2 tr2 ∧ 2 ^ (((tr2.height + 1).toNat + 1) / 2) ≤ tr2.inorder.length + 1) := by
  refine ⟨?_, ?_, ?_⟩
  · intro n hn
    obtain ⟨m2, e, hinv, _⟩ := h.add hn hf
    have hb2 := (Shape.insert_balanced (fun z => (m z).NodeKey) n tr hb).1
    exact ⟨m2, _, _, e, Shape.inorder_insert_perm _ n tr, hinv, hb2,
      avlNodes_of_heapTree hinv.heap hb2, Shape.balanced_size _ hb2⟩
  · have hb2 := (Shape.removeLeftEnd_balanced tr hb).1
    cases hx : tr.inorder with
    | nil =>
      have : tr = Shape.nil := Shape.inorder_eq_nil hx
      subst this
      exact ⟨m, t, none, Shape.nil, treeRemoveHead_nil h.root fuel, rfl, h, hb,
        avlNodes_of_heapTree h.heap hb, Shape.balanced_size _ hb⟩
    | cons x rest =>
      obtain ⟨m2, e, hinv, htl, _⟩ := h.removeHead hx hf
      exact ⟨m2, _, some x, tr.removeLeftEnd, e, by rw [htl]; rfl, hinv, hb2,
        avlNodes_of_heapTree hinv.heap hb2, Shape.balanced_size _ hb2⟩
  · have hb2 := (Shape.removeRightEnd_balanced tr hb).1
    rcases List.eq_nil_or_concat tr.inorder with hx | ⟨rest, x, hx⟩
    · have : tr = Shape.nil := Shape.inorder_eq_nil hx
      subst this
      refine ⟨m, t, none, Shape.nil, ?_, rfl, h, hb,
        avlNodes_of_heapTree h.heap hb, Shape.balanced_size _ hb⟩
      have hr : t.pRoot = none := h.root
      simp only [AVLTree.RemoveTail, hr]
    · rw [List.concat_eq_append] at hx
      obtain ⟨m2, e, hinv, htl, _⟩ := h.removeTail hx hf
      exact ⟨m2, _, some x, tr.removeRightEnd, e, by rw [htl, hx]; simp, hinv, hb2,
        avlNodes_of_heapTree hinv.heap hb2, Shape.balanced_size _ hb2⟩

theorem C30_avl_invariant_witness :
    (∀ n, n ∉ shapeThree.inorder → ∃ m2 t2 tr2,
      AVLTree.AddNode 3 treeThree.1 treeThree.2 (some n) = some (m2, t2) ∧
      tr2.inorder.Perm (n :: shapeThree.inorder) ∧ TreeInv m2 t2 tr2 ∧ tr2.balanced ∧
      AvlNodes m2 tr2 ∧ 2 ^ (((tr2.height + 1).toNat + 1) / 2) ≤ tr2.inorder.length + 1) ∧
    (∃ m2 t2 p tr2, AVLTree.RemoveHead 3 treeThree.1 treeThree.2 = some (m2, t2, p) ∧
      tr2.inorder = shapeThree.inorder.tail ∧ TreeInv m2 t2 tr2 ∧ tr2.balanced ∧
      AvlNodes m2 tr2 ∧ 2 ^ (((tr2.height + 1).toNat + 1) / 2) ≤ tr2.inorder.length + 1) ∧
    (∃ m2 t2 p tr2, AVLTree.RemoveTail 3 treeThree.1 treeThree.2 = some (m2, t2, p) ∧
      tr2.inorder = shapeThree.inorder.dropLast ∧ TreeInv m2 t2 tr2 ∧ tr2.balanced ∧
      AvlNodes m2 tr2 ∧ 2 ^ (((tr2.height + 1).toNat + 1) / 2) ≤ tr2.inorder.length + 1) :=
  C30_avl_invariant treeThree.1 treeThree.2 shapeThree 3 treeInv_treeThree balanced_shapeThree
    (by decide)

/-! ## Claims about insertion into the tree -/

/-- C31: for an `AVLTree` object whose in-order key sequence is non-decreasing (the invariant
of the tree object: the root spans a tree of distinct nodes, counted by `Count`), a node `n`
that is not in the tree and enough fuel for its depth, `AddNode( n )` returns; the in-order
sequence of the new tree is the old one with `n` inserted at one place, so its keys are
non-decreasing again, no node occurs twice and the nodes are the old ones plus exactly `n`;
`Count` grows by one and is the number of nodes; no key is changed.  `RepairBalance` on a
node whose subtrees are trees returns a tree with the same in-order sequence: rotations do
not lose, duplicate or reorder nodes. -/
theorem C31_add_node_sorted (m : Mem) (t : AVLTree) (tr : Shape) (n fuel : Nat)
    (h : TreeInv m t tr) (hn : n ∉ tr.inorder) (hf : tr.depth ≤ fuel) :
    (∃ m2 t2 tr2 pre post, AVLTree.AddNode fuel m t (some n) = some (m2, t2) ∧
      TreeInv m2 t2 tr2 ∧ tr.inorder = pre ++ post ∧ tr2.inorder = pre ++ n :: post ∧
      tr2.inorder.Pairwise (fun a b => (m2 a).NodeKey ≤ (m2 b).NodeKey) ∧
      tr2.inorder.Nodup ∧ (∀ x, x ∈ tr2.inorder ↔ x = n ∨ x ∈ tr.inorder) ∧
      t2.Count = t.Count + 1 ∧ t2.Count = tr2.inorder.length ∧
      (∀ y, (m2 y).NodeKey = (m y).NodeKey)) ∧
    (∀ (m1 : Mem) (l r : Shape) (a : Nat), (m1 a).LChild = l.root → (m1 a).RChild = r.root →
      HeapTree m1 l → HeapTree m1 r → (Shape.node l a r).inorder.Nodup →
      ∃ m2 x s, AVL.RepairBalance m1 a = some (m2, x) ∧ s.root = some x ∧ HeapTree m2 s ∧
        s.inorder = l.inorder ++ a :: r.inorder ∧ ∀ y, (m2 y).NodeKey = (m1 y).NodeKey) := by
  constructor
  · obtain ⟨m2, e, hinv, T⟩ := h.add hn hf
    obtain ⟨pre, post, e1, e2, -, -⟩ :=
      Shape.inorder_insert_split (fun z => (m z).NodeKey) n tr h.sorted
    exact ⟨m2, _, _, pre, post, e, hinv, e1, e2, hinv.sorted, hinv.nodup,
      Shape.mem_inorder_insert _ n tr, rfl, hinv.count, T.key⟩
  · intro m1 l r a hL hR tl tr2 nd
    obtain ⟨m2, x, e, rt, t2, T⟩ := repairBalance_spec hL hR tl tr2 nd
    exact ⟨m2, x, _, e, rt, t2, Shape.inorder_repair _, T.key⟩

theorem C31_add_node_sorted_witness :
    (∃ m2 t2 tr2 pre post, AVLTree.AddNode 3 treeThree.1 treeThree.2 (some 3) = some (m2, t2) ∧
      TreeInv m2 t2 tr2 ∧ shapeThree.inorder = pre ++ post ∧
      tr2.inorder = pre ++ 3 :: post ∧
      tr2.inorder.Pairwise (fun a b => (m2 a).NodeKey ≤ (m2 b).NodeKey) ∧
      tr2.inorder.Nodup ∧ (∀ x, x ∈ tr2.inorder ↔ x = 3 ∨ x ∈ shapeThree.inorder) ∧
      t2.Count = treeThree.2.Count + 1 ∧ t2.Count = tr2.inorder.length ∧
      (∀ y, (m2 y).NodeKey = (treeThree.1 y).NodeKey)) ∧
    (∀ (m1 : Mem) (l r : Shape) (a : Nat), (m1 a).LChild = l.root → (m1 a).RChild = r.root →
      HeapTree m1 l → HeapTree m1 r → (Shape.node l a r).inorder.Nodup →
      ∃ m2 x s, AVL.RepairBalance m1 a = some (m2, x) ∧ s.root = some x ∧ HeapTree m2 s ∧
        s.inorder = l.inorder ++ a :: r.inorder ∧ ∀ y, (m2 y).NodeKey = (m1 y).NodeKey) :=
  C31_add_node_sorted treeThree.1 treeThree.2 shapeThree 3 3 treeInv_treeThree (by decide)
    (by decide)

/-! ## Claims about the maximum of the statistics and the event counter -/

theorem samples_max_ge (l : List (ℚ × ℚ)) :
    ∀ s : Stats, s._Max ≤ (s.samples l)._Max ∧ (∀ p ∈ l, p.1 ≤ (s.samples l)._Max) ∧
      ((s.samples l)._Max = s._Max ∨ ∃ p ∈ l, p.1 = (s.samples l)._Max) := by
  induction l with
  | nil => intro s; simp [Stats.samples]
  | cons p l ih =>
    intro s
    obtain ⟨h1, h2, h3⟩ := ih (s.Sample p.1 p.2)
    have e : s.samples (p :: l) = (s.Sample p.1 p.2).samples l := rfl
    have hm : (s.Sample p.1 p.2)._Max = if s._Max < p.1 then p.1 else s._Max := rfl
    rw [e]
    refine ⟨?_, ?_, ?_⟩
    · rw [hm] at h1
      split_ifs at h1 with c
      · exact le_trans (le_of_lt c) h1
      · exact h1
    · intro x hx
      rcases List.mem_cons.1 hx with rfl | hx
      · rw [hm] at h1
        split_ifs at h1 with c
        · exact h1
        · exact le_trans (not_lt.1 c) h1
      · exact h2 x hx
    · rcases h3 with h3 | ⟨x, hx, h3⟩
      · rw [hm] at h3
        split_ifs at h3 with c
        · exact Or.inr ⟨p, List.mem_cons_self _ _, h3.symm⟩
        · exact Or.inl h3
      · exact Or.inr ⟨x, List.mem_cons_of_mem _ hx, h3⟩

/-- What `GetMax` returns after `Clear` and the samples of `l`: the larger of `0` and the
largest sample.  It is the largest sample as soon as one sample is not negative. -/
theorem getMax_spec (l : List (ℚ × ℚ)) :
    0 ≤ (Stats.Clear.samples l).GetMax ∧
      (∀ p ∈ l, p.1 ≤ (Stats.Clear.samples l).GetMax) ∧
      ((Stats.Clear.samples l).GetMax = 0 ∨ ∃ p ∈ l, p.1 = (Stats.Clear.samples l).GetMax) ∧
      ((∃ p ∈ l, 0 ≤ p.1) → ∃ p ∈ l, p.1 = (Stats.Clear.samples l).GetMax) := by
  obtain ⟨h1, h2, h3⟩ := samples_max_ge l Stats.Clear
  refine ⟨h1, h2, h3, ?_⟩
  rintro ⟨p, hp, hp0⟩
  rcases h3 with h3 | h3
  · refine ⟨p, hp, le_antisymm (h2 p hp) ?_⟩
    have e : (Stats.Clear.samples l).GetMax = 0 := h3
    rw [e]; exact hp0
  · exact h3

/-- C34 fails when every sample is negative: `Clear` sets `_Max` to `0`, and `Sample`
replaces it only by a larger sample.  After the single sample `-1` (weight `1`) on a cleared
object `GetMax` returns `0`, which is larger than every sample of the sequence. -/
theorem C34_get_max_negative :
    (Stats.Clear.samples [(-1, 1)]).GetMax = 0 ∧
      ∀ p ∈ [((-1 : ℚ), (1 : ℚ))], p.1 < (Stats.Clear.samples [(-1, 1)]).GetMax := by
  have e : (Stats.Clear.samples [(-1, 1)]).GetMax = 0 := by
    simp [Stats.samples, Stats.Sample, Stats.Clear, Stats.GetMax]
  rw [e]
  simp

/-- While the counter of the tree is the number of its nodes, which holds until the first
`Reset` of a non-empty tree, `GetCount` is the number of events in the ordered queue plus the
number of events on the top-events stack. -/
theorem getCount_spec {q : CEventQueue} {t : Shape} {top pool : List Nat}
    (h : QueueInv q t top pool) (hc : q.tree.Count = t.inorder.length) :
    q.GetCount = t.inorder.length + top.length := by
  unfold CEventQueue.GetCount
  rw [hc, h.topS.2.2]

/-- After `Reset` the tree and the top-events stack are empty, but `GetCount` returns the
number of events the ordered queue held before the call. -/
theorem getCount_after_reset {q : CEventQueue} {t : Shape} {top pool : List Nat}
    (h : QueueInv q t top pool) (hn : q.tree.Count = t.inorder.length) :
    ∃ q2, q.Reset = some q2 ∧ q2.tree.pRoot = none ∧ StackOf q2.mem q2.eqTopEvents [] ∧
      q2.GetCount = t.inorder.length := by
  obtain ⟨q2, e, -, hr, hc, -, -, htop, -, -⟩ := reset_spec h
  refine ⟨q2, e, hr, htop, ?_⟩
  unfold CEventQueue.GetCount
  rw [hc, hn, htop.2.2]
  simp

/-- C33 fails after `Reset`: `Reset` empties the tree by setting `pRoot` to `NULL` and does
not write the counter of the tree.  In `qTree` one event waits in the ordered queue; after
`Reset` the tree and the top-events stack are empty and `GetNextEvent` finds no event, but
`GetCount` still returns `1`. -/
theorem C33_count_after_reset :
    qTree.GetCount = 1 ∧
    ∃ q2, qTree.Reset = some q2 ∧ q2.tree.pRoot = none ∧ q2.eqTopEvents.pTop = none ∧
      q2.eqTopEvents.Count = 0 ∧ q2.GetNextEvent = some (q2, none) ∧ q2.GetCount = 1 := by
  refine ⟨by decide, ?_⟩
  obtain ⟨t, top, pool, h⟩ := reachable_inv reachable_qTree
  obtain ⟨q2, e, -, hr, hc, -, -, htop, -, -⟩ := reset_spec h
  have h0 : q2.eqTopEvents.Count = 0 := by simpa using htop.2.2
  refine ⟨q2, e, hr, htop.1, h0, ?_, ?_⟩
  · simp [CEventQueue.GetNextEvent, h0, AVLTree.RemoveHead, hr]
  · unfold CEventQueue.GetCount
    rw [hc, h0]
    decide

/-! ## Removal of a given node -/

/-- Removing the root of a tree when the root has no left child: the node is unlinked (the
right child becomes the root), but `RemoveNode` reports `FALSE` and `Count` is not
decremented. -/
theorem removeNode_root_no_left (fuel : Nat) (m : Mem) (t : AVLTree) (x : Nat)
    (hr : t.pRoot = some x) (hl : (m x).LChild = none) :
    AVLTree.RemoveNode (fuel + 1) m t (some x)
      = some (m, { pRoot := (m x).RChild, Count := t.Count }, false) := by
  simp [AVLTree.RemoveNode, hr, AVL.RemoveNode, hl]

/-- Removing the root of a tree when the root has a left child and no right child: the node
is unlinked (the left child becomes the root), but `RemoveNode` reports `FALSE` and `Count`
is not decremented. -/
theorem removeNode_root_no_right (fuel : Nat) (m : Mem) (t : AVLTree) (x l : Nat)
    (hr : t.pRoot = some x) (hl : (m x).LChild = some l) (hrc : (m x).RChild = none) :
    AVLTree.RemoveNode (fuel + 1) m t (some x)
      = some (m, { pRoot := some l, Count := t.Count }, false) := by
  simp [AVLTree.RemoveNode, hr, AVL.RemoveNode, hl, hrc]

/-- C32 fails for a leaf: `AVLNode::RemoveNode` sets `*result` only where the node has two
children.  In the tree `treeThree` (root `0` with the leaves `1` and `2`, `Count = 3`),
`RemoveNode` of the leaf `1` unlinks the node: the tree left has the two nodes `0` and `2`;
but it reports `FALSE` and `Count` stays `3`.  Removing the root `0`, which has two children,
reports `TRUE` and decrements `Count`. -/
theorem C32_remove_leaf_unreported :
    treeThree.2.Count = 3 ∧ shapeThree.inorder = [1, 0, 2] ∧
    (∃ m2 t2, AVLTree.RemoveNode 3 treeThree.1 treeThree.2 (some 1) = some (m2, t2, false) ∧
      t2.Count = 3 ∧ t2.pRoot = some 0 ∧
      HeapTree m2 (Shape.node Shape.nil 0 (Shape.node Shape.nil 2 Shape.nil))) ∧
    (∃ m2 t2, AVLTree.RemoveNode 3 treeThree.1 treeThree.2 (some 0) = some (m2, t2, true) ∧
      t2.Count = 2 ∧ t2.pRoot = some 1 ∧
      HeapTree m2 (Shape.node Shape.nil 1 (Shape.node Shape.nil 2 Shape.nil))) := by
  refine ⟨rfl, rfl, ⟨_, _, rfl, rfl, rfl, ?_⟩, ⟨_, _, rfl, rfl, rfl, ?_⟩⟩
  · exact ⟨rfl, rfl, rfl, rfl, trivial, ⟨rfl, rfl, rfl, rfl, trivial, trivial⟩⟩
  · exact ⟨rfl, rfl, rfl, rfl, trivial, ⟨rfl, rfl, rfl, rfl, trivial, trivial⟩⟩

/-! ## Order of nodes with equal keys -/

theorem TiesNewestFirst.insert_node {key : Nat → Int} {pre post log : List Nat} {n : Nat}
    (h : TiesNewestFirst key (pre ++ post) log) (h1 : ∀ x ∈ pre, key x < key n)
    (h2 : ∀ x ∈ post, x ∈ log) : TiesNewestFirst key (pre ++ n :: post) (n :: log) := by
  unfold TiesNewestFirst at h ⊢
  rw [List.pairwise_append] at h
  obtain ⟨hp, hq, hpq⟩ := h
  rw [List.pairwise_append, List.pairwise_cons]
  refine ⟨hp.imp (fun hab e => (hab e).cons n), ⟨?_, hq.imp (fun hab e => (hab e).cons n)⟩, ?_⟩
  · intro b hb _
    exact List.Sublist.cons₂ n (List.singleton_sublist.2 (h2 b hb))
  · intro a ha b hb e
    rcases List.mem_cons.1 hb with rfl | hb
    · have := h1 a ha
      omega
    · exact (hpq a ha b hb e).cons n

theorem TiesNewestFirst.remove_first {key : Nat → Int} {rest log : List Nat} {x : Nat}
    (h : TiesNewestFirst key (x :: rest) log) (nd : (x :: rest).Nodup) :
    TiesNewestFirst key rest (log.erase x) := by
  unfold TiesNewestFirst at h ⊢
  obtain ⟨hx, nd2⟩ := List.nodup_cons.1 nd
  refine (List.pairwise_cons.1 h).2.imp_of_mem ?_
  intro a b ha hb hab e
  have hs := (hab e).erase x
  have hne : x ∉ [a, b] := by
    simp only [List.mem_cons, List.mem_singleton, List.not_mem_nil, or_false, not_or]
    exact ⟨fun e => hx (e ▸ ha), fun e => hx (e ▸ hb)⟩
  rw [List.erase_of_not_mem hne] at hs
  exact hs

theorem TiesNewestFirst.keys {key key2 : Nat → Int} {l log : List Nat}
    (h : TiesNewestFirst key l log) (hk : ∀ x ∈ l, key2 x = key x) :
    TiesNewestFirst key2 l log := by
  unfold TiesNewestFirst at h ⊢
  refine h.imp_of_mem ?_
  intro a b ha hb hab e
  rw [hk a ha, hk b hb] at e
  exact hab e

theorem TreeInv.outside_write {m m2 : Mem} {t : AVLTree} {tr : Shape} (h : TreeInv m t tr)
    (hm : ∀ a ∈ tr.inorder, m2 a = m a) : TreeInv m2 t tr := by
  refine ⟨h.heap.tree_frame hm, h.root, h.count, h.nodup, ?_⟩
  refine h.sorted.imp_of_mem ?_
  intro a b ha hb hab
  rw [hm a ha, hm b hb]
  exact hab

theorem addNode_anyCount (fuel : Nat) (m : Mem) (t : AVLTree) (c : Int) (n : Nat) :
    AVLTree.AddNode fuel m (AVLTree.mk t.pRoot c) (some n)
      = (AVLTree.AddNode fuel m t (some n)).map
          (fun r => (r.1, AVLTree.mk r.2.pRoot (c + 1))) := by
  unfold AVLTree.AddNode
  cases t.pRoot with
  | none => rfl
  | some root =>
    simp only
    cases AVL.InsertNode fuel m root n with
    | none => rfl
    | some r => rfl

theorem removeHead_anyCount (fuel : Nat) (m : Mem) (t : AVLTree) (c : Int) :
    (AVLTree.RemoveHead fuel m (AVLTree.mk t.pRoot c)).map (fun r => (r.1, r.2.1.pRoot, r.2.2))
      = (AVLTree.RemoveHead fuel m t).map (fun r => (r.1, r.2.1.pRoot, r.2.2)) := by
  cases t with
  | mk r0 c0 =>
    unfold AVLTree.RemoveHead
    cases r0 with
    | none => rfl
    | some root =>
      simp only
      cases AVL.RemoveLeftEnd fuel m root with
      | none => rfl
      | some r => rfl

/-- Invariant of the states reached by `AddNode` and `RemoveHead`: the tree object is well
formed up to its counter, which is at least the number of nodes, its nodes are the nodes of
the list of additions, and nodes with equal keys stand in the in-order sequence in order of
addition, most recent first. -/
theorem treeRun_inv {m : Mem} {t : AVLTree} {log : List Nat} (h : TreeRun m t log) :
    ∃ tr, TreeInv m (AVLTree.mk t.pRoot tr.inorder.length) tr ∧
      (tr.inorder.length : Int) ≤ t.Count ∧ tr.inorder.Perm log ∧
      TiesNewestFirst (fun z => (m z).NodeKey) tr.inorder log := by
  induction h with
  | empty m =>
    exact ⟨Shape.nil, ⟨trivial, rfl, rfl, List.nodup_nil, List.Pairwise.nil⟩, le_refl _,
      List.Perm.refl _, List.Pairwise.nil⟩
  | write _ hm ih =>
    obtain ⟨tr, hinv, hc, hp, ht⟩ := ih
    have hm2 := fun a (ha : a ∈ tr.inorder) => hm a (hp.mem_iff.1 ha)
    exact ⟨tr, hinv.outside_write hm2, hc, hp, ht.keys (fun x hx => by rw [hm2 x hx])⟩
  | @add m m2 t t2 log n fuel _ hn hf e ih =>
    obtain ⟨tr, hinv, hc, hp, ht⟩ := ih
    have hn2 : n ∉ tr.inorder := fun hh => hn (hp.mem_iff.1 hh)
    have hd : tr.depth ≤ fuel :=
      le_trans tr.depth_le_length (by rw [hp.length_eq]; exact hf)
    obtain ⟨m3, e3, hinv3, T⟩ := hinv.add hn2 hd
    have e4 := addNode_anyCount fuel m t tr.inorder.length n
    rw [e3, e] at e4
    simp only [Option.map_some', Option.some.injEq, Prod.mk.injEq, AVLTree.mk.injEq] at e4
    obtain ⟨rfl, hroot, -⟩ := e4
    obtain ⟨pre, post, e1, e2, h1, h2⟩ :=
      Shape.inorder_insert_split (fun z => (m z).NodeKey) n tr hinv.sorted
    have hlen := hinv3.count
    simp only at hlen
    have ht2c : t2.Count = t.Count + 1 := by
      cases hr : t.pRoot with
      | none =>
        simp only [AVLTree.AddNode, hr, Option.some.injEq, Prod.mk.injEq] at e
        rw [← e.2]
      | some root =>
        simp only [AVLTree.AddNode, hr] at e
        split at e
        · exact Option.noConfusion e
        · simp only [Option.some.injEq, Prod.mk.injEq] at e
          rw [← e.2]
    refine ⟨_, ⟨hinv3.heap, ?_, rfl, hinv3.nodup, hinv3.sorted⟩, ?_,
      (Shape.inorder_insert_perm _ n tr).trans (hp.cons n), ?_⟩
    · show t2.pRoot = _
      rw [← hroot]
    · rw [ht2c, ← hlen]
      omega
    · rw [e2]
      rw [e1] at ht
      refine (ht.insert_node h1 ?_).keys (fun x _ => T.key x)
      intro x hx
      exact hp.mem_iff.1 (by rw [e1]; exact List.mem_append_right _ hx)
  | @removeHead m m2 t t2 log x fuel _ hf e ih =>
    obtain ⟨tr, hinv, hc, hp, ht⟩ := ih
    have hd : tr.depth ≤ fuel :=
      le_trans tr.depth_le_length (by rw [hp.length_eq]; exact hf)
    have e4 := removeHead_anyCount fuel m t tr.inorder.length
    cases hx : tr.inorder with
    | nil =>
      have : tr = Shape.nil := Shape.inorder_eq_nil hx
      subst this
      have hr : t.pRoot = none := hinv.root
      rw [treeRemoveHead_nil hr fuel] at e
      simp at e
    | cons y rest =>
      obtain ⟨m3, e3, hinv3, htl, T⟩ := hinv.removeHead hx hd
      rw [e3, e] at e4
      simp only [Option.map_some', Option.some.injEq, Prod.mk.injEq] at e4
      obtain ⟨rfl, hroot, rfl⟩ := e4
      have nd := hinv.nodup
      rw [hx] at hp ht nd
      have ht2c : t2.Count = t.Count - 1 := by
        cases hr : t.pRoot with
        | none =>
          rw [treeRemoveHead_nil hr fuel] at e
          simp at e
        | some root =>
          simp only [AVLTree.RemoveHead, hr] at e
          split at e
          · exact Option.noConfusion e
          · simp only [Option.some.injEq, Prod.mk.injEq] at e
            rw [← e.2.1]
      refine ⟨_, ⟨hinv3.heap, ?_, rfl, hinv3.nodup, hinv3.sorted⟩, ?_, ?_, ?_⟩
      · show t2.pRoot = _
        rw [← hroot]
      · rw [ht2c, htl]
        rw [hx] at hc
        simp only [List.length_cons, Nat.cast_add, Nat.cast_one] at hc
        omega
      · rw [htl]
        have := hp.erase y
        rwa [List.erase_cons_head] at this
      · rw [htl]
        exact (ht.remove_first nd).keys (fun x _ => T.key x)
  | @clear m t log _ ih =>
    obtain ⟨tr, -, hc, -, -⟩ := ih
    refine ⟨Shape.nil, ⟨trivial, rfl, rfl, List.nodup_nil, List.Pairwise.nil⟩, ?_,
      List.Perm.refl _, List.Pairwise.nil⟩
    show ((0 : Nat) : Int) ≤ t.Count
    omega

theorem queueTies_same {q q1 : CEventQueue} {t : Shape} {top2 pool2 log : List Nat}
    (hp : t.inorder.Perm log)
    (ht : TiesNewestFirst (fun z => (q.mem z).NodeKey) t.inorder log)
    (h1 : QueueInv q1 t top2 pool2)
    (hk : ∀ x ∈ t.inorder, (q1.mem x).NodeKey = (q.mem x).NodeKey) :
    ∃ t2 top3 pool3, QueueInv q1 t2 top3 pool3 ∧ t2.inorder.Perm log ∧
      TiesNewestFirst (fun z => (q1.mem z).NodeKey) t2.inorder log :=
  ⟨t, top2, pool2, h1, hp, ht.keys hk⟩

theorem queueTies_step {q q1 : CEventQueue} {t : Shape} {top pool log : List Nat}
    (h : QueueInv q t top pool) (hp : t.inorder.Perm log)
    (ht : TiesNewestFirst (fun z => (q.mem z).NodeKey) t.inorder log)
    (op : Op) (hok : op.ok q = true) (e : step q op = some q1) :
    ∃ t2 top2 pool2, QueueInv q1 t2 top2 pool2 ∧ t2.inorder.Perm (logStep q log op) ∧
      TiesNewestFirst (fun z => (q1.mem z).NodeKey) t2.inorder (logStep q log op) := by
  have halloc : ∀ x ∈ t.inorder, x < q.brk := fun x hx => h.owned.alloc x (by simp [hx])
  cases op with
  | AllocateEvent =>
    obtain ⟨p, pool2, -, hinv, -, -, -, -, -, hd⟩ := allocateEvent_spec h
    simp only [step, Option.some.injEq] at e
    subst e
    exact queueTies_same hp ht hinv (fun x hx => (data_fields (hd x (halloc x hx))).1)
  | RegisterEvent p i =>
    simp only [Op.ok, Bool.and_eq_true, decide_eq_true_eq] at hok
    obtain ⟨⟨⟨hv, hi1⟩, -⟩, ho⟩ := hok
    cases p with
    | none =>
      simp only [step, CEventQueue.RegisterEvent, Option.some.injEq] at e
      subst e
      exact ⟨t, top, pool, h, hp, ht⟩
    | some a =>
      have hb : a < q.brk := by simpa [validPtr] using hv
      cases ha : CEventQueue.IsActive q.mem a with
      | false =>
        simp only [step, registerEvent_inactive i ha, Option.some.injEq] at e
        subst e
        simp only [logStep, ha, Bool.false_eq_true, false_and, if_false]
        exact ⟨t, top, pool, h, hp, ht⟩
      | true =>
        obtain ⟨q2, e2, -, -, -, -, hd, -, h0, h1⟩ := registerEvent_spec h hb ha hi1 ho
        simp only [step, e2, Option.some.injEq] at e
        subst e
        have hat : a ∉ t.inorder := by
          have := h.not_mem_of_active ha
          simp only [List.mem_append, not_or] at this
          exact this.1.1
        have hk : ∀ x ∈ t.inorder, (q2.mem x).NodeKey = (q.mem x).NodeKey := by
          intro x hx
          have hxa : x ≠ a := fun e => hat (e ▸ hx)
          exact (data_fields (hd x hxa)).1
        by_cases c : 0 < i
        · have c2 : (if i < 0 then 0 else i) ≠ 0 := by split_ifs <;> omega
          simp only [logStep, ha, c, and_self, if_true]
          have hinv := (h1 c2).1
          have hs : t.inorder.Pairwise
              (fun x y => (q2.mem x).NodeKey ≤ (q2.mem y).NodeKey) := by
            refine h.sorted.imp_of_mem ?_
            intro x y hx hy hxy
            rw [hk x hx, hk y hy]; exact hxy
          obtain ⟨pre, post, e1, e3, g1, -⟩ :=
            Shape.inorder_insert_split (fun z => (q2.mem z).NodeKey) a t hs
          refine ⟨_, top, pool, hinv, (Shape.inorder_insert_perm _ a t).trans (hp.cons a), ?_⟩
          rw [e3]
          have ht2 := ht.keys hk
          rw [e1] at ht2
          refine ht2.insert_node g1 ?_
          intro x hx
          exact hp.mem_iff.1 (by rw [e1]; exact List.mem_append_right _ hx)
        · have c2 : (if i < 0 then 0 else i) = 0 := by split_ifs <;> omega
          simp only [logStep, ha, c, and_false, if_false]
          exact queueTies_same hp ht (h0 c2).1 hk
  | CancelEvent p =>
    simp only [step, Option.some.injEq] at e
    subst e
    refine queueTies_same hp ht (cancelEvent_spec h p) ?_
    intro x _
    cases p with
    | none => rfl
    | some a =>
      by_cases hx : x = a
      · subst hx; simp [CEventQueue.CancelEvent, Mem.set]
      · simp [CEventQueue.CancelEvent, Mem.set, hx]
  | DestroyEvent p =>
    simp only [step, Option.some.injEq] at e
    subst e
    obtain ⟨pool2, hinv, -, -⟩ := destroyEvent_inv h p hok
    exact queueTies_same hp ht hinv (fun x _ => (data_fields (destroyEvent_data q p x)).1)
  | GetNextEvent =>
    cases top with
    | cons a top2 =>
      obtain ⟨q2, e2, hinv, -, -, -, -, -, -, -, hd⟩ := getNextEvent_top h
      simp only [step, e2, Option.map_some', Option.some.injEq] at e
      subst e
      have hal : a ∉ log := by
        intro hh
        have h1 := hp.mem_iff.2 hh
        have nd := h.owned.nodup
        rw [List.append_assoc] at nd
        exact (List.nodup_append.1 nd).2.2 h1 (by simp)
      simp only [logStep, e2, List.erase_of_not_mem hal]
      exact queueTies_same hp ht hinv (fun x _ => (data_fields (hd x)).1)
    | nil =>
      cases hx : t.inorder with
      | nil =>
        have : t = Shape.nil := Shape.inorder_eq_nil hx
        subst this
        simp only [step, getNextEvent_empty h, Option.map_some', Option.some.injEq] at e
        subst e
        simp only [logStep, getNextEvent_empty h]
        exact ⟨Shape.nil, [], pool, h, hp, ht⟩
      | cons x rest =>
        obtain ⟨q2, e2, hinv, htl, -, -, -, -, -, -, hd⟩ := getNextEvent_tree h hx
        simp only [step, e2, Option.map_some', Option.some.injEq] at e
        subst e
        simp only [logStep, e2]
        have nd : t.inorder.Nodup :=
          (List.nodup_append.1 (List.nodup_append.1 h.owned.nodup).1).1
        rw [hx] at hp ht nd
        refine ⟨_, [], pool, hinv, ?_, ?_⟩
        · rw [htl]
          have := hp.erase x
          rwa [List.erase_cons_head] at this
        · rw [htl]
          exact (ht.remove_first nd).keys (fun y _ => (data_fields (hd y)).1)
  | Write p d =>
    simp only [step, Option.some.injEq] at e
    subst e
    refine queueTies_same hp ht (h.write_public p d) ?_
    intro x _
    by_cases hx : x = p
    · subst hx; simp [Mem.set, CEvent.assign]
    · simp [Mem.set, hx]

/-- Invariant of the reachable states of the event queue with their list of registrations:
the queue invariant holds, the events of the ordered queue are the events of the list, and
events with equal activation times stand in the queue in order of registration, most recent
first. -/
theorem queueLog_inv {heap : Mem} {q : CEventQueue} {log : List Nat}
    (h : QueueLog heap q log) :
    ∃ t top pool, QueueInv q t top pool ∧ t.inorder.Perm log ∧
      TiesNewestFirst (fun z => (q.mem z).NodeKey) t.inorder log := by
  induction h with
  | init => exact ⟨Shape.nil, [], [], QueueInv.new heap, List.Perm.refl _, List.Pairwise.nil⟩
  | call op _ hok e ih =>
    obtain ⟨t, top, pool, hinv, hp, ht⟩ := ih
    exact queueTies_step hinv hp ht op hok e
  | reset _ hreset ih =>
    obtain ⟨t, top, pool, hinv, -, -⟩ := ih
    obtain ⟨q2, e, h2, -, -, -⟩ := reset_inv hinv
    rw [hreset] at e
    simp only [Option.some.injEq] at e
    subst e
    exact ⟨Shape.nil, _, _, h2, List.Perm.refl _, List.Pairwise.nil⟩
  | deleteEvents _ _ hdel ih =>
    obtain ⟨t, top, pool, hinv, -, -⟩ := ih
    exact ⟨Shape.nil, _, _, deleteEvents_inv hinv hdel, List.Perm.refl _, List.Pairwise.nil⟩

theorem TiesNewestFirst.head_newest {key : Nat → Int} {x : Nat} {rest log : List Nat}
    (ht : TiesNewestFirst key (x :: rest) log) (hp : (x :: rest).Perm log) :
    ∀ y ∈ log, y ≠ x → key y = key x → AddedAfter log x y := by
  intro y hy hne e
  have hy2 : y ∈ x :: rest := hp.mem_iff.2 hy
  rcases List.mem_cons.1 hy2 with rfl | hy2
  · exact absurd rfl hne
  · exact (List.pairwise_cons.1 ht).1 y hy2 e.symm

theorem treeRun_treeSame : TreeRun treeSame.1 treeSame.2 [1, 0] :=
  TreeRun.add 1 2 (TreeRun.add 0 2 (TreeRun.empty heapSame) (by simp) (by decide) rfl)
    (by decide) (by decide) rfl

theorem treeRun_treeStale : TreeRun treeStale.1 treeStale.2 [1, 0] :=
  TreeRun.add 1 2 (TreeRun.add 0 2 (TreeRun.clear treeRun_treeSame) (by simp) (by decide) rfl)
    (by decide) (by decide) rfl

theorem queueLog_run {heap : Mem} (ops : List Op) : ∀ {q q2 : CEventQueue} {log : List Nat},
    QueueLog heap q log → okTrace q ops = true → run q ops = some q2 →
    QueueLog heap q2 (logRun q log ops) := by
  induction ops with
  | nil =>
    intro q q2 log h _ e
    simp only [run, Option.some.injEq] at e
    subst e
    exact h
  | cons op ops ih =>
    intro q q2 log h hok e
    simp only [okTrace, Bool.and_eq_true] at hok
    cases hs : step q op with
    | none => simp [run, hs] at e
    | some q1 =>
      simp only [run, hs] at e
      have hok2 := hok.2
      simp only [hs] at hok2
      simp only [logRun, hs]
      exact ih (QueueLog.call op h hok.1 hs) hok2 e

theorem queueLog_qBoot : QueueLog heap0 qBoot [1] :=
  queueLog_run [Op.AllocateEvent, Op.AllocateEvent, Op.AllocateEvent,
    Op.RegisterEvent (some 1) 7, Op.RegisterEvent (some 2) 0] QueueLog.init (by decide) rfl

theorem queueLog_qRun : QueueLog heap0 qRun [2] :=
  queueLog_run [Op.AllocateEvent, Op.RegisterEvent (some 2) 1000000]
    (QueueLog.reset queueLog_qBoot (show qBoot.Reset = some qReset from rfl)) (by decide) rfl

theorem queueLog_rSame : QueueLog heap0 rSame [1, 0, 2] :=
  queueLog_run [Op.RegisterEvent (some 0) 7, Op.AllocateEvent, Op.RegisterEvent (some 1) 7]
    queueLog_qRun (by decide) rfl

/-- C37: in every state of an `AVLTree` object reached by `AddNode` and `RemoveHead` calls,
also after the tree was emptied by the `Reset` of the event queue, which keeps the counter
(`log` lists the nodes in the tree in order of addition, most recent first; the fuel covers
the number of nodes): `AddNode` of a new node returns, adds one to the counter and places the
node in the in-order sequence after every node with a smaller key and before every node
whose key is greater than or equal to its own; `RemoveHead` returns null on the empty tree,
and otherwise a node `x` with the least key that was added after every other node with the
same key.  In every state of the event queue reached by admissible engine calls and by
`Reset` (`qlog` lists the events registered with a positive interval and not yet returned,
most recent first), `RegisterEvent` of a detached event with a positive interval puts the
event in front of the list, and when the top-events stack is empty `GetNextEvent` returns
the event with the least activation time that was registered after every other waiting
event with the same activation time. -/
theorem C37_equal_keys_lifo (m : Mem) (t : AVLTree) (log : List Nat) (fuel : Nat)
    (heap : Mem) (q : CEventQueue) (qlog : List Nat)
    (h : TreeRun m t log) (hf : log.length ≤ fuel) (hq : QueueLog heap q qlog) :
    (∀ n, n ∉ log → ∃ m2 t2 tr tr2 pre post,
      AVLTree.AddNode fuel m t (some n) = some (m2, t2) ∧ TreeRun m2 t2 (n :: log) ∧
      HeapTree m tr ∧ t.pRoot = tr.root ∧ HeapTree m2 tr2 ∧ t2.pRoot = tr2.root ∧
      t2.Count = t.Count + 1 ∧
      tr2.inorder.Pairwise (fun a b => (m2 a).NodeKey ≤ (m2 b).NodeKey) ∧
      tr.inorder = pre ++ post ∧
      tr2.inorder = pre ++ n :: post ∧ (∀ x ∈ pre, (m x).NodeKey < (m n).NodeKey) ∧
      (∀ x ∈ post, (m n).NodeKey ≤ (m x).NodeKey)) ∧
    (log = [] → AVLTree.RemoveHead fuel m t = some (m, t, none)) ∧
    (log ≠ [] → ∃ m2 t2 x, AVLTree.RemoveHead fuel m t = some (m2, t2, some x) ∧ x ∈ log ∧
      (∀ y ∈ log, (m x).NodeKey ≤ (m y).NodeKey) ∧
      (∀ y ∈ log, y ≠ x → (m y).NodeKey = (m x).NodeKey → AddedAfter log x y) ∧
      TreeRun m2 t2 (log.erase x)) ∧
    (∀ a i, a < q.brk → CEventQueue.IsActive q.mem a = true → 0 < i → i ≤ INT64_MAX →
      q.eqCurrentTime + i ≤ INT64_MAX →
      ∃ q2, q.RegisterEvent (some a) i = some q2 ∧ QueueLog heap q2 (a :: qlog) ∧
        (q2.mem a).NodeKey = q.eqCurrentTime + i) ∧
    (q.eqTopEvents.Count = 0 → qlog ≠ [] →
      ∃ q2 x, q.GetNextEvent = some (q2, some x) ∧ x ∈ qlog ∧
        (∀ y ∈ qlog, (q.mem x).NodeKey ≤ (q.mem y).NodeKey) ∧
        (∀ y ∈ qlog, y ≠ x → (q.mem y).NodeKey = (q.mem x).NodeKey → AddedAfter qlog x y) ∧
        QueueLog heap q2 (qlog.erase x)) := by
  obtain ⟨tr, hinv, -, hp, ht⟩ := treeRun_inv h
  have hd : tr.depth ≤ fuel := le_trans tr.depth_le_length (by rw [hp.length_eq]; exact hf)
  obtain ⟨qt, top, pool, qinv, qp, qties⟩ := queueLog_inv hq
  refine ⟨?_, ?_, ?_, ?_, ?_⟩
  · intro n hn
    have hn2 : n ∉ tr.inorder := fun hh => hn (hp.mem_iff.1 hh)
    obtain ⟨m2, e, hinv2, -⟩ := hinv.add hn2 hd
    have e4 := addNode_anyCount fuel m t tr.inorder.length n
    rw [e] at e4
    cases e5 : AVLTree.AddNode fuel m t (some n) with
    | none => rw [e5] at e4; exact Option.noConfusion e4
    | some r =>
      rw [e5] at e4
      simp only [Option.map_some', Option.some.injEq, Prod.mk.injEq, AVLTree.mk.injEq] at e4
      obtain ⟨hm2, hroot, -⟩ := e4
      have hcnt : r.2.Count = t.Count + 1 := by
        cases hr : t.pRoot with
        | none =>
          simp only [AVLTree.AddNode, hr, Option.some.injEq] at e5
          rw [← e5]
        | some root =>
          simp only [AVLTree.AddNode, hr] at e5
          split at e5
          · exact Option.noConfusion e5
          · simp only [Option.some.injEq] at e5
            rw [← e5]
      obtain ⟨pre, post, e1, e2, h1, h2⟩ :=
        Shape.inorder_insert_split (fun z => (m z).NodeKey) n tr hinv.sorted
      refine ⟨r.1, r.2, tr, _, pre, post, rfl, TreeRun.add n fuel h hn hf e5, hinv.heap,
        hinv.root, ?_, ?_, hcnt, ?_, e1, e2, h1, h2⟩
      · rw [← hm2]; exact hinv2.heap
      · rw [← hroot]
      · rw [← hm2]; exact hinv2.sorted
  · intro hl
    subst hl
    have : tr = Shape.nil := Shape.inorder_eq_nil (List.Perm.eq_nil hp)
    subst this
    have hr : t.pRoot = none := hinv.root
    exact treeRemoveHead_nil hr fuel
  · intro hl
    cases hx : tr.inorder with
    | nil =>
      rw [hx] at hp
      exact absurd (List.Perm.nil_eq hp).symm hl
    | cons x rest =>
      obtain ⟨m2, e, -, -, -⟩ := hinv.removeHead hx hd
      have e4 := removeHead_anyCount fuel m t tr.inorder.length
      rw [e] at e4
      rw [hx] at hp ht
      have hs := hinv.sorted
      rw [hx] at hs
      cases e5 : AVLTree.RemoveHead fuel m t with
      | none => rw [e5] at e4; exact Option.noConfusion e4
      | some r =>
        rw [e5] at e4
        simp only [Option.map_some', Option.some.injEq, Prod.mk.injEq] at e4
        obtain ⟨-, -, hx2⟩ := e4
        have e6 : AVLTree.RemoveHead fuel m t = some (r.1, r.2.1, some x) := by
          rw [e5, hx2]
        refine ⟨r.1, r.2.1, x, by rw [hx2], hp.mem_iff.1 (List.mem_cons_self _ _), ?_,
          ht.head_newest hp, TreeRun.removeHead x fuel h hf e6⟩
        intro y hy
        rcases List.mem_cons.1 (hp.mem_iff.2 hy) with rfl | hy2
        · exact le_refl _
        · exact (List.pairwise_cons.1 hs).1 y hy2
  · intro a i hb ha hi hi2 ho
    have hneg : ¬ i < 0 := by omega
    have hi3 : -(2 ^ 63) ≤ i := by omega
    obtain ⟨q2, e, -, -, -, hk, -, -, -, -⟩ := registerEvent_spec qinv hb ha hi3
      (by rw [if_neg hneg]; exact ho)
    rw [if_neg hneg] at hk
    refine ⟨q2, e, ?_, hk⟩
    have hok : (Op.RegisterEvent (some a) i).ok q = true := by
      simp only [Op.ok, validPtr, Bool.and_eq_true, decide_eq_true_eq, if_neg hneg]
      exact ⟨⟨⟨hb, hi3⟩, hi2⟩, ho⟩
    have := QueueLog.call (Op.RegisterEvent (some a) i) hq hok e
    simpa only [logStep, ha, hi, and_self, if_true] using this
  · intro hc hl
    have htop : top = [] := (qinv.topS.nil_iff).1 hc
    subst htop
    cases hx : qt.inorder with
    | nil =>
      rw [hx] at qp
      exact absurd (List.Perm.nil_eq qp).symm hl
    | cons x rest =>
      obtain ⟨q2, e, -, -, -, hmin, -, -, -, -, -⟩ := getNextEvent_tree qinv hx
      rw [hx] at qties
      have qp2 := qp
      rw [hx] at qp2
      refine ⟨q2, x, e, qp2.mem_iff.1 (List.mem_cons_self _ _),
        fun y hy => hmin y (qp.mem_iff.2 hy), qties.head_newest qp2, ?_⟩
      have := QueueLog.call Op.GetNextEvent hq rfl (show step q Op.GetNextEvent = some q2 by
        simp [step, e])
      simpa only [logStep, e] using this

/-- The witness of C37 takes a tree and a queue that were emptied by a `Reset` before: the
tree `treeStale`, whose nodes `1` and `0` have the same key and whose counter is `4`, and
the state `rSame` of the running simulation, in which the records `1` and `0` wait with the
activation time `7` and record `2` with `1000000`; `GetNextEvent` returns record `1`, which
was registered last. -/
theorem C37_equal_keys_lifo_witness :
    ((∀ n, n ∉ [1, 0] → ∃ m2 t2 tr tr2 pre post,
      AVLTree.AddNode 2 treeStale.1 treeStale.2 (some n) = some (m2, t2) ∧
      TreeRun m2 t2 (n :: [1, 0]) ∧
      HeapTree treeStale.1 tr ∧ treeStale.2.pRoot = tr.root ∧ HeapTree m2 tr2 ∧
      t2.pRoot = tr2.root ∧ t2.Count = treeStale.2.Count + 1 ∧
      tr2.inorder.Pairwise (fun a b => (m2 a).NodeKey ≤ (m2 b).NodeKey) ∧
      tr.inorder = pre ++ post ∧
      tr2.inorder = pre ++ n :: post ∧
      (∀ x ∈ pre, (treeStale.1 x).NodeKey < (treeStale.1 n).NodeKey) ∧
      (∀ x ∈ post, (treeStale.1 n).NodeKey ≤ (treeStale.1 x).NodeKey)) ∧
    (([1, 0] : List Nat) = [] →
      AVLTree.RemoveHead 2 treeStale.1 treeStale.2 = some (treeStale.1, treeStale.2, none)) ∧
    (([1, 0] : List Nat) ≠ [] → ∃ m2 t2 x,
      AVLTree.RemoveHead 2 treeStale.1 treeStale.2 = some (m2, t2, some x) ∧ x ∈ [1, 0] ∧
      (∀ y ∈ [1, 0], (treeStale.1 x).NodeKey ≤ (treeStale.1 y).NodeKey) ∧
      (∀ y ∈ [1, 0], y ≠ x → (treeStale.1 y).NodeKey = (treeStale.1 x).NodeKey →
        AddedAfter [1, 0] x y) ∧
      TreeRun m2 t2 (List.erase [1, 0] x)) ∧
    (∀ a i, a < rSame.brk → CEventQueue.IsActive rSame.mem a = true → 0 < i →
      i ≤ INT64_MAX → rSame.eqCurrentTime + i ≤ INT64_MAX →
      ∃ q2, rSame.RegisterEvent (some a) i = some q2 ∧ QueueLog heap0 q2 (a :: [1, 0, 2]) ∧
        (q2.mem a).NodeKey = rSame.eqCurrentTime + i) ∧
    (rSame.eqTopEvents.Count = 0 → ([1, 0, 2] : List Nat) ≠ [] →
      ∃ q2 x, rSame.GetNextEvent = some (q2, some x) ∧ x ∈ [1, 0, 2] ∧
        (∀ y ∈ [1, 0, 2], (rSame.mem x).NodeKey ≤ (rSame.mem y).NodeKey) ∧
        (∀ y ∈ [1, 0, 2], y ≠ x → (rSame.mem y).NodeKey = (rSame.mem x).NodeKey →
          AddedAfter [1, 0, 2] x y) ∧
        QueueLog heap0 q2 (List.erase [1, 0, 2] x))) ∧
    (rSame.mem 1).NodeKey = 7 ∧ (rSame.mem 0).NodeKey = 7 ∧ (rSame.mem 2).NodeKey = 1000000 ∧
    rSame.tree.Count = 4 ∧ treeStale.2.Count = 4 ∧
    ∃ q2, rSame.GetNextEvent = some (q2, some 1) ∧ QueueLog heap0 q2 [0, 2] := by
  have h := C37_equal_keys_lifo treeStale.1 treeStale.2 [1, 0] 2 heap0 rSame [1, 0, 2]
    treeRun_treeStale (by decide) queueLog_rSame
  refine ⟨h, by decide, by decide, by decide, by decide, by decide, ?_⟩
  obtain ⟨q2, x, e, hx, hmin, hnew, hlog⟩ := h.2.2.2.2 (by decide) (by decide)
  have k1 : (rSame.mem 1).NodeKey = 7 := by decide
  have k0 : (rSame.mem 0).NodeKey = 7 := by decide
  have k2 : (rSame.mem 2).NodeKey = 1000000 := by decide
  have hx1 : x = 1 := by
    simp only [List.mem_cons, List.mem_singleton, List.not_mem_nil, or_false] at hx
    rcases hx with rfl | rfl | rfl
    · rfl
    · have := hnew 1 (by simp) (by decide) (by rw [k1, k0])
      unfold AddedAfter at this
      exact absurd this (by decide)
    · have := hmin 1 (by simp)
      rw [k1, k2] at this
      exact absurd this (by decide)
  subst hx1
  exact ⟨q2, e, hlog⟩

/-! ## Claims about the object ids and the monitor -/

theorem int_xor_cancel (n : Int) (b : Nat) : Int.xor (Int.xor n b) b = n := by
  cases n with
  | ofNat a =>
    show (((a ^^^ b) ^^^ b : Nat) : Int) = (a : Int)
    rw [Nat.xor_assoc, Nat.xor_self, Nat.xor_zero]
  | negSucc a =>
    show Int.negSucc ((a ^^^ b) ^^^ b) = Int.negSucc a
    rw [Nat.xor_assoc, Nat.xor_self, Nat.xor_zero]

theorem onu_id_test (n : Int) (h0 : 0 ≤ n) (h1 : n < NUM_LLID) :
    Int.land (wrap16 (_ONU_ID n)) ONU_BASE_ID ≠ 0 ∧
    Int.land (wrap16 (_LNK_ID n)) ONU_BASE_ID = 0 ∧
    Int.land (wrap16 (_SRC_ID n)) ONU_BASE_ID = 0 ∧
    (wrap16 (_ONU_ID n) = ONU_BASE_ID ↔ n = 0) ∧
    wrap16 (_LNK_ID n) ≠ ONU_BASE_ID ∧ wrap16 (_SRC_ID n) ≠ ONU_BASE_ID ∧
    wrap16 (_ONU_ID n) = _ONU_ID n ∧ wrap16 (_LNK_ID n) = _LNK_ID n ∧
    wrap16 (_SRC_ID n) = _SRC_ID n := by
  unfold NUM_LLID at h1
  interval_cases n <;> decide

theorem eponId_test {id : Int} (h : IsEponId id) :
    Int.land id ONU_BASE_ID ≠ 0 ↔ IsOnuId id := by
  constructor
  · intro hne
    rcases h with rfl | ⟨n, h0, h1, rfl | rfl | rfl⟩
    · exact absurd (by decide) hne
    · exact ⟨n, h0, h1, rfl⟩
    · exact absurd (onu_id_test n h0 h1).2.1 hne
    · exact absurd (onu_id_test n h0 h1).2.2.1 hne
  · rintro ⟨n, h0, h1, rfl⟩
    exact (onu_id_test n h0 h1).1

/-- C35: for every `n` with `0 ≤ n < NUM_LLID`, the test `ID & ONU_BASE_ID` of `Monitor` is
non-zero for the id `_ONU_ID( n )` and zero for the ids `_OLT_ID( 2 )`, `_LNK_ID( n )` and
`_SRC_ID( n )` that `InitializeEPON` gives to the OLT, the links and the sources; the id
equals `ONU_BASE_ID` only for ONU `0`; each `_X_ID` macro applied twice gives its argument
back.  So for a `PCKT_ARRIVAL` event whose consumer and producer carry ids given by
`InitializeEPON`, `Monitor` returns, and it counts the packet as received (and nothing else)
when the consumer is an ONU, as sent (with its delay sample, and nothing else) when the
consumer is not an ONU and the producer is one, and changes nothing otherwise. -/
theorem C35_monitor_ids (n : Int) (h0 : 0 ≤ n) (h1 : n < NUM_LLID) :
    Int.land (wrap16 (_ONU_ID n)) ONU_BASE_ID ≠ 0 ∧
    Int.land (wrap16 (_OLT_ID 2)) ONU_BASE_ID = 0 ∧
    Int.land (wrap16 (_LNK_ID n)) ONU_BASE_ID = 0 ∧
    Int.land (wrap16 (_SRC_ID n)) ONU_BASE_ID = 0 ∧
    (wrap16 (_ONU_ID n) = ONU_BASE_ID ↔ n = 0) ∧
    wrap16 (_OLT_ID 2) ≠ ONU_BASE_ID ∧ wrap16 (_LNK_ID n) ≠ ONU_BASE_ID ∧
    wrap16 (_SRC_ID n) ≠ ONU_BASE_ID ∧
    (∀ k : Int, _OLT_ID (_OLT_ID k) = k ∧ _ONU_ID (_ONU_ID k) = k ∧
      _LNK_ID (_LNK_ID k) = k ∧ _SRC_ID (_SRC_ID k) = k) ∧
    (_OLT_ID (wrap16 (_OLT_ID 2)) = 2 ∧ _ONU_ID (wrap16 (_ONU_ID n)) = n ∧
      _LNK_ID (wrap16 (_LNK_ID n)) = n ∧ _SRC_ID (wrap16 (_SRC_ID n)) = n) ∧
    (∀ (ID : Nat → Int) (GetQueueLength : Nat → Int) (now : Int) (s : MonitorState)
      (e : CEvent) (c p : Nat), e.Type_ = EV_PCKT_ARRIVAL → e.Consumer = some c →
      e.Producer = some p → IsEponId (ID c) → IsEponId (ID p) →
      ∃ s2, Monitor ID GetQueueLength now s e = some s2 ∧
        (IsOnuId (ID c) →
          s2 = { s with RcvdPckt := wrap32 (s.RcvdPckt + 1),
                        RcvdByte := wrap64 (s.RcvdByte + e.Pckt.PcktSize) }) ∧
        (¬ IsOnuId (ID c) → IsOnuId (ID p) →
          s2 = { s with DLY := s.DLY.Sample ((wrap64 (now - e.Pckt.PcktTime) : ℚ) / 1000000) 1,
                        SentPckt := wrap32 (s.SentPckt + 1),
                        SentByte := wrap64 (s.SentByte + e.Pckt.PcktSize) }) ∧
        (¬ IsOnuId (ID c) → ¬ IsOnuId (ID p) → s2 = s)) := by
  obtain ⟨a1, a2, a3, a4, a5, a6, a7, a8, a9⟩ := onu_id_test n h0 h1
  have inv : ∀ k : Int, _OLT_ID (_OLT_ID k) = k ∧ _ONU_ID (_ONU_ID k) = k ∧
      _LNK_ID (_LNK_ID k) = k ∧ _SRC_ID (_SRC_ID k) = k := fun k =>
    ⟨int_xor_cancel k 0x0100, int_xor_cancel k 0x1000, int_xor_cancel k 0x2000,
      int_xor_cancel k 0x4000⟩
  refine ⟨a1, by decide, a2, a3, a4, by decide, a5, a6, inv,
    ⟨by decide, by rw [a7]; exact (inv n).2.1, by rw [a8]; exact (inv n).2.2.1,
      by rw [a9]; exact (inv n).2.2.2⟩, ?_⟩
  intro ID G now s e c p hT hC hP hc hp
  by_cases t1 : Int.land (ID c) ONU_BASE_ID ≠ 0
  · have o1 := (eponId_test hc).1 t1
    have b1 : decide (Int.land (ID c) ONU_BASE_ID ≠ 0) = true := decide_eq_true t1
    refine ⟨_, by simp only [Monitor, hT, hC, if_true, Option.map_some', b1],
      fun _ => rfl, fun h => absurd o1 h, fun h => absurd o1 h⟩
  · have o1 : ¬ IsOnuId (ID c) := fun h => t1 ((eponId_test hc).2 h)
    have b1 : decide (Int.land (ID c) ONU_BASE_ID ≠ 0) = false := decide_eq_false t1
    by_cases t2 : Int.land (ID p) ONU_BASE_ID ≠ 0
    · have o2 := (eponId_test hp).1 t2
      have b2 : decide (Int.land (ID p) ONU_BASE_ID ≠ 0) = true := decide_eq_true t2
      refine ⟨_, by simp only [Monitor, hT, hC, hP, if_true, Option.map_some', b1, b2],
        fun h => absurd h o1, fun _ _ => rfl, fun _ h => absurd o2 h⟩
    · have o2 : ¬ IsOnuId (ID p) := fun h => t2 ((eponId_test hp).2 h)
      have b2 : decide (Int.land (ID p) ONU_BASE_ID ≠ 0) = false := decide_eq_false t2
      refine ⟨s, ?_, fun h => absurd h o1, fun _ h => absurd h o2, fun _ _ => rfl⟩
      have d1 : EV_PCKT_ARRIVAL ≠ EV_PCKT_DROP := by decide
      have d2 : EV_PCKT_ARRIVAL ≠ EV_PCKT_ENQUE := by decide
      have d3 : EV_PCKT_ARRIVAL ≠ EV_PCKT_DEQUE := by decide
      have d4 : EV_PCKT_ARRIVAL ≠ EV_MPCP_GATE := by decide
      simp only [Monitor, hT, hC, hP, if_true, Option.map_some', b1, b2, d1, d2,
        d3, d4, if_false, or_self]

theorem C35_monitor_ids_witness :
    Int.land (wrap16 (_ONU_ID 3)) ONU_BASE_ID ≠ 0 ∧
    Int.land (wrap16 (_OLT_ID 2)) ONU_BASE_ID = 0 ∧
    Int.land (wrap16 (_LNK_ID 3)) ONU_BASE_ID = 0 ∧
    Int.land (wrap16 (_SRC_ID 3)) ONU_BASE_ID = 0 ∧
    (wrap16 (_ONU_ID 3) = ONU_BASE_ID ↔ (3 : Int) = 0) ∧
    wrap16 (_OLT_ID 2) ≠ ONU_BASE_ID ∧ wrap16 (_LNK_ID 3) ≠ ONU_BASE_ID ∧
    wrap16 (_SRC_ID 3) ≠ ONU_BASE_ID ∧
    (∀ k : Int, _OLT_ID (_OLT_ID k) = k ∧ _ONU_ID (_ONU_ID k) = k ∧
      _LNK_ID (_LNK_ID k) = k ∧ _SRC_ID (_SRC_ID k) = k) ∧
    (_OLT_ID (wrap16 (_OLT_ID 2)) = 2 ∧ _ONU_ID (wrap16 (_ONU_ID 3)) = 3 ∧
      _LNK_ID (wrap16 (_LNK_ID 3)) = 3 ∧ _SRC_ID (wrap16 (_SRC_ID 3)) = 3) ∧
    (∀ (ID : Nat → Int) (GetQueueLength : Nat → Int) (now : Int) (s : MonitorState)
      (e : CEvent) (c p : Nat), e.Type_ = EV_PCKT_ARRIVAL → e.Consumer = some c →
      e.Producer = some p → IsEponId (ID c) → IsEponId (ID p) →
      ∃ s2, Monitor ID GetQueueLength now s e = some s2 ∧
        (IsOnuId (ID c) →
          s2 = { s with RcvdPckt := wrap32 (s.RcvdPckt + 1),
                        RcvdByte := wrap64 (s.RcvdByte + e.Pckt.PcktSize) }) ∧
        (¬ IsOnuId (ID c) → IsOnuId (ID p) →
          s2 = { s with DLY := s.DLY.Sample ((wrap64 (now - e.Pckt.PcktTime) : ℚ) / 1000000) 1,
                        SentPckt := wrap32 (s.SentPckt + 1),
                        SentByte := wrap64 (s.SentByte + e.Pckt.PcktSize) }) ∧
        (¬ IsOnuId (ID c) → ¬ IsOnuId (ID p) → s2 = s)) :=
  C35_monitor_ids 3 (by decide) (by decide)

/-! ## Doubly linked lists of packets on the heap -/

theorem DChain.chain_same {m m2 : PMem} : ∀ (l : List Nat) (prv hd : Ptr), DChain m prv l hd →
    (∀ a ∈ l, m2 a = m a) → DChain m2 prv l hd := by
  intro l
  induction l with
  | nil => intro prv hd h _; exact h
  | cons a l ih =>
    intro prv hd h hm
    obtain ⟨h1, h2, h3⟩ := h
    have ha : m2 a = m a := hm a (List.mem_cons_self _ _)
    refine ⟨h1, by rw [ha]; exact h2, ?_⟩
    rw [ha]
    exact ih _ _ h3 (fun x hx => hm x (List.mem_cons_of_mem _ hx))

/-- Changing the back pointer of the first packet of a chain. -/
theorem DChain.reprev {m : PMem} {l : List Nat} {prv hd : Ptr} (prv2 : Ptr) :
    DChain m prv l hd → l.Nodup →
    DChain (match hd with
      | some b => m.set b { m b with pPrev := prv2 }
      | none => m) prv2 l hd := by
  intro h nd
  cases l with
  | nil =>
    have : hd = none := h
    subst this
    exact rfl
  | cons a l =>
    obtain ⟨h1, -, h3⟩ := h
    subst h1
    obtain ⟨hal, -⟩ := List.nodup_cons.1 nd
    refine ⟨rfl, by simp [PMem.set], ?_⟩
    have e : ((m.set a { m a with pPrev := prv2 }) a).pNext = (m a).pNext := by simp [PMem.set]
    show DChain (m.set a { m a with pPrev := prv2 }) (some a) l
      ((m.set a { m a with pPrev := prv2 }) a).pNext
    rw [e]
    refine DChain.chain_same l _ _ h3 ?_
    intro x hx
    have : x ≠ a := fun e => hal (e ▸ hx)
    simp [PMem.set, this]

theorem DChain.mem_of_head {m : PMem} {l : List Nat} {prv : Ptr} {b : Nat}
    (h : DChain m prv l (some b)) : b ∈ l := by
  cases l with
  | nil => exact Option.noConfusion (show some b = none from h)
  | cons a l =>
    have : some b = some a := h.1
    simp only [Option.some.injEq] at this
    subst this
    exact List.mem_cons_self _ _

/-- The heap after `Insert( t, p, NULL )`. -/
theorem insert_tail_mem (m : PMem) (d : PDList) (t : Ptr) (p : Nat) :
    (d.Insert m t (some p) none).1
      = match t with
        | none => m.set p { m p with pPrev := t, pNext := none }
        | some a => (m.set p { m p with pPrev := t, pNext := none }).set a
            { (m.set p { m p with pPrev := t, pNext := none }) a with pNext := some p } := by
  have e : (m.set p { m p with pPrev := t }).set p
      { (m.set p { m p with pPrev := t }) p with pNext := none }
      = m.set p { m p with pPrev := t, pNext := none } := by
    funext x
    by_cases hx : x = p
    · subst hx; simp [PMem.set]
    · simp [PMem.set, hx]
  cases t with
  | none => simp only [PDList.Insert, e]
  | some a => simp only [PDList.Insert, e]

theorem DChain.append_node {m : PMem} {p : Nat} (d : PDList) :
    ∀ (l : List Nat) (prv hd t : Ptr), DChain m prv l hd → (p :: l).Nodup →
      t = (match l.getLast? with
        | some x => some x
        | none => prv) →
      prv ≠ some p → (∀ x, prv = some x → x ∉ l) →
      DChain (d.Insert m t (some p) none).1 prv (l ++ [p])
        (match l with
          | [] => some p
          | _ :: _ => hd) ∧
      (∀ x, prv = some x → l = [] → ((d.Insert m t (some p) none).1 x).pNext = some p) ∧
      (∀ x, prv = some x → l ≠ [] → (d.Insert m t (some p) none).1 x = m x) := by
  intro l
  induction l with
  | nil =>
    intro prv hd t _ _ ht hprv _
    simp only [List.getLast?_nil] at ht
    subst ht
    rw [insert_tail_mem]
    refine ⟨?_, ?_, fun _ _ h => absurd rfl h⟩
    · cases t with
      | none => exact ⟨rfl, by simp [PMem.set], by simp [PMem.set, DChain]⟩
      | some a =>
        have hap : p ≠ a := fun e => hprv (by rw [e])
        exact ⟨rfl, by simp [PMem.set, hap], by simp [PMem.set, hap, DChain]⟩
    · intro x hx _
      subst hx
      simp [PMem.set]
  | cons a l ih =>
    intro prv hd t h nd ht hprv hprv2
    obtain ⟨h1, h2, h3⟩ := h
    have nd2 : (p :: l).Nodup := by
      have := List.nodup_cons.1 nd
      exact List.nodup_cons.2 ⟨fun hh => this.1 (List.mem_cons_of_mem _ hh),
        (List.nodup_cons.1 this.2).2⟩
    have hpa : p ≠ a := fun e => (List.nodup_cons.1 nd).1 (by rw [e]; exact List.mem_cons_self _ _)
    have hal : a ∉ l := (List.nodup_cons.1 (List.nodup_cons.1 nd).2).1
    have ht2 : t = (match l.getLast? with
        | some x => some x
        | none => some a) := by
      rw [ht]
      cases l with
      | nil => rfl
      | cons b l2 =>
        rw [List.getLast?_cons_cons]
        cases hg : (b :: l2).getLast? with
        | none => simp at hg
        | some y => rfl
    obtain ⟨i1, i2, i3⟩ := ih (some a) (m a).pNext t h3 nd2 ht2
      (fun e => hpa (Option.some.inj e).symm)
      (fun x hx => by rw [← Option.some.inj hx]; exact hal)
    have hprev : ((d.Insert m t (some p) none).1 a).pPrev = prv := by
      by_cases hl : l = []
      · subst hl
        simp only [List.getLast?_nil] at ht2
        subst ht2
        rw [insert_tail_mem]
        simp [PMem.set, hpa.symm, h2]
      · rw [i3 a rfl hl]; exact h2
    refine ⟨⟨h1, hprev, ?_⟩, fun x hx hl => absurd hl (List.cons_ne_nil _ _), ?_⟩
    · show DChain _ (some a) (l ++ [p]) ((d.Insert m t (some p) none).1 a).pNext
      cases l with
      | nil =>
        rw [i2 a rfl rfl]
        exact i1
      | cons b l2 =>
        rw [i3 a rfl (List.cons_ne_nil _ _)]
        exact i1
    · intro x hx _
      subst hx
      have hxp : x ≠ p := fun e => hprv (by rw [e])
      rw [insert_tail_mem]
      have hlast : ∃ y, t = some y ∧ y ∈ a :: l := by
        rw [ht]
        cases hg : (a :: l).getLast? with
        | none => simp at hg
        | some y => exact ⟨y, rfl, List.mem_of_getLast?_eq_some hg⟩
      obtain ⟨y, hy, hyl⟩ := hlast
      subst hy
      have hxy : x ≠ y := fun e => hprv2 x rfl (e ▸ hyl)
      simp [PMem.set, hxp, hxy]
theorem DListOf.list_same {m m2 : PMem} {d : PDList} {l : List Nat} (h : DListOf m d l)
    (hm : ∀ a ∈ l, m2 a = m a) : DListOf m2 d l :=
  ⟨DChain.chain_same l _ _ h.1 hm, h.2.1, h.2.2⟩

theorem DListOf.pop_head_nil {m : PMem} {d : PDList} (h : DListOf m d []) :
    d.RemoveHead m = (m, d, none) := by
  have : d.pHead = none := h.1
  simp [PDList.RemoveHead, PDList.Remove, this]

theorem DListOf.pop_head {m : PMem} {d : PDList} {a : Nat} {l : List Nat}
    (h : DListOf m d (a :: l)) (nd : (a :: l).Nodup) :
    (d.RemoveHead m).2.2 = some a ∧ DListOf (d.RemoveHead m).1 (d.RemoveHead m).2.1 l ∧
      (∀ x, x ∉ l → (d.RemoveHead m).1 x = m x) ∧
      (∀ x, ((d.RemoveHead m).1 x).toPckt_Data_t = (m x).toPckt_Data_t) := by
  obtain ⟨⟨h1, h2, h3⟩, ht, hc⟩ := h
  obtain ⟨hal, ndl⟩ := List.nodup_cons.1 nd
  have hmem : (d.RemoveHead m).1 = (match (m a).pNext with
      | some b => m.set b { m b with pPrev := none }
      | none => m) := by
    simp only [PDList.RemoveHead, PDList.Remove, h1, h2]
  have hlist : (d.RemoveHead m).2.1
      = { pHead := (m a).pNext, pTail := if some a = d.pTail then none else d.pTail,
          Count := d.Count - 1 } := by
    by_cases c : some a = d.pTail
    · simp [PDList.RemoveHead, PDList.Remove, h1, h2, ← c]
    · simp [PDList.RemoveHead, PDList.Remove, h1, h2, c]
  refine ⟨by simp only [PDList.RemoveHead, PDList.Remove, h1], ?_, ?_, ?_⟩
  · rw [hmem, hlist]
    refine ⟨DChain.reprev none h3 ndl, ?_, ?_⟩
    · show (if some a = d.pTail then none else d.pTail) = l.getLast?
      rw [ht]
      cases l with
      | nil => simp
      | cons b l2 =>
        rw [List.getLast?_cons_cons]
        cases hg : (b :: l2).getLast? with
        | none => simp at hg
        | some y =>
          have hy : y ∈ b :: l2 := List.mem_of_getLast?_eq_some hg
          have : a ≠ y := fun e => hal (e ▸ hy)
          simp [this]
    · show d.Count - 1 = (l.length : Int)
      rw [hc]; simp
  · intro x hx
    rw [hmem]
    cases hn : (m a).pNext with
    | none => rfl
    | some b =>
      rw [hn] at h3
      have hb : b ∈ l := h3.mem_of_head
      have : x ≠ b := fun e => hx (e ▸ hb)
      simp [PMem.set, this]
  · intro x
    rw [hmem]
    cases hn : (m a).pNext with
    | none => rfl
    | some b =>
      by_cases hx : x = b
      · subst hx; simp [PMem.set]
      · simp [PMem.set, hx]

theorem DListOf.insertHead {m : PMem} {d : PDList} {p : Nat} {l : List Nat}
    (h : DListOf m d l) (nd : (p :: l).Nodup) :
    DListOf (d.InsertHead m (some p)).1 (d.InsertHead m (some p)).2 (p :: l) ∧
      (∀ x, x ∉ p :: l → (d.InsertHead m (some p)).1 x = m x) ∧
      (∀ x, ((d.InsertHead m (some p)).1 x).toPckt_Data_t = (m x).toPckt_Data_t) := by
  obtain ⟨h1, ht, hc⟩ := h
  obtain ⟨hpl, ndl⟩ := List.nodup_cons.1 nd
  have e : (m.set p { m p with pPrev := none }).set p
      { (m.set p { m p with pPrev := none }) p with pNext := d.pHead }
      = m.set p { m p with pPrev := none, pNext := d.pHead } := by
    funext x
    by_cases hx : x = p
    · subst hx; simp [PMem.set]
    · simp [PMem.set, hx]
  have hmem : (d.InsertHead m (some p)).1 = (match d.pHead with
      | some b => (m.set p { m p with pPrev := none, pNext := d.pHead }).set b
          { (m.set p { m p with pPrev := none, pNext := d.pHead }) b with pPrev := some p }
      | none => m.set p { m p with pPrev := none, pNext := d.pHead }) := by
    simp only [PDList.InsertHead, PDList.Insert, e]
    cases d.pHead <;> rfl
  have hlist : (d.InsertHead m (some p)).2
      = { pHead := some p, pTail := if d.pHead = none then some p else d.pTail,
          Count := d.Count + 1 } := by
    simp only [PDList.InsertHead, PDList.Insert]
    cases d.pHead <;> simp
  have c1 : DChain (m.set p { m p with pPrev := none, pNext := d.pHead }) none l d.pHead := by
    refine DChain.chain_same l _ _ h1 ?_
    intro x hx
    have : x ≠ p := fun e => hpl (e ▸ hx)
    simp [PMem.set, this]
  have c2 := DChain.reprev (some p) c1 ndl
  refine ⟨?_, ?_, ?_⟩
  · rw [hmem, hlist]
    refine ⟨⟨rfl, ?_, ?_⟩, ?_, ?_⟩
    · cases hh : d.pHead with
      | none => simp [PMem.set]
      | some b =>
        rw [hh] at h1
        have hb : b ∈ l := h1.mem_of_head
        have : p ≠ b := fun e => hpl (e ▸ hb)
        simp [PMem.set, this]
    · have hn : ((match d.pHead with
          | some b => (m.set p { m p with pPrev := none, pNext := d.pHead }).set b
              { (m.set p { m p with pPrev := none, pNext := d.pHead }) b with pPrev := some p }
          | none => m.set p { m p with pPrev := none, pNext := d.pHead }) p).pNext
          = d.pHead := by
        cases hh : d.pHead with
        | none => simp [PMem.set]
        | some b =>
          by_cases hpb : p = b
          · subst hpb; simp [PMem.set]
          · simp [PMem.set, hpb]
      show DChain _ (some p) l _
      rw [hn]
      exact c2
    · show (if d.pHead = none then some p else d.pTail) = (p :: l).getLast?
      cases l with
      | nil =>
        have : d.pHead = none := h1
        simp [this]
      | cons b l2 =>
        have : d.pHead = some b := h1.1
        rw [List.getLast?_cons_cons, ← ht]
        simp [this]
    · show d.Count + 1 = ((p :: l).length : Int)
      rw [hc]; simp
  · intro x hx
    simp only [List.mem_cons, not_or] at hx
    rw [hmem]
    cases hh : d.pHead with
    | none => simp [PMem.set, hx.1]
    | some b =>
      rw [hh] at h1
      have hb : b ∈ l := h1.mem_of_head
      have : x ≠ b := fun e => hx.2 (e ▸ hb)
      simp [PMem.set, hx.1, this]
  · intro x
    rw [hmem]
    cases hh : d.pHead with
    | none =>
      by_cases hx : x = p
      · subst hx; simp [PMem.set]
      · simp [PMem.set, hx]
    | some b =>
      by_cases hx : x = p <;> by_cases hxb : x = b
      · subst hx; subst hxb; simp [PMem.set]
      · subst hx; simp [PMem.set, hxb]
      · subst hxb; simp [PMem.set, hx]
      · simp [PMem.set, hx, hxb]
theorem DListOf.append {m : PMem} {d : PDList} {p : Nat} {l : List Nat}
    (h : DListOf m d l) (nd : (p :: l).Nodup) :
    DListOf (d.Append m (some p)).1 (d.Append m (some p)).2 (l ++ [p]) ∧
      (∀ x, x ∉ p :: l → (d.Append m (some p)).1 x = m x) ∧
      (∀ x, ((d.Append m (some p)).1 x).toPckt_Data_t = (m x).toPckt_Data_t) := by
  obtain ⟨h1, ht, hc⟩ := h
  obtain ⟨hpl, ndl⟩ := List.nodup_cons.1 nd
  have htl : d.pTail = (match l.getLast? with
      | some x => some x
      | none => none) := by
    rw [ht]; cases l.getLast? <;> rfl
  obtain ⟨c1, -, -⟩ := DChain.append_node d l none d.pHead d.pTail h1 nd htl
    (fun e => Option.noConfusion e) (fun x e => Option.noConfusion e)
  have hlist : (d.Append m (some p)).2
      = { pHead := if d.pTail = none then some p else d.pHead, pTail := some p,
          Count := d.Count + 1 } := by
    simp only [PDList.Append, PDList.Insert]
    cases d.pTail <;> simp
  have hmem : (d.Append m (some p)).1 = (d.Insert m d.pTail (some p) none).1 := rfl
  refine ⟨?_, ?_, ?_⟩
  · rw [hlist, hmem]
    refine ⟨?_, by simp, ?_⟩
    · cases l with
      | nil =>
        have : d.pTail = none := ht
        simpa [this] using c1
      | cons b l2 =>
        have : d.pTail ≠ none := by
          rw [ht]
          cases hg : (b :: l2).getLast? with
          | none => simp at hg
          | some y => exact fun e => Option.noConfusion e
        simpa [this] using c1
    · show d.Count + 1 = ((l ++ [p]).length : Int)
      rw [hc]; simp
  · intro x hx
    simp only [List.mem_cons, not_or] at hx
    rw [hmem, insert_tail_mem]
    cases hh : d.pTail with
    | none => simp [PMem.set, hx.1]
    | some y =>
      have hy : y ∈ l := List.mem_of_getLast?_eq_some (ht ▸ hh)
      have : x ≠ y := fun e => hx.2 (e ▸ hy)
      simp [PMem.set, hx.1, this]
  · intro x
    rw [hmem, insert_tail_mem]
    cases hh : d.pTail with
    | none =>
      by_cases hx : x = p
      · subst hx; simp [PMem.set]
      · simp [PMem.set, hx]
    | some y =>
      by_cases hx : x = p <;> by_cases hxy : x = y
      · subst hx; subst hxy; simp [PMem.set]
      · subst hx; simp [PMem.set, hxy]
      · subst hxy; simp [PMem.set, hx]
      · simp [PMem.set, hx, hxy]

/-- Packet data read through two heaps that agree on the listed packets is the same. -/
theorem contents_congr {m m2 : PMem} {l : List Nat}
    (h : ∀ a ∈ l, (m2 a).toPckt_Data_t = (m a).toPckt_Data_t) :
    l.map (fun a => (m2 a).toPckt_Data_t) = l.map (fun a => (m a).toPckt_Data_t) :=
  List.map_congr_left h

theorem FifoInv.split {h : PacketHeap} {o : OnuFifo} {fifo pool : List Nat}
    (hi : FifoInv h o fifo pool) :
    fifo.Nodup ∧ pool.Nodup ∧ (∀ x ∈ fifo, x ∉ pool) ∧ (∀ x ∈ pool, x ∉ fifo) := by
  obtain ⟨n1, n2, d⟩ := List.nodup_append.1 hi.nodup
  exact ⟨n1, n2, fun x hx hp => d hx hp, fun x hp hx => d hx hp⟩

theorem allocatePacket_spec {h : PacketHeap} {o : OnuFifo} {fifo pool : List Nat}
    (hi : FifoInv h o fifo pool) :
    ∃ h1 p pool2, PacketPool.AllocatePacket h = (h1, some p) ∧ FifoInv h1 o fifo pool2 ∧
      p ∉ fifo ∧ p ∉ pool2 ∧ p < h1.brk ∧
      (pool = p :: pool2 ∨ (pool = [] ∧ pool2 = [] ∧ p = h.brk)) ∧
      (∀ x ∈ fifo, h1.mem x = h.mem x) := by
  obtain ⟨n1, n2, d1, d2⟩ := hi.split
  cases pool with
  | nil =>
    have hc : ¬ h.ppPool.GetCount > 0 := by
      have : h.ppPool.Count = 0 := by simpa using hi.poolL.2.2
      simp [PDList.GetCount, this]
    have hfresh : ∀ x ∈ fifo, x ≠ h.brk := fun x hx e => by
      have := hi.alloc x (by simp [hx])
      omega
    have hm : ∀ x ∈ fifo,
        (h.mem.set h.brk { h.mem h.brk with pPrev := none, pNext := none }) x = h.mem x :=
      fun x hx => by simp [PMem.set, hfresh x hx]
    refine ⟨PacketHeap.mk (h.mem.set h.brk { h.mem h.brk with pPrev := none, pNext := none })
      (h.brk + 1) h.ppPool, h.brk, [],
      by simp only [PacketPool.AllocatePacket, if_neg hc], ?_, ?_, by simp,
      Nat.lt_succ_self _, Or.inr ⟨rfl, rfl, rfl⟩, hm⟩
    · exact ⟨hi.fifoL.list_same hm, hi.poolL.list_same (fun a ha => by simp at ha), hi.nodup,
        fun a ha => Nat.lt_succ_of_lt (hi.alloc a ha)⟩
    · exact fun hx => hfresh _ hx rfl
  | cons a pl =>
    have hc : h.ppPool.GetCount > 0 := by
      have : h.ppPool.Count = ((a :: pl).length : Int) := hi.poolL.2.2
      simp only [PDList.GetCount, this, List.length_cons]
      omega
    obtain ⟨r1, r2, r3, -⟩ := hi.poolL.pop_head n2
    have hap : a ∉ pl := (List.nodup_cons.1 n2).1
    have haf : a ∉ fifo := d2 a (List.mem_cons_self _ _)
    have hm : ∀ x ∈ fifo, (h.ppPool.RemoveHead h.mem).1 x = h.mem x :=
      fun x hx => r3 x (fun hp => d1 x hx (List.mem_cons_of_mem _ hp))
    refine ⟨{ h with mem := (h.ppPool.RemoveHead h.mem).1,
                     ppPool := (h.ppPool.RemoveHead h.mem).2.1 }, a, pl, ?_, ?_, haf, hap,
      hi.alloc a (by simp), Or.inl rfl, hm⟩
    · simp only [PacketPool.AllocatePacket, if_pos hc, r1]
    · refine ⟨hi.fifoL.list_same hm, r2, ?_, fun x hx => hi.alloc x ?_⟩
      · exact List.nodup_append.2 ⟨n1, (List.nodup_cons.1 n2).2,
          fun x hx hp => d1 x hx (List.mem_cons_of_mem _ hp)⟩
      · simp only [List.mem_append, List.mem_cons] at hx ⊢
        rcases hx with hx | hx
        · exact Or.inl hx
        · exact Or.inr (Or.inr hx)
theorem enqueuePacket_spec {h : PacketHeap} {o : OnuFifo} {fifo pool : List Nat}
    (hi : FifoInv h o fifo pool) (pckt : Pckt_Data_t) :
    ∃ h2 o2 p pool2, OnuFifo.EnqueuePacket h o pckt = some (h2, o2) ∧
      FifoInv h2 o2 (fifo ++ [p]) pool2 ∧
      (pool = p :: pool2 ∨ (pool = [] ∧ pool2 = [] ∧ p = h.brk)) ∧
      (h2.mem p).toPckt_Data_t = pckt ∧
      (∀ x ∈ fifo, (h2.mem x).toPckt_Data_t = (h.mem x).toPckt_Data_t) ∧
      o2.QueueBytes = wrap32 (o.QueueBytes + pckt.PcktSize) := by
  obtain ⟨h1, p, pool2, e, hi1, hpf, hpp, hb, hpl, hm⟩ := allocatePacket_spec hi
  obtain ⟨n1, n2, d1, -⟩ := hi1.split
  obtain ⟨m1, hm1⟩ : ∃ m1 : PMem,
      m1 = h1.mem.set p { h1.mem p with toPckt_Data_t := pckt } := ⟨_, rfl⟩
  have hne : ∀ x, x ≠ p → m1 x = h1.mem x := fun x hx => by rw [hm1]; simp [PMem.set, hx]
  have f1 : DListOf m1 o.FIFO fifo :=
    hi1.fifoL.list_same (fun x hx => hne x (fun e => hpf (e ▸ hx)))
  have p1 : DListOf m1 h1.ppPool pool2 :=
    hi1.poolL.list_same (fun x hx => hne x (fun e => hpp (e ▸ hx)))
  obtain ⟨a1, a2, a3⟩ := f1.append (List.nodup_cons.2 ⟨hpf, n1⟩)
  refine ⟨PacketHeap.mk (o.FIFO.Append m1 (some p)).1 h1.brk h1.ppPool,
    OnuFifo.mk (o.FIFO.Append m1 (some p)).2 (wrap32 (o.QueueBytes + pckt.PcktSize)),
    p, pool2, ?_, ?_, hpl, ?_, ?_, rfl⟩
  · simp only [OnuFifo.EnqueuePacket, e, ← hm1]
  · refine ⟨a1, p1.list_same (fun x hx => a2 x ?_), ?_, ?_⟩
    · simp only [List.mem_cons, not_or]
      exact ⟨fun e => hpp (e ▸ hx), fun hf => d1 x hf hx⟩
    · rw [List.append_assoc]
      refine List.nodup_append.2 ⟨n1, List.nodup_cons.2 ⟨hpp, n2⟩, ?_⟩
      intro x hx hx2
      rcases List.mem_cons.1 hx2 with rfl | hx2
      · exact hpf hx
      · exact d1 x hx hx2
    · intro x hx
      simp only [List.mem_append, List.mem_singleton] at hx
      rcases hx with (hx | rfl) | hx
      · exact hi1.alloc x (by simp [hx])
      · exact hb
      · exact hi1.alloc x (by simp [hx])
  · show ((o.FIFO.Append m1 (some p)).1 p).toPckt_Data_t = pckt
    rw [a3 p, hm1]
    simp [PMem.set]
  · intro x hx
    show ((o.FIFO.Append m1 (some p)).1 x).toPckt_Data_t = _
    rw [a3 x, hne x (fun e => hpf (e ▸ hx)), hm x hx]

theorem dequeuePacket_nil {h : PacketHeap} {o : OnuFifo} {pool : List Nat}
    (hi : FifoInv h o [] pool) : OnuFifo.DequeuePacket h o = (h, o, ⟨0, 0, 0⟩) := by
  simp only [OnuFifo.DequeuePacket, hi.fifoL.pop_head_nil]

theorem dequeuePacket_cons {h : PacketHeap} {o : OnuFifo} {a : Nat} {fifo pool : List Nat}
    (hi : FifoInv h o (a :: fifo) pool) :
    ∃ h2 o2, OnuFifo.DequeuePacket h o = (h2, o2, (h.mem a).toPckt_Data_t) ∧
      FifoInv h2 o2 fifo (a :: pool) ∧
      (∀ x, (h2.mem x).toPckt_Data_t = (h.mem x).toPckt_Data_t) ∧
      o2.QueueBytes = wrap32 (o.QueueBytes - (h.mem a).PcktSize) := by
  obtain ⟨n1, n2, d1, d2⟩ := hi.split
  obtain ⟨r1, r2, r3, r4⟩ := hi.fifoL.pop_head n1
  obtain ⟨haf, nf⟩ := List.nodup_cons.1 n1
  have hap : a ∉ pool := d1 a (List.mem_cons_self _ _)
  have p1 : DListOf (o.FIFO.RemoveHead h.mem).1 h.ppPool pool :=
    hi.poolL.list_same (fun x hx => r3 x (fun hf => d2 x hx (List.mem_cons_of_mem _ hf)))
  obtain ⟨i1, i2, i3⟩ := p1.insertHead (List.nodup_cons.2 ⟨hap, n2⟩)
  refine ⟨PacketHeap.mk (h.ppPool.InsertHead (o.FIFO.RemoveHead h.mem).1 (some a)).1 h.brk
      (h.ppPool.InsertHead (o.FIFO.RemoveHead h.mem).1 (some a)).2,
    OnuFifo.mk (o.FIFO.RemoveHead h.mem).2.1 (wrap32 (o.QueueBytes - (h.mem a).PcktSize)),
    ?_, ?_, ?_, rfl⟩
  · simp only [OnuFifo.DequeuePacket, r1, PacketPool.DestroyPacket, r4 a]
  · refine ⟨r2.list_same (fun x hx => i2 x ?_), i1, ?_, ?_⟩
    · simp only [List.mem_cons, not_or]
      exact ⟨fun e => haf (e ▸ hx), fun hp => d1 x (List.mem_cons_of_mem _ hx) hp⟩
    · refine List.nodup_append.2 ⟨nf, List.nodup_cons.2 ⟨hap, n2⟩, ?_⟩
      intro x hx hx2
      rcases List.mem_cons.1 hx2 with rfl | hx2
      · exact haf hx
      · exact d1 x (List.mem_cons_of_mem _ hx) hx2
    · intro x hx
      refine hi.alloc x ?_
      simp only [List.mem_append, List.mem_cons] at hx ⊢
      rcases hx with hx | rfl | hx
      · exact Or.inl (Or.inr hx)
      · exact Or.inl (Or.inl rfl)
      · exact Or.inr hx
  · intro x
    show ((h.ppPool.InsertHead (o.FIFO.RemoveHead h.mem).1 (some a)).1 x).toPckt_Data_t = _
    rw [i3 x, r4 x]

/-- The heap implementation of the queue follows the first-in first-out specification: a
sequence of calls from a state that satisfies the invariant returns, the packets returned by
the `DequeuePacket` calls and the final value of `QueueBytes` are those of the
specification on the sequence of queued packets, and the invariant holds again. -/
theorem fifo_run_spec : ∀ (cs : List FifoCall) (h : PacketHeap) (o : OnuFifo)
    (fifo pool : List Nat), FifoInv h o fifo pool →
    ∃ h2 o2 fifo2 pool2,
      OnuFifo.run h o cs
        = some (h2, o2, fifoSpec (fifo.map (fun a => (h.mem a).toPckt_Data_t)) cs) ∧
      FifoInv h2 o2 fifo2 pool2 ∧
      o2.QueueBytes
        = bytesSpec (fifo.map (fun a => (h.mem a).toPckt_Data_t)) o.QueueBytes cs := by
  intro cs
  induction cs with
  | nil =>
    intro h o fifo pool hi
    exact ⟨h, o, fifo, pool, rfl, hi, rfl⟩
  | cons c cs ih =>
    intro h o fifo pool hi
    cases c with
    | enqueue pckt =>
      obtain ⟨h1, o1, p, pool1, e, hi1, -, hp, hd, hb⟩ := enqueuePacket_spec hi pckt
      obtain ⟨h2, o2, fifo2, pool2, e2, hi2, hb2⟩ := ih h1 o1 _ pool1 hi1
      have hc : (fifo ++ [p]).map (fun a => (h1.mem a).toPckt_Data_t)
          = fifo.map (fun a => (h.mem a).toPckt_Data_t) ++ [pckt] := by
        rw [List.map_append, contents_congr hd]
        simp [hp]
      rw [hc] at e2 hb2
      refine ⟨h2, o2, fifo2, pool2, ?_, hi2, ?_⟩
      · simp only [OnuFifo.run, e, e2, fifoSpec]
      · rw [hb2, hb]; rfl
    | dequeue =>
      cases fifo with
      | nil =>
        have e := dequeuePacket_nil hi
        obtain ⟨h2, o2, fifo2, pool2, e2, hi2, hb2⟩ := ih h o [] pool hi
        refine ⟨h2, o2, fifo2, pool2, ?_, hi2, ?_⟩
        · simp only [OnuFifo.run, e, e2, List.map_nil, fifoSpec]
        · rw [hb2]; rfl
      | cons a fifo =>
        obtain ⟨h1, o1, e, hi1, hd, hb⟩ := dequeuePacket_cons hi
        obtain ⟨h2, o2, fifo2, pool2, e2, hi2, hb2⟩ := ih h1 o1 fifo (a :: pool) hi1
        have hc : fifo.map (fun a => (h1.mem a).toPckt_Data_t)
            = fifo.map (fun a => (h.mem a).toPckt_Data_t) := contents_congr (fun x _ => hd x)
        rw [hc] at e2 hb2
        refine ⟨h2, o2, fifo2, pool2, ?_, hi2, ?_⟩
        · simp only [OnuFifo.run, e, e2, List.map_cons, fifoSpec]
        · rw [hb2, hb]; rfl

theorem fifoSpec_enqueue (ps : List Pckt_Data_t) :
    ∀ (l : List Pckt_Data_t) (cs : List FifoCall),
      fifoSpec l (ps.map FifoCall.enqueue ++ cs) = fifoSpec (l ++ ps) cs := by
  induction ps with
  | nil => intro l cs; simp
  | cons p ps ih =>
    intro l cs
    have e : fifoSpec l ((p :: ps).map FifoCall.enqueue ++ cs)
        = fifoSpec (l ++ [p]) (ps.map FifoCall.enqueue ++ cs) := rfl
    rw [e, ih]
    simp

theorem fifoSpec_dequeue (k : Nat) :
    ∀ (l : List Pckt_Data_t), k ≤ l.length →
      fifoSpec l (List.replicate k FifoCall.dequeue) = l.take k := by
  induction k with
  | zero => intro l _; simp [fifoSpec]
  | succ k ih =>
    intro l hk
    cases l with
    | nil => simp at hk
    | cons p l =>
      have e : fifoSpec (p :: l) (List.replicate (k + 1) FifoCall.dequeue)
          = p :: fifoSpec l (List.replicate k FifoCall.dequeue) := rfl
      rw [e, ih l (by simpa using hk)]
      rfl
theorem fifoInv_new : FifoInv packetHeap0 onuFifo0 [] [] :=
  ⟨⟨rfl, rfl, rfl⟩, ⟨rfl, rfl, rfl⟩, List.nodup_nil, fun a ha => by simp at ha⟩

/-- The list model of the queue used for the handlers of the ONU is refined by the heap
implementation: when the list of the model is the sequence of the queued packets and the
byte counters agree, they do so again after `EnqueuePacket`, and after `DequeuePacket`, which
returns the same packet in both. -/
theorem onuFifo_refines {h : PacketHeap} {o : OnuFifo} {fifo pool : List Nat}
    (hi : FifoInv h o fifo pool) (u : ONU)
    (hu : u.FIFO = fifo.map (fun a => (h.mem a).toPckt_Data_t))
    (hb : u.QueueBytes = o.QueueBytes) :
    (∀ pckt, ∃ h2 o2 fifo2 pool2, OnuFifo.EnqueuePacket h o pckt = some (h2, o2) ∧
      FifoInv h2 o2 fifo2 pool2 ∧
      (u.EnqueuePacket pckt).FIFO = fifo2.map (fun a => (h2.mem a).toPckt_Data_t) ∧
      (u.EnqueuePacket pckt).QueueBytes = o2.QueueBytes) ∧
    (∃ fifo2 pool2, FifoInv (OnuFifo.DequeuePacket h o).1 (OnuFifo.DequeuePacket h o).2.1
        fifo2 pool2 ∧
      u.DequeuePacket.2 = (OnuFifo.DequeuePacket h o).2.2 ∧
      u.DequeuePacket.1.FIFO
        = fifo2.map (fun a => ((OnuFifo.DequeuePacket h o).1.mem a).toPckt_Data_t) ∧
      u.DequeuePacket.1.QueueBytes = (OnuFifo.DequeuePacket h o).2.1.QueueBytes) := by
  constructor
  · intro pckt
    obtain ⟨h1, o1, p, pool1, e, hi1, -, hp, hd, hq⟩ := enqueuePacket_spec hi pckt
    refine ⟨h1, o1, _, pool1, e, hi1, ?_, ?_⟩
    · rw [List.map_append, contents_congr hd]
      simp [ONU.EnqueuePacket, hu, hp]
    · simp [ONU.EnqueuePacket, hb, hq]
  · cases fifo with
    | nil =>
      have hu2 : u.FIFO = [] := hu
      rw [dequeuePacket_nil hi]
      exact ⟨[], pool, hi, by simp [ONU.DequeuePacket, hu2], by simp [ONU.DequeuePacket, hu2],
        by simp [ONU.DequeuePacket, hu2, hb]⟩
    | cons a fifo =>
      have hu2 : u.FIFO = (h.mem a).toPckt_Data_t
          :: fifo.map (fun a => (h.mem a).toPckt_Data_t) := hu
      obtain ⟨h1, o1, e, hi1, hd, hq⟩ := dequeuePacket_cons hi
      rw [e]
      refine ⟨fifo, a :: pool, hi1, by simp [ONU.DequeuePacket, hu2], ?_, ?_⟩
      · rw [contents_congr (fun x _ => hd x)]
        simp [ONU.DequeuePacket, hu2]
      · simp [ONU.DequeuePacket, hu2, hb, hq]

/-- C36: in a state where the queue of the ONU and the pool of free packets are well-formed
lists over the heap (`fifo` lists the queued packets from head to tail), every sequence of
`EnqueuePacket` and `DequeuePacket` calls returns; the packets returned by the
`DequeuePacket` calls, and `QueueBytes`, are those of a first-in first-out queue, and the
lists are well formed again.  In particular the packets `pckts` queued one after the other
and then `k` calls of `DequeuePacket` return the first `k` packets of the old contents
followed by `pckts`, with all their fields; `EnqueuePacket` puts the packet at the tail and
adds its size to `QueueBytes`; `DequeuePacket` returns the packet at the head and subtracts
its size; on an empty queue it returns the all-zero packet and changes nothing. -/
theorem C36_onu_fifo (h : PacketHeap) (o : OnuFifo) (fifo pool : List Nat)
    (hi : FifoInv h o fifo pool) :
    (∀ cs : List FifoCall, ∃ h2 o2 fifo2 pool2,
      OnuFifo.run h o cs
        = some (h2, o2, fifoSpec (fifo.map (fun a => (h.mem a).toPckt_Data_t)) cs) ∧
      FifoInv h2 o2 fifo2 pool2 ∧
      o2.QueueBytes
        = bytesSpec (fifo.map (fun a => (h.mem a).toPckt_Data_t)) o.QueueBytes cs) ∧
    (∀ (pckts : List Pckt_Data_t) (k : Nat), k ≤ fifo.length + pckts.length →
      ∃ h2 o2, OnuFifo.run h o (pckts.map FifoCall.enqueue ++ List.replicate k FifoCall.dequeue)
        = some (h2, o2, (fifo.map (fun a => (h.mem a).toPckt_Data_t) ++ pckts).take k)) ∧
    (∀ pckt, ∃ h2 o2 p pool2, OnuFifo.EnqueuePacket h o pckt = some (h2, o2) ∧
      FifoInv h2 o2 (fifo ++ [p]) pool2 ∧ (h2.mem p).toPckt_Data_t = pckt ∧
      (∀ x ∈ fifo, (h2.mem x).toPckt_Data_t = (h.mem x).toPckt_Data_t) ∧
      o2.QueueBytes = wrap32 (o.QueueBytes + pckt.PcktSize)) ∧
    (∀ a rest, fifo = a :: rest →
      ∃ h2 o2, OnuFifo.DequeuePacket h o = (h2, o2, (h.mem a).toPckt_Data_t) ∧
        FifoInv h2 o2 rest (a :: pool) ∧
        (∀ x, (h2.mem x).toPckt_Data_t = (h.mem x).toPckt_Data_t) ∧
        o2.QueueBytes = wrap32 (o.QueueBytes - (h.mem a).PcktSize)) ∧
    (fifo = [] → OnuFifo.DequeuePacket h o = (h, o, ⟨0, 0, 0⟩)) := by
  refine ⟨fun cs => fifo_run_spec cs h o fifo pool hi, ?_, ?_, ?_, ?_⟩
  · intro pckts k hk
    obtain ⟨h2, o2, -, -, e, -, -⟩ := fifo_run_spec
      (pckts.map FifoCall.enqueue ++ List.replicate k FifoCall.dequeue) h o fifo pool hi
    refine ⟨h2, o2, ?_⟩
    rw [e, fifoSpec_enqueue, fifoSpec_dequeue k _ (by simpa using hk)]
  · intro pckt
    obtain ⟨h2, o2, p, pool2, e, hi2, -, hp, hd, hq⟩ := enqueuePacket_spec hi pckt
    exact ⟨h2, o2, p, pool2, e, hi2, hp, hd, hq⟩
  · intro a rest hf
    subst hf
    exact dequeuePacket_cons hi
  · intro hf
    subst hf
    exact dequeuePacket_nil hi

theorem fifoInv_fifoOne : FifoInv fifoOne.1 fifoOne.2 [0] [] :=
  ⟨⟨⟨rfl, rfl, rfl⟩, rfl, rfl⟩, ⟨rfl, rfl, rfl⟩, by decide, by decide⟩

theorem C36_onu_fifo_witness :
    (∀ cs : List FifoCall, ∃ h2 o2 fifo2 pool2,
      OnuFifo.run fifoOne.1 fifoOne.2 cs
        = some (h2, o2, fifoSpec ([0].map (fun a => (fifoOne.1.mem a).toPckt_Data_t)) cs) ∧
      FifoInv h2 o2 fifo2 pool2 ∧
      o2.QueueBytes
        = bytesSpec ([0].map (fun a => (fifoOne.1.mem a).toPckt_Data_t))
            fifoOne.2.QueueBytes cs) ∧
    (∀ (pckts : List Pckt_Data_t) (k : Nat), k ≤ [0].length + pckts.length →
      ∃ h2 o2, OnuFifo.run fifoOne.1 fifoOne.2
          (pckts.map FifoCall.enqueue ++ List.replicate k FifoCall.dequeue)
        = some (h2, o2,
            ([0].map (fun a => (fifoOne.1.mem a).toPckt_Data_t) ++ pckts).take k)) ∧
    (∀ pckt, ∃ h2 o2 p pool2, OnuFifo.EnqueuePacket fifoOne.1 fifoOne.2 pckt = some (h2, o2) ∧
      FifoInv h2 o2 ([0] ++ [p]) pool2 ∧ (h2.mem p).toPckt_Data_t = pckt ∧
      (∀ x ∈ [0], (h2.mem x).toPckt_Data_t = (fifoOne.1.mem x).toPckt_Data_t) ∧
      o2.QueueBytes = wrap32 (fifoOne.2.QueueBytes + pckt.PcktSize)) ∧
    (∀ a rest, [0] = a :: rest →
      ∃ h2 o2, OnuFifo.DequeuePacket fifoOne.1 fifoOne.2
          = (h2, o2, (fifoOne.1.mem a).toPckt_Data_t) ∧
        FifoInv h2 o2 rest (a :: []) ∧
        (∀ x, (h2.mem x).toPckt_Data_t = (fifoOne.1.mem x).toPckt_Data_t) ∧
        o2.QueueBytes = wrap32 (fifoOne.2.QueueBytes - (fifoOne.1.mem a).PcktSize)) ∧
    (([0] : List Nat) = [] →
      OnuFifo.DequeuePacket fifoOne.1 fifoOne.2 = (fifoOne.1, fifoOne.2, ⟨0, 0, 0⟩)) :=
  C36_onu_fifo fifoOne.1 fifoOne.2 [0] [] fifoInv_fifoOne

/-! ## Claims about the schedule of the OLT -/

/-- Effect of `ReceiveREPORTPacket` on a queue that satisfies the invariant, when none of the
sums overflows its machine type: the GATE that is built and registered, and the new value of
`ScheduleEnd`. -/
theorem receiveREPORT_spec {q : CEventQueue} {tr : Shape} {top pool : List Nat}
    (hinv : QueueInv q tr top pool) (o : OLT)
    (p : Nat) (hb : p < q.brk) (ha : CEventQueue.IsActive q.mem p = true)
    (t rtt stamp start len : Int)
    (ht : t = q.eqCurrentTime + o.timeOffset)
    (hrtt : rtt = t - (q.mem p).RPRT.Timestamp)
    (hstamp : stamp = t + (MPCP_PACKET_SIZE + PACKET_OVERHEAD) * PON_BYTE_TIME
      + OLT_HW_PROCESS_DELAY)
    (hstart : start = max (stamp + ONU_HW_PROCESS_DELAY) (o.ScheduleEnd - rtt))
    (hlen : len = min ((q.mem p).RPRT.Length + (MPCP_PACKET_SIZE + PACKET_OVERHEAD)) o.MaxSlot)
    (f1 : fits64 t) (f2 : fits64 rtt) (f3 : fits64 stamp)
    (f4 : fits64 (stamp + ONU_HW_PROCESS_DELAY)) (f5 : fits64 (o.ScheduleEnd - rtt))
    (f6 : fits32 ((q.mem p).RPRT.Length + (MPCP_PACKET_SIZE + PACKET_OVERHEAD)))
    (f7 : fits32 (len * PON_BYTE_TIME)) (f8 : fits64 (start + rtt))
    (f9 : fits64 (start + rtt + len * PON_BYTE_TIME))
    (f10 : fits64 (start + rtt + len * PON_BYTE_TIME + GUARD_BAND_TIME))
    (f11 : q.eqCurrentTime + (stamp - t) ≤ INT64_MAX) :
    ∃ o2 q2 ptr pool2,
      o.ReceiveREPORTPacket q p = some (o2, q2) ∧
      (pool = ptr :: pool2 ∨ (pool = [] ∧ pool2 = [] ∧ ptr = q.brk)) ∧
      (q2.mem ptr).Type_ = EV_MPCP_GATE ∧ (q2.mem ptr).Consumer = (q.mem p).Producer ∧
      (q2.mem ptr).GATE = ⟨stamp, start, len⟩ ∧ len ≤ o.MaxSlot ∧
      (q2.mem ptr).NodeKey + o.timeOffset = stamp ∧
      QueueInv q2 (tr.insert (fun z => (q2.mem z).NodeKey) ptr) top pool2 ∧
      o2.ScheduleEnd = start + rtt + len * PON_BYTE_TIME + GUARD_BAND_TIME ∧
      o2.LastPacketArrival = t ∧ o2.MaxSlot = o.MaxSlot ∧ o2.timeOffset = o.timeOffset := by
  obtain ⟨q1, a, pool2, e1, h1, ha1, hb1, ht1, -, hpl, hd1⟩ := allocateEvent_pair hinv
  -- the allocated record is not the REPORT
  have hpa : p ≠ a := by
    have hp := hinv.not_mem_of_active ha
    simp only [List.mem_append, not_or] at hp
    rcases hpl with hpl | ⟨-, -, hpl⟩
    · intro e; subst e; rw [hpl] at hp; simp at hp
    · omega
  have hLT : ∀ q3 : CEventQueue, q3.eqCurrentTime = q.eqCurrentTime →
      (o.CheckPacketCollision q MPCP_PACKET_SIZE).toCClockSync.LocalTime q3 = t := by
    intro q3 h3
    simp only [CClockSync.LocalTime, DESL.GlobalTime, CEventQueue.GetCurrentTime,
      OLT.CheckPacketCollision, h3]
    rw [← ht]; exact wrap64_fits f1
  have hpk : (MPCP_PACKET_SIZE + PACKET_OVERHEAD) * PON_BYTE_TIME = 672 := by decide
  have hoh : MPCP_PACKET_SIZE + PACKET_OVERHEAD = 84 := by decide
  rw [hpk] at hstamp
  rw [hoh] at hlen f6
  have hdp : (q1.mem p).data = (q.mem p).data := hd1 p hb
  have hprod : (q1.mem p).Producer = (q.mem p).Producer := by
    simpa [CEvent.data] using congrArg CEvent.Producer hdp
  have hrl : (q1.mem p).RPRT = (q.mem p).RPRT := by
    simpa [CEvent.data] using congrArg CEvent.RPRT hdp
  have hrtt2 : wrap64 (t - (q.mem p).RPRT.Timestamp) = rtt := by
    rw [← hrtt]; exact wrap64_fits f2
  have hst1 : wrap64 (wrap64 (t + 672) + OLT_HW_PROCESS_DELAY) = stamp := by
    have : fits64 (t + 672) := by
      unfold fits64 OLT_HW_PROCESS_DELAY at *
      constructor <;> omega
    rw [wrap64_fits this, ← hstamp]; exact wrap64_fits f3
  have hstart2 : MAX (wrap64 (stamp + ONU_HW_PROCESS_DELAY)) (wrap64 (o.ScheduleEnd - rtt))
      = start := by
    rw [wrap64_fits f4, wrap64_fits f5, MAX_eq_max, hstart]
  have hlen2 : MIN (wrap32 ((q.mem p).RPRT.Length + 84)) o.MaxSlot = len := by
    rw [wrap32_eq f6, MIN_eq_min, hlen]
  have hse : wrap64 (wrap64 (wrap64 (start + rtt) + _PON_TIME len) + GUARD_BAND_TIME)
      = start + rtt + len * PON_BYTE_TIME + GUARD_BAND_TIME := by
    have hp : _PON_TIME len = len * PON_BYTE_TIME := wrap32_eq f7
    rw [hp, wrap64_fits f8, wrap64_fits f9, wrap64_fits f10]
  -- the queue holding the finished GATE
  set g : CEventQueue :=
    ((((q1.modify a (fun e => { e with Type_ := EV_MPCP_GATE })).modify a
      (fun e => { e with Consumer := (q.mem p).Producer })).modify a
      (fun e => { e with GATE := { e.GATE with Timestamp := stamp } })).modify a
      (fun e => { e with GATE := { e.GATE with StartTime := start } })).modify a
      (fun e => { e with GATE := { e.GATE with Length := len } }) with hg
  have hg5 : QueueInv g tr top pool2 :=
    ((((h1.modify_public a (publicOnly_type _)).modify_public a
      (publicOnly_consumer _)).modify_public a (publicOnly_gate _)).modify_public a
      (publicOnly_gate _)).modify_public a (publicOnly_gate _)
  have hga : CEventQueue.IsActive g.mem a = true := by
    rw [hg, isActive_modify _ a a (publicOnly_gate _), isActive_modify _ a a (publicOnly_gate _),
      isActive_modify _ a a (publicOnly_gate _), isActive_modify _ a a (publicOnly_consumer _),
      isActive_modify _ a a (publicOnly_type _)]
    exact ha1
  have hgt : g.eqCurrentTime = q.eqCurrentTime := ht1
  have hival : stamp - t = 17056 := by
    rw [hstamp]; unfold OLT_HW_PROCESS_DELAY; omega
  have hwi : wrap64 (stamp - t) = 17056 := by rw [hival]; decide
  obtain ⟨q2, e2, ht2, -, -, hk, -, hty, -, hgate, -, hcons, -, -, hnz⟩ :=
    desl_registerEvent_spec (i := 17056) hg5 hb1 hga (by norm_num)
      (by rw [hgt]; simpa [hival] using f11) (some o.this)
  obtain ⟨hinv2, -⟩ := hnz (by norm_num)
  have hgty : (g.mem a).Type_ = EV_MPCP_GATE := by simp [hg, CEventQueue.modify]
  have hgcons : (g.mem a).Consumer = (q.mem p).Producer := by simp [hg, CEventQueue.modify]
  have hggate : (g.mem a).GATE = ⟨stamp, start, len⟩ := by simp [hg, CEventQueue.modify]
  refine ⟨{ toCClockSync := o.toCClockSync, OutPort := o.OutPort,
            ScheduleEnd := start + rtt + len * PON_BYTE_TIME + GUARD_BAND_TIME,
            LastPacketArrival := t, MaxSlot := o.MaxSlot },
    q2, a, pool2, ?_, hpl, by rw [hty, hgty], by rw [hcons, hgcons],
    by rw [hgate, hggate], by rw [hlen]; exact min_le_right _ _, ?_, hinv2, rfl, rfl, rfl, rfl⟩
  · have hm1 : ∀ (f : CEvent → CEvent) (q3 : CEventQueue), (q3.modify a f).mem p = q3.mem p :=
      fun f q3 => modify_mem_other q3 f hpa
    have hc1 : (o.CheckPacketCollision q MPCP_PACKET_SIZE).ScheduleEnd = o.ScheduleEnd := rfl
    have hc2 : (o.CheckPacketCollision q MPCP_PACKET_SIZE).MaxSlot = o.MaxSlot := rfl
    have hc3 : (o.CheckPacketCollision q MPCP_PACKET_SIZE).timeOffset = o.timeOffset := rfl
    have hc4 : (o.CheckPacketCollision q MPCP_PACKET_SIZE).this = o.this := rfl
    have hc5 : (o.CheckPacketCollision q MPCP_PACKET_SIZE).LastPacketArrival = t := by
      show wrap64 (q.eqCurrentTime + o.timeOffset) = t
      rw [← ht]; exact wrap64_fits f1
    have hwt : wrap64 (q.eqCurrentTime + o.timeOffset) = t := by
      rw [← ht]; exact wrap64_fits f1
    simp only [OLT.ReceiveREPORTPacket, e1, hm1, hprod, hrl, localTime_eq,
      modify_eqCurrentTime, ht1, hc3, hwt, hrtt2, pon_pckt_time_mpcp, overhead_mpcp, hst1,
      modify_mem_same, hc1, hc2, hstart2, hlen2, CClockSync.RegisterEventAbs,
      CClockSync.RegisterEvent, hwi, hc4]
    split
    · rename_i heq
      have := heq.symm.trans e2
      exact Option.noConfusion this
    · rename_i q7 heq
      have h72 : q7 = q2 := Option.some.inj (heq.symm.trans e2)
      subst h72
      have hs2 : (q7.mem a).GATE.StartTime = start := by rw [hgate, hggate]
      have hl2 : (q7.mem a).GATE.Length = len := by rw [hgate, hggate]
      simp only [hs2, hl2, hse, hc5]
      rfl
  · rw [hk, hgt, hstamp, ht]
    unfold OLT_HW_PROCESS_DELAY
    split_ifs <;> omega

/-- The REPORT handler in terms of the closed forms of its values. -/
theorem receiveREPORT_closed {q : CEventQueue} {tr : Shape} {top pool : List Nat}
    (hinv : QueueInv q tr top pool) (o : OLT) (p : Nat) (hb : p < q.brk)
    (ha : CEventQueue.IsActive q.mem p = true) (hr : o.ReportInRange q p) :
    ∃ o2 q2 g, o.ReceiveREPORTPacket q p = some (o2, q2) ∧
      (q2.mem g).Type_ = EV_MPCP_GATE ∧
      (q2.mem g).GATE = ⟨o.gateStamp q, o.gateStart q p, o.gateLength q p⟩ ∧
      o.measuredRtt q p = o.reportTime q - (q.mem p).RPRT.Timestamp ∧
      _PON_TIME (o.gateLength q p) = o.gateLength q p * PON_BYTE_TIME ∧
      o2.ScheduleEnd = o.gateStart q p + o.measuredRtt q p + _PON_TIME (o.gateLength q p)
        + GUARD_BAND_TIME ∧
      o2.timeOffset = o.timeOffset ∧ o2.MaxSlot = o.MaxSlot := by
  obtain ⟨f1, f2, f3, f4, f5, f6, f7, f8, f9, f10, f11⟩ := hr
  obtain ⟨o2, q2, g, pool2, e, -, hty, -, hg, -, -, -, hse, -, hms, hto⟩ :=
    receiveREPORT_spec hinv o p hb ha (o.reportTime q)
      (o.reportTime q - (q.mem p).RPRT.Timestamp) (o.gateStamp q) (o.gateStart q p)
      (o.gateLength q p) rfl rfl rfl rfl rfl f1 f2 f3 f4 f5 f6 f7 f8 f9 f10 f11
  have hrtt : o.measuredRtt q p = o.reportTime q - (q.mem p).RPRT.Timestamp := by
    unfold OLT.measuredRtt
    rw [localTime_eq]
    have : wrap64 (q.eqCurrentTime + o.timeOffset) = o.reportTime q := wrap64_fits f1
    rw [this]
    exact wrap64_fits f2
  have hpt : _PON_TIME (o.gateLength q p) = o.gateLength q p * PON_BYTE_TIME := wrap32_eq f7
  exact ⟨o2, q2, g, e, hty, hg, hrtt, hpt, by rw [hse, hrtt, hpt], hto, hms⟩

theorem processGATE_offset {u u1 : ONU} {q q1 : CEventQueue} {p : Nat}
    (h : u.ProcessGATE q p = some (u1, q1)) :
    u1.timeOffset = wrap64 ((q.mem p).GATE.Timestamp - q.eqCurrentTime) := by
  unfold ONU.ProcessGATE at h
  simp only at h
  split at h
  · simp only [Option.some.injEq, Prod.mk.injEq] at h
    rw [← h.1]
    rfl
  · split at h
    · exact Option.noConfusion h
    · split at h
      · exact Option.noConfusion h
      · simp only [Option.some.injEq, Prod.mk.injEq] at h
        rw [← h.1]
        rfl

theorem lateGrant_iff (u : ONU) (q : CEventQueue) (g : Nat)
    (hts : fits64 (q.mem g).GATE.Timestamp)
    (hsum : fits64 ((q.mem g).GATE.Timestamp + ONU_HW_PROCESS_DELAY)) :
    u.LateGrant q g
      ↔ (q.mem g).GATE.StartTime < (q.mem g).GATE.Timestamp + ONU_HW_PROCESS_DELAY := by
  have hl : wrap64 (q.eqCurrentTime + wrap64 ((q.mem g).GATE.Timestamp - q.eqCurrentTime))
      = (q.mem g).GATE.Timestamp := wrap64_resync _ _ hts
  unfold ONU.LateGrant
  simp only [CClockSync.setLocalTime, CClockSync.LocalTime, DESL.GlobalTime,
    CEventQueue.GetCurrentTime, hl, wrap64_fits hsum]

theorem processGATE_late (u : ONU) (q : CEventQueue) (g : Nat) (h : u.LateGrant q g) :
    u.ProcessGATE q g
      = some ({ u with timeOffset := CClockSync.setLocalTime q (q.mem g).GATE.Timestamp },
          q) := by
  unfold ONU.LateGrant at h
  unfold ONU.ProcessGATE
  simp only
  rw [if_pos h]

theorem processGATE_accept (u : ONU) (q : CEventQueue) (g : Nat) (h : ¬ u.LateGrant q g) :
    u.ProcessGATE q g = none ∨ ∃ q9 : CEventQueue, u.ProcessGATE q g
      = some ({ u with timeOffset := CClockSync.setLocalTime q (q.mem g).GATE.Timestamp },
          q9.DestroyEvent (some g)) := by
  unfold ONU.LateGrant at h
  unfold ONU.ProcessGATE
  simp only
  rw [if_neg h]
  split
  · exact Or.inl rfl
  · split
    · exact Or.inl rfl
    · exact Or.inr ⟨_, rfl⟩

/-- C38: two consecutive REPORTs handled by the OLT, the first (`p1`) in the reachable state
`q1` by the OLT `o`, the second (`p2`) in the reachable state `q2` by the OLT `ob` whose
`ScheduleEnd` is the one the first call left; no value computed overflows its machine type
and the second grant length is not negative.  Both calls return; with `r1` and `r2` the
measured round-trip times and `g1`, `g2` the GATEs built, the window of the second grant
starts at the OLT no earlier than the end of the window of the first grant plus the guard
band, `start2 + r2 ≥ start1 + r1 + pon_time(length1) + GUARD_BAND_TIME`, and `ScheduleEnd`
strictly increases. -/
theorem C38_grant_windows (heap : Mem) (q1 q2 : CEventQueue) (hq1 : Reachable heap q1)
    (hq2 : Reachable heap q2) (o ob : OLT) (p1 p2 : Nat)
    (hb1 : p1 < q1.brk) (ha1 : CEventQueue.IsActive q1.mem p1 = true)
    (hb2 : p2 < q2.brk) (ha2 : CEventQueue.IsActive q2.mem p2 = true)
    (hr1 : o.ReportInRange q1 p1) (hr2 : ob.ReportInRange q2 p2)
    (hnext : (o.ReceiveREPORTPacket q1 p1).map (fun r => r.1.ScheduleEnd)
      = some ob.ScheduleEnd)
    (hlen : 0 ≤ ob.gateLength q2 p2) :
    ∃ oa qa g1 o2 qb g2, o.ReceiveREPORTPacket q1 p1 = some (oa, qa) ∧
      ob.ReceiveREPORTPacket q2 p2 = some (o2, qb) ∧
      (qa.mem g1).Type_ = EV_MPCP_GATE ∧ (qb.mem g2).Type_ = EV_MPCP_GATE ∧
      (qa.mem g1).GATE.Length = o.gateLength q1 p1 ∧
      (qb.mem g2).GATE.Length = ob.gateLength q2 p2 ∧
      oa.ScheduleEnd = (qa.mem g1).GATE.StartTime + o.measuredRtt q1 p1
        + _PON_TIME (qa.mem g1).GATE.Length + GUARD_BAND_TIME ∧
      o2.ScheduleEnd = (qb.mem g2).GATE.StartTime + ob.measuredRtt q2 p2
        + _PON_TIME (qb.mem g2).GATE.Length + GUARD_BAND_TIME ∧
      (qb.mem g2).GATE.StartTime + ob.measuredRtt q2 p2
        ≥ (qa.mem g1).GATE.StartTime + o.measuredRtt q1 p1
          + _PON_TIME (qa.mem g1).GATE.Length + GUARD_BAND_TIME ∧
      oa.ScheduleEnd < o2.ScheduleEnd := by
  obtain ⟨tr1, top1, pool1, hinv1⟩ := reachable_inv hq1
  obtain ⟨tr2, top2, pool2, hinv2⟩ := reachable_inv hq2
  obtain ⟨oa, qa, g1, e1, ty1, hg1, -, -, hse1, -, -⟩ :=
    receiveREPORT_closed hinv1 o p1 hb1 ha1 hr1
  obtain ⟨o2, qb, g2, e2, ty2, hg2, hrtt2, hpt2, hse2, -, -⟩ :=
    receiveREPORT_closed hinv2 ob p2 hb2 ha2 hr2
  rw [e1] at hnext
  have hsame : oa.ScheduleEnd = ob.ScheduleEnd := by simpa using hnext
  have hs1 : (qa.mem g1).GATE.StartTime = o.gateStart q1 p1 := by rw [hg1]
  have hl1 : (qa.mem g1).GATE.Length = o.gateLength q1 p1 := by rw [hg1]
  have hs2 : (qb.mem g2).GATE.StartTime = ob.gateStart q2 p2 := by rw [hg2]
  have hl2 : (qb.mem g2).GATE.Length = ob.gateLength q2 p2 := by rw [hg2]
  have hge : ob.ScheduleEnd - (ob.reportTime q2 - (q2.mem p2).RPRT.Timestamp)
      ≤ ob.gateStart q2 p2 := le_max_right _ _
  have hgb : GUARD_BAND_TIME = 1000 := rfl
  have hpb : PON_BYTE_TIME = 8 := rfl
  refine ⟨oa, qa, g1, o2, qb, g2, e1, e2, ty1, ty2, hl1, hl2, by rw [hs1, hl1, hse1],
    by rw [hs2, hl2, hse2], ?_, ?_⟩
  · rw [hs1, hl1, hs2, ← hse1, hsame, hrtt2]
    omega
  · rw [hse2, hsame, hrtt2, hpt2, hgb, hpb]
    omega

theorem oltNext_follows :
    (olt0.ReceiveREPORTPacket rReport 0).map (fun r => r.1.ScheduleEnd)
      = some oltNext.ScheduleEnd := by
  obtain ⟨tr, top, pool, hinv⟩ := reachable_inv reachable_rReport
  obtain ⟨oa, qa, g, e, -, -, hrtt, hpt, hse, -, -⟩ :=
    receiveREPORT_closed hinv olt0 0 (by decide) (by decide) (by decide)
  rw [e]
  simp only [Option.map_some']
  rw [hse, hrtt, hpt]
  decide

theorem C38_grant_windows_witness :
    ∃ oa qa g1 o2 qb g2, olt0.ReceiveREPORTPacket rReport 0 = some (oa, qa) ∧
      oltNext.ReceiveREPORTPacket rReport 0 = some (o2, qb) ∧
      (qa.mem g1).Type_ = EV_MPCP_GATE ∧ (qb.mem g2).Type_ = EV_MPCP_GATE ∧
      (qa.mem g1).GATE.Length = olt0.gateLength rReport 0 ∧
      (qb.mem g2).GATE.Length = oltNext.gateLength rReport 0 ∧
      oa.ScheduleEnd = (qa.mem g1).GATE.StartTime + olt0.measuredRtt rReport 0
        + _PON_TIME (qa.mem g1).GATE.Length + GUARD_BAND_TIME ∧
      o2.ScheduleEnd = (qb.mem g2).GATE.StartTime + oltNext.measuredRtt rReport 0
        + _PON_TIME (qb.mem g2).GATE.Length + GUARD_BAND_TIME ∧
      (qb.mem g2).GATE.StartTime + oltNext.measuredRtt rReport 0
        ≥ (qa.mem g1).GATE.StartTime + olt0.measuredRtt rReport 0
          + _PON_TIME (qa.mem g1).GATE.Length + GUARD_BAND_TIME ∧
      oa.ScheduleEnd < o2.ScheduleEnd :=
  C38_grant_windows heap0 rReport rReport reachable_rReport reachable_rReport olt0 oltNext 0 0
    (by decide) (by decide) (by decide) (by decide) (by decide) (by decide) oltNext_follows
    (by decide)

/-- The GATEs of `OLT::Reset` (made by `SimplifiedDiscovery`): the call returns and makes
`NUM_LLID` GATEs, each with `StartTime ≥ Timestamp + ONU_HW_PROCESS_DELAY`, both sums being
`int64s` values. -/
theorem reset_gates {q : CEventQueue} {tr : Shape} {top pool : List Nat}
    (hinv : QueueInv q tr top pool) (o : OLT) (hfT : fits64 (o.reportTime q))
    (hmax : fits64 (o.reportTime q + ONU_HW_PROCESS_DELAY
      + NUM_LLID * (2 * PON_MAX_LINK_DISTANCE * FIBER_DELAY + GUARD_BAND_TIME)))
    (hkey : q.eqCurrentTime + (NUM_LLID - 1)
      * ((MPCP_PACKET_SIZE + PACKET_OVERHEAD) * PON_BYTE_TIME + OLT_HW_PROCESS_DELAY)
        ≤ INT64_MAX) :
    ∃ (o2 : OLT) (q2 : CEventQueue) (ptrs : List Nat), o.Reset q = some (o2, q2) ∧
      (ptrs.length : Int) = NUM_LLID ∧
      ∀ g ∈ ptrs, (q2.mem g).Type_ = EV_MPCP_GATE ∧
        fits64 (q2.mem g).GATE.Timestamp ∧
        fits64 ((q2.mem g).GATE.Timestamp + ONU_HW_PROCESS_DELAY) ∧
        (q2.mem g).GATE.Timestamp + ONU_HW_PROCESS_DELAY ≤ (q2.mem g).GATE.StartTime := by
  have hc1 : ONU_HW_PROCESS_DELAY = 16384 := rfl
  have hc2 : 2 * PON_MAX_LINK_DISTANCE * FIBER_DELAY + GUARD_BAND_TIME = 201000 := by decide
  have hc3 : NUM_LLID = 16 := rfl
  have hc4 : (MPCP_PACKET_SIZE + PACKET_OVERHEAD) * PON_BYTE_TIME + OLT_HW_PROCESS_DELAY
      = 17056 := by decide
  rw [hc1, hc2, hc3] at hmax
  rw [hc3, hc4] at hkey
  obtain ⟨T, hT⟩ : ∃ T, T = o.reportTime q := ⟨_, rfl⟩
  rw [← hT] at hfT hmax
  have hT2 : q.eqCurrentTime + o.timeOffset = T := hT.symm
  have hlt : wrap64 (q.eqCurrentTime + o.timeOffset) = T := by
    rw [hT2]; exact wrap64_fits hfT
  obtain ⟨q2, news, tr2, top2, pool2, hloop, hlen, -, -, -, -, hnews, -⟩ :=
    discovery_loop_spec T hfT hmax 16 0 { o with LastPacketArrival := T, ScheduleEnd := T } q
      tr top pool rfl hinv hT2 (by simpa using hkey) (by simp)
  refine ⟨{ o with LastPacketArrival := T, ScheduleEnd := T + 16384 + 16 * 201000 }, q2, news,
    ?_, by rw [hlen, hc3]; rfl, ?_⟩
  · simp only [OLT.Reset, OLT.SimplifiedDiscovery, localTime_eq, hlt]
    have h17 : NUM_LLID.toNat + 1 = 16 + 1 := rfl
    rw [h17]
    simpa using hloop
  · intro g hg
    obtain ⟨k, hk⟩ := List.mem_iff_getElem?.1 hg
    have hk16 : k < 16 := by
      have := (List.getElem?_eq_some_iff.1 hk).1
      omega
    obtain ⟨h1, -, -, h4, -⟩ := hnews k g hk
    simp only [Nat.zero_add] at h4
    have hk0 : (0 : Int) ≤ k := Int.ofNat_nonneg k
    have hk1 : (k : Int) < 16 := by exact_mod_cast hk16
    have hts : (q2.mem g).GATE.Timestamp = T + (k : Int) * 17056 := by rw [h4]
    have hst : (q2.mem g).GATE.StartTime = T + 16384 + (k : Int) * 201000 := by rw [h4]
    rw [hts, hst, hc1]
    unfold fits64 at hfT hmax ⊢
    refine ⟨h1, ⟨by omega, by omega⟩, ⟨by omega, by omega⟩, by omega⟩

theorem bidirLink_key {q : CEventQueue} {t : Shape} {top pool : List Nat}
    (hinv : QueueInv q t top pool) (l : BiDirLink) {p : Nat} (hb : p < q.brk)
    (ha : CEventQueue.IsActive q.mem p = true) (hi : -(2 ^ 63) ≤ l.Delay)
    (ho : q.eqCurrentTime + max l.Delay 0 ≤ INT64_MAX) :
    ∃ q2, l.ProcessEvent q p = some q2 ∧
      (q2.mem p).NodeKey = q.eqCurrentTime + max l.Delay 0 ∧
      (q2.mem p).GATE = (q.mem p).GATE ∧ (q2.mem p).RPRT = (q.mem p).RPRT := by
  have hf : PublicOnly (fun e : CEvent =>
      { e with Consumer := l.OutPort (if e.Producer = l.OutPort 0 then 1 else 0) }) :=
    fun e => ⟨rfl, rfl, rfl, rfl, rfl⟩
  obtain ⟨g, hgdef⟩ : ∃ g : CEventQueue, g = q.modify p (fun e =>
      { e with Consumer := l.OutPort (if e.Producer = l.OutPort 0 then 1 else 0) }) := ⟨_, rfl⟩
  have hg : QueueInv g t top pool := by rw [hgdef]; exact hinv.modify_public p hf
  have hag : CEventQueue.IsActive g.mem p = true := by
    rw [hgdef, isActive_modify q p p hf]; exact ha
  have hgt : g.eqCurrentTime = q.eqCurrentTime := by rw [hgdef]; rfl
  have hgb : g.brk = q.brk := by rw [hgdef]; rfl
  have hgp : g.mem p = { q.mem p with
      Consumer := l.OutPort (if (q.mem p).Producer = l.OutPort 0 then 1 else 0) } := by
    rw [hgdef]; exact modify_mem_same q p _
  obtain ⟨q2, e, -, -, -, hk, -, -, -, hgate, hrp, -, -, -, -⟩ :=
    desl_registerEvent_spec hg (by rw [hgb]; exact hb) hag hi
      (by rw [hgt, ← max_zero_eq]; exact ho) (some l.this)
  have hreg : l.ProcessEvent q p = some q2 := by
    rw [← e, hgdef]; rfl
  exact ⟨q2, hreg, by rw [hk, hgt, max_zero_eq], by rw [hgate, hgp], by rw [hrp, hgp]⟩

theorem sendREPORT_stamp {q : CEventQueue} {tr : Shape} {top pool : List Nat}
    (hinv : QueueInv q tr top pool) (o : ONU) {p : Nat} (hb : p < q.brk)
    (ha : CEventQueue.IsActive q.mem p = true)
    (hlt : fits64 (q.eqCurrentTime + o.timeOffset))
    (hstamp : fits64 (q.eqCurrentTime + o.timeOffset + 672))
    (hkey : q.eqCurrentTime + 672 ≤ INT64_MAX) :
    ∃ q2, o.SendREPORT q p = some (o, q2) ∧ (q2.mem p).Type_ = EV_MPCP_REPORT ∧
      (q2.mem p).RPRT.Timestamp = q.eqCurrentTime + o.timeOffset + 672 ∧
      (q2.mem p).NodeKey = q.eqCurrentTime + 672 := by
  have hw1 : wrap64 (q.eqCurrentTime + o.timeOffset) = q.eqCurrentTime + o.timeOffset :=
    wrap64_fits hlt
  have hw2 : wrap64 (q.eqCurrentTime + o.timeOffset + 672)
      = q.eqCurrentTime + o.timeOffset + 672 := wrap64_fits hstamp
  obtain ⟨g, hgdef⟩ : ∃ g : CEventQueue, g =
    (((q.modify p (fun e => { e with Consumer := o.OutPort })).modify p
      (fun e => { e with Type_ := EV_MPCP_REPORT })).modify p
      (fun e => { e with RPRT := { e.RPRT with
        Timestamp := q.eqCurrentTime + o.timeOffset + 672 } })).modify p
      (fun e => { e with RPRT := { e.RPRT with
        Length := wrap32 (o.QueueBytes + wrap32 ((o.FIFO.length : Int) * PACKET_OVERHEAD)) } })
      := ⟨_, rfl⟩
  have hg2 : QueueInv g tr top pool := by
    rw [hgdef]
    exact (((hinv.modify_public p (publicOnly_consumer _)).modify_public p
      (publicOnly_type _)).modify_public p (publicOnly_rprt _)).modify_public p
      (publicOnly_rprt _)
  have hga : CEventQueue.IsActive g.mem p = true := by
    rw [hgdef, isActive_modify _ p p (publicOnly_rprt _),
      isActive_modify _ p p (publicOnly_rprt _), isActive_modify _ p p (publicOnly_type _),
      isActive_modify _ p p (publicOnly_consumer _)]
    exact ha
  have hgt : g.eqCurrentTime = q.eqCurrentTime := by rw [hgdef]; rfl
  have hgb : g.brk = q.brk := by rw [hgdef]; rfl
  obtain ⟨q2, e2, -, -, -, hk2, -, hty2, -, -, hrprt2, -, -, -, -⟩ :=
    desl_registerEvent_spec (i := 672) hg2 (by rw [hgb]; exact hb) hga (by norm_num)
      (by rw [hgt]; simpa using hkey) (some o.this)
  have e2c := e2
  rw [hgdef] at e2c
  refine ⟨q2, ?_, ?_, ?_, ?_⟩
  · simp only [ONU.SendREPORT, localTime_eq, modify_eqCurrentTime, hw1, pon_pckt_time_mpcp,
      hw2, CClockSync.RegisterEvent, e2c]
  · rw [hty2, hgdef]; simp [CEventQueue.modify]
  · rw [hrprt2, hgdef]; simp [CEventQueue.modify]
  · rw [hk2, hgt]; norm_num

theorem reachable_rRprt : Reachable heap0 rRprt :=
  Reachable.call (Call.op (Op.Write 0 { CEvent.zero with Type_ := EV_MPCP_REPORT,
                                                         RPRT := ⟨-24228, 0⟩ }))
    reachable_qRun (by decide) rfl

theorem reachable_rRprtLink : Reachable heap0 rRprtLink :=
  Reachable.call (Call.op Op.GetNextEvent)
    (Reachable.call (Call.op (Op.RegisterEvent (some 0) 672)) reachable_rRprt (by decide) rfl)
    (by decide) rfl

theorem reachable_rRprtOlt : Reachable heap0 rRprtOlt :=
  Reachable.call (Call.op Op.GetNextEvent)
    (Reachable.call (Call.op (Op.RegisterEvent (some 0) 25672)) reachable_rRprt (by decide) rfl)
    (by decide) rfl

/-- C40: clocks are `CClockSync` objects and the link `l` has the delay `d ≥ 0`.  (1) The
link takes the GATE `gate` in the state `qL0`, in which the local time of the OLT equals the
timestamp of the GATE.  (2) The ONU handles the GATE in the state `qA`, at the activation time
and with the fields the link gave it; `ProcessGATE` sets the clock of the ONU there.
(3) Later, in any state `qB`, the ONU `u2`, which has that clock, builds the REPORT `rep` by
`SendREPORT`.  (4) The link takes the REPORT in the state `qL2`, at the activation time and
with the timestamp `SendREPORT` gave it.  (5) The OLT (`oC`, same clock as before) handles
the REPORT in the state `qC`, at the activation time the link gave it, with that timestamp.  The
states in which the link, `SendREPORT` and the OLT run are reachable, the events are detached
there, and no value overflows.  Then the `rtt` computed by `ReceiveREPORTPacket` is exactly
`2 * d`, whatever the time of `qB`; the call returns, and the new `ScheduleEnd` is
`StartTime + 2 * d + pon_time(Length) + GUARD_BAND_TIME`. -/
theorem C40_rtt_two_delays (heap : Mem) (l : BiDirLink) (o oC : OLT) (u2 : ONU)
    (qL0 qA qB qL2 qC : CEventQueue) (gate rep : Nat) (d : Int)
    (hd : l.Delay = d) (hd0 : 0 ≤ d)
    (hqL0 : Reachable heap qL0) (hbL0 : gate < qL0.brk)
    (haL0 : CEventQueue.IsActive qL0.mem gate = true)
    (hleave : o.reportTime qL0 = (qL0.mem gate).GATE.Timestamp)
    (hoL0 : qL0.eqCurrentTime + d ≤ INT64_MAX)
    (hA : (l.ProcessEvent qL0 gate).map (fun r => ((r.mem gate).NodeKey, (r.mem gate).GATE))
      = some (qA.eqCurrentTime, (qA.mem gate).GATE))
    (hfA : fits64 ((qA.mem gate).GATE.Timestamp - qA.eqCurrentTime))
    (hclock : u2.timeOffset = CClockSync.setLocalTime qA (qA.mem gate).GATE.Timestamp)
    (hqB : Reachable heap qB) (hbB : rep < qB.brk)
    (haB : CEventQueue.IsActive qB.mem rep = true)
    (hfB1 : fits64 (qB.eqCurrentTime + u2.timeOffset))
    (hfB2 : fits64 (qB.eqCurrentTime + u2.timeOffset + 672))
    (hoB : qB.eqCurrentTime + 672 ≤ INT64_MAX)
    (hL2 : (u2.SendREPORT qB rep).map
        (fun r => ((r.2.mem rep).NodeKey, (r.2.mem rep).RPRT.Timestamp))
      = some (qL2.eqCurrentTime, (qL2.mem rep).RPRT.Timestamp))
    (hqL2 : Reachable heap qL2) (hbL2 : rep < qL2.brk)
    (haL2 : CEventQueue.IsActive qL2.mem rep = true)
    (hoL2 : qL2.eqCurrentTime + d ≤ INT64_MAX)
    (hC : (l.ProcessEvent qL2 rep).map
        (fun r => ((r.mem rep).NodeKey, (r.mem rep).RPRT.Timestamp))
      = some (qC.eqCurrentTime, (qC.mem rep).RPRT.Timestamp))
    (hoff : oC.timeOffset = o.timeOffset)
    (hqC : Reachable heap qC) (hbC : rep < qC.brk)
    (haC : CEventQueue.IsActive qC.mem rep = true)
    (hr : oC.ReportInRange qC rep) :
    (∀ (u u1 : ONU) (qA1 : CEventQueue), u.ProcessGATE qA gate = some (u1, qA1) →
      u1.timeOffset = CClockSync.setLocalTime qA (qA.mem gate).GATE.Timestamp) ∧
    oC.measuredRtt qC rep = 2 * d ∧
    ∃ o3 q3 g, oC.ReceiveREPORTPacket qC rep = some (o3, q3) ∧
      (q3.mem g).Type_ = EV_MPCP_GATE ∧
      (q3.mem g).GATE.StartTime
        = max ((q3.mem g).GATE.Timestamp + ONU_HW_PROCESS_DELAY) (oC.ScheduleEnd - 2 * d) ∧
      o3.ScheduleEnd = (q3.mem g).GATE.StartTime + 2 * d
        + _PON_TIME (q3.mem g).GATE.Length + GUARD_BAND_TIME := by
  obtain ⟨t0, top0, pool0, inv0⟩ := reachable_inv hqL0
  obtain ⟨tB, topB, poolB, invB⟩ := reachable_inv hqB
  obtain ⟨t2, top2, pool2, inv2⟩ := reachable_inv hqL2
  obtain ⟨tC, topC, poolC, invC⟩ := reachable_inv hqC
  have hmax : max l.Delay 0 = d := by rw [hd]; exact max_eq_left hd0
  -- the GATE through the link
  obtain ⟨qL1, e1, k1, g1, -⟩ := bidirLink_key inv0 l hbL0 haL0 (by rw [hd]; omega)
    (by rw [hmax]; exact hoL0)
  rw [e1] at hA
  simp only [Option.map_some', Option.some.injEq, Prod.mk.injEq] at hA
  obtain ⟨hA1, hA2⟩ := hA
  rw [k1, hmax] at hA1
  rw [g1] at hA2
  -- the clock of the ONU
  have hu1 : u2.timeOffset = (qL0.mem gate).GATE.Timestamp - qA.eqCurrentTime := by
    rw [hclock, hA2]
    exact wrap64_fits hfA
  -- the REPORT
  obtain ⟨qB1, eB, -, sB, kB⟩ := sendREPORT_stamp invB u2 hbB haB hfB1 hfB2 hoB
  rw [eB] at hL2
  simp only [Option.map_some', Option.some.injEq, Prod.mk.injEq] at hL2
  obtain ⟨hL21, hL22⟩ := hL2
  -- the REPORT through the link
  obtain ⟨qL3, e3, k3, -, r3⟩ := bidirLink_key inv2 l hbL2 haL2 (by rw [hd]; omega)
    (by rw [hmax]; exact hoL2)
  rw [e3] at hC
  simp only [Option.map_some', Option.some.injEq, Prod.mk.injEq] at hC
  obtain ⟨hC1, hC2⟩ := hC
  rw [k3, hmax] at hC1
  -- the measure
  obtain ⟨o3, q3, g, e, hty, hg, hrtt, -, hse, -, -⟩ :=
    receiveREPORT_closed invC oC rep hbC haC hr
  have hstamp : (qC.mem rep).RPRT.Timestamp = qB.eqCurrentTime + u2.timeOffset + 672 := by
    rw [← hC2, r3, ← hL22, sB]
  have hval : oC.measuredRtt qC rep = 2 * d := by
    rw [hrtt, hstamp, hu1]
    unfold OLT.reportTime at hleave ⊢
    rw [hoff]
    omega
  refine ⟨fun u u1 qA1 h => processGATE_offset h, hval, o3, q3, g, e, hty, ?_, ?_⟩
  · rw [hg]
    show oC.gateStart qC rep = max (oC.gateStamp qC + ONU_HW_PROCESS_DELAY) _
    unfold OLT.gateStart
    rw [← hrtt, hval]
  · rw [hse, hval, hg]

theorem gate_through_link :
    (lnk0.ProcessEvent rGateReport 0).map (fun r => ((r.mem 0).NodeKey, (r.mem 0).GATE))
      = some (rGateArrived.eqCurrentTime, (rGateArrived.mem 0).GATE) := by
  obtain ⟨tr, top, pool, hinv⟩ := reachable_inv reachable_rGateReport
  obtain ⟨q2, e, k, g, -⟩ := bidirLink_key hinv lnk0 (p := 0) (by decide) (by decide)
    (by decide) (by decide)
  have h1 : rGateArrived.eqCurrentTime = 25000 := by decide
  have h2 : (rGateArrived.mem 0).GATE = ⟨100, 20000, 84⟩ := by decide
  rw [e, h1, h2]
  simp only [Option.map_some', k, g]
  decide

theorem report_from_onu :
    (onuSynced.SendREPORT rTimerReport 0).map
        (fun r => ((r.2.mem 0).NodeKey, (r.2.mem 0).RPRT.Timestamp))
      = some (rRprtLink.eqCurrentTime, (rRprtLink.mem 0).RPRT.Timestamp) := by
  obtain ⟨tr, top, pool, hinv⟩ := reachable_inv reachable_rTimerReport
  obtain ⟨q2, e, -, s, k⟩ := sendREPORT_stamp hinv onuSynced (p := 0) (by decide) (by decide)
    (by decide) (by decide) (by decide)
  have h1 : rRprtLink.eqCurrentTime = 672 := by decide
  have h2 : (rRprtLink.mem 0).RPRT.Timestamp = -24228 := by decide
  rw [e, h1, h2]
  simp only [Option.map_some', s, k]
  decide

theorem report_through_link :
    (lnk0.ProcessEvent rRprtLink 0).map
        (fun r => ((r.mem 0).NodeKey, (r.mem 0).RPRT.Timestamp))
      = some (rRprtOlt.eqCurrentTime, (rRprtOlt.mem 0).RPRT.Timestamp) := by
  obtain ⟨tr, top, pool, hinv⟩ := reachable_inv reachable_rRprtLink
  obtain ⟨q2, e, k, -, r⟩ := bidirLink_key hinv lnk0 (p := 0) (by decide) (by decide)
    (by decide) (by decide)
  have h1 : rRprtOlt.eqCurrentTime = 25672 := by decide
  have h2 : (rRprtOlt.mem 0).RPRT.Timestamp = -24228 := by decide
  have h3 : rRprtLink.eqCurrentTime = 672 := by decide
  have h4 : (rRprtLink.mem 0).RPRT.Timestamp = -24228 := by decide
  rw [e, h1, h2]
  simp only [Option.map_some', k, r, h3, h4]
  decide

theorem C40_rtt_two_delays_witness :
    (∀ (u u1 : ONU) (qA1 : CEventQueue), u.ProcessGATE rGateArrived 0 = some (u1, qA1) →
      u1.timeOffset = CClockSync.setLocalTime rGateArrived (rGateArrived.mem 0).GATE.Timestamp) ∧
    olt100.measuredRtt rRprtOlt 0 = 2 * 25000 ∧
    ∃ o3 q3 g, olt100.ReceiveREPORTPacket rRprtOlt 0 = some (o3, q3) ∧
      (q3.mem g).Type_ = EV_MPCP_GATE ∧
      (q3.mem g).GATE.StartTime
        = max ((q3.mem g).GATE.Timestamp + ONU_HW_PROCESS_DELAY)
            (olt100.ScheduleEnd - 2 * 25000) ∧
      o3.ScheduleEnd = (q3.mem g).GATE.StartTime + 2 * 25000
        + _PON_TIME (q3.mem g).GATE.Length + GUARD_BAND_TIME :=
  C40_rtt_two_delays heap0 lnk0 olt100 olt100 onuSynced rGateReport rGateArrived rTimerReport
    rRprtLink rRprtOlt 0 0 25000 rfl (by decide) reachable_rGateReport (by decide) (by decide)
    (by decide) (by decide) gate_through_link (by decide) (by decide) reachable_rTimerReport
    (by decide) (by decide) (by decide) (by decide) (by decide) report_from_onu
    reachable_rRprtLink (by decide) (by decide) (by decide) report_through_link rfl
    reachable_rRprtOlt (by decide) (by decide) (by decide)
